import Mathlib

/-!
# mini-os `lib/printf.c`: formatted output, formatted input and base conversion

A shallow embedding of `extras/mini-os/lib/printf.c` and a verification of its
specification.

Conventions of the embedding.

* A byte is a `Nat` (`0 .. 255`); a C string is the `List Nat` of its bytes
  before the terminating NUL.  Reading at the end of such a list yields the
  terminator `0`.
* A pointer into a string is the offset from the start of the string.
* `unsigned long` is `W` bits wide (`W = 64` on x86_64, `W = 32` on the 32 bit
  targets); `uintmax_t`, `uint64_t`, `int64_t` are 64 bits; `int` is 32 bits.
  Unsigned values are `Nat` reduced modulo `2 ^ w` where the C arithmetic wraps.
-/

namespace MiniOS

/-! ## Character classification (`mini-os/ctype.h`) -/

/-- Modelled from the spec: `isspace` of `mini-os/ctype.h`, which is not part of
the source file; the white space characters of the C locale (space, `\t`, `\n`,
`\v`, `\f`, `\r`). -/
def isspace (c : Nat) : Bool := c == 32 || (9 ≤ c && c ≤ 13)

/-- Modelled from the spec: `isdigit` of `mini-os/ctype.h`: `'0' .. '9'`. -/
def isdigit (c : Nat) : Bool := 48 ≤ c && c ≤ 57

/-- Modelled from the spec: `isupper` of `mini-os/ctype.h` on ASCII: `'A' .. 'Z'`. -/
def isupper (c : Nat) : Bool := 65 ≤ c && c ≤ 90

/-- Modelled from the spec: `islower` of `mini-os/ctype.h` on ASCII: `'a' .. 'z'`. -/
def islower (c : Nat) : Bool := 97 ≤ c && c ≤ 122

/-- Modelled from the spec: `isalpha` of `mini-os/ctype.h` on ASCII. -/
def isalpha (c : Nat) : Bool := isupper c || islower c

/-- Modelled from the spec: `isascii` of `mini-os/ctype.h`: `c <= 0x7f`. -/
def isascii (c : Nat) : Bool := c ≤ 127

/-- Modelled from the spec: `toupper` of `mini-os/ctype.h` on ASCII. -/
def toupper (c : Nat) : Nat := if islower c then c - 32 else c

/-! ## Limits (`mini-os/posix/limits.h`) -/

/-- Modelled from the spec: `ULONG_MAX` of `limits.h` for a `W` bit `unsigned long`. -/
def ULONG_MAX (W : Nat) : Nat := 2 ^ W - 1

/-- Modelled from the spec: `ULLONG_MAX` of `limits.h`. -/
def ULLONG_MAX : Nat := 2 ^ 64 - 1

/-- Modelled from the spec: `LLONG_MAX` of `limits.h`. -/
def LLONG_MAX : Int := 2 ^ 63 - 1

/-- Modelled from the spec: `LLONG_MIN` of `limits.h`. -/
def LLONG_MIN : Int := -2 ^ 63

/-- Conversion of a 64 bit pattern to `int64_t` (two's complement). -/
def toInt64 (x : Nat) : Int :=
  if x % 2 ^ 64 < 2 ^ 63 then ((x % 2 ^ 64 : Nat) : Int) else ((x % 2 ^ 64 : Nat) : Int) - 2 ^ 64

/-- Conversion of a C integer value to an unsigned type of `w` bits. -/
def toUnsigned (w : Nat) (x : Int) : Nat := (x % 2 ^ w).toNat

/-! ## The digit encoder `ksprintn` -/

/-- The size `MAXNBUF` of the scratch buffer: 64 bits and the NUL at the end. -/
def MAXNBUF : Nat := 65

/-- The table `hex2ascii_data`, `"0123456789abcdefghijklmnopqrstuvwxyz"`, with
the NUL that ends the string literal. -/
def hex2ascii_data : List Nat :=
  [48, 49, 50, 51, 52, 53, 54, 55, 56, 57,
   97, 98, 99, 100, 101, 102, 103, 104, 105, 106, 107, 108, 109,
   110, 111, 112, 113, 114, 115, 116, 117, 118, 119, 120, 121, 122, 0]

/-- The `do { ... } while (num /= base)` loop of `ksprintn` (lines 81-84).  The
result lists the bytes stored at `nbuf[1]`, `nbuf[2]`, ... (least significant
digit first).  The first argument counts the bytes of `nbuf` that are still
free: the result is `none` when the loop would store outside the buffer (or
never ends), and when `base` is `0` (division by zero). -/
def ksprintn_loop : Nat → Nat → Nat → Bool → Option (List Nat)
  | 0, _, _, _ => none
  | room + 1, num, base, upper =>
    if base = 0 then none
    else
      let c := hex2ascii_data.getD (num % base) 0
      let c := if upper then toupper c else c
      if num / base ≠ 0 then
        (ksprintn_loop room (num / base) base upper).map (fun r => c :: r)
      else some [c]

/-- The function `ksprintn` (lines 74-88) on a buffer of `MAXNBUF` bytes:
`nbuf[0]` is NUL and the result lists `nbuf[1] .. nbuf[len]`; the returned
pointer is `nbuf + len` and `*lenp` is the length of the list. -/
def ksprintn (num base : Nat) (upper : Bool) : Option (List Nat) :=
  ksprintn_loop (MAXNBUF - 1) num base upper

/-! ## The integer decoders `strtoul`, `strtoq`, `strtouq` -/

/-- The loop `do { c = *s++; } while (isspace(c));` (lines 108-110, 175-177,
263-265).  The state is the offset of the character `c` and the text from `c`
on (the C pointer `s` is one past that offset). -/
def skip_space : List Nat → Nat → Nat × List Nat
  | [], p => (p, [])
  | c :: cs, p => if isspace c then skip_space cs (p + 1) else (p, c :: cs)

/-- Lines 108-115 of `strtoul` (the same statements as lines 175-185 of
`strtoq` and 263-273 of `strtouq`): white space and sign.  Returns `neg`, the
offset of the current character `c` and the text from `c` on. -/
def strto_sign (nptr : List Nat) : Bool × Nat × List Nat :=
  let ws := skip_space nptr 0
  let p := ws.1
  let l := ws.2
  if l.headD 0 = 45 then (true, p + 1, l.tail)
  else if l.headD 0 = 43 then (false, p + 1, l.tail)
  else (false, p, l)

/-- Lines 116-123 of `strtoul` (186-193 of `strtoq`, 274-281 of `strtouq`): the
`0x` prefix and the choice of the base, from the current character at offset
`p`.  Returns `base`, the offset of the current character and the text from it
on. -/
def strto_base (base : Int) (p : Nat) (l : List Nat) : Int × Nat × List Nat :=
  let px : Int × Nat × List Nat :=
    if (base = 0 ∨ base = 16) ∧ l.headD 0 = 48 ∧
        (l.tail.headD 0 = 120 ∨ l.tail.headD 0 = 88) then
      (16, p + 2, l.tail.tail)
    else (base, p, l)
  let base := px.1
  let l := px.2.2
  (if base = 0 then (if l.headD 0 = 48 then 8 else 10) else base, px.2.1, l)

/-- Lines 108-123 of `strtoul` (175-193 of `strtoq`, 263-281 of `strtouq`).
Returns `neg`, `base`, the offset of the current character `c` and the text
from `c` on. -/
def strto_start (nptr : List Nat) (base : Int) : Bool × Int × Nat × List Nat :=
  let sg := strto_sign nptr
  (sg.1, strto_base base sg.2.1 sg.2.2)

/-- The digit test of the conversion loop (lines 127-136): the value of the
character `c` as a digit, `none` when the loop breaks on `c`. -/
def digitval (base : Int) (c : Nat) : Option Nat :=
  if !isascii c then none
  else if isdigit c then
    (if ((c - 48 : Nat) : Int) ≥ base then none else some (c - 48))
  else if isalpha c then
    (if ((c - (if isupper c then 55 else 87) : Nat) : Int) ≥ base then none
     else some (c - (if isupper c then 55 else 87)))
  else none

/-- The conversion loop `for (acc = 0, any = 0;; c = *s++)` (lines 126-144,
217-235, 285-303) from the text starting at the current character, whose
offset is `p`.  `mul` is the unsigned factor of `acc *= base`, `M` the modulus
of the type of `acc`.  Returns `acc`, `any` and the offset of the character
that ended the loop (`s - 1`). -/
def strto_loop (base : Int) (mul cutoff cutlim M : Nat) :
    List Nat → Nat → Nat → Int → Nat × Int × Nat
  | [], p, acc, any => (acc, any, p)
  | c :: cs, p, acc, any =>
    match digitval base c with
    | none => (acc, any, p)
    | some d =>
      if any < 0 ∨ acc > cutoff ∨ (acc = cutoff ∧ d > cutlim) then
        strto_loop base mul cutoff cutlim M cs (p + 1) acc (-1)
      else
        strto_loop base mul cutoff cutlim M cs (p + 1) ((acc * mul + d) % M) 1

/-- The scan of `strtoul` up to the end of the conversion loop (lines 108-144):
`neg`, `acc`, `any` and the offset `s - 1`. -/
def strtoul_scan (W : Nat) (nptr : List Nat) (base : Int) : Bool × Nat × Int × Nat :=
  let pf := strto_start nptr base
  let ubase := toUnsigned W pf.2.1
  let cutoff := ULONG_MAX W / ubase
  let cutlim := ULONG_MAX W % ubase
  (pf.1, strto_loop pf.2.1 ubase cutoff cutlim (2 ^ W) pf.2.2.2 pf.2.2.1 0 0)

/-- The function `strtoul` (lines 96-152) for a `W` bit `unsigned long`: the
returned value and the offset stored through `endptr`. -/
def strtoul (W : Nat) (nptr : List Nat) (base : Int) : Nat × Nat :=
  let r := strtoul_scan W nptr base
  let neg := r.1
  let acc := r.2.1
  let any := r.2.2.1
  let acc := if any < 0 then ULONG_MAX W else if neg then (2 ^ W - acc) % 2 ^ W else acc
  (acc, if any ≠ 0 then r.2.2.2 else 0)

/-- The scan of `strtoq` up to the end of the conversion loop (lines 174-235). -/
def strtoq_scan (nptr : List Nat) (base : Int) : Bool × Nat × Int × Nat :=
  let pf := strto_start nptr base
  let qbase := toUnsigned 32 pf.2.1
  let cutoff : Nat := if pf.1 then (toUnsigned 64 (-(LLONG_MIN + LLONG_MAX)) + LLONG_MAX.toNat) % 2 ^ 64
    else LLONG_MAX.toNat
  let cutlim := cutoff % qbase
  let cutoff := cutoff / qbase
  (pf.1, strto_loop pf.2.1 qbase cutoff cutlim (2 ^ 64) pf.2.2.2 pf.2.2.1 0 0)

/-- The function `strtoq` (lines 160-243): the returned `int64_t` and the offset
stored through `endptr`. -/
def strtoq (nptr : List Nat) (base : Int) : Int × Nat :=
  let r := strtoq_scan nptr base
  let neg := r.1
  let acc := r.2.1
  let any := r.2.2.1
  let acc : Nat :=
    if any < 0 then (if neg then toUnsigned 64 LLONG_MIN else toUnsigned 64 LLONG_MAX)
    else if neg then (2 ^ 64 - acc) % 2 ^ 64 else acc
  (toInt64 acc, if any ≠ 0 then r.2.2.2 else 0)

/-- The scan of `strtouq` up to the end of the conversion loop (lines 254-303). -/
def strtouq_scan (nptr : List Nat) (base : Int) : Bool × Nat × Int × Nat :=
  let pf := strto_start nptr base
  let qbase := toUnsigned 32 pf.2.1
  let cutoff := ULLONG_MAX / qbase
  let cutlim := ULLONG_MAX % qbase
  (pf.1, strto_loop pf.2.1 qbase cutoff cutlim (2 ^ 64) pf.2.2.2 pf.2.2.1 0 0)

/-- The function `strtouq` (lines 251-311): the returned `uint64_t` and the
offset stored through `endptr`. -/
def strtouq (nptr : List Nat) (base : Int) : Nat × Nat :=
  let r := strtouq_scan nptr base
  let neg := r.1
  let acc := r.2.1
  let any := r.2.2.1
  let acc := if any < 0 then ULLONG_MAX else if neg then (2 ^ 64 - acc) % 2 ^ 64 else acc
  (acc, if any ≠ 0 then r.2.2.2 else 0)

/-! ## The output formatter `vsnprintf`

The format is given as the bytes of memory from `fmt` on: the format text,
its terminating NUL and whatever bytes follow it in memory.  A read outside
these bytes, a `va_arg` that finds no argument or an argument of another
kind, and a store outside `nbuf` have no defined behaviour: the result is
`none`.  Arithmetic on `int` is two's complement arithmetic modulo `2 ^ 32`.
-/

/-- Conversion of a C integer value to a signed type of `w` bits (two's
complement). -/
def toSigned (w : Nat) (x : Int) : Int :=
  if x % 2 ^ w < 2 ^ (w - 1) then x % 2 ^ w else x % 2 ^ w - 2 ^ w

/-- The value of an `int` expression: the mathematical value reduced to 32
bits. -/
def wrap_int (x : Int) : Int := toSigned 32 x

/-- An argument of the variable argument list: an integer, a `char *` (NULL
or the bytes of the string) or another pointer. -/
inductive Arg where
  | int (v : Int)
  | str (s : Option (List Nat))
  | ptr (a : Nat)
  deriving DecidableEq

/-- The output cursor: the bytes stored through `str` so far, the remaining
`size` and the count `retval`. -/
structure Out where
  str : List Nat
  size : Nat
  retval : Int
  deriving DecidableEq

/-- The macro `PCHAR(c)` (line 319):
`if (size >= 2) { *str++ = c; size--; } retval++;`. -/
def PCHAR (o : Out) (c : Nat) : Out :=
  if 2 ≤ o.size then
    { str := o.str ++ [c % 256], size := o.size - 1, retval := wrap_int (o.retval + 1) }
  else { o with retval := wrap_int (o.retval + 1) }

/-- A sequence of `PCHAR` calls, one for each character of `cs` in order. -/
def PCHARS (o : Out) (cs : List Nat) : Out := cs.foldl PCHAR o

/-- The variables of a directive (lines 336-337 and 347-349), and the bytes of
the format from `percent` up to `fmt`. -/
structure Dir where
  padc : Nat := 32
  width : Int := 0
  qflag : Bool := false
  lflag : Bool := false
  ladjust : Bool := false
  sharpflag : Bool := false
  sign : Bool := false
  dot : Bool := false
  dwidth : Int := 0
  upper : Bool := false
  cflag : Bool := false
  hflag : Bool := false
  jflag : Bool := false
  tflag : Bool := false
  zflag : Bool := false
  percent : List Nat := [37]
  deriving DecidableEq

/-- The place of the interpreter in `vsnprintf`: in the loop of line 338 that
copies text, at the label `reswitch`, or in the loop of lines 385-390 that
reads a number (with the value `n` read so far). -/
inductive Mode where
  | text
  | spec (d : Dir)
  | num (d : Dir) (n : Int)
  deriving DecidableEq

/-- What one step inside a directive does: `fault` for no defined behaviour,
else the next place, the characters passed to `PCHAR` in order, the new value
of `stop`, the remaining arguments and the values stored through `%n`
pointers (address and value). -/
inductive Step where
  | fault
  | next (m : Mode) (emit : List Nat) (stop : Bool) (ap : List Arg)
      (stores : List (Nat × Int))
  deriving DecidableEq

/-- The function `strlen` on the bytes of a string. -/
def strlen (p : List Nat) : Nat := (p.takeWhile (fun c => c != 0)).length

/-- The operand of an unsigned conversion (label `handle_nosign`, lines
493-511) as a `uintmax_t`, from the argument value `v`. -/
def fetch_nosign (W : Nat) (d : Dir) (v : Int) : Nat :=
  if d.jflag then toUnsigned 64 v
  else if d.qflag then toUnsigned 64 v
  else if d.tflag then toUnsigned 64 (toSigned W v)
  else if d.lflag then toUnsigned 64 (toUnsigned W v)
  else if d.zflag then toUnsigned 64 (toUnsigned W v)
  else if d.hflag then toUnsigned 64 (toUnsigned 16 (wrap_int v))
  else if d.cflag then toUnsigned 64 (toUnsigned 8 (wrap_int v))
  else toUnsigned 64 (toUnsigned 32 v)

/-- The operand of a signed conversion (label `handle_sign`, lines 512-528) as
a `uintmax_t`, from the argument value `v`; `char` is a signed type. -/
def fetch_sign (W : Nat) (d : Dir) (v : Int) : Nat :=
  if d.jflag then toUnsigned 64 (toSigned 64 v)
  else if d.qflag then toUnsigned 64 (toSigned 64 v)
  else if d.tflag then toUnsigned 64 (toSigned W v)
  else if d.lflag then toUnsigned 64 (toSigned W v)
  else if d.zflag then toUnsigned 64 (toSigned W v)
  else if d.hflag then toUnsigned 64 (toSigned 16 (wrap_int v))
  else if d.cflag then toUnsigned 64 (toSigned 8 (wrap_int v))
  else toUnsigned 64 (toSigned 32 v)

/-- Lines 535-572: the characters passed to `PCHAR` after `ksprintn` stored
the digits `ds` (least significant first) of the magnitude `num`; `neg` is set
when the operand was negative. -/
def number_emit (d : Dir) (base : Nat) (neg : Bool) (num : Nat) (ds : List Nat) : List Nat :=
  let n : Int := ds.length
  let tmp : Int :=
    if d.sharpflag && decide (num ≠ 0) then
      (if base = 8 then 1 else if base = 16 then 2 else 0)
    else 0
  let tmp : Int := if neg then tmp + 1 else tmp
  let dwidth : Int :=
    if !d.ladjust && decide (d.padc = 48) then wrap_int (d.width - tmp) else d.dwidth
  let width : Int := wrap_int (d.width - wrap_int (tmp + (if dwidth > n then dwidth else n)))
  let dwidth : Int := wrap_int (dwidth - n)
  (if !d.ladjust then List.replicate width.toNat 32 else []) ++
  (if neg then [45] else []) ++
  (if d.sharpflag && decide (num ≠ 0) then
    (if base = 8 then [48] else if base = 16 then [48, 120] else [])
   else []) ++
  List.replicate dwidth.toNat 48 ++
  (ds.reverse.takeWhile (fun c => c != 0)) ++
  (if d.ladjust then List.replicate width.toNat 32 else [])

/-- The label `number` (lines 529-572): the characters passed to `PCHAR` for
the operand `num` in base `base` under the directive `d`. -/
def number (d : Dir) (base : Nat) (num : Nat) : Option (List Nat) :=
  let neg : Bool := d.sign && decide (2 ^ 63 ≤ num)
  let num : Nat := if neg then (2 ^ 64 - num) % 2 ^ 64 else num
  match ksprintn num base d.upper with
  | none => none
  | some ds => some (number_emit d base neg num ds)

/-- The step of a number conversion: fetch the operand with `fetch` and go
through the label `number`. -/
def number_step (d : Dir) (base : Nat) (fetch : Int → Nat) (stop : Bool)
    (ap : List Arg) : Step :=
  match ap with
  | Arg.int v :: ap =>
    match number d base (fetch v) with
    | none => Step.fault
    | some e => Step.next Mode.text e stop ap []
  | _ => Step.fault

/-- The end of the loop of lines 385-390 after the value `n`: `peek` is the
byte `*fmt`.  The loop goes on when it is a digit, else the number is the
width or the precision and control is back at `reswitch`. -/
def number_end (d : Dir) (n : Int) (peek : Option Nat) (stop : Bool) (ap : List Arg) : Step :=
  match peek with
  | none => Step.fault
  | some c =>
    if c < 48 ∨ c > 57 then
      Step.next (Mode.spec (if d.dot then { d with dwidth := n } else { d with width := n }))
        [] stop ap []
    else Step.next (Mode.num d n) [] stop ap []

/-- The `switch` at the label `reswitch` (lines 350-584) on the character
`ch`; `peek` is the byte after it and `retval` the current count. -/
def directive (W : Nat) (ch : Nat) (peek : Option Nat) (d : Dir) (stop : Bool)
    (ap : List Arg) (retval : Int) : Step :=
  let d : Dir := { d with percent := d.percent ++ [ch] }
  if ch = 46 then Step.next (Mode.spec { d with dot := true }) [] stop ap []
  else if ch = 35 then Step.next (Mode.spec { d with sharpflag := true }) [] stop ap []
  else if ch = 43 then Step.next (Mode.spec { d with sign := true }) [] stop ap []
  else if ch = 45 then Step.next (Mode.spec { d with ladjust := true }) [] stop ap []
  else if ch = 37 then Step.next Mode.text [ch] stop ap []
  else if ch = 42 then
    match ap with
    | Arg.int v :: ap =>
      if !d.dot then
        (if wrap_int v < 0 then
          Step.next (Mode.spec { d with ladjust := !d.ladjust, width := wrap_int (-wrap_int v) })
            [] stop ap []
         else Step.next (Mode.spec { d with width := wrap_int v }) [] stop ap [])
      else Step.next (Mode.spec { d with dwidth := wrap_int v }) [] stop ap []
    | _ => Step.fault
  else if ch = 48 ∧ d.dot = false then
    Step.next (Mode.spec { d with padc := 48 }) [] stop ap []
  else if 48 ≤ ch ∧ ch ≤ 57 then
    number_end d (wrap_int (0 * 10 + ch - 48)) peek stop ap
  else if ch = 99 then
    match ap with
    | Arg.int v :: ap => Step.next Mode.text [toUnsigned 8 v] stop ap []
    | _ => Step.fault
  else if ch = 100 ∨ ch = 105 then
    number_step { d with sign := true } 10 (fetch_sign W d) stop ap
  else if ch = 104 then
    (if d.hflag then Step.next (Mode.spec { d with hflag := false, cflag := true }) [] stop ap []
     else Step.next (Mode.spec { d with hflag := true }) [] stop ap [])
  else if ch = 106 then Step.next (Mode.spec { d with jflag := true }) [] stop ap []
  else if ch = 108 then
    (if d.lflag then Step.next (Mode.spec { d with lflag := false, qflag := true }) [] stop ap []
     else Step.next (Mode.spec { d with lflag := true }) [] stop ap [])
  else if ch = 110 then
    match ap with
    | Arg.ptr a :: ap =>
      Step.next Mode.text [] stop ap
        [(a, if d.jflag then toSigned 64 retval
             else if d.qflag then toSigned 64 retval
             else if d.lflag then toSigned W retval
             else if d.zflag then (toUnsigned W retval : Int)
             else if d.hflag then toSigned 16 retval
             else if d.cflag then toSigned 8 retval
             else retval)]
    | _ => Step.fault
  else if ch = 111 then number_step { d with sign := false } 8 (fetch_nosign W d) stop ap
  else if ch = 112 then
    match ap with
    | Arg.ptr a :: ap =>
      match number { d with sharpflag := decide (d.width = 0), sign := false } 16
          (toUnsigned 64 (toUnsigned W a)) with
      | none => Step.fault
      | some e => Step.next Mode.text e stop ap []
    | _ => Step.fault
  else if ch = 113 then Step.next (Mode.spec { d with qflag := true }) [] stop ap []
  else if ch = 114 then
    (if d.sign then number_step d 10 (fetch_sign W d) stop ap
     else number_step { d with sign := false } 10 (fetch_nosign W d) stop ap)
  else if ch = 115 then
    match ap with
    | Arg.str s :: ap =>
      let p : List Nat := match s with
        | none => [40, 110, 117, 108, 108, 41]
        | some p => p
      let n : Int :=
        if !d.dot then wrap_int (strlen p)
        else if d.dwidth < 0 then 0 else min d.dwidth (strlen p)
      let width : Int := wrap_int (d.width - n)
      if n < 0 then Step.fault
      else
        Step.next Mode.text
          ((if !d.ladjust && decide (width > 0) then List.replicate width.toNat d.padc else []) ++
           p.take n.toNat ++
           (if d.ladjust && decide (width > 0) then List.replicate width.toNat d.padc else []))
          stop ap []
    | _ => Step.fault
  else if ch = 116 then Step.next (Mode.spec { d with tflag := true }) [] stop ap []
  else if ch = 117 then number_step { d with sign := false } 10 (fetch_nosign W d) stop ap
  else if ch = 88 then
    number_step { d with upper := true, sign := false } 16 (fetch_nosign W d) stop ap
  else if ch = 120 then number_step { d with sign := false } 16 (fetch_nosign W d) stop ap
  else if ch = 121 then number_step { d with sign := true } 16 (fetch_sign W d) stop ap
  else if ch = 122 then Step.next (Mode.spec { d with zflag := true }) [] stop ap []
  else Step.next Mode.text d.percent true ap []

/-- The result of `vsnprintf`: the bytes stored in the buffer, the returned
count and the values stored through the pointers of `%n`. -/
structure Res where
  str : List Nat
  retval : Int
  stores : List (Nat × Int)
  deriving DecidableEq

/-- The loop `for (;;)` of `vsnprintf` (lines 335-585) over the bytes of the
format that remain. -/
def vloop (W : Nat) : List Nat → Mode → Bool → Out → List Arg → List (Nat × Int) → Option Res
  | [], _, _, _, _, _ => none
  | ch :: fmt, Mode.text, stop, o, ap, ns =>
    if ch ≠ 37 ∨ stop = true then
      if ch = 0 then
        some { str := if 1 ≤ o.size then o.str ++ [0] else o.str, retval := o.retval,
               stores := ns }
      else vloop W fmt Mode.text stop (PCHAR o ch) ap ns
    else vloop W fmt (Mode.spec {}) stop o ap ns
  | ch :: fmt, Mode.spec d, stop, o, ap, ns =>
    match directive W ch fmt.head? d stop ap o.retval with
    | Step.fault => none
    | Step.next m e stop ap ns2 => vloop W fmt m stop (PCHARS o e) ap (ns ++ ns2)
  | ch :: fmt, Mode.num d n, stop, o, ap, ns =>
    match number_end { d with percent := d.percent ++ [ch] } (wrap_int (n * 10 + ch - 48))
        fmt.head? stop ap with
    | Step.fault => none
    | Step.next m e stop ap ns2 => vloop W fmt m stop (PCHARS o e) ap (ns ++ ns2)

/-- The function `vsnprintf` (lines 316-587); `fmt` is `none` for a NULL
format. -/
def vsnprintf (W : Nat) (size : Nat) (fmt : Option (List Nat)) (ap : List Arg) : Option Res :=
  vloop W (match fmt with
      | none => [40, 102, 109, 116, 32, 110, 117, 108, 108, 41, 10, 0]
      | some f => f)
    Mode.text false { str := [], size := size, retval := 0 } ap []

/-- The function `vsprintf` (lines 616-619). -/
def vsprintf (W : Nat) (fmt : Option (List Nat)) (ap : List Arg) : Option Res :=
  vsnprintf W 0xFFFFFFFF fmt ap

/-! ## Notions used to state the properties of the decoders -/

/-- The maximal run of characters at the start of `l` that are digits valid
in `base`. -/
def digitRun (base : Int) (l : List Nat) : List Nat :=
  l.takeWhile (fun c => (digitval base c).isSome)

/-- The mathematical value, in base `b`, of the digit characters `ds` read
after an accumulated value `acc`. -/
def valFrom (b : Nat) (acc : Nat) (ds : List Nat) : Nat :=
  ds.foldl (fun a c => a * b + (digitval b c).getD 0) acc

/-- The mathematical value of the digit run `ds` in base `b`. -/
def runValue (b : Nat) (ds : List Nat) : Nat := valFrom b 0 ds

/-- The limit `strtoq` computes its cutoff from: `2 ^ 63` for a negative text,
`2 ^ 63 - 1` otherwise. -/
def strtoq_limit (neg : Bool) : Nat := if neg then 2 ^ 63 else 2 ^ 63 - 1

/-- The text `sg` is the optional sign the decoders find in front of `body`:
`"-"`, `"+"`, or nothing when `body` starts with neither white space nor a
sign. -/
def IsSign (sg body : List Nat) : Prop :=
  sg = [45] ∨ sg = [43] ∨
    (sg = [] ∧ isspace (body.headD 0) = false ∧ body.headD 0 ≠ 45 ∧ body.headD 0 ≠ 43)

/-- The text `l` starts with the prefix `0x` or `0X` and the requested base is
`0` or `16`: the condition of line 116. -/
def HexStart (base : Int) (l : List Nat) : Prop :=
  (base = 0 ∨ base = 16) ∧ l.headD 0 = 48 ∧ (l.tail.headD 0 = 120 ∨ l.tail.headD 0 = 88)

/-- The digits of `v` in base `b`, most significant digit first, in the
alphabet `0-9a-z`; the number 0 has the one digit `0`. -/
def digitChars (b v : Nat) : List Nat :=
  if v = 0 then [48] else (Nat.digits b v).reverse.map (fun d => hex2ascii_data.getD d 0)

/-- The text of the signed value `v` in base `b`: a `-` when `v` is negative,
and the digits of its magnitude. -/
def signedText (b : Nat) (v : Int) : List Nat :=
  (if v < 0 then [45] else []) ++ digitChars b v.natAbs

/-- The value the loop of lines 385-390 computes from the digits `ds` after
the value `n`, in `int` arithmetic. -/
def parseNum (n : Int) (ds : List Nat) : Int :=
  ds.foldl (fun n ch => wrap_int (n * 10 + ch - 48)) n

/-- The assignment `if (dot) dwidth = n; else width = n;` of lines 391-394. -/
def setNum (d : Dir) (n : Int) : Dir :=
  if d.dot then { d with dwidth := n } else { d with width := n }

/-- The prefix `px` and the base `B` the decoders choose in front of the text
`body` for the requested base `base`: either `px` is `0x` or `0X`, the
requested base is 0 or 16 and `B = 16`; or there is no prefix (`body` does not
start with one that would be taken) and `B` is the requested base, or 8 or 10
for a requested base 0 according to whether `body` starts with `0`. -/
def Chosen (base : Int) (px body : List Nat) (B : Nat) : Prop :=
  (px = [] ∧ ¬ HexStart base body ∧
    (B : Int) = (if base = 0 then (if body.headD 0 = 48 then 8 else 10) else base)) ∨
  ((base = 0 ∨ base = 16) ∧ (px = [48, 120] ∨ px = [48, 88]) ∧ B = 16)

/-- The result of an unsigned decoder of `W` bits for the digit text `l` that
starts at offset `p`, read in base `b` after the sign `neg`: the value of the
digit run, clamped to the maximum and negated modulo `2 ^ W`, and the offset
right after the run (the start of the whole text when the run is empty). -/
def unsignedResult (W : Nat) (neg : Bool) (b p : Nat) (l : List Nat) : Nat × Nat :=
  (if 2 ^ W - 1 < runValue b (digitRun b l) then 2 ^ W - 1
   else if neg then (2 ^ W - runValue b (digitRun b l)) % 2 ^ W
   else runValue b (digitRun b l),
   if digitRun b l = [] then 0 else p + (digitRun b l).length)

/-- The result of the signed 64 bit decoder for the digit text `l` that starts
at offset `p`, read in base `b` after the sign `neg`. -/
def signedResult (neg : Bool) (b p : Nat) (l : List Nat) : Int × Nat :=
  (if strtoq_limit neg < runValue b (digitRun b l) then (if neg then LLONG_MIN else LLONG_MAX)
   else if neg then -(runValue b (digitRun b l) : Int)
   else (runValue b (digitRun b l) : Int),
   if digitRun b l = [] then 0 else p + (digitRun b l).length)

/-! ## Notions used to state the properties of the formatter -/
/-- The characters the switch at `reswitch` takes as modifiers of a directive
(each ends in `goto reswitch`): `.`, `#`, `+`, `-`, `*`, the digits and the
length letters `h`, `j`, `l`, `q`, `t`, `z`. -/
def fmt_modifier (c : Nat) : Bool :=
  c == 46 || c == 35 || c == 43 || c == 45 || c == 42 || (48 ≤ c && c ≤ 57) ||
  c == 104 || c == 106 || c == 108 || c == 113 || c == 116 || c == 122

/-- The conversion letters of the switch at `reswitch`: `%`, `c`, `d`, `i`,
`n`, `o`, `p`, `r`, `s`, `u`, `X`, `x`, `y`. -/
def fmt_conversion (c : Nat) : Bool :=
  c == 37 || c == 99 || c == 100 || c == 105 || c == 110 || c == 111 || c == 112 ||
  c == 114 || c == 115 || c == 117 || c == 88 || c == 120 || c == 121

/-- The bytes of the format from `percent` on that a place inside a directive
has gone through. -/
def modePercent : Mode → List Nat
  | Mode.text => []
  | Mode.spec d => d.percent
  | Mode.num d _ => d.percent

/-- A place inside a directive that fits the next byte `peek` of the format:
the loop of lines 385-390 goes on only in front of a digit. -/
def ModeOK (m : Mode) (peek : Option Nat) : Prop :=
  match m with
  | Mode.text => False
  | Mode.spec _ => True
  | Mode.num _ _ => ∃ x, peek = some x ∧ 48 ≤ x ∧ x ≤ 57

/-- The digits of `v` in base `b` as `ksprintn` stores them for the flag
`upper`: in upper case when it is set. -/
def digitText (b v : Nat) (upper : Bool) : List Nat :=
  if upper then (digitChars b v).map toupper else digitChars b v

/-- The letters of the integer conversions that go through the label
`number` with an `int` argument: `d`, `i`, `o`, `u`, `x`, `X`, `y`, `r`. -/
def number_conversion (ch : Nat) : Bool :=
  ch == 100 || ch == 105 || ch == 111 || ch == 117 || ch == 120 || ch == 88 || ch == 121 ||
  ch == 114

/-- The base of the integer conversion `ch`. -/
def conv_base (ch : Nat) : Nat :=
  if ch = 111 then 8 else if ch = 120 ∨ ch = 88 ∨ ch = 121 then 16 else 10

/-! ## The scan set compiler `__sccl`

The format is given, as for `vsnprintf`, by the bytes of memory from `fmt` on;
a read outside these bytes and a store outside the table of 256 entries have
no defined behaviour (`none`). -/

/-- The loop `do { tab[++c] = v; } while (c < n);` of lines 708-710, for the
number of times its body runs. -/
def sccl_fill (v : Nat) : Nat → Nat → List Nat → Option (List Nat)
  | 0, _, tab => some tab
  | k + 1, c, tab => if c + 1 < 256 then sccl_fill v k (c + 1) (tab.set (c + 1) v) else none

/-- The label `doswitch` of `__sccl` (lines 675-726) after the character `c`
was taken (`tab[c] = v` is done); `k` counts the bytes of the format read so
far.  With `range` set the `-` of a range was read and the next byte is the end
of the range (lines 706-717).  The result is the table and the number of bytes
between the `fmt` passed to `__sccl` and the returned pointer. -/
def sccl_switch (v : Nat) : List Nat → Bool → Nat → List Nat → Nat → Option (List Nat × Nat)
  | [], _, _, _, _ => none
  | n :: fmt, true, c, tab, k =>
    match sccl_fill v (if c < n then n - c else 1) c tab with
    | none => none
    | some tab => sccl_switch v fmt false n tab (k + 1)
  | n :: fmt, false, c, tab, k =>
    if n = 0 then some (tab, k)
    else if n = 45 then
      match fmt.head? with
      | none => none
      | some m =>
        if m = 93 ∨ m < c then sccl_switch v fmt false 45 (tab.set 45 v) (k + 1)
        else sccl_switch v fmt true c tab (k + 1)
    else if n = 93 then some (tab, k + 1)
    else sccl_switch v fmt false n (tab.set n v) (k + 1)

/-- The function `__sccl` (lines 645-729): the table `tab` it fills and the
number of bytes of the format up to the returned pointer. -/
def __sccl (fmt : List Nat) : Option (List Nat × Nat) :=
  match fmt with
  | [] => none
  | c :: fmt1 =>
    if c = 94 then
      match fmt1 with
      | [] => none
      | c2 :: fmt2 =>
        if c2 = 0 then some (List.replicate 256 1, 1)
        else sccl_switch 0 fmt2 false c2 ((List.replicate 256 1).set c2 0) 2
    else
      if c = 0 then some (List.replicate 256 0, 0)
      else sccl_switch 1 fmt1 false c ((List.replicate 256 0).set c 1) 1

/-! ## The input scanner `vsscanf`

The input is given by the bytes `mem` of memory from `inp` on (the text, its
terminating NUL and what follows), and a position in `mem` stands for the
pointer `inp`; the format is given by the bytes of memory from `fmt0` on.  A
read outside these bytes, a `va_arg` that finds no pointer argument, a read of
`ccltab` before `__sccl` filled it and a call through the NULL `ccfn` have no
defined behaviour (`none`).  The type `size_t` has `W` bits.  The counters
`nassigned` and `nconversions` hold the number of times they were incremented:
the value of the `int` variable is `wrap_int` of that number. -/

/-- The bits of `flags` (lines 742-762). -/
structure Flags where
  LONG : Bool := false
  SHORT : Bool := false
  SUPPRESS : Bool := false
  POINTER : Bool := false
  NOSKIP : Bool := false
  QUAD : Bool := false
  SHORTSHORT : Bool := false
  SIGNOK : Bool := false
  NDIGITS : Bool := false
  PFXOK : Bool := false
  NZDIGITS : Bool := false
  deriving DecidableEq

/-- A store through a pointer argument: a value `v` stored in an object of
`bits` bits at the address `a`, or the bytes `bs` stored from the address `a`
on. -/
inductive Stored where
  | val (a : Nat) (bits : Nat) (v : Int)
  | bytes (a : Nat) (bs : List Nat)
  deriving DecidableEq

/-- The variables of `vsscanf` (lines 776-789) that live across directives. -/
structure Scan where
  pos : Nat
  inr : Int
  nassigned : Nat
  nconversions : Nat
  nread : Int
  base : Int
  ccfn : Option Bool
  ccltab : Option (List Nat)
  ap : List Arg
  stores : List Stored
  deriving DecidableEq

/-- The three ways out of `vsscanf`: the end of the format (line 806) and the
labels `input_failure` and `match_failure`. -/
inductive Exit where
  | eof
  | input_failure
  | match_failure
  deriving DecidableEq

/-- The state at the `return`: the way out, the two counters and the stores
made. -/
structure Final where
  exit : Exit
  nassigned : Nat
  nconversions : Nat
  stores : List Stored
  deriving DecidableEq

/-- What the code of a directive does: no defined behaviour, a jump to one of
the two failure labels, or the next turn of the loop of line 803. -/
inductive Conv where
  | fault
  | input_failure (s : Scan)
  | match_failure (s : Scan)
  | next (s : Scan)
  deriving DecidableEq

/-- The place of the scanner in the format: at the top of the loop of line 803
after `skip` more bytes that `__sccl` has read, or at the label `again` with
the `width` and the `flags` of the directive. -/
inductive SMode where
  | text (skip : Nat)
  | spec (width : Nat) (flags : Flags)
  deriving DecidableEq

/-- The state at a `return` from the place `s`. -/
def finish (e : Exit) (s : Scan) : Final :=
  { exit := e, nassigned := s.nassigned, nconversions := s.nconversions, stores := s.stores }

/-- The loop `while (inr > 0 && isspace(*inp)) nread++, inr--, inp++;` of
lines 808-809 over the bytes of the input from `inp` on. -/
def ws_run : List Nat → Scan → Option Scan
  | [], s => if s.inr > 0 then none else some s
  | c :: l, s =>
    if s.inr > 0 ∧ isspace c = true then
      ws_run l { s with nread := wrap_int (s.nread + 1), inr := wrap_int (s.inr - 1),
                        pos := s.pos + 1 }
    else some s

/-- The label `literal` (lines 823-830) for the format character `c`; the
input character `*inp` is a `char`. -/
def literal (mem : List Nat) (c : Nat) (s : Scan) : Conv :=
  if s.inr ≤ 0 then Conv.input_failure s
  else
    match mem.get? s.pos with
    | none => Conv.fault
    | some x =>
      if toSigned 8 x ≠ c then Conv.match_failure s
      else Conv.next { s with inr := wrap_int (s.inr - 1), pos := s.pos + 1,
                              nread := wrap_int (s.nread + 1) }

/-- The loop of lines 945-951 that consumes leading white space before a
conversion. -/
def ws_conv : List Nat → Scan → Conv
  | [], _ => Conv.fault
  | c :: l, s =>
    if isspace c = true then
      if wrap_int (s.inr - 1) > 0 then
        ws_conv l { s with nread := wrap_int (s.nread + 1), inr := wrap_int (s.inr - 1),
                           pos := s.pos + 1 }
      else Conv.input_failure { s with nread := wrap_int (s.nread + 1),
                                       inr := wrap_int (s.inr - 1) }
    else Conv.next s

/-- The loops of lines 999-1008, 1013-1023, 1040-1046 and 1050-1057 over the
input characters that satisfy `P`: the characters taken and the value of `inr`
at the end. -/
def take_run (W : Nat) (P : Nat → Bool) : List Nat → Int → Nat → Option (List Nat × Int)
  | [], _, _ => none
  | c :: l, inr, width =>
    if P c = true then
      if (width + 2 ^ W - 1) % 2 ^ W = 0 then some ([c], wrap_int (inr - 1))
      else if wrap_int (inr - 1) ≤ 0 then some ([c], wrap_int (inr - 1))
      else (take_run W P l (wrap_int (inr - 1)) ((width + 2 ^ W - 1) % 2 ^ W)).map
        (fun r => (c :: r.1, r.2))
    else some ([], inr)

/-- The case `CT_CHAR` (lines 964-990). -/
def ct_char (W : Nat) (mem : List Nat) (width : Nat) (flags : Flags) (s : Scan) : Conv :=
  let width : Nat := if width = 0 then 1 else width
  if flags.SUPPRESS then
    if toUnsigned W s.inr < width then
      if toUnsigned W s.inr = 0 then Conv.input_failure { s with pos := (s.pos + s.inr).toNat }
      else
        Conv.next { s with pos := (s.pos + s.inr).toNat,
                           nread := wrap_int (toUnsigned W (s.nread + toUnsigned W s.inr)),
                           nconversions := s.nconversions + 1 }
    else
      Conv.next { s with inr := wrap_int (toUnsigned W (s.inr - width)),
                         pos := s.pos + width,
                         nread := wrap_int (toUnsigned W (s.nread + width)),
                         nconversions := s.nconversions + 1 }
  else
    match s.ap with
    | Arg.ptr a :: ap =>
      if s.pos + width ≤ mem.length then
        Conv.next { s with ap := ap,
                           stores := s.stores ++ [Stored.bytes a ((mem.drop s.pos).take width)],
                           inr := wrap_int (toUnsigned W (s.inr - width)),
                           pos := s.pos + width,
                           nread := wrap_int (toUnsigned W (s.nread + width)),
                           nassigned := s.nassigned + 1,
                           nconversions := s.nconversions + 1 }
      else Conv.fault
    | _ => Conv.fault

/-- The case `CT_CCL` (lines 992-1032). -/
def ct_ccl (W : Nat) (mem : List Nat) (width : Nat) (flags : Flags) (s : Scan) : Conv :=
  let width : Nat := if width = 0 then 2 ^ W - 1 else width
  match s.ccltab with
  | none => Conv.fault
  | some tab =>
    if flags.SUPPRESS then
      match take_run W (fun c => tab.getD (c % 256) 0 != 0) (mem.drop s.pos) s.inr width with
      | none => Conv.fault
      | some (taken, inr) =>
        if wrap_int taken.length = 0 then
          Conv.match_failure { s with inr := inr, pos := s.pos + taken.length }
        else
          Conv.next { s with inr := inr, pos := s.pos + taken.length,
                             nread := wrap_int (s.nread + wrap_int taken.length),
                             nconversions := s.nconversions + 1 }
    else
      match s.ap with
      | Arg.ptr a :: ap =>
        match take_run W (fun c => tab.getD (c % 256) 0 != 0) (mem.drop s.pos) s.inr width with
        | none => Conv.fault
        | some (taken, inr) =>
          if wrap_int (toSigned W taken.length) = 0 then
            Conv.match_failure { s with ap := ap, inr := inr, pos := s.pos + taken.length,
                                        stores := s.stores ++
                                          (if taken = [] then [] else [Stored.bytes a taken]) }
          else
            Conv.next { s with ap := ap, inr := inr, pos := s.pos + taken.length,
                               stores := s.stores ++ [Stored.bytes a (taken ++ [0])],
                               nassigned := s.nassigned + 1,
                               nread := wrap_int (s.nread + wrap_int (toSigned W taken.length)),
                               nconversions := s.nconversions + 1 }
      | _ => Conv.fault

/-- The case `CT_STRING` (lines 1034-1063). -/
def ct_string (W : Nat) (mem : List Nat) (width : Nat) (flags : Flags) (s : Scan) : Conv :=
  let width : Nat := if width = 0 then 2 ^ W - 1 else width
  if flags.SUPPRESS then
    match take_run W (fun c => !isspace c) (mem.drop s.pos) s.inr width with
    | none => Conv.fault
    | some (taken, inr) =>
      Conv.next { s with inr := inr, pos := s.pos + taken.length,
                         nread := wrap_int (s.nread + wrap_int taken.length),
                         nconversions := s.nconversions + 1 }
  else
    match s.ap with
    | Arg.ptr a :: ap =>
      match take_run W (fun c => !isspace c) (mem.drop s.pos) s.inr width with
      | none => Conv.fault
      | some (taken, inr) =>
        Conv.next { s with ap := ap, inr := inr, pos := s.pos + taken.length,
                           stores := s.stores ++ [Stored.bytes a (taken ++ [0])],
                           nread := wrap_int (toSigned W (s.nread + taken.length)),
                           nassigned := s.nassigned + 1,
                           nconversions := s.nconversions + 1 }
    | _ => Conv.fault

/-- The table `basefix` (lines 793-794). -/
def basefix : List Int := [10, 1, 2, 3, 4, 5, 6, 7, 8, 9, 10, 11, 12, 13, 14, 15, 16]

/-- The `switch (c)` of lines 1083-1150 on the input character `c`, with
`plen = p - buf`: whether control goes to the label `ok`, and the new `flags`
and `base`; `none` for a read outside `basefix`. -/
def int_char (c : Nat) (flags : Flags) (base : Int) (plen : Nat) :
    Option (Bool × Flags × Int) :=
  if c = 48 then
    let base1 : Int := if base = 0 then 8 else base
    let flags1 : Flags := if base = 0 then { flags with PFXOK := true } else flags
    if flags1.NZDIGITS then
      some (true, { flags1 with SIGNOK := false, NZDIGITS := false, NDIGITS := false }, base1)
    else
      some (true, { flags1 with SIGNOK := false, PFXOK := false, NDIGITS := false }, base1)
  else if 49 ≤ c ∧ c ≤ 55 then
    if base < 0 then none
    else
      match basefix.get? base.toNat with
      | none => none
      | some b => some (true, { flags with SIGNOK := false, PFXOK := false, NDIGITS := false }, b)
  else if c = 56 ∨ c = 57 then
    if base < 0 then none
    else
      match basefix.get? base.toNat with
      | none => none
      | some b =>
        if b ≤ 8 then some (false, flags, b)
        else some (true, { flags with SIGNOK := false, PFXOK := false, NDIGITS := false }, b)
  else if (65 ≤ c ∧ c ≤ 70) ∨ (97 ≤ c ∧ c ≤ 102) then
    if base ≤ 10 then some (false, flags, base)
    else some (true, { flags with SIGNOK := false, PFXOK := false, NDIGITS := false }, base)
  else if c = 43 ∨ c = 45 then
    if flags.SIGNOK then some (true, { flags with SIGNOK := false }, base)
    else some (false, flags, base)
  else if c = 120 ∨ c = 88 then
    if flags.PFXOK = true ∧ plen = 1 then some (true, { flags with PFXOK := false }, 16)
    else some (false, flags, base)
  else some (false, flags, base)

/-- The loop `for (p = buf; width; width--)` of lines 1077-1166: the flags,
the bytes stored in `buf` and the state at its end. -/
def int_run (mem : List Nat) : Nat → Flags → List Nat → Scan → Option (Flags × List Nat × Scan)
  | 0, flags, buf, s => some (flags, buf, s)
  | w + 1, flags, buf, s =>
    match mem.get? s.pos with
    | none => none
    | some c =>
      match int_char c flags s.base buf.length with
      | none => none
      | some (ok, flags1, base1) =>
        if ok = true then
          if wrap_int (s.inr - 1) > 0 then
            int_run mem w flags1 (buf ++ [c])
              { s with base := base1, inr := wrap_int (s.inr - 1), pos := s.pos + 1 }
          else some (flags1, buf ++ [c], { s with base := base1, inr := wrap_int (s.inr - 1) })
        else some (flags1, buf, { s with base := base1 })

/-- The store of the result `res` of an integer conversion (lines 1191-1203). -/
def int_store (W : Nat) (flags : Flags) (a : Nat) (res : Nat) : Stored :=
  if flags.POINTER then Stored.val a W (toUnsigned W res)
  else if flags.SHORTSHORT then Stored.val a 8 (toSigned 8 res)
  else if flags.SHORT then Stored.val a 16 (toSigned 16 res)
  else if flags.LONG then Stored.val a W (toSigned W res)
  else if flags.QUAD then Stored.val a 64 (toSigned 64 res)
  else Stored.val a 32 (toSigned 32 res)

/-- The case `CT_INT` (lines 1065-1208).  The push back `inp--` of line 1175
can leave `inp` one byte before the input, when a sign alone was the whole
input; control is then at `match_failure` and `inp` is not used again, and
the position stays 0. -/
def ct_int (W : Nat) (mem : List Nat) (width : Nat) (flags : Flags) (s : Scan) : Conv :=
  let width : Nat := (width + 2 ^ W - 1) % 2 ^ W
  let width : Nat := if width > 30 then 30 else width
  let width : Nat := width + 1
  match int_run mem width { flags with SIGNOK := true, NDIGITS := true, NZDIGITS := true } [] s
    with
  | none => Conv.fault
  | some (flags, buf, s) =>
    if flags.NDIGITS then
      Conv.match_failure
        (if buf ≠ [] then { s with pos := s.pos - 1, inr := wrap_int (s.inr + 1) } else s)
    else
      match buf.getLast? with
      | none => Conv.fault
      | some c =>
        let buf1 : List Nat := if c = 120 ∨ c = 88 then buf.dropLast else buf
        let s1 : Scan :=
          if c = 120 ∨ c = 88 then { s with pos := s.pos - 1, inr := wrap_int (s.inr + 1) }
          else s
        if flags.SUPPRESS then
          Conv.next { s1 with nread := wrap_int (toSigned W (s1.nread + buf1.length)),
                              nconversions := s1.nconversions + 1 }
        else
          match s1.ccfn, s1.ap with
          | some q, Arg.ptr a :: ap =>
            Conv.next { s1 with ap := ap,
                                stores := s1.stores ++
                                  [int_store W flags a
                                    (if q then toUnsigned 64 (strtoq buf1 s1.base).1
                                     else (strtouq buf1 s1.base).1)],
                                nassigned := s1.nassigned + 1,
                                nread := wrap_int (toSigned W (s1.nread + buf1.length)),
                                nconversions := s1.nconversions + 1 }
          | _, _ => Conv.fault

/-- The code after the first `switch` (lines 934-1210) for the conversion
`code`: the test for the end of the input, the white space and the second
`switch`. -/
def conversion (W : Nat) (mem : List Nat) (code : Nat) (width : Nat) (flags : Flags)
    (s : Scan) : Conv :=
  if s.inr ≤ 0 then Conv.input_failure s
  else
    match (if flags.NOSKIP then Conv.next s else ws_conv (mem.drop s.pos) s) with
    | Conv.next s =>
      if code = 0 then ct_char W mem width flags s
      else if code = 1 then ct_ccl W mem width flags s
      else if code = 2 then ct_string W mem width flags s
      else if code = 3 then ct_int W mem width flags s
      else Conv.next s
    | r => r

/-- The cases of the first `switch` (lines 864-915) that `break`, but for the
case of `[`: the conversion `c`, the flags and the state.  A character that is
no case of the `switch` is the conversion itself. -/
def conv_letter (ch : Nat) (flags : Flags) (s : Scan) : Nat × Flags × Scan :=
  if ch = 100 then (3, flags, { s with ccfn := some true, base := 10 })
  else if ch = 105 then (3, flags, { s with ccfn := some true, base := 0 })
  else if ch = 111 then (3, flags, { s with ccfn := some false, base := 8 })
  else if ch = 117 then (3, flags, { s with ccfn := some false, base := 10 })
  else if ch = 120 then (3, { flags with PFXOK := true }, { s with ccfn := some false, base := 16 })
  else if ch = 115 then (2, flags, s)
  else if ch = 99 then (0, { flags with NOSKIP := true }, s)
  else if ch = 112 then
    (3, { flags with POINTER := true, PFXOK := true }, { s with ccfn := some false, base := 16 })
  else (ch, flags, s)

/-- The case `n` of the first `switch` (lines 917-931). -/
def conv_n (W : Nat) (flags : Flags) (s : Scan) : Option Scan :=
  if flags.SUPPRESS then some { s with nconversions := s.nconversions + 1 }
  else
    match s.ap with
    | Arg.ptr a :: ap =>
      some { s with nconversions := s.nconversions + 1, ap := ap,
                    stores := s.stores ++
                      [if flags.SHORTSHORT then Stored.val a 8 (toSigned 8 s.nread)
                       else if flags.SHORT then Stored.val a 16 (toSigned 16 s.nread)
                       else if flags.LONG then Stored.val a W (toSigned W s.nread)
                       else if flags.QUAD then Stored.val a 64 s.nread
                       else Stored.val a 32 s.nread] }
    | _ => none

/-- The loop `for (;;)` of `vsscanf` (lines 803-1211) over the bytes of the
format that remain. -/
def sloop (W : Nat) (mem : List Nat) : List Nat → SMode → Scan → Option Final
  | [], _, _ => none
  | _ :: fmt, SMode.text (k + 1), s => sloop W mem fmt (SMode.text k) s
  | c :: fmt, SMode.text 0, s =>
    if c = 0 then some (finish Exit.eof s)
    else if isspace c = true then
      match ws_run (mem.drop s.pos) s with
      | none => none
      | some s => sloop W mem fmt (SMode.text 0) s
    else if c ≠ 37 then
      match literal mem c s with
      | Conv.fault => none
      | Conv.input_failure s => some (finish Exit.input_failure s)
      | Conv.match_failure s => some (finish Exit.match_failure s)
      | Conv.next s => sloop W mem fmt (SMode.text 0) s
    else sloop W mem fmt (SMode.spec 0 {}) s
  | c :: fmt, SMode.spec width flags, s =>
    if c = 37 then
      match literal mem c s with
      | Conv.fault => none
      | Conv.input_failure s => some (finish Exit.input_failure s)
      | Conv.match_failure s => some (finish Exit.match_failure s)
      | Conv.next s => sloop W mem fmt (SMode.text 0) s
    else if c = 42 then sloop W mem fmt (SMode.spec width { flags with SUPPRESS := true }) s
    else if c = 108 then
      sloop W mem fmt
        (SMode.spec width
          (if flags.LONG then { flags with LONG := false, QUAD := true }
           else { flags with LONG := true })) s
    else if c = 113 then sloop W mem fmt (SMode.spec width { flags with QUAD := true }) s
    else if c = 104 then
      sloop W mem fmt
        (SMode.spec width
          (if flags.SHORT then { flags with SHORT := false, SHORTSHORT := true }
           else { flags with SHORT := true })) s
    else if 48 ≤ c ∧ c ≤ 57 then
      sloop W mem fmt (SMode.spec ((width * 10 + c - 48) % 2 ^ W) flags) s
    else if c = 110 then
      match conv_n W flags s with
      | none => none
      | some s => sloop W mem fmt (SMode.text 0) s
    else if c = 91 then
      match __sccl fmt with
      | none => none
      | some (tab, k) =>
        match conversion W mem 1 width { flags with NOSKIP := true }
            { s with ccltab := some tab } with
        | Conv.fault => none
        | Conv.input_failure s => some (finish Exit.input_failure s)
        | Conv.match_failure s => some (finish Exit.match_failure s)
        | Conv.next s => sloop W mem fmt (SMode.text k) s
    else
      match conversion W mem (conv_letter c flags s).1 width (conv_letter c flags s).2.1
          (conv_letter c flags s).2.2 with
      | Conv.fault => none
      | Conv.input_failure s => some (finish Exit.input_failure s)
      | Conv.match_failure s => some (finish Exit.match_failure s)
      | Conv.next s => sloop W mem fmt (SMode.text 0) s

/-- The value returned at the `return` (lines 806 and 1212-1215). -/
def scan_ret (f : Final) : Int :=
  match f.exit with
  | Exit.eof => wrap_int f.nassigned
  | Exit.input_failure => if wrap_int f.nconversions ≠ 0 then wrap_int f.nassigned else -1
  | Exit.match_failure => wrap_int f.nassigned

/-- The run of `vsscanf` (lines 773-1216) up to the `return`; `inr` starts
as `strlen(inp)`. -/
def vsscanf_run (W : Nat) (mem : List Nat) (fmt : List Nat) (ap : List Arg) : Option Final :=
  if 0 ∈ mem then
    sloop W mem fmt (SMode.text 0)
      { pos := 0, inr := wrap_int (strlen mem), nassigned := 0, nconversions := 0, nread := 0,
        base := 0, ccfn := none, ccltab := none, ap := ap, stores := [] }
  else none

/-- The function `vsscanf`: the returned value and the stores made through the
pointer arguments. -/
def vsscanf (W : Nat) (mem : List Nat) (fmt : List Nat) (ap : List Arg) :
    Option (Int × List Stored) :=
  (vsscanf_run W mem fmt ap).map (fun f => (scan_ret f, f.stores))



/-- The characters of the first `switch` of `vsscanf` that end in
`goto again` (lines 832-858): `*`, `l`, `q`, `h` and the digits. -/
def scan_modifier (c : Nat) : Bool :=
  c == 42 || c == 108 || c == 113 || c == 104 || (48 ≤ c && c ≤ 57)

/-- The counters of the state `t` some steps after the state `s`: every
assignment took an argument, the counters did not decrease and at most one
conversion was counted. -/
def step_bound (s t : Scan) : Prop :=
  t.nassigned + t.ap.length ≤ s.nassigned + s.ap.length ∧ s.nassigned ≤ t.nassigned ∧
  s.nconversions ≤ t.nconversions ∧ t.nconversions ≤ s.nconversions + 1

/-- The bound `step_bound` for the state in which the code of a directive
ends. -/
def conv_bound (s : Scan) : Conv → Prop
  | Conv.fault => True
  | Conv.input_failure t => step_bound s t
  | Conv.match_failure t => step_bound s t
  | Conv.next t => step_bound s t

/-- The state `t` has the counters and the arguments of the state `s`. -/
def same_counts (s t : Scan) : Prop :=
  t.nassigned = s.nassigned ∧ t.nconversions = s.nconversions ∧ t.ap = s.ap

/-- The counters at the `return`, `n` bytes of the format after the state
`s`: every assignment took an argument, the counters did not decrease and at
most `n` conversions were counted. -/
def final_bound (s : Scan) (n : Nat) (f : Final) : Prop :=
  f.nassigned ≤ s.nassigned + s.ap.length ∧ s.nassigned ≤ f.nassigned ∧
  s.nconversions ≤ f.nconversions ∧ f.nconversions ≤ s.nconversions + n









/-- Whether the integer conversion `ch` of a directive `d` is a signed one
(the `case` sets `sign`, or for `r` leaves the `sign` that the flag `+` set): `d`,
`i`, `y`, and `r` after `+`. -/
def conv_signed (ch : Nat) (d : Dir) : Bool :=
  ch == 100 || ch == 105 || ch == 121 || (ch == 114 && d.sign)

/-- The operand of the integer conversion `ch` as a `uintmax_t`, from the
argument value `v`. -/
def conv_operand (W : Nat) (ch : Nat) (d : Dir) (v : Int) : Nat :=
  if conv_signed ch d then fetch_sign W d v else fetch_nosign W d v

/-- Whether the integer conversion `ch` emits a `-`: the conversion is signed
and its operand, taken as an `intmax_t`, is negative. -/
def conv_neg (W : Nat) (ch : Nat) (d : Dir) (v : Int) : Bool :=
  conv_signed ch d && decide (2 ^ 63 ≤ conv_operand W ch d v)

/-- The magnitude whose digits the integer conversion `ch` emits. -/
def conv_mag (W : Nat) (ch : Nat) (d : Dir) (v : Int) : Nat :=
  if conv_neg W ch d v then (2 ^ 64 - conv_operand W ch d v) % 2 ^ 64
  else conv_operand W ch d v

/-- The characters of the alternate form in base `base`: `0` for base 8 and
`0x` for base 16 (lines 554-561). -/
def alt_form (base : Nat) : List Nat :=
  if base = 8 then [48] else if base = 16 then [48, 120] else []





/-- The part of a bracket expression in which a `]` closes the scan set: what
follows the first character, after the `^` if there is one. -/
def sccl_rest (body : List Nat) : List Nat :=
  (if body.head? = some 94 then body.tail else body).tail





/-- The size `BUF` of the buffer `buf` of `vsscanf` (line 737). -/
def BUF : Nat := 32

/-- The width of an integer conversion as the claim gives it: the width 0
(none given) and the widths above 31 stand for 31. -/
def int_width (width : Nat) : Nat := if width = 0 ∨ 31 < width then 31 else width

/-- The place of `inp` after the code of a directive that started in the state
`s`: at most `n` bytes on, and the directive does not end in an input
failure. -/
def pos_bound (s : Scan) (n : Nat) : Conv → Prop
  | Conv.fault => True
  | Conv.input_failure _ => False
  | Conv.match_failure t => t.pos ≤ s.pos + n
  | Conv.next t => t.pos ≤ s.pos + n





/-! ## The run of `vsscanf` with ghost counters

The properties of the value returned by `vsscanf` speak of the conversion
directives that have completed and of the assignments performed.  The loop is
run a second time with ghost values that record them; the run itself is the
one of `sloop`. -/

/-- The values of the type `int`. -/
def IntRange (x : Int) : Prop := -2 ^ 31 ≤ x ∧ x < 2 ^ 31

/-- What a directive that has completed adds to the number of conversion
directives completed: one when its conversion is one of the four cases
`CT_CHAR`, `CT_CCL`, `CT_STRING`, `CT_INT` of the second `switch` (lines
962-1208), none for a character that is no conversion. -/
def conv_done (code : Nat) : Nat := if code ≤ 3 then 1 else 0

/-- What a directive that has completed adds to the number of assignments
performed: one when it is a conversion without the flag `*`. -/
def conv_assigned (code : Nat) (flags : Flags) : Nat :=
  if code ≤ 3 ∧ flags.SUPPRESS = false then 1 else 0

/-- The end of a run of `vsscanf` with its ghost values: the way out, the
variables at the `return`, the number `done` of conversion directives that
have completed (the conversion `n` among them) and the number `assigned` of
assignments performed by conversions other than `n`. -/
structure Ghost where
  exit : Exit
  state : Scan
  done : Nat
  assigned : Nat
  deriving DecidableEq

/-- The loop `for (;;)` of `vsscanf` (lines 803-1211) as in `sloop`, with the
ghost counters `n` of the conversion directives completed and `a` of the
assignments performed, and with the variables at the `return`. -/
def sloop_ghost (W : Nat) (mem : List Nat) :
    List Nat → SMode → Scan → Nat → Nat → Option Ghost
  | [], _, _, _, _ => none
  | _ :: fmt, SMode.text (k + 1), s, n, a => sloop_ghost W mem fmt (SMode.text k) s n a
  | c :: fmt, SMode.text 0, s, n, a =>
    if c = 0 then some { exit := Exit.eof, state := s, done := n, assigned := a }
    else if isspace c = true then
      match ws_run (mem.drop s.pos) s with
      | none => none
      | some s => sloop_ghost W mem fmt (SMode.text 0) s n a
    else if c ≠ 37 then
      match literal mem c s with
      | Conv.fault => none
      | Conv.input_failure s =>
        some { exit := Exit.input_failure, state := s, done := n, assigned := a }
      | Conv.match_failure s =>
        some { exit := Exit.match_failure, state := s, done := n, assigned := a }
      | Conv.next s => sloop_ghost W mem fmt (SMode.text 0) s n a
    else sloop_ghost W mem fmt (SMode.spec 0 {}) s n a
  | c :: fmt, SMode.spec width flags, s, n, a =>
    if c = 37 then
      match literal mem c s with
      | Conv.fault => none
      | Conv.input_failure s =>
        some { exit := Exit.input_failure, state := s, done := n, assigned := a }
      | Conv.match_failure s =>
        some { exit := Exit.match_failure, state := s, done := n, assigned := a }
      | Conv.next s => sloop_ghost W mem fmt (SMode.text 0) s n a
    else if c = 42 then
      sloop_ghost W mem fmt (SMode.spec width { flags with SUPPRESS := true }) s n a
    else if c = 108 then
      sloop_ghost W mem fmt
        (SMode.spec width
          (if flags.LONG then { flags with LONG := false, QUAD := true }
           else { flags with LONG := true })) s n a
    else if c = 113 then sloop_ghost W mem fmt (SMode.spec width { flags with QUAD := true }) s n a
    else if c = 104 then
      sloop_ghost W mem fmt
        (SMode.spec width
          (if flags.SHORT then { flags with SHORT := false, SHORTSHORT := true }
           else { flags with SHORT := true })) s n a
    else if 48 ≤ c ∧ c ≤ 57 then
      sloop_ghost W mem fmt (SMode.spec ((width * 10 + c - 48) % 2 ^ W) flags) s n a
    else if c = 110 then
      match conv_n W flags s with
      | none => none
      | some s => sloop_ghost W mem fmt (SMode.text 0) s (n + 1) a
    else if c = 91 then
      match __sccl fmt with
      | none => none
      | some (tab, k) =>
        match conversion W mem 1 width { flags with NOSKIP := true }
            { s with ccltab := some tab } with
        | Conv.fault => none
        | Conv.input_failure s =>
          some { exit := Exit.input_failure, state := s, done := n, assigned := a }
        | Conv.match_failure s =>
          some { exit := Exit.match_failure, state := s, done := n, assigned := a }
        | Conv.next s =>
          sloop_ghost W mem fmt (SMode.text k) s (n + conv_done 1) (a + conv_assigned 1 flags)
    else
      match conversion W mem (conv_letter c flags s).1 width (conv_letter c flags s).2.1
          (conv_letter c flags s).2.2 with
      | Conv.fault => none
      | Conv.input_failure s =>
        some { exit := Exit.input_failure, state := s, done := n, assigned := a }
      | Conv.match_failure s =>
        some { exit := Exit.match_failure, state := s, done := n, assigned := a }
      | Conv.next t =>
        sloop_ghost W mem fmt (SMode.text 0) t (n + conv_done (conv_letter c flags s).1)
          (a + conv_assigned (conv_letter c flags s).1 flags)

/-- The run of `vsscanf` (as `vsscanf_run`) with the ghost values. -/
def vsscanf_ghost (W : Nat) (mem : List Nat) (fmt : List Nat) (ap : List Arg) : Option Ghost :=
  if 0 ∈ mem then
    sloop_ghost W mem fmt (SMode.text 0)
      { pos := 0, inr := wrap_int (strlen mem), nassigned := 0, nconversions := 0, nread := 0,
        base := 0, ccfn := none, ccltab := none, ap := ap, stores := [] } 0 0
  else none

/-- The counter `inr` and the pointer `inp` of the state `s` agree with the
input: `inr` characters remain from `inp` to the NUL that ends the input. -/
def Sync (mem : List Nat) (s : Scan) : Prop :=
  (s.pos : Int) + s.inr = (strlen mem : Int) ∧ 0 ≤ s.inr

/-- The input is exhausted in the state `t`: no character remains (`inr` is 0)
and `inp` is at the NUL that ends the input, or at a last character of white
space that the skip of lines 945-951 has counted without advancing `inp`. -/
def Exhausted (mem : List Nat) (t : Scan) : Prop :=
  t.inr = 0 ∧
  (t.pos = strlen mem ∨
   (t.pos + 1 = strlen mem ∧ ∃ c, mem.get? t.pos = some c ∧ isspace c = true))

/-- The counters and `inr` after one of the four cases of the second `switch`,
run without the flag `*` or with it (`sup`). -/
def case_inv (s : Scan) (sup : Bool) : Conv → Prop
  | Conv.fault => True
  | Conv.input_failure _ => False
  | Conv.match_failure t => t.nconversions = s.nconversions ∧ t.nassigned = s.nassigned
  | Conv.next t =>
    t.nconversions = s.nconversions + 1 ∧
    t.nassigned = s.nassigned + (if sup then 0 else 1) ∧ IntRange t.inr

/-- The counters and `inr` after the code of a directive that counts `kc`
conversions and `ka` assignments when it completes. -/
def conv_inv (s : Scan) (kc ka : Nat) : Conv → Prop
  | Conv.fault => True
  | Conv.input_failure t =>
    t.nconversions = s.nconversions ∧ t.nassigned = s.nassigned ∧ t.inr ≤ 0
  | Conv.match_failure t => t.nconversions = s.nconversions ∧ t.nassigned = s.nassigned
  | Conv.next t =>
    t.nconversions = s.nconversions + kc ∧ t.nassigned = s.nassigned + ka ∧ IntRange t.inr

/-- The input after the code of a directive that started with `inr` and `inp`
in agreement with the input: an input failure finds the input exhausted, and
a directive that is no conversion leaves them in agreement. -/
def conv_sync (mem : List Nat) (kc : Nat) : Conv → Prop
  | Conv.fault => True
  | Conv.input_failure t => Exhausted mem t
  | Conv.match_failure _ => True
  | Conv.next t => 0 < kc ∨ Sync mem t

/-- The ghost values `g` at the end of a run that started in the state `s`
with the ghost counters `n` and `a`: the counters of the code have grown as
the ghost counters have, an input failure finds `inr` not positive, and an
input failure before any further conversion directive has completed, from a
state in which `inr` and `inp` agree with an input shorter than `2 ^ 31`,
finds the input exhausted. -/
def ghost_bound (mem : List Nat) (s : Scan) (n a : Nat) (g : Ghost) : Prop :=
  n ≤ g.done ∧
  g.state.nconversions + n = s.nconversions + g.done ∧
  g.state.nassigned + a = s.nassigned + g.assigned ∧
  (g.exit = Exit.input_failure → g.state.inr ≤ 0) ∧
  (Sync mem s → strlen mem < 2 ^ 31 → g.done = n → g.exit = Exit.input_failure →
    Exhausted mem g.state)

/-! # Theorems -/

/-! ## Lemmas on the conversion loop -/

theorem digitval_lt {b : Nat} {c d : Nat} (h : digitval (b : Int) c = some d) : d < b := by
  unfold digitval at h
  split_ifs at h <;> simp at h <;> subst h <;> omega

theorem digitRun_cons_some {base : Int} {c d : Nat} (cs : List Nat)
    (h : digitval base c = some d) : digitRun base (c :: cs) = c :: digitRun base cs := by
  simp [digitRun, List.takeWhile, h]

theorem digitRun_cons_none {base : Int} {c : Nat} (cs : List Nat)
    (h : digitval base c = none) : digitRun base (c :: cs) = [] := by
  simp [digitRun, List.takeWhile, h]

theorem valFrom_cons {b acc c d : Nat} (cs : List Nat) (h : digitval (b : Int) c = some d) :
    valFrom b acc (c :: cs) = valFrom b (acc * b + d) cs := by
  simp [valFrom, h]

theorem le_valFrom (b : Nat) (hb : 1 ≤ b) (ds : List Nat) (acc : Nat) :
    acc ≤ valFrom b acc ds := by
  induction ds generalizing acc with
  | nil => simp [valFrom]
  | cons c cs ih =>
    have h := ih (acc * b + (digitval b c).getD 0)
    have h2 : acc ≤ acc * b := Nat.le_mul_of_pos_right acc hb
    simp only [valFrom, List.foldl_cons] at h ⊢
    omega

/-- The cutoff test of the loop is the test that the next accumulation
exceeds the limit. -/
theorem cutoff_iff (MAX b acc d : Nat) (hd : d < b) :
    (acc > MAX / b ∨ (acc = MAX / b ∧ d > MAX % b)) ↔ MAX < acc * b + d := by
  have hdm := Nat.div_add_mod MAX b
  have hml : MAX % b < b := Nat.mod_lt _ (by omega)
  constructor
  · rintro (h | ⟨h, h2⟩)
    · have : (MAX / b + 1) * b ≤ acc * b := Nat.mul_le_mul_right b h
      have e : (MAX / b + 1) * b = b * (MAX / b) + b := by ring
      omega
    · subst h
      have e : MAX / b * b = b * (MAX / b) := by ring
      omega
  · intro h
    by_contra hc
    push_neg at hc
    obtain ⟨h1, h2⟩ := hc
    rcases Nat.lt_or_ge acc (MAX / b) with h3 | h3
    · have : (acc + 1) * b ≤ MAX / b * b := Nat.mul_le_mul_right b h3
      have e : (acc + 1) * b = acc * b + b := by ring
      have e2 : MAX / b * b = b * (MAX / b) := by ring
      omega
    · have h4 : acc = MAX / b := by omega
      have h5 := h2 h4
      subst h4
      have e : MAX / b * b = b * (MAX / b) := by ring
      omega

/-- Once the overflow indicator is set the loop only advances over the digit
run. -/
theorem strto_loop_neg (b : Nat) (mul cutoff cutlim M : Nat) (l : List Nat) (p acc : Nat) :
    strto_loop b mul cutoff cutlim M l p acc (-1)
      = (acc, -1, p + (digitRun b l).length) := by
  induction l generalizing p with
  | nil => simp [strto_loop, digitRun]
  | cons c cs ih =>
    cases hd : digitval (b : Int) c with
    | none => simp [strto_loop, hd, digitRun_cons_none cs hd]
    | some d =>
      simp only [strto_loop, hd, ih (p + 1), digitRun_cons_some cs hd, List.length_cons]
      simp; omega

/-- The conversion loop, started without overflow: it stops right after the
digit run; the accumulator holds the value of the run when that value does not
exceed `MAX`, and the overflow indicator is set exactly when it does. -/
theorem strto_loop_spec (b MAX M : Nat) (hb : 1 ≤ b) (hM : MAX < M) (l : List Nat)
    (p acc : Nat) (any : Int) (hany : 0 ≤ any) (hacc : acc ≤ MAX) :
    (strto_loop b b (MAX / b) (MAX % b) M l p acc any).2.2 = p + (digitRun b l).length ∧
    (valFrom b acc (digitRun b l) ≤ MAX →
      (strto_loop b b (MAX / b) (MAX % b) M l p acc any).1 = valFrom b acc (digitRun b l) ∧
      (strto_loop b b (MAX / b) (MAX % b) M l p acc any).2.1
        = if digitRun b l = [] then any else 1) ∧
    (MAX < valFrom b acc (digitRun b l) →
      (strto_loop b b (MAX / b) (MAX % b) M l p acc any).2.1 = -1) := by
  induction l generalizing p acc any with
  | nil => simp [strto_loop, digitRun, valFrom]; omega
  | cons c cs ih =>
    cases hd : digitval (b : Int) c with
    | none =>
      simp [strto_loop, hd, digitRun_cons_none cs hd, valFrom]; omega
    | some d =>
      have hdb := digitval_lt hd
      rw [digitRun_cons_some cs hd, valFrom_cons _ hd]
      have hcut := cutoff_iff MAX b acc d hdb
      by_cases hov : MAX < acc * b + d
      · have hc : any < 0 ∨ acc > MAX / b ∨ (acc = MAX / b ∧ d > MAX % b) :=
          Or.inr (hcut.mpr hov)
        have h3 := strto_loop_neg b b (MAX / b) (MAX % b) M cs (p + 1) acc
        have hge := le_valFrom b hb (digitRun b cs) (acc * b + d)
        have e : strto_loop b b (MAX / b) (MAX % b) M (c :: cs) p acc any
            = strto_loop b b (MAX / b) (MAX % b) M cs (p + 1) acc (-1) := by
          simp only [strto_loop, hd, if_pos hc]
        rw [e, h3]
        refine ⟨by simp; omega, fun h => absurd h (by omega), fun _ => rfl⟩
      · have hc : ¬ (any < 0 ∨ acc > MAX / b ∨ (acc = MAX / b ∧ d > MAX % b)) := by
          rintro (h | h)
          · omega
          · exact hov (hcut.mp h)
        have hle : acc * b + d ≤ MAX := by omega
        have e : strto_loop b b (MAX / b) (MAX % b) M (c :: cs) p acc any
            = strto_loop b b (MAX / b) (MAX % b) M cs (p + 1) (acc * b + d) 1 := by
          simp only [strto_loop, hd, if_neg hc]
          rw [Nat.mod_eq_of_lt (show acc * b + d < M by omega)]
        obtain ⟨i1, i2, i3⟩ := ih (p + 1) (acc * b + d) 1 (by decide) hle
        rw [e]
        refine ⟨by rw [i1]; simp; omega, fun h => ?_, i3⟩
        obtain ⟨j1, j2⟩ := i2 h
        refine ⟨j1, ?_⟩
        rw [j2]; simp

theorem toUnsigned_natCast (w b : Nat) (h : b < 2 ^ w) : toUnsigned w (b : Int) = b := by
  unfold toUnsigned
  have : ((b : Int) % 2 ^ w) = ((b % 2 ^ w : Nat) : Int) := by norm_cast
  rw [this, Nat.mod_eq_of_lt h]
  simp

/-- The conversion loop from `acc = 0`, `any = 0`. -/
theorem strto_loop_run (b MAX M : Nat) (hb : 1 ≤ b) (hM : MAX < M) (l : List Nat) (p : Nat) :
    ∃ acc : Nat,
      strto_loop b b (MAX / b) (MAX % b) M l p 0 0
        = (acc, (if digitRun b l = [] then 0
                 else if MAX < runValue b (digitRun b l) then -1 else 1),
           p + (digitRun b l).length) ∧
      (runValue b (digitRun b l) ≤ MAX → acc = runValue b (digitRun b l)) := by
  obtain ⟨h1, h2, h3⟩ := strto_loop_spec b MAX M hb hM l p 0 0 (le_refl _) (Nat.zero_le _)
  refine ⟨(strto_loop b b (MAX / b) (MAX % b) M l p 0 0).1, ?_, fun h => (h2 h).1⟩
  rw [Prod.ext_iff, Prod.ext_iff]
  refine ⟨rfl, ?_, h1⟩
  show (strto_loop b b (MAX / b) (MAX % b) M l p 0 0).2.1 = _
  by_cases hov : MAX < runValue b (digitRun b l)
  · have hne : digitRun b l ≠ [] := by
      intro h0; rw [h0] at hov; simp [runValue, valFrom] at hov
    rw [if_neg hne, if_pos hov]
    exact h3 hov
  · rw [(h2 (by unfold runValue at hov; omega)).2]
    by_cases hne : digitRun (b : Int) l = []
    · simp [hne]
    · simp [hne, hov]

/-- The statements after the conversion loop of the unsigned decoders. -/
theorem unsigned_finish (MAX M acc v p : Nat) (neg : Bool) (run : List Nat)
    (hacc : v ≤ MAX → acc = v) (hrun : run = [] → v = 0) :
    ((if (if run = [] then (0 : Int) else if MAX < v then -1 else 1) < 0 then MAX
      else if neg then (M - acc) % M else acc),
     (if (if run = [] then (0 : Int) else if MAX < v then -1 else 1) ≠ 0 then p + run.length
      else 0))
    = (if MAX < v then MAX else if neg then (M - v) % M else v,
       if run = [] then 0 else p + run.length) := by
  by_cases hne : run = []
  · have hv := hrun hne
    have ha := hacc (by omega)
    subst hv; subst ha
    simp [hne]
  · by_cases hov : MAX < v
    · simp [hne, hov]
    · have ha := hacc (by omega)
      subst ha
      simp [hne, hov]

/-- The result of `strtoul` from the result of its prefix scan. -/
theorem strtoul_of_start (W : Nat) (nptr : List Nat) (base : Int) (neg : Bool) (b p : Nat)
    (l : List Nat) (h : strto_start nptr base = (neg, (b : Int), p, l))
    (hb : 1 ≤ b) (hbW : b < 2 ^ W) :
    strtoul W nptr base = unsignedResult W neg b p l := by
  have hM : 2 ^ W - 1 < 2 ^ W := by
    have : 1 ≤ 2 ^ W := Nat.one_le_two_pow
    omega
  obtain ⟨acc, e, hacc⟩ := strto_loop_run b (2 ^ W - 1) (2 ^ W) hb hM l p
  simp only [strtoul, strtoul_scan, h, toUnsigned_natCast W b hbW, ULONG_MAX, e, unsignedResult]
  exact unsigned_finish (2 ^ W - 1) (2 ^ W) acc _ p neg _ hacc
    (fun h0 => by rw [h0]; rfl)

/-- The result of `strtouq` from the result of its prefix scan. -/
theorem strtouq_of_start (nptr : List Nat) (base : Int) (neg : Bool) (b p : Nat)
    (l : List Nat) (h : strto_start nptr base = (neg, (b : Int), p, l))
    (hb : 1 ≤ b) (hbW : b < 2 ^ 32) :
    strtouq nptr base = unsignedResult 64 neg b p l := by
  have hM : 2 ^ 64 - 1 < 2 ^ 64 := by norm_num
  obtain ⟨acc, e, hacc⟩ := strto_loop_run b (2 ^ 64 - 1) (2 ^ 64) hb hM l p
  simp only [strtouq, strtouq_scan, h, toUnsigned_natCast 32 b hbW, ULLONG_MAX, e,
    unsignedResult]
  exact unsigned_finish (2 ^ 64 - 1) (2 ^ 64) acc _ p neg _ hacc
    (fun h0 => by rw [h0]; rfl)

/-- The scan of `strtoq` from the result of its prefix scan. -/
theorem strtoq_scan_of_start (nptr : List Nat) (base : Int) (neg : Bool) (b p : Nat)
    (l : List Nat) (h : strto_start nptr base = (neg, (b : Int), p, l))
    (hb : 1 ≤ b) (hbW : b < 2 ^ 32) :
    ∃ acc : Nat,
      strtoq_scan nptr base
        = (neg, acc, (if digitRun b l = [] then 0
                 else if strtoq_limit neg < runValue b (digitRun b l) then -1 else 1),
           p + (digitRun b l).length) ∧
      (runValue b (digitRun b l) ≤ strtoq_limit neg → acc = runValue b (digitRun b l)) := by
  have hM : strtoq_limit neg < 2 ^ 64 := by unfold strtoq_limit; cases neg <;> norm_num
  obtain ⟨acc, e, hacc⟩ := strto_loop_run b (strtoq_limit neg) (2 ^ 64) hb hM l p
  refine ⟨acc, ?_, hacc⟩
  have hc : (if neg = true then
      (toUnsigned 64 (-(LLONG_MIN + LLONG_MAX)) + LLONG_MAX.toNat) % 2 ^ 64
      else LLONG_MAX.toNat) = strtoq_limit neg := by
    cases neg <;> simp [strtoq_limit, toUnsigned, LLONG_MIN, LLONG_MAX]
  simp only [strtoq_scan, h, toUnsigned_natCast 32 b hbW, hc, e]

theorem toInt64_neg (v : Nat) (hv : v ≤ 2 ^ 63) :
    toInt64 ((2 ^ 64 - v) % 2 ^ 64) = -(v : Int) := by
  unfold toInt64
  rw [Nat.mod_mod]
  rcases Nat.eq_zero_or_pos v with h | h
  · subst h; simp
  · have e : (2 ^ 64 - v) % 2 ^ 64 = 2 ^ 64 - v := Nat.mod_eq_of_lt (by omega)
    rw [e]
    have : ¬ (2 ^ 64 - v < 2 ^ 63) := by omega
    rw [if_neg this]
    omega

theorem toInt64_pos (v : Nat) (hv : v < 2 ^ 63) : toInt64 v = (v : Int) := by
  unfold toInt64
  have e : v % 2 ^ 64 = v := Nat.mod_eq_of_lt (by omega)
  rw [e, if_pos hv]

/-- The result of `strtoq` from the result of its prefix scan. -/
theorem strtoq_of_start (nptr : List Nat) (base : Int) (neg : Bool) (b p : Nat)
    (l : List Nat) (h : strto_start nptr base = (neg, (b : Int), p, l))
    (hb : 1 ≤ b) (hbW : b < 2 ^ 32) :
    strtoq nptr base = signedResult neg b p l := by
  obtain ⟨acc, e, hacc⟩ := strtoq_scan_of_start nptr base neg b p l h hb hbW
  simp only [strtoq, e, signedResult]
  have hmin : toInt64 (toUnsigned 64 LLONG_MIN) = LLONG_MIN := by decide
  have hmax : toInt64 (toUnsigned 64 LLONG_MAX) = LLONG_MAX := by decide
  have hzero : toInt64 0 = 0 := by decide
  have hmz : toInt64 ((2 ^ 64 - 0) % 2 ^ 64) = 0 := by decide
  by_cases hne : digitRun (b : Int) l = []
  · have hv : runValue b (digitRun (b : Int) l) = 0 := by rw [hne]; rfl
    have ha := hacc (by rw [hv]; exact Nat.zero_le _)
    rw [hv] at ha ⊢
    subst ha
    cases neg <;> simp [hne, hzero, hmz]
  · by_cases hov : strtoq_limit neg < runValue b (digitRun b l)
    · cases neg <;> simp [hne, hov, hmin, hmax]
    · have ha := hacc (by omega)
      subst ha
      cases neg
      · have hl : strtoq_limit false = 2 ^ 63 - 1 := rfl
        have := toInt64_pos (runValue b (digitRun (b : Int) l)) (by rw [hl] at hov; omega)
        simp [hne, hov, this]
      · have hl : strtoq_limit true = 2 ^ 63 := rfl
        have := toInt64_neg (runValue b (digitRun (b : Int) l)) (by rw [hl] at hov; omega)
        simp [hne, hov]
        norm_num at this
        exact this

/-! ## Lemmas on the prefix scan -/

theorem skip_space_append (ws l : List Nat) (p : Nat) (hws : ∀ c ∈ ws, isspace c = true) :
    skip_space (ws ++ l) p = skip_space l (p + ws.length) := by
  induction ws generalizing p with
  | nil => simp
  | cons c cs ih =>
    have hc : isspace c = true := hws c (by simp)
    have := ih (p + 1) (fun x hx => hws x (by simp [hx]))
    have e : p + 1 + cs.length = p + (cs.length + 1) := by omega
    rw [List.cons_append, skip_space, if_pos hc, this, List.length_cons, e]

theorem skip_space_stop (l : List Nat) (p : Nat) (h : isspace (l.headD 0) = false) :
    skip_space l p = (p, l) := by
  cases l with
  | nil => rfl
  | cons c cs => simp at h; simp [skip_space, h]

theorem strto_sign_shape (ws sg body : List Nat) (hws : ∀ c ∈ ws, isspace c = true)
    (hsg : IsSign sg body) :
    strto_sign (ws ++ sg ++ body) = (decide (sg = [45]), ws.length + sg.length, body) := by
  unfold strto_sign
  rw [List.append_assoc, skip_space_append ws _ 0 hws]
  rcases hsg with h | h | ⟨h, h1, h2, h3⟩
  · subst h
    rw [skip_space_stop _ _ (by simp [isspace])]
    simp
  · subst h
    rw [skip_space_stop _ _ (by simp [isspace])]
    simp
  · subst h
    rw [List.nil_append, skip_space_stop _ _ h1]
    dsimp only
    rw [if_neg h2, if_neg h3]
    simp

theorem strto_base_hex (base : Int) (p x : Nat) (rest : List Nat)
    (hb : base = 0 ∨ base = 16) (hx : x = 120 ∨ x = 88) :
    strto_base base p (48 :: x :: rest) = (16, p + 2, rest) := by
  unfold strto_base
  simp [hb, hx]

theorem strto_base_plain (base : Int) (p : Nat) (l : List Nat) (h : ¬ HexStart base l) :
    strto_base base p l
      = (if base = 0 then (if l.headD 0 = 48 then 8 else 10) else base, p, l) := by
  unfold strto_base
  unfold HexStart at h
  rw [if_neg h]

theorem digitval_some_char {base : Int} {c d : Nat} (h : digitval base c = some d) :
    isspace c = false ∧ c ≠ 45 ∧ c ≠ 43 ∧ c ≠ 0 := by
  unfold digitval at h
  simp only [isascii, isdigit, isalpha, isupper, islower, isspace] at *
  split_ifs at h <;> simp_all <;> omega

theorem digitval_16_x {x d : Nat} (hx : x = 120 ∨ x = 88) : digitval 16 x ≠ some d := by
  have h1 : digitval 16 120 = none := by decide
  have h2 : digitval 16 88 = none := by decide
  rcases hx with h | h <;> subst h <;> simp [h1, h2]

theorem digitRun_all (base : Int) (ds : List Nat)
    (h : ∀ c ∈ ds, (digitval base c).isSome = true) : digitRun base ds = ds := by
  unfold digitRun
  exact List.takeWhile_eq_self_iff.mpr h

theorem digitRun_append (base : Int) (ds rest : List Nat)
    (h : ∀ c ∈ ds, (digitval base c).isSome = true) :
    digitRun base (ds ++ rest) = ds ++ digitRun base rest := by
  unfold digitRun
  induction ds with
  | nil => simp
  | cons c cs ih =>
    have hc := h c (by simp)
    rw [List.cons_append, List.takeWhile_cons]
    simp only [hc, if_true]
    rw [ih (fun x hx => h x (by simp [hx]))]
    simp

theorem digitRun_stop (base : Int) (rest : List Nat) (h : digitval base (rest.headD 0) = none) :
    digitRun base rest = [] := by
  cases rest with
  | nil => rfl
  | cons c cs => simp at h; exact digitRun_cons_none cs h

/-! ## Lemmas on the digit encoder -/

theorem digitval_hex2ascii (b d : Nat) (hd : d < b) (h36 : d < 36) :
    digitval b (hex2ascii_data.getD d 0) = some d := by
  interval_cases d <;>
    simp [hex2ascii_data, digitval, isascii, isdigit, isalpha, isupper, islower] <;> omega

theorem digitval_hex2ascii_get (b d : Nat) (hd : d < b) (h36 : d < 36) :
    digitval b (hex2ascii_data[d]?.getD 0) = some d := by
  have := digitval_hex2ascii b d hd h36
  simpa using this

theorem valFrom_append (b acc : Nat) (xs ys : List Nat) :
    valFrom b acc (xs ++ ys) = valFrom b (valFrom b acc xs) ys := by
  simp [valFrom, List.foldl_append]

/-- The digits `ksprintn` stores: enough room gives a result, whose characters
are the digits of `num` in base `b`, least significant first. -/
theorem ksprintn_loop_spec (b : Nat) (hb : 2 ≤ b) (hb36 : b ≤ 36) (room num : Nat)
    (hnum : num < b ^ (room + 1)) :
    ∃ ds, ksprintn_loop (room + 1) num b false = some ds ∧ ds.length ≤ room + 1 ∧
      ds ≠ [] ∧ (∀ c ∈ ds, ∃ d, d < b ∧ digitval b c = some d) ∧
      runValue b ds.reverse = num := by
  induction room generalizing num with
  | zero =>
    have h0 : num / b = 0 := Nat.div_eq_of_lt (by simpa using hnum)
    have hm : num % b = num := Nat.mod_eq_of_lt (by simpa using hnum)
    have hlt : num < b := by simpa using hnum
    refine ⟨[hex2ascii_data.getD num 0], ?_, by simp, by simp, ?_, ?_⟩
    · simp [ksprintn_loop, h0, hm]; omega
    · intro c hc
      simp at hc; subst hc
      exact ⟨num, hlt, digitval_hex2ascii_get b num hlt (by omega)⟩
    · simp [runValue, valFrom, digitval_hex2ascii_get b num hlt (by omega)]
  | succ room ih =>
    have hmlt : num % b < b := Nat.mod_lt _ (by omega)
    have hdv := digitval_hex2ascii b (num % b) hmlt (by omega)
    by_cases h0 : num / b = 0
    · have hlt : num < b := by
        rcases Nat.lt_or_ge num b with h | h
        · exact h
        · have := Nat.div_pos h (by omega); omega
      have hm : num % b = num := Nat.mod_eq_of_lt hlt
      refine ⟨[hex2ascii_data.getD num 0], ?_, by simp, by simp, ?_, ?_⟩
      · simp [ksprintn_loop, h0, hm]; omega
      · intro c hc
        simp at hc; subst hc
        exact ⟨num, hlt, digitval_hex2ascii_get b num hlt (by omega)⟩
      · simp [runValue, valFrom, digitval_hex2ascii_get b num hlt (by omega)]
    · have hq : num / b < b ^ (room + 1) := by
        apply Nat.div_lt_of_lt_mul
        calc num < b ^ (room + 1 + 1) := hnum
          _ = b * b ^ (room + 1) := by ring
      obtain ⟨ds, e, hl, hne, hall, hv⟩ := ih (num / b) hq
      refine ⟨hex2ascii_data.getD (num % b) 0 :: ds, ?_, by simp; omega, by simp, ?_, ?_⟩
      · rw [ksprintn_loop]
        have hb0 : b ≠ 0 := by omega
        simp only [hb0, if_false, h0, ne_eq, not_false_eq_true, if_true, e]
        simp
      · intro c hc
        rcases List.mem_cons.mp hc with h | h
        · subst h; exact ⟨num % b, hmlt, hdv⟩
        · exact hall c h
      · unfold runValue at hv ⊢
        rw [List.reverse_cons, valFrom_append, hv]
        simp only [valFrom, List.foldl_cons, List.foldl_nil, hdv, Option.getD_some]
        exact Nat.div_add_mod' num b

/-- The prefix scan of a text that starts with a digit valid in base `b`
and has neither white space, sign nor prefix in front of it. -/
theorem strto_start_digits (b : Nat) (hb : 2 ≤ b) (ds : List Nat) (hne : ds ≠ [])
    (hall : ∀ c ∈ ds, (digitval b c).isSome = true) :
    strto_start ds (b : Int) = (false, (b : Int), 0, ds) := by
  obtain ⟨c, cs, rfl⟩ := List.exists_cons_of_ne_nil hne
  obtain ⟨d, hd⟩ := Option.isSome_iff_exists.mp (hall c (by simp))
  obtain ⟨h1, h2, h3, -⟩ := digitval_some_char hd
  have hs := strto_sign_shape [] [] (c :: cs) (by simp)
    (Or.inr (Or.inr ⟨rfl, by simpa using h1, by simpa using h2, by simpa using h3⟩))
  simp only [List.append_nil, List.nil_append, List.length_nil] at hs
  have hnp : ¬ HexStart (b : Int) (c :: cs) := by
    rintro ⟨hb16, -, hx⟩
    have hb16 : (b : Int) = 16 := by
      rcases hb16 with h | h
      · exfalso; have : b = 0 := by exact_mod_cast h
        omega
      · exact h
    cases cs with
    | nil => simp at hx
    | cons c2 cs2 =>
      obtain ⟨d2, hd2⟩ := Option.isSome_iff_exists.mp (hall c2 (by simp))
      rw [hb16] at hd2
      exact digitval_16_x (by simpa using hx) hd2
  unfold strto_start
  rw [hs]
  simp only [strto_base_plain _ _ _ hnp]
  have hb0 : (b : Int) ≠ 0 := by
    intro h; have : b = 0 := by exact_mod_cast h
    omega
  simp [hb0]

/-- C1: round trip.  For every value `v` of a `W` bit unsigned machine word and
every base `b` in `[2, 36]`, `ksprintn v b` (lower case) yields digits which,
read most significant digit first, `strtoul` decodes in base `b` to exactly
`v`, with the end position at the end of the digit text. -/
theorem ksprintn_strtoul_roundtrip (W v b : Nat) (hW : 6 ≤ W) (hW64 : W ≤ 64)
    (hv : v < 2 ^ W) (hb : 2 ≤ b) (hb36 : b ≤ 36) :
    ∃ ds, ksprintn v b false = some ds ∧
      strtoul W ds.reverse (b : Int) = (v, ds.length) := by
  have h64 : v < b ^ (63 + 1) := by
    calc v < 2 ^ W := hv
      _ ≤ 2 ^ 64 := Nat.pow_le_pow_right (by norm_num) hW64
      _ ≤ b ^ 64 := Nat.pow_le_pow_left hb 64
  obtain ⟨ds, e, -, hne, hall, hval⟩ := ksprintn_loop_spec b hb hb36 63 v h64
  refine ⟨ds, e, ?_⟩
  have hall2 : ∀ c ∈ ds.reverse, (digitval b c).isSome = true := by
    intro c hc
    obtain ⟨d, -, hd⟩ := hall c (List.mem_reverse.mp hc)
    simp [hd]
  have hne2 : ds.reverse ≠ [] := by simpa using hne
  have hbW : b < 2 ^ W := by
    calc b < 2 ^ 6 := by norm_num; omega
      _ ≤ 2 ^ W := Nat.pow_le_pow_right (by norm_num) hW
  rw [strtoul_of_start W ds.reverse b false b 0 ds.reverse
    (strto_start_digits b hb ds.reverse hne2 hall2) (by omega) hbW]
  unfold unsignedResult
  rw [digitRun_all _ _ hall2, hval]
  have hmax : ¬ 2 ^ W - 1 < v := by omega
  simp [hmax, hne]

/-- C1 at `W = 64`, `v = 2 ^ 64 - 1`, `b = 36`. -/
theorem ksprintn_strtoul_roundtrip_witness :
    ∃ ds, ksprintn (2 ^ 64 - 1) 36 false = some ds ∧
      strtoul 64 ds.reverse ((36 : Nat) : Int) = (2 ^ 64 - 1, ds.length) :=
  ksprintn_strtoul_roundtrip 64 (2 ^ 64 - 1) 36 (by decide) (by decide) (by decide)
    (by decide) (by decide)

/-! ## The prefix scan of a text given by its parts -/

theorem strto_start_plain (base : Int) (ws sg body : List Nat)
    (hws : ∀ c ∈ ws, isspace c = true) (hsg : IsSign sg body) (hnp : ¬ HexStart base body) :
    strto_start (ws ++ sg ++ body) base
      = (decide (sg = [45]),
         if base = 0 then (if body.headD 0 = 48 then 8 else 10) else base,
         ws.length + sg.length, body) := by
  unfold strto_start
  rw [strto_sign_shape ws sg body hws hsg]
  simp only [strto_base_plain _ _ _ hnp]

theorem strto_start_hex (base : Int) (ws sg : List Nat) (x : Nat) (body : List Nat)
    (hws : ∀ c ∈ ws, isspace c = true) (hsg : sg = [] ∨ sg = [43] ∨ sg = [45])
    (hb : base = 0 ∨ base = 16) (hx : x = 120 ∨ x = 88) :
    strto_start (ws ++ sg ++ 48 :: x :: body) base
      = (decide (sg = [45]), 16, ws.length + sg.length + 2, body) := by
  have hs : IsSign sg (48 :: x :: body) := by
    rcases hsg with h | h | h
    · exact Or.inr (Or.inr ⟨h, by simp [isspace], by simp, by simp⟩)
    · exact Or.inr (Or.inl h)
    · exact Or.inl h
  unfold strto_start
  rw [strto_sign_shape ws sg _ hws hs]
  simp only [strto_base_hex base _ x body hb hx]

theorem strto_loop_stop (base : Int) (mul cutoff cutlim M : Nat) (l : List Nat) (p acc : Nat)
    (any : Int) (h : digitval base (l.headD 0) = none) :
    strto_loop base mul cutoff cutlim M l p acc any = (acc, any, p) := by
  cases l with
  | nil => rfl
  | cons c cs =>
    simp only [List.headD_cons] at h
    simp only [strto_loop, h]

/-- The three decoders on a text whose prefix scan ends on a character that is
not a digit. -/
theorem strto_stop (W : Nat) (nptr : List Nat) (base B : Int) (neg : Bool) (p : Nat)
    (l : List Nat) (h : strto_start nptr base = (neg, B, p, l))
    (hd : digitval B (l.headD 0) = none) :
    strtoul W nptr base = (0, 0) ∧ strtoq nptr base = (0, 0) ∧ strtouq nptr base = (0, 0) := by
  have hz : toInt64 0 = 0 := by decide
  refine ⟨?_, ?_, ?_⟩
  · simp only [strtoul, strtoul_scan, h, strto_loop_stop _ _ _ _ _ _ _ _ _ hd]
    cases neg <;> simp
  · simp only [strtoq, strtoq_scan, h, strto_loop_stop _ _ _ _ _ _ _ _ _ hd]
    cases neg <;> simp [hz]
  · simp only [strtouq, strtouq_scan, h, strto_loop_stop _ _ _ _ _ _ _ _ _ hd]
    cases neg <;> simp

/-- C8: no digits.  Let the text be white space `ws`, an optional sign `sg`,
an optional prefix `px` (`0x` or `0X`, taken when the requested base is 0 or
16) and a rest whose first character is not a digit of the chosen base (base
16 after a prefix, else base 10 for a requested base 0, else the requested
base).  Then `strtoul`, `strtoq` and `strtouq` return 0 and report the start
of the text as the end position. -/
theorem strto_no_digits (W : Nat) (base : Int) (ws sg px rest : List Nat)
    (hws : ∀ c ∈ ws, isspace c = true) (hsg : IsSign sg (px ++ rest))
    (hpx : (px = [] ∧ digitval (if base = 0 then 10 else base) (rest.headD 0) = none) ∨
      ((base = 0 ∨ base = 16) ∧ (px = [48, 120] ∨ px = [48, 88]) ∧
        digitval 16 (rest.headD 0) = none)) :
    strtoul W (ws ++ sg ++ px ++ rest) base = (0, 0) ∧
    strtoq (ws ++ sg ++ px ++ rest) base = (0, 0) ∧
    strtouq (ws ++ sg ++ px ++ rest) base = (0, 0) := by
  rcases hpx with ⟨hp, hd⟩ | ⟨hb, hp, hd⟩
  · subst hp
    simp only [List.append_nil, List.nil_append] at hsg ⊢
    have h48 : rest.headD 0 ≠ 48 ∨ (base ≠ 0 ∧ base ≠ 16) := by
      by_cases h : rest.headD 0 = 48
      · right
        rw [h] at hd
        refine ⟨?_, ?_⟩
        · intro h0; rw [if_pos h0] at hd; exact absurd hd (by decide)
        · intro h16
          rw [if_neg (by rw [h16]; decide), h16] at hd
          exact absurd hd (by decide)
      · exact Or.inl h
    have hnp : ¬ HexStart base rest := by
      rintro ⟨h1, h2, -⟩
      rcases h48 with h | ⟨h, h'⟩
      · exact h h2
      · rcases h1 with h1 | h1
        · exact h h1
        · exact h' h1
    apply strto_stop W _ base _ _ _ _ (strto_start_plain base ws sg rest hws hsg hnp)
    by_cases h0 : base = 0
    · rw [if_pos h0] at hd ⊢
      have : rest.headD 0 ≠ 48 := by
        rcases h48 with h | ⟨h, -⟩
        · exact h
        · exact absurd h0 h
      rw [if_neg this]; exact hd
    · rw [if_neg h0] at hd ⊢; exact hd
  · have hsg' : sg = [] ∨ sg = [43] ∨ sg = [45] := by
      rcases hsg with h | h | ⟨h, -⟩
      · exact Or.inr (Or.inr h)
      · exact Or.inr (Or.inl h)
      · exact Or.inl h
    rcases hp with hp | hp <;> subst hp
    · have := strto_start_hex base ws sg 120 rest hws hsg' hb (Or.inl rfl)
      rw [List.append_assoc (ws ++ sg)]
      exact strto_stop W _ base _ _ _ _ this hd
    · have := strto_start_hex base ws sg 88 rest hws hsg' hb (Or.inr rfl)
      rw [List.append_assoc (ws ++ sg)]
      exact strto_stop W _ base _ _ _ _ this hd

/-- C8 on the text `"  -0xg"` in base 16. -/
theorem strto_no_digits_witness :
    strtoul 64 ([32, 32] ++ [45] ++ [48, 120] ++ [103]) 16 = (0, 0) ∧
    strtoq ([32, 32] ++ [45] ++ [48, 120] ++ [103]) 16 = (0, 0) ∧
    strtouq ([32, 32] ++ [45] ++ [48, 120] ++ [103]) 16 = (0, 0) :=
  strto_no_digits 64 16 [32, 32] [45] [48, 120] [103] (by decide) (Or.inl rfl)
    (Or.inr ⟨Or.inr rfl, Or.inl rfl, by decide⟩)

theorem strto_start_parts (base : Int) (B : Nat) (ws sg px body : List Nat)
    (hws : ∀ c ∈ ws, isspace c = true) (hsg : sg = [] ∨ sg = [43] ∨ sg = [45])
    (hbody : (digitval B (body.headD 0)).isSome = true) (hpx : Chosen base px body B) :
    strto_start (ws ++ sg ++ px ++ body) base
      = (decide (sg = [45]), (B : Int), ws.length + sg.length + px.length, body) := by
  rcases hpx with ⟨hp, hnp, hB⟩ | ⟨hb, hp, hB⟩
  · subst hp
    obtain ⟨d, hd⟩ := Option.isSome_iff_exists.mp hbody
    obtain ⟨h1, h2, h3, -⟩ := digitval_some_char hd
    have hs : IsSign sg body := by
      rcases hsg with h | h | h
      · exact Or.inr (Or.inr ⟨h, h1, h2, h3⟩)
      · exact Or.inr (Or.inl h)
      · exact Or.inl h
    rw [List.append_nil, strto_start_plain base ws sg body hws hs hnp, hB]
    simp
  · subst hB
    rcases hp with hp | hp <;> subst hp
    · rw [List.append_assoc (ws ++ sg)]
      exact strto_start_hex base ws sg 120 body hws hsg hb (Or.inl rfl)
    · rw [List.append_assoc (ws ++ sg)]
      exact strto_start_hex base ws sg 88 body hws hsg hb (Or.inr rfl)

theorem pow_six_le (W : Nat) (hW : 6 ≤ W) (B : Nat) (hB : B ≤ 36) : B < 2 ^ W :=
  calc B < 2 ^ 6 := by norm_num; omega
    _ ≤ 2 ^ W := Nat.pow_le_pow_right (by norm_num) hW

theorem digitRun_parts (B : Nat) (ds rest : List Nat)
    (hds : ∀ c ∈ ds, (digitval B c).isSome = true)
    (hrest : digitval B (rest.headD 0) = none) : digitRun B (ds ++ rest) = ds := by
  rw [digitRun_append _ _ _ hds, digitRun_stop _ _ hrest, List.append_nil]

theorem headD_append_ne (ds rest : List Nat) (hne : ds ≠ []) :
    (ds ++ rest).headD 0 = ds.headD 0 := by
  cases ds with
  | nil => exact absurd rfl hne
  | cons c cs => rfl

theorem head_isSome (B : Nat) (ds : List Nat) (hne : ds ≠ [])
    (hds : ∀ c ∈ ds, (digitval B c).isSome = true) :
    (digitval B (ds.headD 0)).isSome = true := by
  cases ds with
  | nil => exact absurd rfl hne
  | cons c cs => exact hds c (by simp)

/-- C9: end position.  Let the text be white space `ws`, an optional sign
`sg`, the prefix `px` and base `B` the decoders choose, a non-empty run `ds`
of digits valid in base `B`, and a rest whose first character is not such a
digit.  Then each decoder reports the position right after `ds` as the end,
whatever the value of the run (also when it overflows and is clamped). -/
theorem strto_endptr (W : Nat) (hW : 6 ≤ W) (base : Int) (B : Nat) (hB : 1 ≤ B)
    (hB36 : B ≤ 36) (ws sg px ds rest : List Nat)
    (hws : ∀ c ∈ ws, isspace c = true) (hsg : sg = [] ∨ sg = [43] ∨ sg = [45])
    (hpx : Chosen base px (ds ++ rest) B) (hne : ds ≠ [])
    (hds : ∀ c ∈ ds, (digitval B c).isSome = true)
    (hrest : digitval B (rest.headD 0) = none) :
    (strtoul W (ws ++ sg ++ px ++ (ds ++ rest)) base).2
      = ws.length + sg.length + px.length + ds.length ∧
    (strtoq (ws ++ sg ++ px ++ (ds ++ rest)) base).2
      = ws.length + sg.length + px.length + ds.length ∧
    (strtouq (ws ++ sg ++ px ++ (ds ++ rest)) base).2
      = ws.length + sg.length + px.length + ds.length := by
  have hhead : (digitval B ((ds ++ rest).headD 0)).isSome = true := by
    rw [headD_append_ne ds rest hne]; exact head_isSome B ds hne hds
  have hpf := strto_start_parts base B ws sg px (ds ++ rest) hws hsg hhead hpx
  have hBW := pow_six_le W hW B hB36
  have hB32 := pow_six_le 32 (by norm_num) B hB36
  have hrun := digitRun_parts B ds rest hds hrest
  rw [strtoul_of_start W _ base _ B _ _ hpf hB hBW, strtoq_of_start _ base _ B _ _ hpf hB hB32,
    strtouq_of_start _ base _ B _ _ hpf hB hB32]
  simp [unsignedResult, signedResult, hrun, hne]

/-- C9 on the text `" +0x" ++ "ffffffffffffffffff" ++ "g"` in base 0: the 18
hexadecimal digits overflow 64 bits and the end position is 22. -/
theorem strto_endptr_witness :
    (strtoul 64 ([32] ++ [43] ++ [48, 120] ++ (List.replicate 18 102 ++ [103])) 0).2
      = [32].length + [43].length + [48, 120].length + (List.replicate 18 102).length ∧
    (strtoq ([32] ++ [43] ++ [48, 120] ++ (List.replicate 18 102 ++ [103])) 0).2
      = [32].length + [43].length + [48, 120].length + (List.replicate 18 102).length ∧
    (strtouq ([32] ++ [43] ++ [48, 120] ++ (List.replicate 18 102 ++ [103])) 0).2
      = [32].length + [43].length + [48, 120].length + (List.replicate 18 102).length :=
  strto_endptr 64 (by decide) 0 16 (by decide) (by decide) [32] [43] [48, 120]
    (List.replicate 18 102) [103] (by decide) (Or.inr (Or.inl rfl))
    (Or.inr ⟨Or.inl rfl, Or.inl rfl, rfl⟩) (by decide) (by decide) (by decide)

theorem runValue_append_ge (b : Nat) (hb : 1 ≤ b) (ds more : List Nat) :
    runValue b ds ≤ runValue b (ds ++ more) := by
  unfold runValue
  rw [valFrom_append]
  exact le_valFrom b hb more _

/-- A digit run with a nonzero value in base 16 is not taken for a `0x`
prefix. -/
theorem not_hexStart_of_value (b : Nat) (ds rest : List Nat)
    (hds : ∀ c ∈ ds, (digitval b c).isSome = true) (hv : runValue b ds ≠ 0) :
    ¬ HexStart (b : Int) (ds ++ rest) := by
  rintro ⟨hb, h48, hx⟩
  cases ds with
  | nil => exact hv rfl
  | cons c cs =>
    simp only [List.cons_append, List.headD_cons] at h48
    subst h48
    cases cs with
    | nil =>
      apply hv
      rcases hb with hb | hb
      · have : b = 0 := by exact_mod_cast hb
        subst this; rfl
      · have : b = 16 := by exact_mod_cast hb
        subst this; rfl
    | cons c2 cs2 =>
      simp only [List.cons_append, List.tail_cons, List.headD_cons] at hx
      obtain ⟨d2, hd2⟩ := Option.isSome_iff_exists.mp (hds c2 (by simp))
      rcases hb with hb | hb
      · have hb0 : b = 0 := by exact_mod_cast hb
        have := digitval_lt hd2
        omega
      · rw [hb] at hd2
        exact digitval_16_x hx hd2

/-- C7: saturation.  Let the text be white space `ws`, an optional sign `sg`,
an optional prefix `px` (`0x` or `0X`, in base 16 only), a run `ds` of digits
valid in base `b` (with `2 ≤ b ≤ 36`) and any rest.  When the value of `ds`
exceeds the maximum of the type, `strtoul` returns `ULONG_MAX` and `strtouq`
returns `ULLONG_MAX`, with or without a `-` sign; `strtoq` returns `LLONG_MAX`
when the text has no `-` and the value exceeds `LLONG_MAX`, and `LLONG_MIN`
when the text has a `-` and the value exceeds `2 ^ 63`. -/
theorem strto_saturation (W b : Nat) (hW : 6 ≤ W) (hb : 2 ≤ b) (hb36 : b ≤ 36)
    (ws sg px ds rest : List Nat)
    (hws : ∀ c ∈ ws, isspace c = true) (hsg : sg = [] ∨ sg = [43] ∨ sg = [45])
    (hpx : px = [] ∨ (b = 16 ∧ (px = [48, 120] ∨ px = [48, 88])))
    (hds : ∀ c ∈ ds, (digitval b c).isSome = true) :
    (ULONG_MAX W < runValue b ds →
      (strtoul W (ws ++ sg ++ px ++ (ds ++ rest)) b).1 = ULONG_MAX W) ∧
    (ULLONG_MAX < runValue b ds →
      (strtouq (ws ++ sg ++ px ++ (ds ++ rest)) b).1 = ULLONG_MAX) ∧
    (sg ≠ [45] → LLONG_MAX < (runValue b ds : Int) →
      (strtoq (ws ++ sg ++ px ++ (ds ++ rest)) b).1 = LLONG_MAX) ∧
    (sg = [45] → 2 ^ 63 < runValue b ds →
      (strtoq (ws ++ sg ++ px ++ (ds ++ rest)) b).1 = LLONG_MIN) := by
  by_cases hv : runValue b ds = 0
  · rw [hv]
    refine ⟨fun h => absurd h (by omega), fun h => absurd h (by omega),
      fun _ h => absurd h (by simp [LLONG_MAX]), fun _ h => absurd h (by omega)⟩
  have hne : ds ≠ [] := by
    intro h; rw [h] at hv; exact hv rfl
  have hhead : (digitval b ((ds ++ rest).headD 0)).isSome = true := by
    rw [headD_append_ne ds rest hne]; exact head_isSome b ds hne hds
  have hb0 : (b : Int) ≠ 0 := by
    intro h; have : b = 0 := by exact_mod_cast h
    omega
  have hch : Chosen (b : Int) px (ds ++ rest) b := by
    rcases hpx with h | ⟨h16, h⟩
    · exact Or.inl ⟨h, not_hexStart_of_value b ds rest hds hv, by rw [if_neg hb0]⟩
    · exact Or.inr ⟨Or.inr (by exact_mod_cast h16), h, h16⟩
  have hpf := strto_start_parts (b : Int) b ws sg px (ds ++ rest) hws hsg hhead hch
  have hBW := pow_six_le W hW b hb36
  have hB32 := pow_six_le 32 (by norm_num) b hb36
  have hge : runValue b ds ≤ runValue b (digitRun b (ds ++ rest)) := by
    rw [digitRun_append _ _ _ hds]
    exact runValue_append_ge b (by omega) ds _
  rw [strtoul_of_start W _ _ _ b _ _ hpf (by omega) hBW,
    strtoq_of_start _ _ _ b _ _ hpf (by omega) hB32,
    strtouq_of_start _ _ _ b _ _ hpf (by omega) hB32]
  refine ⟨fun h => ?_, fun h => ?_, fun hs h => ?_, fun hs h => ?_⟩
  · have : 2 ^ W - 1 < runValue b (digitRun b (ds ++ rest)) := by
      unfold ULONG_MAX at h; omega
    simp only [unsignedResult, if_pos this, ULONG_MAX]
  · have : 2 ^ 64 - 1 < runValue b (digitRun b (ds ++ rest)) := by
      unfold ULLONG_MAX at h; omega
    simp only [unsignedResult, if_pos this, ULLONG_MAX]
  · have hd : decide (sg = [45]) = false := by simp [hs]
    have : strtoq_limit false < runValue b (digitRun b (ds ++ rest)) := by
      have hl : strtoq_limit false = 2 ^ 63 - 1 := rfl
      have h' : (2 ^ 63 - 1 : Int) < (runValue b ds : Int) := by simpa [LLONG_MAX] using h
      rw [hl]; omega
    simp only [signedResult, hd, if_pos this]
    rfl
  · have hd : decide (sg = [45]) = true := by simp [hs]
    have : strtoq_limit true < runValue b (digitRun b (ds ++ rest)) := by
      have hl : strtoq_limit true = 2 ^ 63 := rfl
      rw [hl]; omega
    simp only [signedResult, hd, if_pos this]
    rfl

/-- C7 on the text `"-99999999999999999999"` (and the same without the sign
for `LLONG_MAX`) in base 10. -/
theorem strto_saturation_witness :
    (strtoul 64 ([] ++ [45] ++ [] ++ (List.replicate 20 57 ++ [])) ((10 : Nat) : Int)).1
      = ULONG_MAX 64 ∧
    (strtouq ([] ++ [45] ++ [] ++ (List.replicate 20 57 ++ [])) ((10 : Nat) : Int)).1
      = ULLONG_MAX ∧
    (strtoq ([] ++ [45] ++ [] ++ (List.replicate 20 57 ++ [])) ((10 : Nat) : Int)).1
      = LLONG_MIN ∧
    (strtoq ([] ++ [] ++ [] ++ (List.replicate 20 57 ++ [])) ((10 : Nat) : Int)).1
      = LLONG_MAX :=
  ⟨(strto_saturation 64 10 (by decide) (by decide) (by decide) [] [45] []
      (List.replicate 20 57) [] (by decide) (Or.inr (Or.inr rfl)) (Or.inl rfl)
      (by decide)).1 (by decide),
   (strto_saturation 64 10 (by decide) (by decide) (by decide) [] [45] []
      (List.replicate 20 57) [] (by decide) (Or.inr (Or.inr rfl)) (Or.inl rfl)
      (by decide)).2.1 (by decide),
   (strto_saturation 64 10 (by decide) (by decide) (by decide) [] [45] []
      (List.replicate 20 57) [] (by decide) (Or.inr (Or.inr rfl)) (Or.inl rfl)
      (by decide)).2.2.2 rfl (by decide),
   (strto_saturation 64 10 (by decide) (by decide) (by decide) [] [] []
      (List.replicate 20 57) [] (by decide) (Or.inl rfl) (Or.inl rfl)
      (by decide)).2.2.1 (by decide) (by decide)⟩

/-- C10: base selection, in `strtoul`, `strtoq` and `strtouq`.  After white
space `ws` and an optional sign `sg`: (1) when the requested base is 0 or 16
and the text goes on with `0x` or `0X`, the text after the prefix is decoded
in base 16; (2) otherwise, when the requested base is 0 and the text starts
with `0`, it is decoded in base 8; (3) when the requested base is 0 and the
text does not start with `0`, it is decoded in base 10. -/
theorem strto_base_choice (W : Nat) (hW : 6 ≤ W) (ws sg body : List Nat)
    (hws : ∀ c ∈ ws, isspace c = true) :
    (∀ (base : Int) (x : Nat), (base = 0 ∨ base = 16) → (x = 120 ∨ x = 88) →
      (sg = [] ∨ sg = [43] ∨ sg = [45]) →
      strtoul W (ws ++ sg ++ 48 :: x :: body) base
        = unsignedResult W (decide (sg = [45])) 16 (ws.length + sg.length + 2) body ∧
      strtoq (ws ++ sg ++ 48 :: x :: body) base
        = signedResult (decide (sg = [45])) 16 (ws.length + sg.length + 2) body ∧
      strtouq (ws ++ sg ++ 48 :: x :: body) base
        = unsignedResult 64 (decide (sg = [45])) 16 (ws.length + sg.length + 2) body) ∧
    (IsSign sg body → ¬ HexStart 0 body → body.headD 0 = 48 →
      strtoul W (ws ++ sg ++ body) 0
        = unsignedResult W (decide (sg = [45])) 8 (ws.length + sg.length) body ∧
      strtoq (ws ++ sg ++ body) 0
        = signedResult (decide (sg = [45])) 8 (ws.length + sg.length) body ∧
      strtouq (ws ++ sg ++ body) 0
        = unsignedResult 64 (decide (sg = [45])) 8 (ws.length + sg.length) body) ∧
    (IsSign sg body → body.headD 0 ≠ 48 →
      strtoul W (ws ++ sg ++ body) 0
        = unsignedResult W (decide (sg = [45])) 10 (ws.length + sg.length) body ∧
      strtoq (ws ++ sg ++ body) 0
        = signedResult (decide (sg = [45])) 10 (ws.length + sg.length) body ∧
      strtouq (ws ++ sg ++ body) 0
        = unsignedResult 64 (decide (sg = [45])) 10 (ws.length + sg.length) body) := by
  refine ⟨fun base x hb hx hsg => ?_, fun hsg hnp h48 => ?_, fun hsg h48 => ?_⟩
  · have hpf := strto_start_hex base ws sg x body hws hsg hb hx
    exact ⟨strtoul_of_start W _ base _ 16 _ _ hpf (by norm_num)
        (pow_six_le W hW 16 (by norm_num)),
      strtoq_of_start _ base _ 16 _ _ hpf (by norm_num) (by norm_num),
      strtouq_of_start _ base _ 16 _ _ hpf (by norm_num) (by norm_num)⟩
  · have hpf := strto_start_plain 0 ws sg body hws hsg hnp
    simp only [if_true, if_pos h48] at hpf
    exact ⟨strtoul_of_start W _ 0 _ 8 _ _ hpf (by norm_num)
        (pow_six_le W hW 8 (by norm_num)),
      strtoq_of_start _ 0 _ 8 _ _ hpf (by norm_num) (by norm_num),
      strtouq_of_start _ 0 _ 8 _ _ hpf (by norm_num) (by norm_num)⟩
  · have hnp : ¬ HexStart 0 body := fun h => h48 h.2.1
    have hpf := strto_start_plain 0 ws sg body hws hsg hnp
    simp only [if_true, if_neg h48] at hpf
    exact ⟨strtoul_of_start W _ 0 _ 10 _ _ hpf (by norm_num)
        (pow_six_le W hW 10 (by norm_num)),
      strtoq_of_start _ 0 _ 10 _ _ hpf (by norm_num) (by norm_num),
      strtouq_of_start _ 0 _ 10 _ _ hpf (by norm_num) (by norm_num)⟩

/-- C10 on the examples of the claim: with base 0, `"0x1f"` gives 31, `"017"`
gives 15 and `"17"` gives 17. -/
theorem strto_base_choice_witness :
    strtoul 64 [48, 120, 49, 102] 0 = (31, 4) ∧ strtoul 64 [48, 49, 55] 0 = (15, 3) ∧
    strtoul 64 [49, 55] 0 = (17, 2) :=
  ⟨((strto_base_choice 64 (by decide) [] [] [49, 102] (by decide)).1 0 120 (Or.inl rfl)
      (Or.inl rfl) (Or.inl rfl)).1.trans (by decide),
   ((strto_base_choice 64 (by decide) [] [] [48, 49, 55] (by decide)).2.1
      (by unfold IsSign; decide) (by unfold HexStart; decide) (by decide)).1.trans
      (by decide),
   ((strto_base_choice 64 (by decide) [] [] [49, 55] (by decide)).2.2
      (by unfold IsSign; decide) (by decide)).1.trans (by decide)⟩

/-- A text made of digits valid in base `b` does not start with a `0x`
prefix. -/
theorem not_hexStart_digits (b : Nat) (hb : 2 ≤ b) (ts : List Nat)
    (hall : ∀ c ∈ ts, (digitval b c).isSome = true) : ¬ HexStart (b : Int) ts := by
  rintro ⟨hb16, -, hx⟩
  have hb16 : (b : Int) = 16 := by
    rcases hb16 with h | h
    · exfalso; have : b = 0 := by exact_mod_cast h
      omega
    · exact h
  cases ts with
  | nil => simp at hx
  | cons c cs =>
    cases cs with
    | nil => simp at hx
    | cons c2 cs2 =>
      obtain ⟨d2, hd2⟩ := Option.isSome_iff_exists.mp (hall c2 (by simp))
      rw [hb16] at hd2
      exact digitval_16_x (by simpa using hx) hd2

/-- The decoder `strtoq` on a sign and the digits of a magnitude within the
limit. -/
theorem strtoq_of_digits (b : Nat) (hb : 2 ≤ b) (hb36 : b ≤ 36) (neg : Bool) (m : Nat)
    (hm : m ≤ strtoq_limit neg) (ts : List Nat) (hne : ts ≠ [])
    (hall : ∀ c ∈ ts, (digitval b c).isSome = true) (hval : runValue b ts = m) :
    strtoq ((if neg then [45] else []) ++ ts) (b : Int)
      = (if neg then -(m : Int) else (m : Int), (if neg then 1 else 0) + ts.length) ∧
    (strtoq_scan ((if neg then [45] else []) ++ ts) (b : Int)).2.2.1 = 1 := by
  have hnp : ¬ HexStart (b : Int) (ts ++ []) := by
    rw [List.append_nil]; exact not_hexStart_digits b hb ts hall
  have hb0 : (b : Int) ≠ 0 := by
    intro h; have : b = 0 := by exact_mod_cast h
    omega
  have hhead : (digitval b ((ts ++ []).headD 0)).isSome = true := by
    rw [List.append_nil]; exact head_isSome b _ hne hall
  have hch : Chosen (b : Int) [] (ts ++ []) b := Or.inl ⟨rfl, hnp, by rw [if_neg hb0]⟩
  have hsg : (if neg then [45] else ([] : List Nat)) = [] ∨
      (if neg then [45] else ([] : List Nat)) = [43] ∨
      (if neg then [45] else ([] : List Nat)) = [45] := by
    cases neg <;> simp
  have hpf := strto_start_parts (b : Int) b [] (if neg then [45] else []) [] (ts ++ [])
    (by simp) hsg hhead hch
  simp only [List.nil_append, List.append_nil, List.length_nil, Nat.zero_add,
    Nat.add_zero] at hpf
  have hdec : decide ((if neg then [45] else ([] : List Nat)) = [45]) = neg := by
    cases neg <;> simp
  rw [hdec] at hpf
  have hrun : digitRun (b : Int) ts = ts := digitRun_all _ _ hall
  have hB32 := pow_six_le 32 (by norm_num) b hb36
  have hlen : (if neg then [45] else ([] : List Nat)).length = if neg then 1 else 0 := by
    cases neg <;> simp
  constructor
  · rw [strtoq_of_start _ _ _ b _ _ hpf (by omega) hB32]
    simp only [signedResult, hrun, hval, if_neg (show ¬ strtoq_limit neg < m by omega),
      if_neg hne, hlen]
  · obtain ⟨acc, e2, -⟩ := strtoq_scan_of_start _ _ _ b _ _ hpf (by omega) hB32
    rw [e2]
    simp only [hrun, hval, if_neg (show ¬ strtoq_limit neg < m by omega), if_neg hne]

/-! ## Lemmas on the output cursor -/

theorem wrap_int_add (a b : Int) : wrap_int (wrap_int a + b) = wrap_int (a + b) := by
  unfold wrap_int toSigned
  norm_num
  split_ifs <;> omega

theorem wrap_int_id (a : Int) (h1 : -2 ^ 31 ≤ a) (h2 : a < 2 ^ 31) : wrap_int a = a := by
  unfold wrap_int toSigned
  norm_num
  split_ifs <;> omega

theorem PCHARS_nil (o : Out) : PCHARS o [] = o := rfl

theorem PCHARS_cons (o : Out) (c : Nat) (cs : List Nat) :
    PCHARS o (c :: cs) = PCHARS (PCHAR o c) cs := rfl

theorem PCHARS_append (o : Out) (a b : List Nat) :
    PCHARS o (a ++ b) = PCHARS (PCHARS o a) b := by
  simp [PCHARS, List.foldl_append]

theorem PCHAR_retval (o : Out) (c : Nat) : (PCHAR o c).retval = wrap_int (o.retval + 1) := by
  unfold PCHAR; split_ifs <;> rfl

theorem wrap_int_idem (a : Int) : wrap_int (wrap_int a) = wrap_int a := by
  have := wrap_int_add a 0
  simpa using this

theorem PCHARS_retval (o : Out) (cs : List Nat) (h : wrap_int o.retval = o.retval) :
    (PCHARS o cs).retval = wrap_int (o.retval + cs.length) := by
  induction cs generalizing o with
  | nil => simp [PCHARS_nil, h]
  | cons c cs ih =>
    rw [PCHARS_cons, ih _ (by rw [PCHAR_retval, wrap_int_idem]), PCHAR_retval, wrap_int_add]
    congr 1
    simp only [List.length_cons, Nat.cast_add, Nat.cast_one]
    ring

theorem PCHARS_str_size (o : Out) (cs : List Nat) :
    (PCHARS o cs).str = o.str ++ (cs.take (o.size - 1)).map (fun c => c % 256) ∧
    (PCHARS o cs).size = o.size - min cs.length (o.size - 1) := by
  induction cs generalizing o with
  | nil => simp [PCHARS_nil]
  | cons c cs ih =>
    rw [PCHARS_cons]
    obtain ⟨i1, i2⟩ := ih (PCHAR o c)
    rw [i1, i2]
    unfold PCHAR
    by_cases h : 2 ≤ o.size
    · simp only [if_pos h]
      have e : o.size - 1 = (o.size - 1 - 1) + 1 := by omega
      constructor
      · conv_rhs => rw [e, List.take_succ_cons]
        simp
      · simp only [List.length_cons]; omega
    · simp only [if_neg h]
      have e : o.size - 1 = 0 := by omega
      simp [e]

/-- The statements `if (size >= 1) *str++ = 0; return (retval);` of lines
340-342. -/
theorem vloop_nul (W : Nat) (fmt : List Nat) (stop : Bool) (o : Out) (ap : List Arg)
    (ns : List (Nat × Int)) :
    vloop W (0 :: fmt) Mode.text stop o ap ns
      = some { str := if 1 ≤ o.size then o.str ++ [0] else o.str, retval := o.retval,
               stores := ns } := by
  simp [vloop]

/-- The interpreter passes a sequence of characters to `PCHAR` that does not
depend on the buffer or on its size: for a given count `r0` at the start there
is one sequence `e` of characters and one list of stores such that, from every
cursor with that count, the result is the cursor after `PCHAR` of each
character of `e`, and the terminator. -/
theorem vloop_spec (W : Nat) (fmt : List Nat) :
    ∀ (m : Mode) (stop : Bool) (ap : List Arg) (ns : List (Nat × Int)) (r0 : Int),
    ∃ res : Option (List Nat × List (Nat × Int)),
      ∀ o : Out, o.retval = r0 →
        vloop W fmt m stop o ap ns
          = res.map (fun t =>
              { str := if 1 ≤ (PCHARS o t.1).size then (PCHARS o t.1).str ++ [0]
                       else (PCHARS o t.1).str,
                retval := (PCHARS o t.1).retval, stores := t.2 }) := by
  induction fmt with
  | nil => intro m stop ap ns r0; exact ⟨none, fun o _ => by simp [vloop]⟩
  | cons ch fmt ih =>
    intro m stop ap ns r0
    cases m with
    | text =>
      by_cases hc : ch ≠ 37 ∨ stop = true
      · by_cases h0 : ch = 0
        · subst h0
          exact ⟨some ([], ns), fun o _ => by rw [vloop_nul]; rfl⟩
        · obtain ⟨res, hres⟩ := ih Mode.text stop ap ns (wrap_int (r0 + 1))
          refine ⟨res.map (fun t => (ch :: t.1, t.2)), fun o ho => ?_⟩
          rw [vloop, if_pos hc, if_neg h0, hres (PCHAR o ch) (by rw [PCHAR_retval, ho])]
          cases res <;> simp [PCHARS_cons]
      · obtain ⟨res, hres⟩ := ih (Mode.spec {}) stop ap ns r0
        refine ⟨res, fun o ho => ?_⟩
        rw [vloop, if_neg hc, hres o ho]
    | spec d =>
      cases hd : directive W ch fmt.head? d stop ap r0 with
      | fault => exact ⟨none, fun o ho => by rw [vloop, ho, hd]; rfl⟩
      | next m2 e stop2 ap2 ns2 =>
        by_cases he : e = []
        · subst he
          obtain ⟨res, hres⟩ := ih m2 stop2 ap2 (ns ++ ns2) r0
          refine ⟨res, fun o ho => ?_⟩
          rw [vloop, ho, hd]
          simp only [PCHARS_nil]
          exact hres o ho
        · obtain ⟨res, hres⟩ := ih m2 stop2 ap2 (ns ++ ns2) (wrap_int (wrap_int (r0 + 1) + (e.length - 1 : Nat)))
          refine ⟨res.map (fun t => (e ++ t.1, t.2)), fun o ho => ?_⟩
          rw [vloop, ho, hd]
          simp only []
          obtain ⟨c, cs, rfl⟩ := List.exists_cons_of_ne_nil he
          rw [hres (PCHARS o (c :: cs)) (by
            rw [PCHARS_cons, PCHARS_retval _ _ (by rw [PCHAR_retval, wrap_int_idem]),
              PCHAR_retval, ho, wrap_int_add, wrap_int_add]
            simp)]
          cases res with
          | none => rfl
          | some t => simp only [Option.map_some', PCHARS_append]
    | num d n =>
      cases hd : number_end { d with percent := d.percent ++ [ch] } (wrap_int (n * 10 + ch - 48))
          fmt.head? stop ap with
      | fault => exact ⟨none, fun o ho => by rw [vloop, hd]; rfl⟩
      | next m2 e stop2 ap2 ns2 =>
        have he : e = [] := by
          unfold number_end at hd
          split at hd
          · exact absurd hd (by simp)
          · split_ifs at hd <;> simp only [Step.next.injEq] at hd <;> exact hd.2.1.symm
        subst he
        obtain ⟨res, hres⟩ := ih m2 stop2 ap2 (ns ++ ns2) r0
        refine ⟨res, fun o ho => ?_⟩
        rw [vloop, hd]
        simp only [PCHARS_nil]
        exact hres o ho

/-- The result of `vsnprintf` for every capacity, from the one sequence of
characters the interpreter passes to `PCHAR`. -/
theorem vsnprintf_render (W : Nat) (fmt : Option (List Nat)) (ap : List Arg) :
    (∀ c, vsnprintf W c fmt ap = none) ∨
    ∃ (R : List Nat) (ns : List (Nat × Int)), ∀ c,
      vsnprintf W c fmt ap
        = some { str := if c = 0 then [] else R.take (c - 1) ++ [0],
                 retval := wrap_int R.length, stores := ns } := by
  obtain ⟨res, hres⟩ := vloop_spec W (match fmt with
      | none => [40, 102, 109, 116, 32, 110, 117, 108, 108, 41, 10, 0]
      | some f => f) Mode.text false ap [] 0
  cases res with
  | none =>
    left; intro c
    unfold vsnprintf
    rw [hres _ rfl]; rfl
  | some t =>
    right
    refine ⟨t.1.map (fun c => c % 256), t.2, fun c => ?_⟩
    unfold vsnprintf
    rw [hres _ rfl]
    simp only [Option.map_some', Option.some.injEq]
    obtain ⟨h1, h2⟩ := PCHARS_str_size { str := [], size := c, retval := 0 } t.1
    have h3 := PCHARS_retval { str := [], size := c, retval := 0 } t.1
      (by show wrap_int 0 = 0; decide)
    rw [h1, h2, h3]
    simp only [List.nil_append, List.length_map, zero_add, List.map_take]
    by_cases hc : c = 0
    · subst hc; simp
    · have : 1 ≤ c - min t.1.length (c - 1) := by omega
      simp [hc, this]

/-- C2: the returned count and the values stored by `%n` do not depend on the
capacity.  For every format, argument list and capacities `c1`, `c2`,
`vsnprintf` is defined for both or for none, and returns the same count and
makes the same `%n` stores; the same holds for `vsprintf`, which is
`vsnprintf` with the capacity `0xFFFFFFFF`. -/
theorem vsnprintf_length_capacity (W c1 c2 : Nat) (fmt : Option (List Nat))
    (ap : List Arg) :
    (vsnprintf W c1 fmt ap).map (fun r => (r.retval, r.stores))
      = (vsnprintf W c2 fmt ap).map (fun r => (r.retval, r.stores)) ∧
    (vsprintf W fmt ap).map (fun r => (r.retval, r.stores))
      = (vsnprintf W c1 fmt ap).map (fun r => (r.retval, r.stores)) := by
  unfold vsprintf
  rcases vsnprintf_render W fmt ap with h | ⟨R, ns, h⟩
  · simp [h]
  · simp [h]

/-- C3: bounded write.  For every format and argument list for which the
behaviour is defined there is one rendering `R` (the characters produced
without regard to the capacity, `L` of them) such that for every capacity
`c ≥ 1` `vsnprintf` writes the first `min L (c - 1)` characters of `R` and one
NUL after them, and for `c = 0` it writes nothing; the returned count is `L`
as an `int`.  With capacity 3, `"%5d"` and 42 it writes two spaces and the
terminator and returns 5. -/
theorem vsnprintf_bounded_write (W : Nat) (fmt : Option (List Nat)) (ap : List Arg) :
    ((∀ c, vsnprintf W c fmt ap = none) ∨
     ∃ (R : List Nat) (ns : List (Nat × Int)), ∀ c,
      vsnprintf W c fmt ap
        = some { str := if c = 0 then [] else R.take (min R.length (c - 1)) ++ [0],
                 retval := wrap_int R.length, stores := ns }) ∧
    vsnprintf W 3 (some [37, 53, 100, 0]) [Arg.int 42]
      = some { str := [32, 32, 0], retval := 5, stores := [] } := by
  constructor
  · rcases vsnprintf_render W fmt ap with h | ⟨R, ns, h⟩
    · exact Or.inl h
    · refine Or.inr ⟨R, ns, fun c => ?_⟩
      rw [h c]
      have : R.take (min R.length (c - 1)) = R.take (c - 1) := by
        rcases Nat.le_total R.length (c - 1) with h1 | h1
        · rw [Nat.min_eq_left h1, List.take_of_length_le h1, List.take_of_length_le (le_refl _)]
        · rw [Nat.min_eq_right h1]
      rw [this]
  · simp [vsnprintf, vloop, directive, number_end, number_step, number, number_emit, fetch_sign, ksprintn,
      ksprintn_loop, PCHARS, PCHAR, wrap_int, toSigned, toUnsigned, hex2ascii_data, MAXNBUF]

/-! ## The digits `ksprintn` stores are the digits of the number -/

theorem ksprintn_loop_digits (b : Nat) (hb : 2 ≤ b) (room num : Nat)
    (hnum : num < b ^ (room + 1)) :
    ksprintn_loop (room + 1) num b false = some (digitChars b num).reverse := by
  induction room generalizing num with
  | zero =>
    have hlt : num < b := by simpa using hnum
    have h0 : num / b = 0 := Nat.div_eq_of_lt hlt
    have hm : num % b = num := Nat.mod_eq_of_lt hlt
    have hb0 : b ≠ 0 := by omega
    rcases Nat.eq_zero_or_pos num with hz | hz
    · subst hz; simp [ksprintn_loop, digitChars, hb0, hex2ascii_data]
    · have hd : Nat.digits b num = [num] := by
        rw [Nat.digits_def' (by omega) hz, h0, hm]; simp
      simp [ksprintn_loop, digitChars, hb0, h0, hm, hd, Nat.pos_iff_ne_zero.mp hz]
  | succ room ih =>
    have hb0 : b ≠ 0 := by omega
    by_cases h0 : num / b = 0
    · have hlt : num < b := by
        rcases Nat.lt_or_ge num b with h | h
        · exact h
        · have := Nat.div_pos h (by omega); omega
      have hm : num % b = num := Nat.mod_eq_of_lt hlt
      rcases Nat.eq_zero_or_pos num with hz | hz
      · subst hz; simp [ksprintn_loop, digitChars, hb0, hex2ascii_data]
      · have hd : Nat.digits b num = [num] := by
          rw [Nat.digits_def' (by omega) hz, h0, hm]; simp
        simp [ksprintn_loop, digitChars, hb0, h0, hm, hd, Nat.pos_iff_ne_zero.mp hz]
    · have hq : num / b < b ^ (room + 1) := by
        apply Nat.div_lt_of_lt_mul
        calc num < b ^ (room + 1 + 1) := hnum
          _ = b * b ^ (room + 1) := by ring
      have hpos : 0 < num := by
        rcases Nat.eq_zero_or_pos num with hz | hz
        · subst hz; simp at h0
        · exact hz
      rw [ksprintn_loop]
      simp only [hb0, if_false, h0, ne_eq, not_false_eq_true, if_true, ih (num / b) hq]
      have hd : Nat.digits b num = (num % b) :: Nat.digits b (num / b) :=
        Nat.digits_def' (by omega) hpos
      simp [digitChars, h0, Nat.pos_iff_ne_zero.mp hpos, hd]

theorem ksprintn_digits (b : Nat) (hb : 2 ≤ b) (num : Nat) (hnum : num < 2 ^ 64) :
    ksprintn num b false = some (digitChars b num).reverse := by
  unfold ksprintn
  apply ksprintn_loop_digits b hb 63 num
  calc num < 2 ^ 64 := hnum
    _ ≤ b ^ 64 := Nat.pow_le_pow_left hb 64

/-- The characters of `digitChars` are valid digits, and no NUL. -/
theorem digitChars_valid (b : Nat) (hb : 2 ≤ b) (hb36 : b ≤ 36) (v : Nat) (c : Nat)
    (hc : c ∈ digitChars b v) : ∃ d, d < b ∧ c = hex2ascii_data.getD d 0 ∧
      digitval b c = some d := by
  unfold digitChars at hc
  by_cases hv : v = 0
  · rw [if_pos hv] at hc
    simp at hc; subst hc
    exact ⟨0, by omega, rfl, digitval_hex2ascii b 0 (by omega) (by omega)⟩
  · rw [if_neg hv] at hc
    simp only [List.mem_map, List.mem_reverse] at hc
    obtain ⟨d, hd, rfl⟩ := hc
    have hlt := Nat.digits_lt_base (by omega) hd
    exact ⟨d, hlt, rfl, digitval_hex2ascii b d hlt (by omega)⟩

theorem digitChars_ne_nil (b v : Nat) : digitChars b v ≠ [] := by
  unfold digitChars
  by_cases hv : v = 0
  · simp [hv]
  · rw [if_neg hv]
    simp only [ne_eq, List.map_eq_nil_iff, List.reverse_eq_nil_iff]
    intro h
    exact hv ((Nat.digits_eq_nil_iff_eq_zero).mp h)

/-! ## The formatter on a width or precision -/

theorem number_end_digit (d : Dir) (n : Int) (c : Nat) (stop : Bool) (ap : List Arg)
    (hc : 48 ≤ c ∧ c ≤ 57) :
    number_end d n (some c) stop ap = Step.next (Mode.num d n) [] stop ap [] := by
  unfold number_end
  simp only []
  rw [if_neg (by omega)]

theorem number_end_other (d : Dir) (n : Int) (c : Nat) (stop : Bool) (ap : List Arg)
    (hc : c < 48 ∨ c > 57) :
    number_end d n (some c) stop ap = Step.next (Mode.spec (setNum d n)) [] stop ap [] := by
  unfold number_end setNum
  simp only []
  rw [if_pos hc]

/-- The loop of lines 385-390 over the digits `ch :: cs` that end at `c`. -/
theorem vloop_num (W : Nat) (c : Nat) (rest : List Nat) (hc : c < 48 ∨ c > 57) (stop : Bool)
    (o : Out) (ap : List Arg) (ns : List (Nat × Int)) (cs : List Nat) :
    ∀ (ch : Nat) (d : Dir) (n : Int), (∀ x ∈ ch :: cs, 48 ≤ x ∧ x ≤ 57) →
      vloop W (ch :: (cs ++ c :: rest)) (Mode.num d n) stop o ap ns
        = vloop W (c :: rest)
            (Mode.spec (setNum { d with percent := d.percent ++ ch :: cs }
              (parseNum n (ch :: cs)))) stop o ap ns := by
  induction cs with
  | nil =>
    intro ch d n _
    conv_lhs => rw [vloop]
    simp only [List.nil_append, List.head?_cons]
    rw [number_end_other _ _ c stop ap hc]
    simp [PCHARS_nil, parseNum]
  | cons c2 cs ih =>
    intro ch d n h
    conv_lhs => rw [vloop]
    simp only [List.cons_append, List.head?_cons]
    rw [number_end_digit _ _ c2 stop ap (h c2 (by simp))]
    simp only [PCHARS_nil, List.append_nil]
    rw [ih c2 _ _ (fun x hx => h x (by simp [hx]))]
    simp [parseNum]

/-- The directive switch on a first digit of a width or precision. -/
theorem directive_digit (W : Nat) (ch : Nat) (peek : Option Nat) (d : Dir) (stop : Bool)
    (ap : List Arg) (r : Int) (hch : 48 ≤ ch ∧ ch ≤ 57) (h0 : ch ≠ 48 ∨ d.dot = true) :
    directive W ch peek d stop ap r
      = number_end { d with percent := d.percent ++ [ch] } (wrap_int (0 * 10 + ch - 48)) peek
          stop ap := by
  unfold directive
  simp only []
  rw [if_neg (by omega), if_neg (by omega), if_neg (by omega), if_neg (by omega),
    if_neg (by omega), if_neg (by omega)]
  rw [if_neg (by
    rintro ⟨h1, h2⟩
    rcases h0 with h | h
    · exact h h1
    · rw [h] at h2; exact absurd h2 (by decide)), if_pos hch]

/-- A width or precision in a directive: the digits `ch :: cs` that end at
`c`. -/
theorem vloop_spec_num (W : Nat) (c : Nat) (rest : List Nat) (hc : c < 48 ∨ c > 57)
    (stop : Bool) (o : Out) (ap : List Arg) (ns : List (Nat × Int)) (ch : Nat)
    (cs : List Nat) (d : Dir) (h : ∀ x ∈ ch :: cs, 48 ≤ x ∧ x ≤ 57)
    (h0 : ch ≠ 48 ∨ d.dot = true) :
    vloop W (ch :: (cs ++ c :: rest)) (Mode.spec d) stop o ap ns
      = vloop W (c :: rest)
          (Mode.spec (setNum { d with percent := d.percent ++ ch :: cs }
            (parseNum 0 (ch :: cs)))) stop o ap ns := by
  conv_lhs => rw [vloop, directive_digit W ch _ d stop ap _ (h ch (by simp)) h0]
  cases cs with
  | nil =>
    simp only [List.nil_append, List.head?_cons]
    rw [number_end_other _ _ c stop ap hc]
    simp [PCHARS_nil, parseNum]
  | cons c2 cs =>
    simp only [List.cons_append, List.head?_cons]
    rw [number_end_digit _ _ c2 stop ap (h c2 (by simp))]
    simp only [PCHARS_nil, List.append_nil]
    rw [vloop_num W c rest hc stop o ap ns cs c2 _ _ (fun x hx => h x (by simp [hx]))]
    simp [parseNum]

theorem hex2ascii_lt10 (d : Nat) (h : d < 10) : hex2ascii_data.getD d 0 = 48 + d := by
  interval_cases d <;> rfl

theorem parseNum_append (n : Int) (xs : List Nat) (c : Nat) :
    parseNum n (xs ++ [c]) = wrap_int (parseNum n xs * 10 + c - 48) := by
  simp [parseNum, List.foldl_append]

/-- The loop of lines 385-390 reads the decimal digits of `w` as `w`. -/
theorem parseNum_digits (w : Nat) (hw : w < 2 ^ 31) :
    parseNum 0 ((Nat.digits 10 w).reverse.map (fun d => hex2ascii_data.getD d 0)) = w := by
  induction w using Nat.strong_induction_on with
  | _ w ih =>
    rcases Nat.eq_zero_or_pos w with hz | hz
    · subst hz; simp [parseNum]
    · rw [Nat.digits_def' (by norm_num) hz, List.reverse_cons, List.map_append,
        List.map_singleton, parseNum_append, ih (w / 10) (Nat.div_lt_self hz (by norm_num))
          (by omega), hex2ascii_lt10 _ (Nat.mod_lt _ (by norm_num))]
      rw [wrap_int_id _ (by omega) (by omega)]
      omega

theorem digitChars_decimal (w : Nat) (c : Nat) (hc : c ∈ digitChars 10 w) :
    48 ≤ c ∧ c ≤ 57 := by
  obtain ⟨d, hd, rfl, -⟩ := digitChars_valid 10 (by norm_num) (by norm_num) w c hc
  rw [hex2ascii_lt10 d hd]; omega

theorem digitChars_head (w : Nat) (hw : 1 ≤ w) : (digitChars 10 w).headD 0 ≠ 48 := by
  unfold digitChars
  have hw0 : w ≠ 0 := by omega
  rw [if_neg hw0]
  have hne : Nat.digits 10 w ≠ [] := Nat.digits_ne_nil_iff_ne_zero.mpr hw0
  have hl := Nat.getLast_digit_ne_zero 10 hw0
  have hmem := List.getLast_mem hne
  have hlt := Nat.digits_lt_base (by norm_num) hmem
  obtain ⟨xs, x, hx⟩ : ∃ xs x, Nat.digits 10 w = xs ++ [x] :=
    ⟨_, _, (List.dropLast_append_getLast hne).symm⟩
  have hx2 : (Nat.digits 10 w).getLast hne = x := by
    simp [hx]
  rw [hx2] at hl hlt
  rw [hx]
  simp only [List.reverse_append, List.reverse_cons, List.reverse_nil, List.nil_append,
    List.singleton_append, List.map_cons, List.headD_cons]
  rw [hex2ascii_lt10 x hlt]
  omega

/-! ## The formatter on a number -/

theorem digitChars_length_le (b : Nat) (hb : 2 ≤ b) (hb36 : b ≤ 36) (v : Nat)
    (hv : v < 2 ^ 64) : (digitChars b v).length ≤ 64 := by
  have h64 : v < b ^ (63 + 1) :=
    calc v < 2 ^ 64 := hv
      _ ≤ b ^ 64 := Nat.pow_le_pow_left hb 64
  obtain ⟨ds, e, hl, -⟩ := ksprintn_loop_spec b hb hb36 63 v h64
  rw [ksprintn_loop_digits b hb 63 v h64] at e
  have := Option.some.inj e
  rw [← this] at hl
  simpa using hl

theorem digitChars_takeWhile (b : Nat) (hb : 2 ≤ b) (hb36 : b ≤ 36) (v : Nat) :
    (digitChars b v).takeWhile (fun c => c != 0) = digitChars b v := by
  apply List.takeWhile_eq_self_iff.mpr
  intro c hc
  obtain ⟨d, -, -, hd⟩ := digitChars_valid b hb hb36 v c hc
  have := (digitval_some_char hd).2.2.2
  simpa using this

/-- The label `number` with the digits of the magnitude in place of the
buffer of `ksprintn`. -/
theorem number_digits (d : Dir) (base : Nat) (hb : 2 ≤ base) (num : Nat)
    (hnum : num < 2 ^ 64) (hup : d.upper = false) :
    number d base num
      = some (number_emit d base (d.sign && decide (2 ^ 63 ≤ num))
          (if (d.sign && decide (2 ^ 63 ≤ num)) = true then (2 ^ 64 - num) % 2 ^ 64 else num)
          (digitChars base
            (if (d.sign && decide (2 ^ 63 ≤ num)) = true then (2 ^ 64 - num) % 2 ^ 64
             else num)).reverse) := by
  unfold number
  simp only [hup]
  have hm : (if (d.sign && decide (2 ^ 63 ≤ num)) = true then (2 ^ 64 - num) % 2 ^ 64 else num)
      < 2 ^ 64 := by
    split_ifs
    · exact Nat.mod_lt _ (by norm_num)
    · exact hnum
  rw [ksprintn_digits base hb _ hm]

theorem toUnsigned_nonneg (w : Nat) (v : Int) (h0 : 0 ≤ v) (h1 : v < 2 ^ w) :
    toUnsigned w v = v.toNat := by
  unfold toUnsigned
  rw [Int.emod_eq_of_lt h0 h1]

theorem toUnsigned_neg (w : Nat) (v : Int) (h0 : v < 0) (h1 : -2 ^ w ≤ v) :
    toUnsigned w v = (v + 2 ^ w).toNat := by
  unfold toUnsigned
  congr 1
  rw [← Int.add_emod_self, Int.emod_eq_of_lt (by omega) (by omega)]

/-- The characters of a plain signed decimal conversion of width `w`. -/
theorem number_width_d (d : Dir) (w : Nat) (v : Int) (hw : w < 2 ^ 31)
    (hv1 : -2 ^ 63 ≤ v) (hv2 : v < 2 ^ 63)
    (h1 : d.sign = true) (h2 : d.ladjust = false) (h3 : d.padc = 32)
    (h4 : d.sharpflag = false) (h5 : d.upper = false) (h6 : d.width = w)
    (h7 : d.dwidth = 0) :
    number d 10 (toUnsigned 64 v)
      = some (List.replicate (w - (signedText 10 v).length) 32 ++ signedText 10 v) := by
  have hU : toUnsigned 64 v < 2 ^ 64 := by
    unfold toUnsigned
    have := Int.emod_lt_of_pos v (show (0 : Int) < 2 ^ 64 by norm_num)
    have := Int.emod_nonneg v (show (2 ^ 64 : Int) ≠ 0 by norm_num)
    omega
  rw [number_digits d 10 (by norm_num) _ hU h5]
  by_cases hneg : v < 0
  · have hu := toUnsigned_neg 64 v hneg (by omega)
    have hge : 2 ^ 63 ≤ toUnsigned 64 v := by rw [hu]; omega
    have hmag : (2 ^ 64 - toUnsigned 64 v) % 2 ^ 64 = v.natAbs := by
      rw [hu]; omega
    simp only [h1, hge, decide_True, Bool.and_self, if_true, hmag]
    have hlen := digitChars_length_le 10 (by norm_num) (by norm_num) v.natAbs (by omega)
    simp only [number_emit, h2, h3, h4, h6, h7, List.reverse_reverse,
      digitChars_takeWhile 10 (by norm_num) (by norm_num), List.length_reverse, signedText,
      hneg, if_true]
    have hn0 : ¬ ((0 : Int) > ((digitChars 10 v.natAbs).length : Int)) := by omega
    simp [hn0]
    generalize (digitChars 10 v.natAbs).length = n at hlen ⊢
    rw [wrap_int_id (1 + (n : Int)) (by omega) (by omega),
      wrap_int_id ((w : Int) - (1 + (n : Int))) (by omega) (by omega),
      wrap_int_id (-(n : Int)) (by omega) (by omega)]
    have e1 : ((w : Int) - (1 + (n : Int))).toNat = w - (n + 1) := by omega
    have e2 : (-(n : Int)).toNat = 0 := by omega
    rw [e1, e2]
    simp
  · have hu := toUnsigned_nonneg 64 v (by omega) (by omega)
    have hlt : ¬ 2 ^ 63 ≤ v.natAbs := by omega
    have hmag : toUnsigned 64 v = v.natAbs := by rw [hu]; omega
    simp only [hmag, h1, hlt, decide_False, Bool.and_false, Bool.false_eq_true, if_false]
    have hlen := digitChars_length_le 10 (by norm_num) (by norm_num) v.natAbs (by omega)
    simp only [number_emit, h2, h3, h4, h6, h7, List.reverse_reverse,
      digitChars_takeWhile 10 (by norm_num) (by norm_num), List.length_reverse, signedText,
      hneg, if_false]
    have hn0 : ¬ ((0 : Int) > ((digitChars 10 v.natAbs).length : Int)) := by omega
    simp [hn0]
    generalize (digitChars 10 v.natAbs).length = n at hlen ⊢
    rw [wrap_int_id (n : Int) (by omega) (by omega),
      wrap_int_id ((w : Int) - (n : Int)) (by omega) (by omega),
      wrap_int_id (-(n : Int)) (by omega) (by omega)]
    have e1 : ((w : Int) - (n : Int)).toNat = w - n := by omega
    have e2 : (-(n : Int)).toNat = 0 := by omega
    rw [e1, e2]
    simp

/-- The whole output fits: with enough capacity the characters passed to
`PCHAR` (all of them bytes) are stored, followed by the terminator, and the
count is their number. -/
theorem vloop_finish (W : Nat) (junk : List Nat) (stop : Bool) (size : Nat) (e : List Nat)
    (ap : List Arg) (ns : List (Nat × Int)) (hsize : e.length < size)
    (hbytes : ∀ c ∈ e, c < 256) (hlen : e.length < 2 ^ 31) :
    vloop W (0 :: junk) Mode.text stop (PCHARS { str := [], size := size, retval := 0 } e) ap ns
      = some { str := e ++ [0], retval := e.length, stores := ns } := by
  rw [vloop_nul]
  obtain ⟨h1, h2⟩ := PCHARS_str_size { str := [], size := size, retval := 0 } e
  have h3 := PCHARS_retval { str := [], size := size, retval := 0 } e
    (by show wrap_int 0 = 0; decide)
  rw [h1, h2, h3]
  simp only [List.nil_append, zero_add]
  have ht : List.take (size - 1) e = e := List.take_of_length_le (by omega)
  have hm : List.map (fun c => c % 256) e = e := by
    conv_rhs => rw [← List.map_id e]
    apply List.map_congr_left
    intro c hc
    exact Nat.mod_eq_of_lt (hbytes c hc)
  have hs : 1 ≤ size - min e.length (size - 1) := by omega
  rw [ht, hm, if_pos hs, wrap_int_id _ (by omega) (by omega)]

theorem signedText_bytes (b : Nat) (hb : 2 ≤ b) (hb36 : b ≤ 36) (v : Int) (c : Nat)
    (hc : c ∈ signedText b v) : c < 256 := by
  unfold signedText at hc
  rcases List.mem_append.mp hc with h | h
  · split_ifs at h
    · simp at h; omega
    · simp at h
  · obtain ⟨d, -, -, hd⟩ := digitChars_valid b hb hb36 v.natAbs c h
    unfold digitval at hd
    simp only [isascii] at hd
    split_ifs at hd with h1 <;> simp at h1 <;> omega

theorem runValue_digitChars (b : Nat) (hb : 2 ≤ b) (hb36 : b ≤ 36) (v : Nat)
    (hv : v < 2 ^ 64) : runValue b (digitChars b v) = v := by
  have h64 : v < b ^ (63 + 1) :=
    calc v < 2 ^ 64 := hv
      _ ≤ b ^ 64 := Nat.pow_le_pow_left hb 64
  obtain ⟨ds, e, -, -, -, hval⟩ := ksprintn_loop_spec b hb hb36 63 v h64
  rw [ksprintn_loop_digits b hb 63 v h64] at e
  have := Option.some.inj e
  rw [← this, List.reverse_reverse] at hval
  exact hval

/-- C6: the decimal text of a signed 64 bit value.  For every `v` with
`-2 ^ 63 ≤ v < 2 ^ 63`, `strtoq` in base 10 on the decimal text of `v` (a `-`
when `v` is negative, and the decimal digits of its magnitude) returns
exactly `v` and the end of the text, and the loop leaves `any = 1`: the
overflow indicator is not set and the value is not clamped. -/
theorem strtoq_decimal_exact (v : Int) (hlo : -2 ^ 63 ≤ v) (hhi : v < 2 ^ 63) :
    strtoq (signedText 10 v) 10 = (v, (signedText 10 v).length) ∧
    (strtoq_scan (signedText 10 v) 10).2.2.1 = 1 := by
  have hall : ∀ c ∈ digitChars 10 v.natAbs, (digitval ((10 : Nat) : Int) c).isSome = true := by
    intro c hc
    obtain ⟨d, -, -, hd⟩ := digitChars_valid 10 (by norm_num) (by norm_num) v.natAbs c hc
    rw [hd]; rfl
  have hval := runValue_digitChars 10 (by norm_num) (by norm_num) v.natAbs (by omega)
  have hlim : v.natAbs ≤ strtoq_limit (decide (v < 0)) := by
    by_cases h : v < 0
    · simp only [h, decide_True, strtoq_limit, if_true]; omega
    · simp only [h, decide_False, strtoq_limit]; simp only [Bool.false_eq_true, if_false]; omega
  have key := strtoq_of_digits 10 (by norm_num) (by norm_num) (decide (v < 0)) v.natAbs hlim
    (digitChars 10 v.natAbs) (digitChars_ne_nil 10 v.natAbs) hall hval
  rw [show ((10 : Nat) : Int) = 10 from rfl] at key
  unfold signedText
  by_cases h : v < 0
  · simp only [h, decide_True, if_true] at key ⊢
    refine ⟨?_, key.2⟩
    rw [key.1, Prod.mk.injEq]
    exact ⟨by omega, by simp; omega⟩
  · simp only [h, decide_False, Bool.false_eq_true, if_false] at key ⊢
    refine ⟨?_, key.2⟩
    rw [key.1, Prod.mk.injEq]
    exact ⟨by omega, by simp⟩

/-- C6 at the minimum 64 bit value: `"-9223372036854775808"` decodes to
`-2 ^ 63`, the end position is 20 and `any = 1`. -/
theorem strtoq_decimal_exact_witness :
    strtoq [45, 57, 50, 50, 51, 51, 55, 50, 48, 51, 54, 56, 53, 52, 55, 55, 53, 56, 48, 56] 10
      = (-2 ^ 63, 20) ∧
    (strtoq_scan [45, 57, 50, 50, 51, 51, 55, 50, 48, 51, 54, 56, 53, 52, 55, 55, 53, 56, 48, 56]
      10).2.2.1 = 1 := by
  have h := strtoq_decimal_exact (-2 ^ 63) (by decide) (by decide)
  have e : signedText 10 (-2 ^ 63)
      = [45, 57, 50, 50, 51, 51, 55, 50, 48, 51, 54, 56, 53, 52, 55, 55, 53, 56, 48, 56] := by
    simp [signedText, digitChars, hex2ascii_data]
  rw [e] at h
  exact h

theorem directive_d (W : Nat) (peek : Option Nat) (d : Dir) (stop : Bool) (ap : List Arg)
    (r : Int) :
    directive W 100 peek d stop ap r
      = number_step { d with percent := d.percent ++ [100], sign := true } 10
          (fetch_sign W { d with percent := d.percent ++ [100] }) stop ap := by
  simp [directive]

theorem fetch_sign_int (W : Nat) (d : Dir) (v : Int) (hv1 : -2 ^ 31 ≤ v) (hv2 : v < 2 ^ 31)
    (hj : d.jflag = false) (hq : d.qflag = false) (ht : d.tflag = false)
    (hl : d.lflag = false) (hz : d.zflag = false) (hh : d.hflag = false)
    (hc : d.cflag = false) : fetch_sign W d v = toUnsigned 64 v := by
  unfold fetch_sign
  simp only [hj, hq, ht, hl, hz, hh, hc, Bool.false_eq_true, if_false]
  have := wrap_int_id v hv1 hv2
  unfold wrap_int at this
  rw [this]

/-- The conversion `d` of a plain directive of width `w` at the end of the
format. -/
theorem vloop_conv_d (W : Nat) (junk : List Nat) (d : Dir) (size w : Nat) (v : Int)
    (hw : w < 2 ^ 31) (hv1 : -2 ^ 31 ≤ v) (hv2 : v < 2 ^ 31)
    (h2 : d.ladjust = false) (h3 : d.padc = 32) (h4 : d.sharpflag = false)
    (h5 : d.upper = false) (h6 : d.width = w) (h7 : d.dwidth = 0)
    (hj : d.jflag = false) (hq : d.qflag = false) (ht : d.tflag = false)
    (hl : d.lflag = false) (hz : d.zflag = false) (hh : d.hflag = false)
    (hc : d.cflag = false) (hsize : max w (signedText 10 v).length < size) :
    vloop W (100 :: 0 :: junk) (Mode.spec d) false { str := [], size := size, retval := 0 }
        [Arg.int v] []
      = some { str := List.replicate (w - (signedText 10 v).length) 32 ++ signedText 10 v
                 ++ [0],
               retval := (max w (signedText 10 v).length : Nat), stores := [] } := by
  rw [vloop, directive_d]
  unfold number_step
  simp only []
  have hf : fetch_sign W { d with percent := d.percent ++ [100] } v = toUnsigned 64 v :=
    fetch_sign_int W _ v hv1 hv2 hj hq ht hl hz hh hc
  have hn : number { d with percent := d.percent ++ [100], sign := true } 10 (toUnsigned 64 v)
      = some (List.replicate (w - (signedText 10 v).length) 32 ++ signedText 10 v) :=
    number_width_d _ w v hw (by omega) (by omega) rfl h2 h3 h4 h5 h6 h7
  rw [hf, hn]
  simp only [List.append_nil]
  have hlen := digitChars_length_le 10 (by norm_num) (by norm_num) v.natAbs (by omega)
  have hst : (signedText 10 v).length ≤ 65 := by
    unfold signedText
    rw [List.length_append]
    split_ifs <;> simp <;> omega
  have hel : (List.replicate (w - (signedText 10 v).length) 32 ++ signedText 10 v).length
      = max w (signedText 10 v).length := by
    rw [List.length_append, List.length_replicate]; omega
  rw [vloop_finish W junk false size _ [] [] (by rw [hel]; exact hsize) ?_ (by rw [hel]; omega),
    hel]
  intro c hc
  rcases List.mem_append.mp hc with h | h
  · have := List.eq_of_mem_replicate h; omega
  · exact signedText_bytes 10 (by norm_num) (by norm_num) v c h

/-- C4 (as amended): for every width `w` with `1 ≤ w ≤ INT_MAX`, written in
decimal without a leading zero, and every `int` value `v`, the format
`"%<w>d"` with enough capacity yields the decimal text of `v` (with a leading
`-` when negative) right justified with leading spaces in a field of
`max w (length of the text)` characters, followed by the terminator, and
returns the length of the field. -/
theorem vsnprintf_width_d (W size w : Nat) (v : Int) (junk : List Nat)
    (hw1 : 1 ≤ w) (hw : w < 2 ^ 31) (hv1 : -2 ^ 31 ≤ v) (hv2 : v < 2 ^ 31)
    (hsize : max w (signedText 10 v).length < size) :
    vsnprintf W size (some ([37] ++ digitChars 10 w ++ [100, 0] ++ junk)) [Arg.int v]
      = some { str := List.replicate (w - (signedText 10 v).length) 32 ++ signedText 10 v
                 ++ [0],
               retval := (max w (signedText 10 v).length : Nat), stores := [] } := by
  obtain ⟨ch, cs, hwd⟩ := List.exists_cons_of_ne_nil (digitChars_ne_nil 10 w)
  have hdig : ∀ x ∈ ch :: cs, 48 ≤ x ∧ x ≤ 57 := by
    intro x hx; rw [← hwd] at hx; exact digitChars_decimal w x hx
  have hhead : ch ≠ 48 := by
    have := digitChars_head w hw1
    rw [hwd] at this; simpa using this
  have hparse : parseNum 0 (ch :: cs) = w := by
    rw [← hwd]
    have := parseNum_digits w hw
    unfold digitChars
    rw [if_neg (by omega)]
    exact this
  have hfmt : [37] ++ digitChars 10 w ++ [100, 0] ++ junk
      = 37 :: (ch :: (cs ++ 100 :: (0 :: junk))) := by
    rw [hwd]; simp
  unfold vsnprintf
  simp only [hfmt]
  rw [vloop, if_neg (by simp)]
  rw [vloop_spec_num W 100 (0 :: junk) (by omega) false _ _ _ ch cs {} hdig (Or.inl hhead)]
  rw [hparse]
  exact vloop_conv_d W junk _ size w v hw hv1 hv2 rfl rfl rfl rfl rfl rfl rfl rfl rfl rfl rfl
    rfl rfl hsize

/-- C4 at `W = 64`, capacity 8, width 5 and the value 42: `"%5d"` gives
`"   42"` and 5. -/
theorem vsnprintf_width_d_witness :
    vsnprintf 64 8 (some [37, 53, 100, 0]) [Arg.int 42]
      = some { str := [32, 32, 32, 52, 50, 0], retval := 5, stores := [] } := by
  have h := vsnprintf_width_d 64 8 5 42 [] (by decide) (by decide) (by decide) (by decide)
    (by simp [signedText, digitChars])
  simpa [signedText, digitChars, hex2ascii_data] using h

/-- C4 as stated fails for a width that does not fit an `int`: the digits
`4294967301` (which is `2 ^ 32 + 5`) are read as the width 5, so `"%4294967301d"`
with 42 and a capacity of `2 ^ 33` gives the field `"   42"` of 5 characters and
returns 5, not a field of 4294967301 characters. -/
theorem vsnprintf_width_d_overflow :
    runValue 10 [52, 50, 57, 52, 57, 54, 55, 51, 48, 49] = 4294967301 ∧
    vsnprintf 64 (2 ^ 33) (some ([37] ++ [52, 50, 57, 52, 57, 54, 55, 51, 48, 49] ++ [100, 0]))
        [Arg.int 42]
      = some { str := [32, 32, 32, 52, 50, 0], retval := 5, stores := [] } := by
  constructor
  · decide
  · simp [vsnprintf, vloop, directive, number_end, number_step, number, number_emit, fetch_sign,
      ksprintn, ksprintn_loop, PCHARS, PCHAR, wrap_int, toSigned, toUnsigned, hex2ascii_data,
      MAXNBUF]

/-- The characters of a plain `#` conversion in base 8 or 16. -/
theorem number_alt (d : Dir) (base : Nat) (hb : base = 8 ∨ base = 16) (v : Nat)
    (hv : v < 2 ^ 63)
    (h2 : d.ladjust = false) (h3 : d.padc = 32) (h4 : d.sharpflag = true)
    (h5 : d.upper = false) (h6 : d.width = 0) (h7 : d.dwidth = 0) :
    number d base v
      = some ((if v = 0 then [] else if base = 8 then [48] else [48, 120])
          ++ digitChars base v) := by
  have hb2 : 2 ≤ base := by omega
  have hb36 : base ≤ 36 := by omega
  rw [number_digits d base hb2 v (by omega) h5]
  have hlt : ¬ 2 ^ 63 ≤ v := by omega
  simp only [hlt, decide_False, Bool.and_false, Bool.false_eq_true, if_false]
  have hlen := digitChars_length_le base hb2 hb36 v (by omega)
  simp only [number_emit, h2, h3, h4, h6, h7, List.reverse_reverse,
    digitChars_takeWhile base hb2 hb36, List.length_reverse]
  have hn0 : ¬ ((0 : Int) > ((digitChars base v).length : Int)) := by omega
  by_cases hv0 : v = 0
  · subst hv0
    simp [hn0]
    generalize (digitChars base 0).length = n at hlen ⊢
    rw [wrap_int_id (n : Int) (by omega) (by omega),
      wrap_int_id (-(n : Int)) (by omega) (by omega)]
    have e2 : (-(n : Int)).toNat = 0 := by omega
    rw [e2]
    simp
  · rcases hb with hb | hb
    · subst hb
      simp [hv0, hn0]
      generalize (digitChars 8 v).length = n at hlen ⊢
      rw [wrap_int_id (1 + (n : Int)) (by omega) (by omega),
        wrap_int_id (-(1 + (n : Int))) (by omega) (by omega),
        wrap_int_id (-(n : Int)) (by omega) (by omega)]
      have e1 : (-(1 + (n : Int))).toNat = 0 := by omega
      have e2 : (-(n : Int)).toNat = 0 := by omega
      rw [e1, e2]
      simp
    · subst hb
      simp [hv0, hn0]
      generalize (digitChars 16 v).length = n at hlen ⊢
      rw [wrap_int_id (2 + (n : Int)) (by omega) (by omega),
        wrap_int_id (-(2 + (n : Int))) (by omega) (by omega),
        wrap_int_id (-(n : Int)) (by omega) (by omega)]
      have e1 : (-(2 + (n : Int))).toNat = 0 := by omega
      have e2 : (-(n : Int)).toNat = 0 := by omega
      rw [e1, e2]
      simp

theorem directive_sharp (W : Nat) (peek : Option Nat) (d : Dir) (stop : Bool)
    (ap : List Arg) (r : Int) :
    directive W 35 peek d stop ap r
      = Step.next (Mode.spec { d with percent := d.percent ++ [35], sharpflag := true }) []
          stop ap [] := by
  simp [directive]

theorem directive_x (W : Nat) (peek : Option Nat) (d : Dir) (stop : Bool) (ap : List Arg)
    (r : Int) :
    directive W 120 peek d stop ap r
      = number_step { d with percent := d.percent ++ [120], sign := false } 16
          (fetch_nosign W { d with percent := d.percent ++ [120] }) stop ap := by
  simp [directive]

theorem directive_o (W : Nat) (peek : Option Nat) (d : Dir) (stop : Bool) (ap : List Arg)
    (r : Int) :
    directive W 111 peek d stop ap r
      = number_step { d with percent := d.percent ++ [111], sign := false } 8
          (fetch_nosign W { d with percent := d.percent ++ [111] }) stop ap := by
  simp [directive]

theorem fetch_nosign_uint (W : Nat) (d : Dir) (v : Nat) (hv : v < 2 ^ 32)
    (hj : d.jflag = false) (hq : d.qflag = false) (ht : d.tflag = false)
    (hl : d.lflag = false) (hz : d.zflag = false) (hh : d.hflag = false)
    (hc : d.cflag = false) : fetch_nosign W d (v : Int) = v := by
  unfold fetch_nosign
  simp only [hj, hq, ht, hl, hz, hh, hc, Bool.false_eq_true, if_false]
  rw [toUnsigned_natCast 32 v hv, toUnsigned_natCast 64 v (by omega)]

theorem digitChars_bytes (b : Nat) (hb : 2 ≤ b) (hb36 : b ≤ 36) (v : Nat) (c : Nat)
    (hc : c ∈ digitChars b v) : c < 256 := by
  obtain ⟨d, -, -, hd⟩ := digitChars_valid b hb hb36 v c hc
  unfold digitval at hd
  simp only [isascii] at hd
  split_ifs at hd with h1 <;> simp at h1 <;> omega

/-- A `#` conversion in base 8 (`ch = 111`, `o`) or 16 (`ch = 120`, `x`) of an
`unsigned int` at the end of the format. -/
theorem vloop_alt (W size v : Nat) (junk : List Nat) (hv : v < 2 ^ 32) (ch base : Nat)
    (hch : (ch = 111 ∧ base = 8) ∨ (ch = 120 ∧ base = 16))
    (hs : (digitChars base v).length + 2 < size) :
    vsnprintf W size (some ([37, 35, ch, 0] ++ junk)) [Arg.int v]
      = some { str := (if v = 0 then [] else if base = 8 then [48] else [48, 120])
                 ++ digitChars base v ++ [0],
               retval := (((if v = 0 then [] else if base = 8 then [48] else [48, 120])
                 ++ digitChars base v).length : Nat),
               stores := [] } := by
  have hb : base = 8 ∨ base = 16 := by omega
  have hlen := digitChars_length_le base (by omega) (by omega) v (by omega)
  have hn : ∀ d : Dir, d.ladjust = false → d.padc = 32 → d.sharpflag = true →
      d.upper = false → d.width = 0 → d.dwidth = 0 →
      number d base v = some ((if v = 0 then [] else if base = 8 then [48] else [48, 120])
          ++ digitChars base v) :=
    fun d h2 h3 h4 h5 h6 h7 => number_alt d base hb v (by omega) h2 h3 h4 h5 h6 h7
  have hfin := vloop_finish W junk false size
    ((if v = 0 then [] else if base = 8 then [48] else [48, 120]) ++ digitChars base v) [] []
    (by rw [List.length_append]; split_ifs <;> simp <;> omega)
    (by
      intro c hc
      rcases List.mem_append.mp hc with h | h
      · split_ifs at h <;> simp at h <;> omega
      · exact digitChars_bytes base (by omega) (by omega) v c h)
    (by rw [List.length_append]; split_ifs <;> simp <;> omega)
  unfold vsnprintf
  simp only [List.cons_append, List.nil_append]
  rw [vloop, if_neg (by simp), vloop, directive_sharp]
  simp only [PCHARS_nil, List.append_nil]
  rcases hch with ⟨h1, h2⟩ | ⟨h1, h2⟩
  · subst h1; subst h2
    rw [vloop, directive_o]
    unfold number_step
    simp only []
    rw [fetch_nosign_uint W _ v hv rfl rfl rfl rfl rfl rfl rfl, hn _ rfl rfl rfl rfl rfl rfl]
    simp only [List.append_nil]
    exact hfin
  · subst h1; subst h2
    rw [vloop, directive_x]
    unfold number_step
    simp only []
    rw [fetch_nosign_uint W _ v hv rfl rfl rfl rfl rfl rfl rfl, hn _ rfl rfl rfl rfl rfl rfl]
    simp only [List.append_nil]
    exact hfin

/-- C5: alternate form.  For every `unsigned int` value `v` and enough
capacity, `"%#x"` renders `0x` followed by the lower case hexadecimal digits
of `v`, and `"%#o"` renders `0` followed by the octal digits of `v`, when `v`
is not zero; for `v = 0` no prefix is emitted and the output is `0`.  The
returned count is the length of the text. -/
theorem vsnprintf_alternate_form (W size v : Nat) (junk : List Nat) (hv : v < 2 ^ 32)
    (hs16 : (digitChars 16 v).length + 2 < size) (hs8 : (digitChars 8 v).length + 2 < size) :
    vsnprintf W size (some ([37, 35, 120, 0] ++ junk)) [Arg.int v]
      = some { str := (if v = 0 then [] else [48, 120]) ++ digitChars 16 v ++ [0],
               retval := (((if v = 0 then [] else [48, 120]) ++ digitChars 16 v).length : Nat),
               stores := [] } ∧
    vsnprintf W size (some ([37, 35, 111, 0] ++ junk)) [Arg.int v]
      = some { str := (if v = 0 then [] else [48]) ++ digitChars 8 v ++ [0],
               retval := (((if v = 0 then [] else [48]) ++ digitChars 8 v).length : Nat),
               stores := [] } := by
  constructor
  · have h := vloop_alt W size v junk hv 120 16 (Or.inr ⟨rfl, rfl⟩) hs16
    simpa using h
  · have h := vloop_alt W size v junk hv 111 8 (Or.inl ⟨rfl, rfl⟩) hs8
    simpa using h

/-- C5 at `W = 64`, capacity 16 and the value 255: `"%#x"` gives `"0xff"` and
`"%#o"` gives `"0377"`. -/
theorem vsnprintf_alternate_form_witness :
    vsnprintf 64 16 (some [37, 35, 120, 0]) [Arg.int 255]
      = some { str := [48, 120, 102, 102, 0], retval := 4, stores := [] } ∧
    vsnprintf 64 16 (some [37, 35, 111, 0]) [Arg.int 255]
      = some { str := [48, 51, 55, 55, 0], retval := 4, stores := [] } := by
  have h := vsnprintf_alternate_form 64 16 255 [] (by decide) (by simp [digitChars])
    (by simp [digitChars])
  simpa [digitChars, hex2ascii_data] using h

/-! ## The flag `+` -/

theorem directive_plus (W : Nat) (peek : Option Nat) (d : Dir) (stop : Bool)
    (ap : List Arg) (r : Int) :
    directive W 43 peek d stop ap r
      = Step.next (Mode.spec { d with percent := d.percent ++ [43], sign := true }) []
          stop ap [] := by
  simp [directive]

theorem signedText_no_plus (v : Int) : 43 ∉ signedText 10 v := by
  intro h
  unfold signedText at h
  rcases List.mem_append.mp h with h | h
  · split_ifs at h <;> simp at h
  · have := digitChars_decimal v.natAbs 43 h
    omega

/-- C20 (as amended): the flag `+` does not force a sign.  For every `int`
value `v` and enough capacity, `"%+d"` renders the decimal digits of `v`,
preceded by `-` when `v` is negative and by no sign character when `v` is not
negative: no `+` is emitted, and the text is that of `"%d"`. -/
theorem vsnprintf_plus_d (W size : Nat) (v : Int) (junk : List Nat)
    (hv1 : -2 ^ 31 ≤ v) (hv2 : v < 2 ^ 31) (hsize : (signedText 10 v).length < size) :
    vsnprintf W size (some ([37, 43, 100, 0] ++ junk)) [Arg.int v]
      = some { str := signedText 10 v ++ [0], retval := ((signedText 10 v).length : Nat),
               stores := [] } ∧
    43 ∉ signedText 10 v := by
  refine ⟨?_, signedText_no_plus v⟩
  unfold vsnprintf
  simp only [List.cons_append, List.nil_append]
  rw [vloop, if_neg (by simp), vloop, directive_plus]
  simp only [PCHARS_nil, List.append_nil]
  have h := vloop_conv_d W junk { ({} : Dir) with percent := [37] ++ [43], sign := true }
    size 0 v (by norm_num) hv1 hv2 rfl rfl rfl rfl rfl rfl rfl rfl rfl rfl rfl rfl rfl
    (by simpa using hsize)
  simpa using h

/-- C20 at `W = 64`, capacity 16: `"%+d"` with 5 gives `"5"` and with -5 gives
`"-5"`. -/
theorem vsnprintf_plus_d_witness :
    vsnprintf 64 16 (some [37, 43, 100, 0]) [Arg.int (-5)]
      = some { str := [45, 53, 0], retval := 2, stores := [] } := by
  have h := (vsnprintf_plus_d 64 16 (-5) [] (by decide) (by decide)
    (by simp [signedText, digitChars])).1
  simpa [signedText, digitChars, hex2ascii_data] using h

/-- C20 as stated fails: `"%+d"` with the value 5 renders `"5"`, with no `+`
before the digit. -/
theorem vsnprintf_plus_d_no_sign :
    vsnprintf 64 16 (some [37, 43, 100, 0]) [Arg.int 5]
      = some { str := [53, 0], retval := 1, stores := [] } := by
  decide

/-! ## A format that ends inside a directive -/

/-- C18: the code at a format that ends inside a directive.  The format is
`"%"`: the byte `%` and the terminator.  The switch at `reswitch` takes the
terminator as an unrecognized conversion letter, passes `%` and the NUL to
`PCHAR`, sets `stop` and goes on reading after the terminator: with no byte
after the terminator in memory the read is outside the format (`none`), and
with the bytes `A`, NUL after it the `A` is copied to the output. -/
theorem vsnprintf_reads_past_terminator :
    vsnprintf 64 16 (some [37, 0]) [] = none ∧
    vsnprintf 64 16 (some ([37, 0] ++ [65, 0])) []
      = some { str := [37, 0, 65, 0], retval := 3, stores := [] } := by
  constructor <;> decide

/-! ## Fail-soft on an unrecognized conversion letter -/

/-- The text loop with `stop` set copies the format up to its terminator. -/
theorem vloop_stop_text (W : Nat) (rest junk : List Nat) (ap : List Arg)
    (ns : List (Nat × Int)) (h0 : ∀ c ∈ rest, c ≠ 0) (o : Out) :
    vloop W (rest ++ 0 :: junk) Mode.text true o ap ns
      = some { str := if 1 ≤ (PCHARS o rest).size then (PCHARS o rest).str ++ [0]
                      else (PCHARS o rest).str,
               retval := (PCHARS o rest).retval, stores := ns } := by
  induction rest generalizing o with
  | nil => rw [List.nil_append, vloop_nul]; rfl
  | cons c cs ih =>
    rw [List.cons_append, vloop, if_pos (Or.inr rfl), if_neg (h0 c (by simp)),
      ih (fun x hx => h0 x (by simp [hx])), PCHARS_cons]

/-- The text loop with `stop` set passes every byte that is not NUL to
`PCHAR`. -/
theorem vloop_stop_run (W : Nat) (xs tail : List Nat) (ap : List Arg)
    (ns : List (Nat × Int)) (h0 : ∀ c ∈ xs, c ≠ 0) (o : Out) :
    vloop W (xs ++ tail) Mode.text true o ap ns
      = vloop W tail Mode.text true (PCHARS o xs) ap ns := by
  induction xs generalizing o with
  | nil => rfl
  | cons c cs ih =>
    rw [List.cons_append, vloop, if_pos (Or.inr rfl), if_neg (h0 c (by simp)),
      ih (fun x hx => h0 x (by simp [hx])), PCHARS_cons]

/-- The default case of the switch: an unrecognized letter. -/
theorem directive_default (W : Nat) (k : Nat) (peek : Option Nat) (d : Dir) (stop : Bool)
    (ap : List Arg) (r : Int) (h1 : fmt_modifier k = false) (h2 : fmt_conversion k = false) :
    directive W k peek d stop ap r = Step.next Mode.text (d.percent ++ [k]) true ap [] := by
  simp only [fmt_modifier, fmt_conversion, Bool.or_eq_false_iff, beq_eq_false_iff_ne,
    Bool.and_eq_false_iff, decide_eq_false_iff_not] at h1 h2
  obtain ⟨⟨⟨⟨⟨⟨⟨⟨⟨⟨⟨a1, a2⟩, a3⟩, a4⟩, a5⟩, a6⟩, a7⟩, a8⟩, a9⟩, a10⟩, a11⟩, a12⟩ := h1
  obtain ⟨⟨⟨⟨⟨⟨⟨⟨⟨⟨⟨⟨b1, b2⟩, b3⟩, b4⟩, b5⟩, b6⟩, b7⟩, b8⟩, b9⟩, b10⟩, b11⟩, b12⟩, b13⟩ := h2
  have hdig : ¬ (48 ≤ k ∧ k ≤ 57) := by
    rintro ⟨x, y⟩
    rcases a6 with h | h
    · exact h (by simpa using x)
    · exact h (by simpa using y)
  have h48 : ¬ (k = 48 ∧ d.dot = false) := fun h => hdig (by omega)
  unfold directive
  simp only [a1, a2, a3, a4, a5, a7, a8, a9, a10, a11, a12, b1, b2, b3, b4, b5, b6, b7, b8, b9,
    b10, b11, b12, b13, hdig, h48, if_false, false_or, or_self]

theorem directive_dot (W : Nat) (peek : Option Nat) (d : Dir) (stop : Bool)
    (ap : List Arg) (r : Int) :
    directive W 46 peek d stop ap r
      = Step.next (Mode.spec { d with percent := d.percent ++ [46], dot := true }) []
          stop ap [] := by
  simp [directive]

theorem directive_minus (W : Nat) (peek : Option Nat) (d : Dir) (stop : Bool)
    (ap : List Arg) (r : Int) :
    directive W 45 peek d stop ap r
      = Step.next (Mode.spec { d with percent := d.percent ++ [45], ladjust := true }) []
          stop ap [] := by
  simp [directive]

theorem directive_h (W : Nat) (peek : Option Nat) (d : Dir) (stop : Bool)
    (ap : List Arg) (r : Int) :
    directive W 104 peek d stop ap r
      = Step.next (Mode.spec (if d.hflag then
            { d with percent := d.percent ++ [104], hflag := false, cflag := true }
          else { d with percent := d.percent ++ [104], hflag := true })) [] stop ap [] := by
  cases h : d.hflag <;> simp [directive, h]

theorem directive_j (W : Nat) (peek : Option Nat) (d : Dir) (stop : Bool)
    (ap : List Arg) (r : Int) :
    directive W 106 peek d stop ap r
      = Step.next (Mode.spec { d with percent := d.percent ++ [106], jflag := true }) []
          stop ap [] := by
  simp [directive]

theorem directive_l (W : Nat) (peek : Option Nat) (d : Dir) (stop : Bool)
    (ap : List Arg) (r : Int) :
    directive W 108 peek d stop ap r
      = Step.next (Mode.spec (if d.lflag then
            { d with percent := d.percent ++ [108], lflag := false, qflag := true }
          else { d with percent := d.percent ++ [108], lflag := true })) [] stop ap [] := by
  cases h : d.lflag <;> simp [directive, h]

theorem directive_q (W : Nat) (peek : Option Nat) (d : Dir) (stop : Bool)
    (ap : List Arg) (r : Int) :
    directive W 113 peek d stop ap r
      = Step.next (Mode.spec { d with percent := d.percent ++ [113], qflag := true }) []
          stop ap [] := by
  simp [directive]

theorem directive_t (W : Nat) (peek : Option Nat) (d : Dir) (stop : Bool)
    (ap : List Arg) (r : Int) :
    directive W 116 peek d stop ap r
      = Step.next (Mode.spec { d with percent := d.percent ++ [116], tflag := true }) []
          stop ap [] := by
  simp [directive]

theorem directive_z (W : Nat) (peek : Option Nat) (d : Dir) (stop : Bool)
    (ap : List Arg) (r : Int) :
    directive W 122 peek d stop ap r
      = Step.next (Mode.spec { d with percent := d.percent ++ [122], zflag := true }) []
          stop ap [] := by
  simp [directive]

theorem directive_zero (W : Nat) (peek : Option Nat) (d : Dir) (stop : Bool)
    (ap : List Arg) (r : Int) (h : d.dot = false) :
    directive W 48 peek d stop ap r
      = Step.next (Mode.spec { d with percent := d.percent ++ [48], padc := 48 }) []
          stop ap [] := by
  simp [directive, h]

theorem directive_star (W : Nat) (peek : Option Nat) (d : Dir) (stop : Bool)
    (ap : List Arg) (r : Int) :
    directive W 42 peek d stop ap r
      = match ap with
        | Arg.int v :: ap =>
          if !d.dot then
            (if wrap_int v < 0 then
              Step.next (Mode.spec { ({ d with percent := d.percent ++ [42] } : Dir) with ladjust := !d.ladjust, width := wrap_int (-wrap_int v) }) [] stop ap []
             else
              Step.next (Mode.spec { ({ d with percent := d.percent ++ [42] } : Dir) with width := wrap_int v }) [] stop ap [])
          else
            Step.next (Mode.spec { ({ d with percent := d.percent ++ [42] } : Dir) with dwidth := wrap_int v }) [] stop ap []
        | _ => Step.fault := by
  rcases ap with _ | ⟨a, t⟩
  · simp [directive]
  · cases a <;> simp [directive]

/-- The end of the number loop in front of the byte `peek`. -/
theorem number_end_cases (d : Dir) (n : Int) (peek : Option Nat) (stop : Bool)
    (ap : List Arg) :
    (number_end d n peek stop ap = Step.fault ∧ peek = none) ∨
    ∃ m, number_end d n peek stop ap = Step.next m [] stop ap [] ∧
      modePercent m = d.percent ∧ ModeOK m peek := by
  cases peek with
  | none => left; exact ⟨rfl, rfl⟩
  | some c =>
    right
    by_cases hc : c < 48 ∨ c > 57
    · refine ⟨_, number_end_other d n c stop ap hc, ?_, trivial⟩
      unfold setNum; split_ifs <;> rfl
    · refine ⟨_, number_end_digit d n c stop ap (by omega), rfl, ⟨c, rfl, by omega, by omega⟩⟩

/-- The switch at `reswitch` on a modifier: no character is passed to `PCHAR`,
`stop` is unchanged and control stays inside the directive. -/
theorem directive_modifier (W : Nat) (c : Nat) (peek : Option Nat) (d : Dir) (stop : Bool)
    (ap : List Arg) (r : Int) (hc : fmt_modifier c = true) :
    (directive W c peek d stop ap r = Step.fault ∧ (c = 42 ∨ peek = none)) ∨
    ∃ m ap2, directive W c peek d stop ap r = Step.next m [] stop ap2 [] ∧
      modePercent m = d.percent ++ [c] ∧ ModeOK m peek ∧ (c ≠ 42 → ap2 = ap) := by
  simp only [fmt_modifier, Bool.or_eq_true, beq_iff_eq, Bool.and_eq_true,
    decide_eq_true_eq] at hc
  rcases hc with ((((((((((h | h) | h) | h) | h) | h) | h) | h) | h) | h) | h) | h
  · subst h; right; exact ⟨_, ap, directive_dot W peek d stop ap r, rfl, trivial, fun _ => rfl⟩
  · subst h; right; exact ⟨_, ap, directive_sharp W peek d stop ap r, rfl, trivial, fun _ => rfl⟩
  · subst h; right; exact ⟨_, ap, directive_plus W peek d stop ap r, rfl, trivial, fun _ => rfl⟩
  · subst h; right; exact ⟨_, ap, directive_minus W peek d stop ap r, rfl, trivial, fun _ => rfl⟩
  · subst h
    rw [directive_star]
    cases ap with
    | nil => left; exact ⟨rfl, Or.inl rfl⟩
    | cons a ap =>
      cases a with
      | int v =>
        right
        simp only []
        split_ifs
        · exact ⟨Mode.spec _, ap, rfl, rfl, trivial, fun h => absurd rfl h⟩
        · exact ⟨Mode.spec _, ap, rfl, rfl, trivial, fun h => absurd rfl h⟩
        · exact ⟨Mode.spec _, ap, rfl, rfl, trivial, fun h => absurd rfl h⟩
      | str s => left; exact ⟨rfl, Or.inl rfl⟩
      | ptr a => left; exact ⟨rfl, Or.inl rfl⟩
  · by_cases h0 : c = 48 ∧ d.dot = false
    · obtain ⟨h1, h2⟩ := h0
      subst h1; right
      exact ⟨_, ap, directive_zero W peek d stop ap r h2, rfl, trivial, fun _ => rfl⟩
    · have h0' : c ≠ 48 ∨ d.dot = true := by
        by_cases hc : c = 48
        · right; cases hd : d.dot with
          | true => rfl
          | false => exact absurd ⟨hc, hd⟩ h0
        · exact Or.inl hc
      rw [directive_digit W c peek d stop ap r h h0']
      rcases number_end_cases { d with percent := d.percent ++ [c] }
        (wrap_int (0 * 10 + c - 48)) peek stop ap with ⟨h1, h2⟩ | ⟨m, h1, h2, h3⟩
      · left; exact ⟨h1, Or.inr h2⟩
      · right; exact ⟨m, ap, h1, h2, h3, fun _ => rfl⟩
  · subst h; right
    refine ⟨_, ap, directive_h W peek d stop ap r, ?_, trivial, fun _ => rfl⟩
    split_ifs <;> rfl
  · subst h; right; exact ⟨_, ap, directive_j W peek d stop ap r, rfl, trivial, fun _ => rfl⟩
  · subst h; right
    refine ⟨_, ap, directive_l W peek d stop ap r, ?_, trivial, fun _ => rfl⟩
    split_ifs <;> rfl
  · subst h; right; exact ⟨_, ap, directive_q W peek d stop ap r, rfl, trivial, fun _ => rfl⟩
  · subst h; right; exact ⟨_, ap, directive_t W peek d stop ap r, rfl, trivial, fun _ => rfl⟩
  · subst h; right; exact ⟨_, ap, directive_z W peek d stop ap r, rfl, trivial, fun _ => rfl⟩

/-- The switch at `reswitch` looks at the byte after the character only to see
whether it is a digit. -/
theorem directive_peek (W : Nat) (ch c1 c2 : Nat) (d : Dir) (stop : Bool) (ap : List Arg)
    (r : Int) (h1 : c1 < 48 ∨ c1 > 57) (h2 : c2 < 48 ∨ c2 > 57) :
    directive W ch (some c1) d stop ap r = directive W ch (some c2) d stop ap r := by
  unfold directive
  simp only [number_end_other _ _ _ _ _ h1, number_end_other _ _ _ _ _ h2]

theorem PCHARS_retval_congr (e : List Nat) :
    ∀ o1 o2 : Out, o1.retval = o2.retval → (PCHARS o1 e).retval = (PCHARS o2 e).retval := by
  induction e with
  | nil => intro o1 o2 h; exact h
  | cons c cs ih =>
    intro o1 o2 h
    rw [PCHARS_cons, PCHARS_cons]
    exact ih _ _ (by rw [PCHAR_retval, PCHAR_retval, h])

/-- The run of the interpreter over a part `pre` of the format without a NUL
does not depend on what follows `pre`, as long as the next byte is not a
digit: it has no defined behaviour, or it reaches the end of `pre` at one
place, with one value of `stop`, after one sequence `e` of characters passed
to `PCHAR`, with one list of remaining arguments and one list of stores. -/
theorem vloop_pre (W : Nat) (pre : List Nat) (h0 : ∀ c ∈ pre, c ≠ 0) :
    ∀ (m : Mode) (stop : Bool) (ap : List Arg) (ns : List (Nat × Int)) (r0 : Int),
    (∀ (o : Out) (c : Nat) (t : List Nat), o.retval = r0 → (c < 48 ∨ c > 57) →
        vloop W (pre ++ c :: t) m stop o ap ns = none) ∨
    ∃ (m2 : Mode) (stop2 : Bool) (e : List Nat) (ap2 : List Arg) (ns2 : List (Nat × Int)),
      ∀ (o : Out) (c : Nat) (t : List Nat), o.retval = r0 → (c < 48 ∨ c > 57) →
        vloop W (pre ++ c :: t) m stop o ap ns
          = vloop W (c :: t) m2 stop2 (PCHARS o e) ap2 ns2 := by
  induction pre with
  | nil =>
    intro m stop ap ns r0
    exact Or.inr ⟨m, stop, [], ap, ns, fun o c t _ _ => rfl⟩
  | cons ch pre ih =>
    have h0' : ∀ c ∈ pre, c ≠ 0 := fun c hc => h0 c (by simp [hc])
    have hch : ch ≠ 0 := h0 ch (by simp)
    intro m stop ap ns r0
    cases m with
    | text =>
      by_cases hc : ch ≠ 37 ∨ stop = true
      · rcases ih h0' Mode.text stop ap ns (wrap_int (r0 + 1)) with h | ⟨m2, s2, e, ap2, ns2, h⟩
        · left
          intro o c t ho hcd
          rw [List.cons_append, vloop, if_pos hc, if_neg hch]
          exact h _ c t (by rw [PCHAR_retval, ho]) hcd
        · right
          refine ⟨m2, s2, ch :: e, ap2, ns2, fun o c t ho hcd => ?_⟩
          rw [List.cons_append, vloop, if_pos hc, if_neg hch, PCHARS_cons]
          exact h _ c t (by rw [PCHAR_retval, ho]) hcd
      · rcases ih h0' (Mode.spec {}) stop ap ns r0 with h | ⟨m2, s2, e, ap2, ns2, h⟩
        · left
          intro o c t ho hcd
          rw [List.cons_append, vloop, if_neg hc]
          exact h _ c t ho hcd
        · right
          refine ⟨m2, s2, e, ap2, ns2, fun o c t ho hcd => ?_⟩
          rw [List.cons_append, vloop, if_neg hc]
          exact h _ c t ho hcd
    | spec d =>
      have hpk : ∀ (c : Nat) (t : List Nat), (c < 48 ∨ c > 57) →
          directive W ch (pre ++ c :: t).head? d stop ap r0
            = directive W ch (some (pre.headD 0)) d stop ap r0 := by
        intro c t hcd
        cases pre with
        | nil => exact directive_peek W ch c 0 d stop ap r0 hcd (by omega)
        | cons x xs => rfl
      cases hd : directive W ch (some (pre.headD 0)) d stop ap r0 with
      | fault =>
        left
        intro o c t ho hcd
        rw [List.cons_append, vloop, ho, hpk c t hcd, hd]
      | next m1 e1 s1 ap1 ns1 =>
        rcases ih h0' m1 s1 ap1 (ns ++ ns1)
          (PCHARS { str := [], size := 0, retval := r0 } e1).retval with
          h | ⟨m2, s2, e, ap2, ns2, h⟩
        · left
          intro o c t ho hcd
          rw [List.cons_append, vloop, ho, hpk c t hcd, hd]
          exact h _ c t (PCHARS_retval_congr e1 _ _ ho) hcd
        · right
          refine ⟨m2, s2, e1 ++ e, ap2, ns2, fun o c t ho hcd => ?_⟩
          rw [List.cons_append, vloop, ho, hpk c t hcd, hd, PCHARS_append]
          exact h _ c t (PCHARS_retval_congr e1 _ _ ho) hcd
    | num d n =>
      have hpk : ∀ (c : Nat) (t : List Nat), (c < 48 ∨ c > 57) →
          number_end { d with percent := d.percent ++ [ch] } (wrap_int (n * 10 + ch - 48))
              (pre ++ c :: t).head? stop ap
            = number_end { d with percent := d.percent ++ [ch] } (wrap_int (n * 10 + ch - 48))
              (some (pre.headD 0)) stop ap := by
        intro c t hcd
        cases pre with
        | nil =>
          show number_end _ _ (some c) stop ap = number_end _ _ (some 0) stop ap
          rw [number_end_other _ _ _ _ _ hcd, number_end_other _ _ 0 _ _ (by omega)]
        | cons x xs => rfl
      cases hd : number_end { d with percent := d.percent ++ [ch] }
          (wrap_int (n * 10 + ch - 48)) (some (pre.headD 0)) stop ap with
      | fault =>
        left
        intro o c t ho hcd
        rw [List.cons_append, vloop, hpk c t hcd, hd]
      | next m1 e1 s1 ap1 ns1 =>
        rcases ih h0' m1 s1 ap1 (ns ++ ns1)
          (PCHARS { str := [], size := 0, retval := r0 } e1).retval with
          h | ⟨m2, s2, e, ap2, ns2, h⟩
        · left
          intro o c t ho hcd
          rw [List.cons_append, vloop, hpk c t hcd, hd]
          exact h _ c t (PCHARS_retval_congr e1 _ _ ho) hcd
        · right
          refine ⟨m2, s2, e1 ++ e, ap2, ns2, fun o c t ho hcd => ?_⟩
          rw [List.cons_append, vloop, hpk c t hcd, hd, PCHARS_append]
          exact h _ c t (PCHARS_retval_congr e1 _ _ ho) hcd

theorem fmt_modifier_bytes (c : Nat) (h : fmt_modifier c = true) : c ≠ 0 ∧ c < 256 := by
  simp only [fmt_modifier, Bool.or_eq_true, beq_iff_eq, Bool.and_eq_true,
    decide_eq_true_eq] at h
  omega

/-- The modifiers `mods` of a directive and the unrecognized letter `k` after
them: the bytes of the directive are passed to `PCHAR` and `stop` is set. -/
theorem vloop_modifiers (W : Nat) (k : Nat) (tail : List Nat)
    (hk1 : fmt_modifier k = false) (hk2 : fmt_conversion k = false) (mods : List Nat)
    (hmods : ∀ c ∈ mods, fmt_modifier c = true) :
    ∀ (m : Mode) (stop : Bool) (o : Out) (ap : List Arg) (ns : List (Nat × Int)),
      ModeOK m (mods ++ k :: tail).head? →
      (vloop W (mods ++ k :: tail) m stop o ap ns = none ∧ 42 ∈ mods) ∨
      ∃ ap2, vloop W (mods ++ k :: tail) m stop o ap ns
        = vloop W tail Mode.text true (PCHARS o (modePercent m ++ mods ++ [k])) ap2 ns := by
  induction mods with
  | nil =>
    intro m stop o ap ns hm
    right
    cases m with
    | text => exact absurd hm (by simp [ModeOK])
    | spec d =>
      refine ⟨ap, ?_⟩
      rw [List.nil_append, vloop, directive_default W k _ d stop ap _ hk1 hk2]
      simp [modePercent]
    | num d n =>
      exfalso
      obtain ⟨x, hx, h1, h2⟩ := hm
      simp only [List.nil_append, List.head?_cons, Option.some.injEq] at hx
      subst hx
      simp only [fmt_modifier, Bool.or_eq_false_iff, beq_eq_false_iff_ne,
        Bool.and_eq_false_iff, decide_eq_false_iff_not] at hk1
      omega
  | cons c cs ih =>
    intro m stop o ap ns hm
    have hcs : ∀ x ∈ cs, fmt_modifier x = true := fun x hx => hmods x (by simp [hx])
    have hpeek : ∃ x, (cs ++ k :: tail).head? = some x := by
      cases cs with
      | nil => exact ⟨k, rfl⟩
      | cons x xs => exact ⟨x, rfl⟩
    have step : ∀ (m2 : Mode) (ap2 : List Arg),
        modePercent m2 = modePercent m ++ [c] → ModeOK m2 (cs ++ k :: tail).head? →
        vloop W (c :: cs ++ k :: tail) m stop o ap ns
          = vloop W (cs ++ k :: tail) m2 stop o ap2 ns →
        (vloop W (c :: cs ++ k :: tail) m stop o ap ns = none ∧ 42 ∈ c :: cs) ∨
        ∃ ap3, vloop W (c :: cs ++ k :: tail) m stop o ap ns
          = vloop W tail Mode.text true (PCHARS o (modePercent m ++ (c :: cs) ++ [k])) ap3 ns := by
      intro m2 ap2 hp hok heq
      rcases ih hcs m2 stop o ap2 ns hok with ⟨h1, h2⟩ | ⟨ap3, h⟩
      · left; exact ⟨by rw [heq, h1], by simp [h2]⟩
      · right
        refine ⟨ap3, ?_⟩
        rw [heq, h, hp]
        simp
    cases m with
    | text => exact absurd hm (by simp [ModeOK])
    | spec d =>
      rcases directive_modifier W c (cs ++ k :: tail).head? d stop ap o.retval
        (hmods c (by simp)) with ⟨h1, h2⟩ | ⟨m2, ap2, h1, h2, h3, _⟩
      · left
        rcases h2 with h2 | h2
        · refine ⟨?_, by simp [h2]⟩
          rw [List.cons_append, vloop, h1]
        · obtain ⟨x, hx⟩ := hpeek
          rw [hx] at h2
          exact absurd h2 (by simp)
      · refine step m2 ap2 h2 h3 ?_
        rw [List.cons_append, vloop, h1]
        simp [PCHARS_nil]
    | num d n =>
      rcases number_end_cases { d with percent := d.percent ++ [c] }
        (wrap_int (n * 10 + c - 48)) (cs ++ k :: tail).head? stop ap with
        ⟨_, h2⟩ | ⟨m2, h1, h2, h3⟩
      · obtain ⟨x, hx⟩ := hpeek
        rw [hx] at h2
        exact absurd h2 (by simp)
      · refine step m2 ap h2 h3 ?_
        rw [List.cons_append, vloop, h1]
        simp [PCHARS_nil]

/-- The interpreter has no defined behaviour when the format ends inside a
directive and nothing follows the terminator. -/
theorem vloop_end_text (W : Nat) (m : Mode) (stop : Bool) (o : Out) (ap : List Arg)
    (ns : List (Nat × Int)) (h : vloop W [0] m stop o ap ns ≠ none) : m = Mode.text := by
  cases m with
  | text => rfl
  | spec d =>
    exfalso; apply h
    rw [vloop, directive_default W 0 _ d stop ap _ (by decide) (by decide)]
    simp [vloop]
  | num d n =>
    exfalso; apply h
    rw [vloop]
    simp [number_end]

/-- The result of the interpreter from the characters `e` passed to `PCHAR`
with the capacity `c`. -/
theorem render_form (c : Nat) (e : List Nat) (ns : List (Nat × Int)) :
    ({ str := if 1 ≤ (PCHARS { str := [], size := c, retval := 0 } e).size
                then (PCHARS { str := [], size := c, retval := 0 } e).str ++ [0]
                else (PCHARS { str := [], size := c, retval := 0 } e).str,
       retval := (PCHARS { str := [], size := c, retval := 0 } e).retval,
       stores := ns } : Res)
      = { str := if c = 0 then [] else (e.map (fun x => x % 256)).take (c - 1) ++ [0],
          retval := wrap_int (e.map (fun x => x % 256)).length, stores := ns } := by
  obtain ⟨h1, h2⟩ := PCHARS_str_size { str := [], size := c, retval := 0 } e
  have h3 := PCHARS_retval { str := [], size := c, retval := 0 } e
    (by show wrap_int 0 = 0; decide)
  rw [h1, h2, h3]
  simp only [List.nil_append, List.length_map, zero_add, List.map_take]
  by_cases hc : c = 0
  · subst hc; simp
  · have : 1 ≤ c - min e.length (c - 1) := by omega
    simp [hc, this]

theorem map_mod_bytes (e : List Nat) (h : ∀ c ∈ e, c < 256) :
    e.map (fun x => x % 256) = e := by
  conv_rhs => rw [← List.map_id e]
  apply List.map_congr_left
  intro c hc
  exact Nat.mod_eq_of_lt (h c hc)

/-- C17: fail-soft on an unrecognized conversion letter.  The format is the
text `pre`, a directive made of `%`, the modifiers `mods` and a letter `k`
that the switch does not know (and that is not NUL), and the text `rest` up
to the terminator.  When the behaviour on the format `pre` alone is defined,
with the rendering `R` and the `%n` stores `ns`, the output for the whole
format is `R` followed by the bytes of the format from the `%` to its end,
copied as they are, whatever directives `rest` holds: they need no argument
and store nothing.  The only other outcome is that a `*` among the modifiers
finds no `int` argument. -/
theorem vsnprintf_fail_soft (W c0 : Nat) (pre mods rest : List Nat) (k : Nat)
    (ap : List Arg) (hpre : ∀ c ∈ pre, c ≠ 0)
    (hmods : ∀ c ∈ mods, fmt_modifier c = true)
    (hk1 : fmt_modifier k = false) (hk2 : fmt_conversion k = false) (hk0 : k ≠ 0)
    (hk : k < 256) (hrest : ∀ c ∈ rest, c ≠ 0 ∧ c < 256)
    (hdef : vsnprintf W c0 (some (pre ++ [0])) ap ≠ none) :
    ∃ (R : List Nat) (ns : List (Nat × Int)),
      (∀ c, vsnprintf W c (some (pre ++ [0])) ap
        = some { str := if c = 0 then [] else R.take (c - 1) ++ [0],
                 retval := wrap_int R.length, stores := ns }) ∧
      ∀ (c : Nat) (junk : List Nat),
        vsnprintf W c (some (pre ++ 37 :: (mods ++ k :: (rest ++ 0 :: junk)))) ap
          = some { str := if c = 0 then []
                          else (R ++ 37 :: (mods ++ k :: rest)).take (c - 1) ++ [0],
                   retval := wrap_int (R ++ 37 :: (mods ++ k :: rest)).length,
                   stores := ns } ∨
        (42 ∈ mods ∧
          vsnprintf W c (some (pre ++ 37 :: (mods ++ k :: (rest ++ 0 :: junk)))) ap = none) := by
  have hV : ∀ x ∈ 37 :: (mods ++ k :: rest), x ≠ 0 ∧ x < 256 := by
    intro x hx
    simp only [List.mem_cons, List.mem_append] at hx
    rcases hx with rfl | hx | rfl | hx
    · omega
    · exact fmt_modifier_bytes x (hmods x hx)
    · exact ⟨hk0, hk⟩
    · exact hrest x hx
  rcases vloop_pre W pre hpre Mode.text false ap [] 0 with h | ⟨m2, s2, e, ap2, ns2, h⟩
  · exfalso; apply hdef
    unfold vsnprintf
    exact h _ 0 [] rfl (by omega)
  · have hm : m2 = Mode.text := by
      apply vloop_end_text W m2 s2 (PCHARS { str := [], size := c0, retval := 0 } e) ap2 ns2
      rw [← h _ 0 [] rfl (by omega)]
      exact hdef
    subst hm
    refine ⟨e.map (fun x => x % 256), ns2, fun c => ?_, fun c junk => ?_⟩
    · unfold vsnprintf
      simp only []
      rw [h _ 0 [] rfl (by omega), vloop_nul, render_form]
    · have fin : ∀ ap3, vloop W (rest ++ 0 :: junk) Mode.text true
          (PCHARS (PCHARS { str := [], size := c, retval := 0 } e) (37 :: (mods ++ [k]))) ap3 ns2
          = some { str := if c = 0 then []
                      else (e.map (fun x => x % 256) ++ 37 :: (mods ++ k :: rest)).take (c - 1)
                        ++ [0],
                   retval := wrap_int (e.map (fun x => x % 256) ++ 37 :: (mods ++ k :: rest)).length,
                   stores := ns2 } := by
        intro ap3
        rw [vloop_stop_text W rest junk ap3 ns2 (fun x hx => (hrest x hx).1), ← PCHARS_append,
          ← PCHARS_append, render_form, List.map_append,
          map_mod_bytes ((37 :: (mods ++ [k])) ++ rest) (fun x hx => (hV x (by simpa using hx)).2)]
        simp
      unfold vsnprintf
      simp only []
      rw [h _ 37 _ rfl (by omega)]
      cases s2 with
      | true =>
        left
        rw [vloop, if_pos (Or.inr rfl), if_neg (by omega)]
        have hl : mods ++ k :: (rest ++ 0 :: junk) = (mods ++ [k]) ++ (rest ++ 0 :: junk) := by
          simp
        rw [hl, vloop_stop_run W (mods ++ [k]) _ ap2 ns2
          (fun x hx => (hV x (by simp only [List.mem_append, List.mem_singleton] at hx; rcases hx with hx | hx <;> simp [hx])).1),
          ← PCHARS_cons]
        exact fin ap2
      | false =>
        rw [vloop, if_neg (by simp)]
        rcases vloop_modifiers W k (rest ++ 0 :: junk) hk1 hk2 mods hmods (Mode.spec {}) false
          (PCHARS { str := [], size := c, retval := 0 } e) ap2 ns2 trivial with
          ⟨h1, h2⟩ | ⟨ap3, h1⟩
        · right; exact ⟨h2, h1⟩
        · left
          rw [h1]
          exact fin ap3

/-- The format `a%d%5k%d` with the argument 7: the text `a7`, then `%5k%d` as
it is. -/
theorem vsnprintf_fail_soft_witness :
    (∃ (R : List Nat) (ns : List (Nat × Int)),
      (∀ c, vsnprintf 64 c (some ([97, 37, 100] ++ [0])) [Arg.int 7]
        = some { str := if c = 0 then [] else R.take (c - 1) ++ [0],
                 retval := wrap_int R.length, stores := ns }) ∧
      ∀ (c : Nat) (junk : List Nat),
        vsnprintf 64 c (some ([97, 37, 100] ++ 37 :: ([53] ++ 107 :: ([37, 100] ++ 0 :: junk))))
            [Arg.int 7]
          = some { str := if c = 0 then []
                          else (R ++ 37 :: ([53] ++ 107 :: [37, 100])).take (c - 1) ++ [0],
                   retval := wrap_int (R ++ 37 :: ([53] ++ 107 :: [37, 100])).length,
                   stores := ns } ∨
        (42 ∈ [53] ∧
          vsnprintf 64 c (some ([97, 37, 100] ++ 37 :: ([53] ++ 107 :: ([37, 100] ++ 0 :: junk))))
            [Arg.int 7] = none)) ∧
    vsnprintf 64 16 (some [97, 37, 100, 37, 53, 107, 37, 100, 0]) [Arg.int 7]
      = some { str := [97, 55, 37, 53, 107, 37, 100, 0], retval := 7, stores := [] } :=
  ⟨vsnprintf_fail_soft 64 16 [97, 37, 100] [53] [37, 100] 107 [Arg.int 7] (by decide)
    (by decide) (by decide) (by decide) (by decide) (by decide) (by decide) (by decide),
   by decide⟩


/-! ## The precision of a number -/

theorem ksprintn_loop_upper (b : Nat) (room : Nat) :
    ∀ num, ksprintn_loop room num b true
      = (ksprintn_loop room num b false).map (List.map toupper) := by
  induction room with
  | zero => intro num; rfl
  | succ room ih =>
    intro num
    rw [ksprintn_loop, ksprintn_loop]
    by_cases hb : b = 0
    · simp [hb]
    · by_cases hq : num / b ≠ 0
      · simp only [hb, if_false, if_pos hq, ih (num / b)]
        cases ksprintn_loop room (num / b) b false <;> simp
      · simp only [hb, if_false, hq]
        rfl

theorem ksprintn_digitText (b : Nat) (hb : 2 ≤ b) (num : Nat) (hnum : num < 2 ^ 64)
    (upper : Bool) : ksprintn num b upper = some (digitText b num upper).reverse := by
  cases upper with
  | false => simpa [digitText] using ksprintn_digits b hb num hnum
  | true =>
    unfold ksprintn
    rw [ksprintn_loop_upper]
    have := ksprintn_digits b hb num hnum
    unfold ksprintn at this
    rw [this]
    simp [digitText]

theorem digitText_length (b v : Nat) (upper : Bool) :
    (digitText b v upper).length = (digitChars b v).length := by
  cases upper <;> simp [digitText]

theorem digitText_ne_zero (b : Nat) (hb : 2 ≤ b) (hb36 : b ≤ 36) (v : Nat) (upper : Bool)
    (c : Nat) (hc : c ∈ digitText b v upper) : c ≠ 0 := by
  have hz : ∀ x ∈ digitChars b v, 48 ≤ x := by
    intro x hx
    obtain ⟨d, hd, rfl, -⟩ := digitChars_valid b hb hb36 v x hx
    have : d < 36 := by omega
    interval_cases d <;> simp [hex2ascii_data]
  cases upper with
  | false =>
    have := hz c (by simpa [digitText] using hc)
    omega
  | true =>
    simp only [digitText, if_true, List.mem_map] at hc
    obtain ⟨x, hx, rfl⟩ := hc
    have := hz x hx
    unfold toupper islower
    split_ifs with h
    · simp only [Bool.and_eq_true, decide_eq_true_eq] at h; omega
    · omega

theorem digitText_takeWhile (b : Nat) (hb : 2 ≤ b) (hb36 : b ≤ 36) (v : Nat) (upper : Bool) :
    (digitText b v upper).takeWhile (fun c => c != 0) = digitText b v upper := by
  apply List.takeWhile_eq_self_iff.mpr
  intro c hc
  simpa using digitText_ne_zero b hb hb36 v upper c hc

theorem mem_if_replicate (b : Prop) [Decidable b] (n x : Nat)
    (h : x ∈ (if b then List.replicate n 32 else [])) : x = 32 := by
  split_ifs at h
  · exact List.eq_of_mem_replicate h
  · simp at h

/-- The label `number` with a precision `p`, when the flag `0` is not in
effect: the digits are padded with zeros up to `p` digits, after the sign and
the prefix of the alternate form. -/
theorem number_precision (d : Dir) (base num : Nat) (hb : 2 ≤ base) (hb36 : base ≤ 36)
    (hnum : num < 2 ^ 64) (p : Nat) (hp : p < 2 ^ 31) (hd : d.dwidth = p)
    (hz : d.ladjust = true ∨ d.padc ≠ 48) :
    ∃ (lead trail : List Nat) (neg : Bool) (mag : Nat),
      number d base num
        = some (lead ++ (if neg then [45] else []) ++
            (if d.sharpflag && decide (mag ≠ 0) then
              (if base = 8 then [48] else if base = 16 then [48, 120] else [])
             else []) ++
            List.replicate (p - (digitText base mag d.upper).length) 48 ++
            digitText base mag d.upper ++ trail) ∧
      (∀ x ∈ lead, x = 32) ∧ (∀ x ∈ trail, x = 32) := by
  have hm : (if (d.sign && decide (2 ^ 63 ≤ num)) = true then (2 ^ 64 - num) % 2 ^ 64 else num)
      < 2 ^ 64 := by
    split_ifs
    · exact Nat.mod_lt _ (by norm_num)
    · exact hnum
  generalize hmag : (if (d.sign && decide (2 ^ 63 ≤ num)) = true then (2 ^ 64 - num) % 2 ^ 64
    else num) = mag at hm
  have hlen := digitChars_length_le base hb hb36 mag hm
  rw [← digitText_length base mag d.upper] at hlen
  have hz2 : (!d.ladjust && decide (d.padc = 48)) = false := by
    rcases hz with h | h
    · simp [h]
    · simp [h]
  unfold number
  simp only [hmag, ksprintn_digitText base hb mag hm d.upper]
  unfold number_emit
  simp only [hz2, Bool.false_eq_true, if_false, List.reverse_reverse, List.length_reverse,
    digitText_takeWhile base hb hb36, hd]
  have e : (wrap_int ((p : Int) - ((digitText base mag d.upper).length : Int))).toNat
      = p - (digitText base mag d.upper).length := by
    rw [wrap_int_id _ (by omega) (by omega)]
    omega
  rw [e]
  refine ⟨_, _, (d.sign && decide (2 ^ 63 ≤ num)), mag, rfl, ?_, ?_⟩
  · exact fun x hx => mem_if_replicate _ _ x hx
  · exact fun x hx => mem_if_replicate _ _ x hx

theorem toUnsigned_lt (w : Nat) (x : Int) : toUnsigned w x < 2 ^ w := by
  unfold toUnsigned
  have h1 := Int.emod_lt_of_pos x (show (0 : Int) < 2 ^ w by positivity)
  have h2 := Int.emod_nonneg x (show (2 ^ w : Int) ≠ 0 by positivity)
  have h3 : ((x % 2 ^ w).toNat : Int) = x % 2 ^ w := Int.toNat_of_nonneg h2
  have h4 : ((x % 2 ^ w).toNat : Int) < ((2 ^ w : Nat) : Int) := by
    rw [h3]; push_cast; exact h1
  exact_mod_cast h4

theorem fetch_sign_lt (W : Nat) (d : Dir) (v : Int) : fetch_sign W d v < 2 ^ 64 := by
  unfold fetch_sign
  split_ifs <;> exact toUnsigned_lt 64 _

theorem fetch_nosign_lt (W : Nat) (d : Dir) (v : Int) : fetch_nosign W d v < 2 ^ 64 := by
  unfold fetch_nosign
  split_ifs <;> exact toUnsigned_lt 64 _

/-- The integer conversions go through the label `number` with the flags and
the precision of the directive. -/
theorem directive_number (W : Nat) (ch : Nat) (peek : Option Nat) (d : Dir) (stop : Bool)
    (ap : List Arg) (r : Int) (hch : number_conversion ch = true) :
    ∃ (d2 : Dir) (fetch : Int → Nat),
      directive W ch peek d stop ap r = number_step d2 (conv_base ch) fetch stop ap ∧
      d2.dwidth = d.dwidth ∧ d2.ladjust = d.ladjust ∧ d2.padc = d.padc ∧
      d2.sharpflag = d.sharpflag ∧ d2.upper = (d.upper || ch == 88) ∧
      ∀ v, fetch v < 2 ^ 64 := by
  simp only [number_conversion, Bool.or_eq_true, beq_iff_eq] at hch
  rcases hch with ((((((h | h) | h) | h) | h) | h) | h) | h <;> subst h
  · exact ⟨{ d with percent := d.percent ++ [100], sign := true },
      fetch_sign W { d with percent := d.percent ++ [100] },
      by simp [directive, conv_base], rfl, rfl, rfl, rfl, by simp,
      fun v => fetch_sign_lt W _ v⟩
  · exact ⟨{ d with percent := d.percent ++ [105], sign := true },
      fetch_sign W { d with percent := d.percent ++ [105] },
      by simp [directive, conv_base], rfl, rfl, rfl, rfl, by simp,
      fun v => fetch_sign_lt W _ v⟩
  · exact ⟨{ d with percent := d.percent ++ [111], sign := false },
      fetch_nosign W { d with percent := d.percent ++ [111] },
      by simp [directive, conv_base], rfl, rfl, rfl, rfl, by simp,
      fun v => fetch_nosign_lt W _ v⟩
  · exact ⟨{ d with percent := d.percent ++ [117], sign := false },
      fetch_nosign W { d with percent := d.percent ++ [117] },
      by simp [directive, conv_base], rfl, rfl, rfl, rfl, by simp,
      fun v => fetch_nosign_lt W _ v⟩
  · exact ⟨{ d with percent := d.percent ++ [120], sign := false },
      fetch_nosign W { d with percent := d.percent ++ [120] },
      by simp [directive, conv_base], rfl, rfl, rfl, rfl, by simp,
      fun v => fetch_nosign_lt W _ v⟩
  · exact ⟨{ d with percent := d.percent ++ [88], upper := true, sign := false },
      fetch_nosign W { d with percent := d.percent ++ [88] },
      by simp [directive, conv_base], rfl, rfl, rfl, rfl, by simp,
      fun v => fetch_nosign_lt W _ v⟩
  · exact ⟨{ d with percent := d.percent ++ [121], sign := true },
      fetch_sign W { d with percent := d.percent ++ [121] },
      by simp [directive, conv_base], rfl, rfl, rfl, rfl, by simp,
      fun v => fetch_sign_lt W _ v⟩
  · by_cases hs : d.sign = true
    · exact ⟨{ d with percent := d.percent ++ [114] },
        fetch_sign W { d with percent := d.percent ++ [114] },
        by simp [directive, conv_base, hs], rfl, rfl, rfl, rfl, by simp,
        fun v => fetch_sign_lt W _ v⟩
    · exact ⟨{ d with percent := d.percent ++ [114], sign := false },
        fetch_nosign W { d with percent := d.percent ++ [114] },
        by simp [directive, conv_base, hs], rfl, rfl, rfl, rfl, by simp,
        fun v => fetch_nosign_lt W _ v⟩

theorem parseNum_digitChars (p : Nat) (hp : p < 2 ^ 31) : parseNum 0 (digitChars 10 p) = p := by
  unfold digitChars
  split_ifs with h
  · subst h; decide
  · exact parseNum_digits p hp

theorem digitChars_digits (p : Nat) : ∀ x ∈ digitChars 10 p, 48 ≤ x ∧ x ≤ 57 := by
  intro x hx
  have := digitChars_decimal p x hx
  exact this

/-- C19 as stated fails: with the flag `0` the precision is replaced by the
width.  The format `%02.5d` and the value 7 give `07`, two digits and not five. -/
theorem vsnprintf_precision_zero_flag :
    vsnprintf 64 16 (some [37, 48, 50, 46, 53, 100, 0]) [Arg.int 7]
      = some { str := [48, 55, 0], retval := 2, stores := [] } := by
  decide

/-! ## The scan set compiler -/

set_option maxRecDepth 100000 in
/-- C11: a `]` that is the first character of a scan set, after an optional
`^`, is taken as a member of the set and the scan goes on after it.  For the
expression `^]a-c]`, whatever follows it in the format, the table has 0 at
`]`, `a`, `b`, `c` and 1 at every other byte value, and the returned pointer
is 6 bytes on, just after the last `]`. -/
theorem sccl_bracket_first (junk : List Nat) :
    __sccl (93 :: junk) = sccl_switch 1 junk false 93 ((List.replicate 256 0).set 93 1) 1 ∧
    __sccl (94 :: 93 :: junk)
      = sccl_switch 0 junk false 93 ((List.replicate 256 1).set 93 0) 2 ∧
    __sccl ([94, 93, 97, 45, 99, 93] ++ junk)
      = some ((List.range 256).map
                (fun i => if i = 93 ∨ i = 97 ∨ i = 98 ∨ i = 99 then 0 else 1), 6) := by
  refine ⟨by simp [__sccl], by simp [__sccl], ?_⟩
  have h : __sccl ([94, 93, 97, 45, 99, 93] ++ junk)
      = some (((((List.replicate 256 1).set 93 0).set 97 0).set 98 0).set 99 0, 6) := by
    simp only [__sccl, sccl_switch, sccl_fill, List.cons_append, List.nil_append]
    simp only [Nat.reduceEqDiff, if_true, if_false, Nat.reduceLT, Nat.reduceAdd, Nat.reduceSub,
      or_self, or_false, false_or, OfNat.ofNat_ne_zero, reduceCtorEq, List.head?_cons]
  rw [h]
  decide

/-! ## Lemmas on the scanner -/

theorem strlen_text (t junk : List Nat) (h : ∀ c ∈ t, c ≠ 0) :
    strlen (t ++ 0 :: junk) = t.length := by
  unfold strlen
  induction t with
  | nil => simp
  | cons c cs ih =>
    have hc : c ≠ 0 := h c (by simp)
    simp only [List.cons_append, List.takeWhile_cons, bne_iff_ne, ne_eq, hc, not_false_eq_true,
      decide_True, if_true, List.length_cons]
    rw [ih (fun x hx => h x (by simp [hx]))]

theorem get_of_drop (mem : List Nat) (n c : Nat) (l : List Nat) (h : mem.drop n = c :: l) :
    mem.get? n = some c ∧ mem.drop (n + 1) = l := by
  constructor
  · rw [List.get?_eq_getElem?, ← List.head?_drop, h]; rfl
  · rw [← List.tail_drop, h]; rfl

theorem ws_conv_stop (c : Nat) (l : List Nat) (s : Scan) (h : isspace c = false) :
    ws_conv (c :: l) s = Conv.next s := by
  simp [ws_conv, h]

/-- The `switch` of the integer loop on a decimal digit in base 10. -/
theorem int_char_digit (c : Nat) (hc : 48 ≤ c ∧ c ≤ 57) (flags : Flags) (plen : Nat) :
    ∃ fl, int_char c flags 10 plen = some (true, fl, 10) ∧ fl.NDIGITS = false ∧
      fl.SUPPRESS = flags.SUPPRESS ∧
      ∀ W a res, int_store W fl a res = int_store W flags a res := by
  unfold int_char
  by_cases h0 : c = 48
  · subst h0
    have h10 : ¬ ((10 : Int) = 0) := by decide
    simp only [if_true, h10, if_false]
    by_cases hz : flags.NZDIGITS = true
    · simp only [hz, if_true]
      exact ⟨_, rfl, rfl, rfl, fun W a res => rfl⟩
    · simp only [hz, if_false]
      exact ⟨_, rfl, rfl, rfl, fun W a res => rfl⟩
  · by_cases h1 : 49 ≤ c ∧ c ≤ 55
    · have hb : ¬ ((10 : Int) < 0) := by decide
      have hg : basefix.get? (10 : Int).toNat = some 10 := by decide
      simp only [if_neg h0, if_pos h1, hb, if_false, hg]
      exact ⟨_, rfl, rfl, rfl, fun W a res => rfl⟩
    · have h2 : c = 56 ∨ c = 57 := by omega
      have hb : ¬ ((10 : Int) < 0) := by decide
      have hg : basefix.get? (10 : Int).toNat = some 10 := by decide
      have h8 : ¬ ((10 : Int) ≤ 8) := by decide
      simp only [if_neg h0, if_neg h1, if_pos h2, hb, if_false, hg, h8]
      exact ⟨_, rfl, rfl, rfl, fun W a res => rfl⟩

theorem int_char_space (flags : Flags) (base : Int) (plen : Nat) :
    int_char 32 flags base plen = some (false, flags, base) := by
  simp [int_char]

/-- The integer loop over the decimal digits `ds` that a space follows. -/
theorem int_run_digits (mem : List Nat) (ds : List Nat) (hdig : ∀ c ∈ ds, 48 ≤ c ∧ c ≤ 57) :
    ∀ (w : Nat) (flags : Flags) (buf : List Nat) (s : Scan) (rest : List Nat),
      mem.drop s.pos = ds ++ 32 :: rest → ds.length ≤ w → s.base = 10 →
      (ds.length : Int) < s.inr → s.inr < 2 ^ 31 →
      ∃ fl, int_run mem w flags buf s
          = some (fl, buf ++ ds, { s with pos := s.pos + ds.length, inr := s.inr - ds.length }) ∧
        (ds ≠ [] → fl.NDIGITS = false) ∧ (ds = [] → fl = flags) ∧
        fl.SUPPRESS = flags.SUPPRESS ∧
        ∀ W a res, int_store W fl a res = int_store W flags a res := by
  induction ds with
  | nil =>
    intro w flags buf s rest hmem hw hb hinr hmax
    refine ⟨flags, ?_, fun h => absurd rfl h, fun _ => rfl, rfl, fun _ _ _ => rfl⟩
    cases w with
    | zero => simp [int_run]
    | succ w =>
      obtain ⟨hg, -⟩ := get_of_drop mem s.pos 32 rest (by simpa using hmem)
      rw [int_run, hg]
      simp only [int_char_space]
      simp
  | cons d ds ih =>
    intro w flags buf s rest hmem hw hb hinr hmax
    cases w with
    | zero => simp at hw
    | succ w =>
      obtain ⟨hg, hd⟩ := get_of_drop mem s.pos d (ds ++ 32 :: rest) (by simpa using hmem)
      obtain ⟨fl1, h1, h2, h3, h4⟩ := int_char_digit d (hdig d (by simp)) flags buf.length
      simp only [List.length_cons, Nat.cast_add, Nat.cast_one] at hinr hw
      have hwr : wrap_int (s.inr - 1) = s.inr - 1 := wrap_int_id _ (by omega) (by omega)
      obtain ⟨fl, e, e1, e2, e3, e4⟩ := ih (fun c hc => hdig c (by simp [hc])) w fl1 (buf ++ [d])
        { s with base := 10, inr := s.inr - 1, pos := s.pos + 1 } rest hd
        (by omega) rfl (by simp only []; omega) (by simp only []; omega)
      refine ⟨fl, ?_, fun _ => ?_, fun h => absurd h (by simp), by rw [e3, h3],
        fun W a res => by rw [e4, h4]⟩
      · rw [int_run, hg]
        simp only [hb, h1, if_true]
        rw [hwr, if_pos (by omega), e]
        simp only [List.append_assoc, List.singleton_append, List.length_cons,
          Nat.cast_add, Nat.cast_one]
        have e5 : s.pos + 1 + ds.length = s.pos + (ds.length + 1) := by omega
        have e6 : s.inr - 1 - (ds.length : Int) = s.inr - ((ds.length : Int) + 1) := by omega
        rw [e5, e6]
      · by_cases hds : ds = []
        · rw [e2 hds]; exact h2
        · exact e1 hds

theorem digitval_decimal (c : Nat) (hc : 48 ≤ c ∧ c ≤ 57) :
    (digitval ((10 : Nat) : Int) c).isSome = true := by
  have h1 : isascii c = true := by simp [isascii]; omega
  have h2 : isdigit c = true := by simp [isdigit]; omega
  have h3 : ¬ (((c - 48 : Nat) : Int) ≥ ((10 : Nat) : Int)) := by
    have : c - 48 < 10 := by omega
    push_cast
    omega
  simp [digitval, h1, h2]
  omega

/-- The decoder `strtoq` in base 10 on an optional sign and decimal digits
whose value is within the limit. -/
theorem strtoq_sign_digits (sg ds : List Nat) (hsg : sg = [] ∨ sg = [43] ∨ sg = [45])
    (hne : ds ≠ []) (hdig : ∀ c ∈ ds, 48 ≤ c ∧ c ≤ 57)
    (hval : runValue 10 ds ≤ strtoq_limit (decide (sg = [45]))) :
    (strtoq (sg ++ ds) 10).1
      = if sg = [45] then -(runValue 10 ds : Int) else (runValue 10 ds : Int) := by
  have hall : ∀ c ∈ ds, (digitval ((10 : Nat) : Int) c).isSome = true :=
    fun c hc => digitval_decimal c (hdig c hc)
  have hhead : (digitval ((10 : Nat) : Int) (ds.headD 0)).isSome = true := by
    obtain ⟨x, xs, rfl⟩ := List.exists_cons_of_ne_nil hne
    exact hall x (by simp)
  have hch : Chosen 10 [] ds 10 :=
    Or.inl ⟨rfl, not_hexStart_digits 10 (by norm_num) ds hall, by norm_num⟩
  have hst := strto_start_parts 10 10 [] sg [] ds (by simp) hsg hhead hch
  simp only [List.nil_append, List.append_nil, List.length_nil, zero_add, add_zero,
    Nat.cast_ofNat] at hst
  rw [strtoq_of_start (sg ++ ds) 10 (decide (sg = [45])) 10 sg.length ds hst (by norm_num)
    (by norm_num)]
  unfold signedResult
  simp only [Nat.cast_ofNat]
  rw [digitRun_all 10 ds hall, if_neg (by omega)]
  by_cases h : sg = [45]
  · simp [h]
  · simp [h]

theorem toSigned_32_64 (v : Int) (h1 : -2 ^ 31 ≤ v) (h2 : v < 2 ^ 31) :
    toSigned 32 ((toUnsigned 64 v : Nat) : Int) = v := by
  unfold toUnsigned toSigned
  have h3 := Int.emod_nonneg v (show (2 ^ 64 : Int) ≠ 0 by norm_num)
  rw [Int.toNat_of_nonneg h3]
  norm_num
  omega

/-- The integer loop of `%d` over an optional sign and decimal digits that a
space follows. -/
theorem int_run_decimal (mem sg ds rest : List Nat)
    (hsg : sg = [] ∨ sg = [43] ∨ sg = [45]) (hne : ds ≠ [])
    (hdig : ∀ c ∈ ds, 48 ≤ c ∧ c ≤ 57) (hlen : sg.length + ds.length ≤ 31) (s : Scan)
    (hmem : mem.drop s.pos = sg ++ ds ++ 32 :: rest)
    (hinr : ((sg.length + ds.length : Nat) : Int) < s.inr) (hmax : s.inr < 2 ^ 31)
    (hb : s.base = 10) :
    ∃ fl, int_run mem 31 { SIGNOK := true, NDIGITS := true, NZDIGITS := true } [] s
        = some (fl, sg ++ ds, { s with pos := s.pos + (sg.length + ds.length),
                                       inr := s.inr - ((sg.length + ds.length : Nat) : Int) }) ∧
      fl.NDIGITS = false ∧ fl.SUPPRESS = false ∧
      ∀ W a res, int_store W fl a res = Stored.val a 32 (toSigned 32 res) := by
  have sign : ∀ c, c = 43 ∨ c = 45 → sg = [c] →
      ∃ fl, int_run mem 31 { SIGNOK := true, NDIGITS := true, NZDIGITS := true } [] s
        = some (fl, sg ++ ds, { s with pos := s.pos + (sg.length + ds.length),
                                       inr := s.inr - ((sg.length + ds.length : Nat) : Int) }) ∧
      fl.NDIGITS = false ∧ fl.SUPPRESS = false ∧
      ∀ W a res, int_store W fl a res = Stored.val a 32 (toSigned 32 res) := by
    intro c hc h
    subst h
    simp only [List.length_singleton, Nat.cast_add, Nat.cast_one] at hinr hlen
    obtain ⟨hg, hd⟩ := get_of_drop mem s.pos c (ds ++ 32 :: rest) (by simpa using hmem)
    have hwr : wrap_int (s.inr - 1) = s.inr - 1 := wrap_int_id _ (by omega) (by omega)
    have hic : int_char c { SIGNOK := true, NDIGITS := true, NZDIGITS := true } 10 0
        = some (true, { NDIGITS := true, NZDIGITS := true }, 10) := by
      rcases hc with rfl | rfl <;> simp [int_char]
    obtain ⟨fl, e, e1, -, e3, e4⟩ := int_run_digits mem ds hdig 30
      { NDIGITS := true, NZDIGITS := true } [c]
      { s with base := 10, inr := s.inr - 1, pos := s.pos + 1 } rest hd (by omega) rfl
      (by simp only []; omega) (by simp only []; omega)
    refine ⟨fl, ?_, e1 hne, e3, fun W a res => by rw [e4]; rfl⟩
    rw [int_run, hg]
    simp only [hb, List.length_nil, hic, if_true, hwr]
    rw [if_pos (by omega), List.nil_append, e]
    have e5 : s.pos + 1 + ds.length = s.pos + (1 + ds.length) := by omega
    have e6 : s.inr - 1 - (ds.length : Int) = s.inr - ((1 + ds.length : Nat) : Int) := by
      push_cast; omega
    simp only [List.length_singleton, List.singleton_append, e5, e6]
  rcases hsg with h | h | h
  · subst h
    simp only [List.length_nil, zero_add, List.nil_append] at hinr hlen hmem ⊢
    obtain ⟨fl, e, e1, -, e3, e4⟩ := int_run_digits mem ds hdig 31
      { SIGNOK := true, NDIGITS := true, NZDIGITS := true } [] s rest hmem (by omega) hb
      hinr hmax
    exact ⟨fl, by rw [e]; rfl, e1 hne, e3, fun W a res => by rw [e4]; rfl⟩
  · exact sign 43 (Or.inl rfl) h
  · exact sign 45 (Or.inr rfl) h

/-- The case `CT_INT` of a plain `%d` on an optional sign and decimal digits
that a space follows, with a value in the range of `int`. -/
theorem ct_int_decimal (W : Nat) (hW : 5 ≤ W) (mem sg ds rest : List Nat)
    (hsg : sg = [] ∨ sg = [43] ∨ sg = [45]) (hne : ds ≠ [])
    (hdig : ∀ c ∈ ds, 48 ≤ c ∧ c ≤ 57) (hlen : sg.length + ds.length ≤ 31)
    (hval : runValue 10 ds ≤ (if sg = [45] then 2 ^ 31 else 2 ^ 31 - 1))
    (s : Scan) (a : Nat) (ap2 : List Arg)
    (hmem : mem.drop s.pos = sg ++ ds ++ 32 :: rest)
    (hinr : ((sg.length + ds.length : Nat) : Int) < s.inr) (hmax : s.inr < 2 ^ 31)
    (hb : s.base = 10) (hf : s.ccfn = some true) (hap : s.ap = Arg.ptr a :: ap2) :
    ct_int W mem 0 {} s
      = Conv.next { s with
          pos := s.pos + (sg.length + ds.length),
          inr := s.inr - ((sg.length + ds.length : Nat) : Int),
          ap := ap2,
          stores := s.stores ++
            [Stored.val a 32 (if sg = [45] then -(runValue 10 ds : Int) else runValue 10 ds)],
          nassigned := s.nassigned + 1,
          nread := wrap_int (toSigned W (s.nread + ((sg.length + ds.length : Nat) : Int))),
          nconversions := s.nconversions + 1 } := by
  obtain ⟨fl, e, e1, e2, e3⟩ := int_run_decimal mem sg ds rest hsg hne hdig hlen s hmem hinr
    hmax hb
  have h32 : 2 ^ 5 ≤ 2 ^ W := Nat.pow_le_pow_right (by norm_num) hW
  have hw : (0 + 2 ^ W - 1) % 2 ^ W = 2 ^ W - 1 := by
    rw [Nat.zero_add]; exact Nat.mod_eq_of_lt (by omega)
  have h30 : 2 ^ W - 1 > 30 := by omega
  have hlast : ∃ x, (sg ++ ds).getLast? = some x ∧ ¬ (x = 120 ∨ x = 88) := by
    refine ⟨ds.getLast hne, ?_, ?_⟩
    · rw [List.getLast?_append_of_ne_nil _ hne, List.getLast?_eq_getLast _ hne]
    · have := hdig _ (List.getLast_mem hne)
      omega
  obtain ⟨x, hx1, hx2⟩ := hlast
  have hlim : runValue 10 ds ≤ strtoq_limit (decide (sg = [45])) := by
    unfold strtoq_limit
    by_cases h : sg = [45]
    · simp only [h, if_true, decide_True] at hval ⊢; omega
    · simp only [h, if_false, decide_False, Bool.false_eq_true] at hval ⊢; omega
  have hv := strtoq_sign_digits sg ds hsg hne hdig hlim
  have hrange : toSigned 32 ((toUnsigned 64 (strtoq (sg ++ ds) 10).1 : Nat) : Int)
      = if sg = [45] then -(runValue 10 ds : Int) else runValue 10 ds := by
    rw [hv]
    by_cases h : sg = [45]
    · simp only [h, if_true] at hval ⊢
      exact toSigned_32_64 _ (by omega) (by omega)
    · simp only [h, if_false] at hval ⊢
      exact toSigned_32_64 _ (by omega) (by omega)
  unfold ct_int
  simp only [hw, h30, if_true, e, e1, Bool.false_eq_true, if_false, hx1, hx2, e2, hf, hap, hb,
    e3, hrange, List.length_append, Nat.cast_add]

/-- The directive `%d` on an optional sign and decimal digits that a space
follows. -/
theorem sloop_d (W : Nat) (hW : 5 ≤ W) (mem sg ds rest fmt : List Nat)
    (hsg : sg = [] ∨ sg = [43] ∨ sg = [45]) (hne : ds ≠ [])
    (hdig : ∀ c ∈ ds, 48 ≤ c ∧ c ≤ 57) (hlen : sg.length + ds.length ≤ 31)
    (hval : runValue 10 ds ≤ (if sg = [45] then 2 ^ 31 else 2 ^ 31 - 1))
    (s : Scan) (a : Nat) (ap2 : List Arg)
    (hmem : mem.drop s.pos = sg ++ ds ++ 32 :: rest)
    (hinr : ((sg.length + ds.length : Nat) : Int) < s.inr) (hmax : s.inr < 2 ^ 31)
    (hap : s.ap = Arg.ptr a :: ap2) :
    sloop W mem (37 :: 100 :: fmt) (SMode.text 0) s
      = sloop W mem fmt (SMode.text 0) { s with
          base := 10, ccfn := some true,
          pos := s.pos + (sg.length + ds.length),
          inr := s.inr - ((sg.length + ds.length : Nat) : Int),
          ap := ap2,
          stores := s.stores ++
            [Stored.val a 32 (if sg = [45] then -(runValue 10 ds : Int) else runValue 10 ds)],
          nassigned := s.nassigned + 1,
          nread := wrap_int (toSigned W (s.nread + ((sg.length + ds.length : Nat) : Int))),
          nconversions := s.nconversions + 1 } := by
  have hhead : ∃ c l, sg ++ ds ++ 32 :: rest = c :: l ∧ isspace c = false := by
    obtain ⟨x, xs, rfl⟩ := List.exists_cons_of_ne_nil hne
    have hx := hdig x (by simp)
    rcases hsg with h | h | h <;> subst h
    · exact ⟨x, _, rfl, by simp [isspace]; omega⟩
    · exact ⟨43, _, rfl, by decide⟩
    · exact ⟨45, _, rfl, by decide⟩
  obtain ⟨c, l, hcl, hsp⟩ := hhead
  have hpos : ¬ s.inr ≤ 0 := by
    have : (0 : Int) ≤ ((sg.length + ds.length : Nat) : Int) := Int.natCast_nonneg _
    omega
  have hct := ct_int_decimal W hW mem sg ds rest hsg hne hdig hlen hval
    { s with ccfn := some true, base := 10 } a ap2 hmem hinr hmax rfl rfl hap
  rw [sloop]
  simp only [show ¬ (37 = 0) by decide, if_false, show isspace 37 = false by decide,
    Bool.false_eq_true, ne_eq, not_true_eq_false]
  rw [sloop]
  simp only [show ¬ (100 = 37) by decide, show ¬ (100 = 42) by decide,
    show ¬ (100 = 108) by decide, show ¬ (100 = 113) by decide, show ¬ (100 = 104) by decide,
    show ¬ (48 ≤ 100 ∧ 100 ≤ 57) by decide, show ¬ (100 = 110) by decide,
    show ¬ (100 = 91) by decide, if_false]
  have hcl2 : conv_letter 100 {} s = (3, {}, { s with ccfn := some true, base := 10 }) := by
    simp [conv_letter]
  rw [hcl2]
  simp only [conversion, hpos, if_false, Bool.false_eq_true, hmem, hcl, ws_conv_stop c l _ hsp,
    show ¬ ((3 : Nat) = 0) by decide, show ¬ ((3 : Nat) = 1) by decide,
    show ¬ ((3 : Nat) = 2) by decide, if_true, hct]

theorem ws_run_one (c : Nat) (rest : List Nat) (s : Scan) (hc : isspace c = false)
    (hinr : 1 < s.inr) (hmax : s.inr < 2 ^ 31) :
    ws_run (32 :: c :: rest) s
      = some { s with nread := wrap_int (s.nread + 1), inr := s.inr - 1, pos := s.pos + 1 } := by
  have hwr : wrap_int (s.inr - 1) = s.inr - 1 := wrap_int_id _ (by omega) (by omega)
  rw [ws_run, if_pos ⟨by omega, by decide⟩, ws_run, if_neg (by simp [hc]), hwr]

/-- The white space directive on one space that a character other than white
space follows. -/
theorem sloop_space (W : Nat) (mem fmt : List Nat) (c : Nat) (rest : List Nat) (s : Scan)
    (hmem : mem.drop s.pos = 32 :: c :: rest) (hc : isspace c = false)
    (hinr : 1 < s.inr) (hmax : s.inr < 2 ^ 31) :
    sloop W mem (32 :: fmt) (SMode.text 0) s
      = sloop W mem fmt (SMode.text 0)
          { s with nread := wrap_int (s.nread + 1), inr := s.inr - 1, pos := s.pos + 1 } := by
  rw [sloop]
  simp only [show ¬ (32 = 0) by decide, if_false, show isspace 32 = true by decide, if_true,
    hmem, ws_run_one c rest s hc hinr hmax]

/-- The loop of `%s` over a word that ends with the input. -/
theorem take_run_all (W : Nat) (P : Nat → Bool) (cs : List Nat) :
    ∀ (c : Nat) (width : Nat) (rest : List Nat), (∀ x ∈ c :: cs, P x = true) →
      cs.length + 1 < width → width < 2 ^ W → cs.length + 1 < 2 ^ 31 →
      take_run W P (c :: cs ++ rest) ((cs.length + 1 : Nat) : Int) width
        = some (c :: cs, 0) := by
  induction cs with
  | nil =>
    intro c width rest hP hw hW h31
    have hwd : (width + 2 ^ W - 1) % 2 ^ W = width - 1 := by
      have : width + 2 ^ W - 1 = (width - 1) + 2 ^ W := by omega
      rw [this, Nat.add_mod_right, Nat.mod_eq_of_lt (by omega)]
    simp only [List.length_nil, zero_add] at hw ⊢
    rw [List.cons_append, take_run, if_pos (hP c (by simp)), hwd, if_neg (by omega)]
    have : wrap_int (((1 : Nat) : Int) - 1) = 0 := by decide
    rw [this, if_pos (le_refl _)]
  | cons d cs ih =>
    intro c width rest hP hw hW h31
    have hwd : (width + 2 ^ W - 1) % 2 ^ W = width - 1 := by
      have : width + 2 ^ W - 1 = (width - 1) + 2 ^ W := by omega
      rw [this, Nat.add_mod_right, Nat.mod_eq_of_lt (by omega)]
    simp only [List.length_cons] at hw h31 ⊢
    have hwr : wrap_int (((cs.length + 1 + 1 : Nat) : Int) - 1) = ((cs.length + 1 : Nat) : Int) := by
      rw [wrap_int_id _ (by push_cast; omega) (by push_cast; omega)]
      push_cast; omega
    rw [List.cons_append, take_run, if_pos (hP c (by simp)), hwd, if_neg (by omega), hwr,
      if_neg (by push_cast; omega),
      ih d (width - 1) rest (fun x hx => hP x (by simp at hx ⊢; tauto)) (by omega) (by omega)
        (by omega)]
    rfl

/-- The directive `%s` on a word that ends with the input. -/
theorem sloop_s (W : Nat) (hW : 32 ≤ W) (mem fmt : List Nat) (c : Nat) (cs rest : List Nat)
    (s : Scan) (a : Nat) (ap2 : List Arg)
    (hmem : mem.drop s.pos = c :: cs ++ rest) (hP : ∀ x ∈ c :: cs, isspace x = false)
    (hinr : s.inr = ((cs.length + 1 : Nat) : Int)) (h31 : cs.length + 1 < 2 ^ 31)
    (hap : s.ap = Arg.ptr a :: ap2) :
    sloop W mem (37 :: 115 :: fmt) (SMode.text 0) s
      = sloop W mem fmt (SMode.text 0) { s with
          ap := ap2, inr := 0, pos := s.pos + (cs.length + 1),
          stores := s.stores ++ [Stored.bytes a (c :: cs ++ [0])],
          nread := wrap_int (toSigned W (s.nread + ((cs.length + 1 : Nat) : Int))),
          nassigned := s.nassigned + 1,
          nconversions := s.nconversions + 1 } := by
  have h32 : 2 ^ 32 ≤ 2 ^ W := Nat.pow_le_pow_right (by norm_num) hW
  have hpos : ¬ s.inr ≤ 0 := by rw [hinr]; push_cast; omega
  have htake := take_run_all W (fun c => !isspace c) cs c (2 ^ W - 1) rest
    (fun x hx => by simp [hP x hx]) (by omega) (by omega) h31
  rw [sloop]
  simp only [show ¬ (37 = 0) by decide, if_false, show isspace 37 = false by decide,
    Bool.false_eq_true, ne_eq, not_true_eq_false]
  rw [sloop]
  simp only [show ¬ (115 = 37) by decide, show ¬ (115 = 42) by decide,
    show ¬ (115 = 108) by decide, show ¬ (115 = 113) by decide, show ¬ (115 = 104) by decide,
    show ¬ (48 ≤ 115 ∧ 115 ≤ 57) by decide, show ¬ (115 = 110) by decide,
    show ¬ (115 = 91) by decide, if_false]
  have hcl2 : conv_letter 115 {} s = (2, {}, s) := by
    simp [conv_letter]
  rw [hcl2]
  simp only [conversion, hpos, if_false, Bool.false_eq_true, hmem, List.cons_append,
    ws_conv_stop c _ _ (hP c (by simp)),
    show ¬ ((2 : Nat) = 0) by decide, show ¬ ((2 : Nat) = 1) by decide, if_true, ct_string,
    hap, hinr]
  have hpos2 : ¬ (((cs.length + 1 : Nat) : Int) ≤ 0) := by push_cast; omega
  simp only [hpos2, if_false]
  rw [← List.cons_append, htake]
  simp only [List.length_cons, List.cons_append]

/-- C12: the format `%d %s` on a number and a word.  The input is an optional
sign `sg` and decimal digits `ds` (at most 31 characters in all, with a value
in the range of `int`), a space and a word `w` that is not empty and holds no
white space, and its terminator; the whole input is shorter than `2 ^ 31`.
Then `vsscanf` returns 2, stores the value of the number through the first
pointer as an `int` and stores `w` and a NUL through the second pointer.  The
type `size_t` has at least 32 bits. -/
theorem vsscanf_d_s (W : Nat) (hW : 32 ≤ W) (sg ds w junk fjunk : List Nat) (a1 a2 : Nat)
    (ap : List Arg) (hsg : sg = [] ∨ sg = [43] ∨ sg = [45]) (hne : ds ≠ [])
    (hdig : ∀ c ∈ ds, 48 ≤ c ∧ c ≤ 57) (hlen : sg.length + ds.length ≤ 31)
    (hval : runValue 10 ds ≤ (if sg = [45] then 2 ^ 31 else 2 ^ 31 - 1))
    (hw : w ≠ []) (hwc : ∀ c ∈ w, isspace c = false ∧ c ≠ 0)
    (htot : sg.length + ds.length + 1 + w.length < 2 ^ 31) :
    vsscanf W (sg ++ ds ++ 32 :: (w ++ 0 :: junk)) ([37, 100, 32, 37, 115, 0] ++ fjunk)
        (Arg.ptr a1 :: Arg.ptr a2 :: ap)
      = some (2, [Stored.val a1 32
                    (if sg = [45] then -(runValue 10 ds : Int) else runValue 10 ds),
                  Stored.bytes a2 (w ++ [0])]) := by
  obtain ⟨c, cs, rfl⟩ := List.exists_cons_of_ne_nil hw
  simp only [List.length_cons] at htot
  have hmem0 : (0 : Nat) ∈ sg ++ ds ++ 32 :: (c :: cs ++ 0 :: junk) := by simp
  have htext : ∀ x ∈ sg ++ ds ++ 32 :: (c :: cs), x ≠ 0 := by
    intro x hx
    simp only [List.mem_append, List.mem_cons] at hx
    rcases hx with (hx | hx) | hx | hx | hx
    · rcases hsg with h | h | h <;> subst h <;> simp at hx <;> omega
    · have := hdig x hx; omega
    · omega
    · exact (hwc x (by simp [hx])).2
    · exact (hwc x (by simp [hx])).2
  have hstr : strlen (sg ++ ds ++ 32 :: (c :: cs ++ 0 :: junk))
      = sg.length + ds.length + 1 + (cs.length + 1) := by
    have e : sg ++ ds ++ 32 :: (c :: cs ++ 0 :: junk)
        = (sg ++ ds ++ 32 :: (c :: cs)) ++ 0 :: junk := by simp
    rw [e, strlen_text _ _ htext]
    simp only [List.length_append, List.length_cons]
    omega
  have hinr0 : wrap_int ((sg.length + ds.length + 1 + (cs.length + 1) : Nat) : Int)
      = ((sg.length + ds.length + 1 + (cs.length + 1) : Nat) : Int) :=
    wrap_int_id _ (by push_cast; omega) (by push_cast; omega)
  unfold vsscanf vsscanf_run
  rw [if_pos hmem0, hstr, hinr0]
  simp only [List.cons_append, List.nil_append]
  rw [sloop_d W (by omega) _ sg ds (c :: cs ++ 0 :: junk) _ hsg hne hdig hlen hval _ a1
      (Arg.ptr a2 :: ap) (by simp) (by simp only []; push_cast; omega)
      (by simp only []; push_cast; omega) rfl]
  rw [sloop_space W _ _ c (cs ++ 0 :: junk) _
      (by
        simp only [zero_add]
        have e : sg ++ ds ++ 32 :: c :: (cs ++ 0 :: junk)
            = (sg ++ ds) ++ (32 :: c :: (cs ++ 0 :: junk)) := by simp
        rw [e, ← List.length_append, List.drop_left])
      (hwc c (by simp)).1 (by simp only []; push_cast; omega)
      (by simp only []; push_cast; omega)]
  rw [sloop_s W hW _ _ c cs (0 :: junk) _ a2 ap
      (by
        simp only [zero_add]
        have e : sg ++ ds ++ 32 :: c :: (cs ++ 0 :: junk)
            = (sg ++ ds ++ [32]) ++ (c :: cs ++ 0 :: junk) := by simp
        have e2 : sg.length + ds.length + 1 = (sg ++ ds ++ [32]).length := by
          simp only [List.length_append, List.length_singleton]
        rw [e, e2, List.drop_left])
      (fun x hx => (hwc x hx).1) (by simp only []; push_cast; omega) (by omega) rfl]
  rw [sloop]
  simp [finish, scan_ret, wrap_int, toSigned]

/-- The input `123 abc` with the format `%d %s`: the result is 2, the number
is 123 and the word is `abc`. -/
theorem vsscanf_d_s_witness :
    vsscanf 64 ([] ++ [49, 50, 51] ++ 32 :: ([97, 98, 99] ++ 0 :: []))
        ([37, 100, 32, 37, 115, 0] ++ []) (Arg.ptr 1000 :: Arg.ptr 2000 :: [])
      = some (2, [Stored.val 1000 32
                    (if ([] : List Nat) = [45] then -(runValue 10 [49, 50, 51] : Int)
                     else runValue 10 [49, 50, 51]),
                  Stored.bytes 2000 ([97, 98, 99] ++ [0])]) ∧
    runValue 10 [49, 50, 51] = 123 :=
  ⟨vsscanf_d_s 64 (by decide) [] [49, 50, 51] [97, 98, 99] [] [] 1000 2000 [] (Or.inl rfl)
    (by decide) (by decide) (by decide) (by decide) (by decide) (by decide) (by decide),
   by decide⟩

/-! ## The scanner at the end of the input -/

theorem ws_run_end (l : List Nat) (s : Scan) (h : s.inr ≤ 0) : ws_run l s = some s := by
  cases l with
  | nil => rw [ws_run, if_neg (by omega)]
  | cons c l => rw [ws_run, if_neg (by omega)]

/-- The white space directives do nothing at the end of the input. -/
theorem sloop_ws_end (W : Nat) (mem : List Nat) (ws : List Nat)
    (hws : ∀ c ∈ ws, isspace c = true) (fmt : List Nat) (s : Scan) (h : s.inr ≤ 0) :
    sloop W mem (ws ++ fmt) (SMode.text 0) s = sloop W mem fmt (SMode.text 0) s := by
  induction ws with
  | nil => rfl
  | cons c cs ih =>
    have hc : isspace c = true := hws c (by simp)
    have h0 : c ≠ 0 := by rintro rfl; exact absurd hc (by decide)
    rw [List.cons_append, sloop, if_neg h0, if_pos hc, ws_run_end _ s h]
    exact ih (fun x hx => hws x (by simp [hx]))

/-- The modifiers of a directive leave the state as it is. -/
theorem sloop_modifiers (W : Nat) (mem : List Nat) (mods : List Nat)
    (hmods : ∀ c ∈ mods, scan_modifier c = true) (fmt : List Nat) (s : Scan) :
    ∀ (width : Nat) (flags : Flags), ∃ (width2 : Nat) (flags2 : Flags),
      sloop W mem (mods ++ fmt) (SMode.spec width flags) s
        = sloop W mem fmt (SMode.spec width2 flags2) s := by
  induction mods with
  | nil => intro width flags; exact ⟨width, flags, rfl⟩
  | cons c cs ih =>
    intro width flags
    have hc := hmods c (by simp)
    simp only [scan_modifier, Bool.or_eq_true, beq_iff_eq, Bool.and_eq_true,
      decide_eq_true_eq] at hc
    have ih2 := ih (fun x hx => hmods x (by simp [hx]))
    rw [List.cons_append, sloop]
    rcases hc with (((h | h) | h) | h) | h
    · subst h
      simp only [show ¬ (42 = 37) by decide, if_false, if_true]
      exact ih2 _ _
    · subst h
      simp only [show ¬ (108 = 37) by decide, show ¬ (108 = 42) by decide, if_false, if_true]
      exact ih2 _ _
    · subst h
      simp only [show ¬ (113 = 37) by decide, show ¬ (113 = 42) by decide,
        show ¬ (113 = 108) by decide, if_false, if_true]
      exact ih2 _ _
    · subst h
      simp only [show ¬ (104 = 37) by decide, show ¬ (104 = 42) by decide,
        show ¬ (104 = 108) by decide, show ¬ (104 = 113) by decide, if_false, if_true]
      exact ih2 _ _
    · rw [if_neg (by omega), if_neg (by omega), if_neg (by omega), if_neg (by omega),
        if_neg (by omega), if_pos h]
      exact ih2 _ _

theorem conv_letter_state (ch : Nat) (flags : Flags) (s : Scan) :
    (conv_letter ch flags s).2.2.inr = s.inr ∧
    (conv_letter ch flags s).2.2.nassigned = s.nassigned ∧
    (conv_letter ch flags s).2.2.nconversions = s.nconversions ∧
    (conv_letter ch flags s).2.2.ap = s.ap ∧
    (conv_letter ch flags s).2.2.stores = s.stores := by
  unfold conv_letter
  split_ifs <;> exact ⟨rfl, rfl, rfl, rfl, rfl⟩

/-- A conversion that needs input, or a literal character, at the end of the
input: the exit is `input_failure` with the counters and the stores as they
are. -/
theorem sloop_input_end (W : Nat) (mem : List Nat) (k : Nat) (rest : List Nat) (s : Scan)
    (width : Nat) (flags : Flags) (h : s.inr ≤ 0) (hk : scan_modifier k = false)
    (hn : k ≠ 110) (hccl : k = 91 → __sccl rest ≠ none) :
    sloop W mem (k :: rest) (SMode.spec width flags) s
      = some (finish Exit.input_failure s) := by
  simp only [scan_modifier, Bool.or_eq_false_iff, beq_eq_false_iff_ne, ne_eq,
    Bool.and_eq_false_iff, decide_eq_false_iff_not] at hk
  obtain ⟨⟨⟨⟨k1, k2⟩, k3⟩, k4⟩, k5⟩ := hk
  have hdig : ¬ (48 ≤ k ∧ k ≤ 57) := by
    rintro ⟨x, y⟩
    rcases k5 with h5 | h5
    · exact h5 x
    · exact h5 y
  rw [sloop]
  by_cases h37 : k = 37
  · subst h37
    simp only [if_true, literal, h]
  · simp only [if_neg h37, if_neg k1, if_neg k2, if_neg k3, if_neg k4, if_neg hdig, if_neg hn]
    by_cases h91 : k = 91
    · obtain ⟨⟨tab, n⟩, ht⟩ := Option.ne_none_iff_exists'.mp (hccl h91)
      simp only [h91, if_true, ht, conversion, h]
      rfl
    · obtain ⟨e1, e2, e3, e4, e5⟩ := conv_letter_state k flags s
      simp only [if_neg h91, conversion, e1, h, if_true]
      simp only [finish, e2, e3, e5]

/-- C13: the empty input.  For the empty input, and a format that begins (after
white space, if any) with a literal character or with a directive `%` whose
conversion is not `n` (among them `%d`, `%s`, `%c`, `%[...]` with a scan set
that `__sccl` can read), `vsscanf` returns -1 and makes no store. -/
theorem vsscanf_empty_input (W : Nat) (junk ws mods rest : List Nat) (k : Nat)
    (ap : List Arg) (hws : ∀ c ∈ ws, isspace c = true)
    (hmods : ∀ c ∈ mods, scan_modifier c = true) (hk : scan_modifier k = false)
    (hn : k ≠ 110) (hccl : k = 91 → __sccl rest ≠ none) :
    vsscanf W (0 :: junk) (ws ++ 37 :: (mods ++ k :: rest)) ap = some (-1, []) ∧
    ∀ c, c ≠ 0 → isspace c = false → c ≠ 37 →
      vsscanf W (0 :: junk) (ws ++ c :: rest) ap = some (-1, []) := by
  have hstr : strlen (0 :: junk) = 0 := by simp [strlen]
  have hw0 : wrap_int ((0 : Nat) : Int) = 0 := by decide
  constructor
  · unfold vsscanf vsscanf_run
    rw [if_pos (by simp), hstr, hw0, sloop_ws_end W _ ws hws _ _ (le_refl _), sloop,
      if_neg (by decide), if_neg (by decide), if_neg (by simp)]
    obtain ⟨w2, f2, e⟩ := sloop_modifiers W (0 :: junk) mods hmods (k :: rest)
      { pos := 0, inr := 0, nassigned := 0, nconversions := 0, nread := 0,
        base := 0, ccfn := none, ccltab := none, ap := ap, stores := [] } 0 {}
    rw [e, sloop_input_end W _ k rest _ w2 f2 (le_refl _) hk hn hccl]
    simp [finish, scan_ret]
    intro h
    exact absurd (by decide) h
  · intro c h0 hsp h37
    unfold vsscanf vsscanf_run
    rw [if_pos (by simp), hstr, hw0, sloop_ws_end W _ ws hws _ _ (le_refl _), sloop,
      if_neg h0, if_neg (by simp [hsp]), if_pos h37]
    simp only [literal, le_refl, if_true]
    simp [finish, scan_ret]
    intro h
    exact absurd (by decide) h

/-- The empty input with the formats `%d`, `%s`, `%c`, `%[a]` and `x`. -/
theorem vsscanf_empty_input_witness :
    (vsscanf 64 (0 :: []) ([] ++ 37 :: ([] ++ 100 :: [0])) [Arg.ptr 1000] = some (-1, []) ∧
     ∀ c, c ≠ 0 → isspace c = false → c ≠ 37 →
      vsscanf 64 (0 :: []) ([] ++ c :: [0]) [Arg.ptr 1000] = some (-1, [])) ∧
    vsscanf 64 [0] [37, 115, 0] [Arg.ptr 1000] = some (-1, []) ∧
    vsscanf 64 [0] [37, 99, 0] [Arg.ptr 1000] = some (-1, []) ∧
    vsscanf 64 [0] [37, 91, 97, 93, 0] [Arg.ptr 1000] = some (-1, []) ∧
    vsscanf 64 [0] [120, 0] [] = some (-1, []) :=
  ⟨vsscanf_empty_input 64 [] [] [] [0] 100 [Arg.ptr 1000] (by decide) (by decide) (by decide)
    (by decide) (by decide), by decide, by decide, by decide, by decide⟩

/-! ## A match failure of `%d` -/

/-- The loop that consumes white space before a conversion, over the white
space `ws` that a character other than white space follows. -/
theorem ws_conv_skip (ws : List Nat) (hws : ∀ x ∈ ws, isspace x = true) (c : Nat)
    (l : List Nat) (hc : isspace c = false) :
    ∀ s : Scan, (ws.length : Int) < s.inr → s.inr < 2 ^ 31 →
      ∃ nr, ws_conv (ws ++ c :: l) s
        = Conv.next { s with nread := nr, inr := s.inr - ws.length, pos := s.pos + ws.length } := by
  induction ws with
  | nil =>
    intro s _ _
    exact ⟨s.nread, by simp [ws_conv_stop c l s hc]⟩
  | cons x xs ih =>
    intro s h1 h2
    simp only [List.length_cons, Nat.cast_add, Nat.cast_one] at h1
    have hwr : wrap_int (s.inr - 1) = s.inr - 1 := wrap_int_id _ (by omega) (by omega)
    obtain ⟨nr, e⟩ := ih (fun y hy => hws y (by simp [hy]))
      { s with nread := wrap_int (s.nread + 1), inr := s.inr - 1, pos := s.pos + 1 }
      (by simp only []; omega) (by simp only []; omega)
    refine ⟨nr, ?_⟩
    rw [List.cons_append, ws_conv, if_pos (hws x (by simp)), hwr, if_pos (by omega), e]
    have e5 : s.pos + 1 + xs.length = s.pos + (xs.length + 1) := by omega
    have e6 : s.inr - 1 - (xs.length : Int) = s.inr - ((xs.length : Int) + 1) := by omega
    simp only [e5, e6, List.length_cons, Nat.cast_add, Nat.cast_one]

/-- The `switch` of the integer loop of `%d` on a first character that is no
digit and no sign. -/
theorem int_char_other (c : Nat) (hd : ¬ (48 ≤ c ∧ c ≤ 57)) (h43 : c ≠ 43) (h45 : c ≠ 45) :
    int_char c { SIGNOK := true, NDIGITS := true, NZDIGITS := true } 10 0
      = some (false, { SIGNOK := true, NDIGITS := true, NZDIGITS := true }, 10) := by
  unfold int_char
  rw [if_neg (by omega), if_neg (by omega), if_neg (by omega)]
  by_cases hx : (65 ≤ c ∧ c ≤ 70) ∨ (97 ≤ c ∧ c ≤ 102)
  · rw [if_pos hx, if_pos (by decide)]
  · rw [if_neg hx, if_neg (by omega)]
    by_cases hy : c = 120 ∨ c = 88
    · rw [if_pos hy, if_neg (by simp)]
    · rw [if_neg hy]

/-- C14: a match failure of `%d`.  The input is white space `ws` (possibly
none), a character `c` that is no white space, no digit and no sign, and
any text up to the terminator; it is shorter than `2 ^ 31`.  With the format
`%d`, `vsscanf` returns 0 and makes no store, whatever the arguments. -/
theorem vsscanf_d_no_match (W : Nat) (ws text junk fjunk : List Nat) (c : Nat)
    (ap : List Arg) (hws : ∀ x ∈ ws, isspace x = true) (hc0 : c ≠ 0)
    (hcs : isspace c = false) (hcd : ¬ (48 ≤ c ∧ c ≤ 57)) (h43 : c ≠ 43) (h45 : c ≠ 45)
    (htext : ∀ x ∈ text, x ≠ 0) (hlen : ws.length + 1 + text.length < 2 ^ 31) :
    vsscanf W (ws ++ c :: (text ++ 0 :: junk)) ([37, 100, 0] ++ fjunk) ap = some (0, []) := by
  have hmem0 : (0 : Nat) ∈ ws ++ c :: (text ++ 0 :: junk) := by simp
  have hnz : ∀ x ∈ ws ++ c :: text, x ≠ 0 := by
    intro x hx
    simp only [List.mem_append, List.mem_cons] at hx
    rcases hx with hx | hx | hx
    · rintro rfl; exact absurd (hws 0 hx) (by decide)
    · rw [hx]; exact hc0
    · exact htext x hx
  have hstr : strlen (ws ++ c :: (text ++ 0 :: junk)) = ws.length + 1 + text.length := by
    have e : ws ++ c :: (text ++ 0 :: junk) = (ws ++ c :: text) ++ 0 :: junk := by simp
    rw [e, strlen_text _ _ hnz]
    simp only [List.length_append, List.length_cons]
    omega
  have hinr0 : wrap_int ((ws.length + 1 + text.length : Nat) : Int)
      = ((ws.length + 1 + text.length : Nat) : Int) :=
    wrap_int_id _ (by push_cast; omega) (by push_cast; omega)
  obtain ⟨nr, hskip⟩ := ws_conv_skip ws hws c (text ++ 0 :: junk) hcs
    { pos := 0, inr := ((ws.length + 1 + text.length : Nat) : Int), nassigned := 0,
      nconversions := 0, nread := 0, base := 10, ccfn := some true, ccltab := none, ap := ap,
      stores := [] } (by simp only []; push_cast; omega) (by simp only []; push_cast; omega)
  have hpos : ¬ (((ws.length + 1 + text.length : Nat) : Int) ≤ 0) := by push_cast; omega
  have hget : (ws ++ c :: (text ++ 0 :: junk)).get? (0 + ws.length) = some c := by
    rw [Nat.zero_add]
    exact (get_of_drop _ ws.length c (text ++ 0 :: junk) (List.drop_left _ _)).1
  obtain ⟨w, hw⟩ : ∃ w, (if (0 + 2 ^ W - 1) % 2 ^ W > 30 then 30 else (0 + 2 ^ W - 1) % 2 ^ W) + 1
      = w + 1 := ⟨_, rfl⟩
  unfold vsscanf vsscanf_run
  rw [if_pos hmem0, hstr, hinr0]
  simp only [List.cons_append, List.nil_append]
  rw [sloop]
  simp only [show ¬ (37 = 0) by decide, if_false, show isspace 37 = false by decide,
    Bool.false_eq_true, ne_eq, not_true_eq_false]
  rw [sloop]
  simp only [show ¬ (100 = 37) by decide, show ¬ (100 = 42) by decide,
    show ¬ (100 = 108) by decide, show ¬ (100 = 113) by decide, show ¬ (100 = 104) by decide,
    show ¬ (48 ≤ 100 ∧ 100 ≤ 57) by decide, show ¬ (100 = 110) by decide,
    show ¬ (100 = 91) by decide, if_false]
  have hcl2 : ∀ s : Scan, conv_letter 100 {} s = (3, {}, { s with ccfn := some true, base := 10 }) := by
    intro s; simp [conv_letter]
  rw [hcl2]
  simp only [conversion, hpos, if_false, Bool.false_eq_true, List.drop_zero, hskip,
    show ¬ ((3 : Nat) = 0) by decide, show ¬ ((3 : Nat) = 1) by decide,
    show ¬ ((3 : Nat) = 2) by decide, if_true, ct_int, hw, int_run, hget, List.length_nil,
    int_char_other c hcd h43 h45]
  simp [finish, scan_ret]
  decide

/-- The input `abc` with the format `%d`: the result is 0. -/
theorem vsscanf_d_no_match_witness :
    vsscanf 64 ([] ++ 97 :: ([98, 99] ++ 0 :: [])) ([37, 100, 0] ++ []) [Arg.ptr 1000]
      = some (0, []) :=
  vsscanf_d_no_match 64 [] [98, 99] [] [] 97 [Arg.ptr 1000] (by decide) (by decide)
    (by decide) (by decide) (by decide) (by decide) (by decide) (by decide)

/-! ## The counters of the scanner -/

theorem step_bound_refl (s : Scan) : step_bound s s :=
  ⟨le_refl _, le_refl _, le_refl _, Nat.le_succ _⟩

theorem conv_bound_of_same (s t : Scan) (r : Conv) (h : same_counts s t)
    (h2 : conv_bound t r) : conv_bound s r := by
  obtain ⟨e1, e2, e3⟩ := h
  cases r <;> simp only [conv_bound, step_bound, e1, e2, e3] at h2 ⊢ <;> exact h2

theorem literal_bound (mem : List Nat) (c : Nat) (s : Scan) :
    conv_bound s (literal mem c s) := by
  generalize hr : literal mem c s = r
  unfold literal at hr
  rcases hg : mem.get? s.pos with _ | x
  · simp only [hg] at hr
    split_ifs at hr <;> subst hr
    · exact step_bound_refl s
    · simp only [conv_bound]
  · simp only [hg] at hr
    split_ifs at hr <;> subst hr <;> exact step_bound_refl s

theorem ws_conv_bound (l : List Nat) : ∀ s : Scan, conv_bound s (ws_conv l s) := by
  induction l with
  | nil => intro s; trivial
  | cons c l ih =>
    intro s
    rw [ws_conv]
    split_ifs
    · exact conv_bound_of_same s _ _ ⟨rfl, rfl, rfl⟩ (ih _)
    · exact step_bound_refl s
    · exact step_bound_refl s

theorem ws_run_same (l : List Nat) : ∀ s t : Scan, ws_run l s = some t → same_counts s t := by
  induction l with
  | nil =>
    intro s t h
    rw [ws_run] at h
    split_ifs at h
    simp only [Option.some.injEq] at h
    subst h
    exact ⟨rfl, rfl, rfl⟩
  | cons c l ih =>
    intro s t h
    rw [ws_run] at h
    split_ifs at h
    · have := ih _ t h
      exact this
    · simp only [Option.some.injEq] at h
      subst h
      exact ⟨rfl, rfl, rfl⟩

theorem int_run_same (mem : List Nat) (w : Nat) :
    ∀ (flags : Flags) (buf : List Nat) (s : Scan) (fl : Flags) (b : List Nat) (t : Scan),
      int_run mem w flags buf s = some (fl, b, t) → same_counts s t ∧ t.ccfn = s.ccfn ∧
        t.stores = s.stores := by
  induction w with
  | zero =>
    intro flags buf s fl b t h
    simp only [int_run, Option.some.injEq, Prod.mk.injEq] at h
    obtain ⟨-, -, rfl⟩ := h
    exact ⟨⟨rfl, rfl, rfl⟩, rfl, rfl⟩
  | succ w ih =>
    intro flags buf s fl b t h
    rw [int_run] at h
    split at h
    · exact absurd h (by simp)
    · split at h
      · exact absurd h (by simp)
      · split_ifs at h
        · have := ih _ _ _ _ _ _ h
          exact this
        · simp only [Option.some.injEq, Prod.mk.injEq] at h
          obtain ⟨-, -, rfl⟩ := h
          exact ⟨⟨rfl, rfl, rfl⟩, rfl, rfl⟩
        · simp only [Option.some.injEq, Prod.mk.injEq] at h
          obtain ⟨-, -, rfl⟩ := h
          exact ⟨⟨rfl, rfl, rfl⟩, rfl, rfl⟩

theorem ct_char_bound (W : Nat) (mem : List Nat) (width : Nat) (flags : Flags) (s : Scan) :
    conv_bound s (ct_char W mem width flags s) := by
  unfold ct_char
  rcases hap : s.ap with _ | ⟨a, ap⟩
  · simp only []
    split_ifs <;> simp only [conv_bound, step_bound, hap] <;> omega
  · cases a <;> simp only [] <;> split_ifs <;>
      simp only [conv_bound, step_bound, hap, List.length_cons] <;> omega

theorem ct_ccl_bound (W : Nat) (mem : List Nat) (width : Nat) (flags : Flags) (s : Scan) :
    conv_bound s (ct_ccl W mem width flags s) := by
  generalize hr : ct_ccl W mem width flags s = r
  unfold ct_ccl at hr
  rcases htab : s.ccltab with _ | tab
  · simp only [htab] at hr
    subst hr
    simp only [conv_bound]
  · simp only [htab] at hr
    rcases hrun : take_run W (fun c => tab.getD (c % 256) 0 != 0) (mem.drop s.pos) s.inr
        (if width = 0 then 2 ^ W - 1 else width) with _ | ⟨taken, inr⟩
    · simp only [hrun] at hr
      rcases hap : s.ap with _ | ⟨a, ap⟩
      · simp only [hap] at hr
        split_ifs at hr <;> subst hr <;> simp only [conv_bound]
      · cases a <;> simp only [hap] at hr <;> split_ifs at hr <;> subst hr <;>
          simp only [conv_bound]
    · simp only [hrun] at hr
      rcases hap : s.ap with _ | ⟨a, ap⟩
      · simp only [hap] at hr
        split_ifs at hr <;> subst hr <;>
          simp only [conv_bound, step_bound, hap, List.length_cons, List.length_nil] <;>
          omega
      · cases a <;> simp only [hap] at hr <;> split_ifs at hr <;> subst hr <;>
          simp only [conv_bound, step_bound, hap, List.length_cons, List.length_nil] <;>
          omega

theorem ct_string_bound (W : Nat) (mem : List Nat) (width : Nat) (flags : Flags) (s : Scan) :
    conv_bound s (ct_string W mem width flags s) := by
  unfold ct_string
  simp only []
  rcases hrun : take_run W (fun c => !isspace c) (mem.drop s.pos) s.inr
      (if width = 0 then 2 ^ W - 1 else width) with _ | ⟨taken, inr⟩
  · rcases hap : s.ap with _ | ⟨a, ap⟩
    · simp only []
      split_ifs <;> simp only [conv_bound]
    · cases a <;> simp only [] <;> split_ifs <;> simp only [conv_bound]
  · rcases hap : s.ap with _ | ⟨a, ap⟩
    · simp only []
      split_ifs
      · simp only [conv_bound, step_bound, hap, List.length_cons, List.length_nil]
        omega
      · simp only [conv_bound]
    · cases a <;> simp only [] <;> split_ifs <;>
        simp only [conv_bound, step_bound, hap, List.length_cons, List.length_nil] <;>
        omega

theorem ct_int_bound (W : Nat) (mem : List Nat) (width : Nat) (flags : Flags) (s : Scan) :
    conv_bound s (ct_int W mem width flags s) := by
  generalize hr : ct_int W mem width flags s = r
  unfold ct_int at hr
  simp only [] at hr
  rcases hrun : int_run mem
      ((if (width + 2 ^ W - 1) % 2 ^ W > 30 then 30 else (width + 2 ^ W - 1) % 2 ^ W) + 1)
      { flags with SIGNOK := true, NDIGITS := true, NZDIGITS := true } [] s
    with _ | ⟨fl, buf, t⟩
  · simp only [hrun] at hr
    subst hr
    simp only [conv_bound]
  · obtain ⟨⟨e1, e2, e3⟩, -, -⟩ := int_run_same mem _ _ _ _ _ _ _ hrun
    simp only [hrun] at hr
    by_cases hnd : fl.NDIGITS = true
    · simp only [hnd, if_true] at hr
      subst hr
      simp only [conv_bound, step_bound]
      split_ifs <;> simp only [e1, e2, e3] <;> omega
    · simp only [hnd, Bool.false_eq_true, if_false] at hr
      rcases hl : buf.getLast? with _ | c
      · simp only [hl] at hr
        subst hr
        simp only [conv_bound]
      · simp only [hl] at hr
        by_cases hx : c = 120 ∨ c = 88
        · simp only [hx, if_true] at hr
          rcases hap : t.ap with _ | ⟨a, ap⟩
          · rcases hf : t.ccfn with _ | q <;> simp only [hap, hf] at hr <;>
              split_ifs at hr <;> subst hr <;>
              simp only [conv_bound, step_bound, e1, e2, ← e3, hap, List.length_nil] <;> omega
          · rcases hf : t.ccfn with _ | q <;> cases a <;> simp only [hap, hf] at hr <;>
              split_ifs at hr <;> subst hr <;>
              simp only [conv_bound, step_bound, e1, e2, ← e3, hap, List.length_cons] <;> omega
        · simp only [hx, if_false] at hr
          rcases hap : t.ap with _ | ⟨a, ap⟩
          · rcases hf : t.ccfn with _ | q <;> simp only [hap, hf] at hr <;>
              split_ifs at hr <;> subst hr <;>
              simp only [conv_bound, step_bound, e1, e2, ← e3, hap, List.length_nil] <;> omega
          · rcases hf : t.ccfn with _ | q <;> cases a <;> simp only [hap, hf] at hr <;>
              split_ifs at hr <;> subst hr <;>
              simp only [conv_bound, step_bound, e1, e2, ← e3, hap, List.length_cons] <;> omega

theorem ws_conv_same (l : List Nat) :
    ∀ (s : Scan) (r : Conv), ws_conv l s = r →
      r = Conv.fault ∨
      ∃ t, (r = Conv.input_failure t ∨ r = Conv.next t) ∧ same_counts s t := by
  induction l with
  | nil => intro s r h; left; rw [← h]; rfl
  | cons c l ih =>
    intro s r h
    rw [ws_conv] at h
    split_ifs at h
    · rcases ih _ r h with h1 | ⟨t, h1, h2⟩
      · exact Or.inl h1
      · exact Or.inr ⟨t, h1, h2⟩
    · exact Or.inr ⟨_, Or.inl h.symm, rfl, rfl, rfl⟩
    · exact Or.inr ⟨_, Or.inr h.symm, rfl, rfl, rfl⟩

theorem conversion_bound (W : Nat) (mem : List Nat) (code width : Nat) (flags : Flags)
    (s : Scan) : conv_bound s (conversion W mem code width flags s) := by
  have key : ∀ t, same_counts s t →
      conv_bound s (if code = 0 then ct_char W mem width flags t
        else if code = 1 then ct_ccl W mem width flags t
        else if code = 2 then ct_string W mem width flags t
        else if code = 3 then ct_int W mem width flags t
        else Conv.next t) := by
    intro t ht
    apply conv_bound_of_same s t _ ht
    split_ifs
    · exact ct_char_bound W mem width flags t
    · exact ct_ccl_bound W mem width flags t
    · exact ct_string_bound W mem width flags t
    · exact ct_int_bound W mem width flags t
    · exact step_bound_refl t
  unfold conversion
  by_cases h : s.inr ≤ 0
  · rw [if_pos h]; exact step_bound_refl s
  · rw [if_neg h]
    by_cases hn : flags.NOSKIP = true
    · simp only [hn, if_true]
      exact key s ⟨rfl, rfl, rfl⟩
    · simp only [hn, Bool.false_eq_true, if_false]
      rcases ws_conv_same (mem.drop s.pos) s _ rfl with h1 | ⟨t, h1 | h1, h2⟩
      · rw [h1]; exact True.intro
      · rw [h1]
        obtain ⟨e1, e2, e3⟩ := h2
        simp only [conv_bound, step_bound, e1, e2, e3]
        omega
      · rw [h1]
        exact key t h2

theorem conv_n_bound (W : Nat) (flags : Flags) (s t : Scan) (h : conv_n W flags s = some t) :
    step_bound s t ∧ t.nconversions = s.nconversions + 1 ∧ t.nassigned = s.nassigned ∧
      t.pos = s.pos ∧ t.inr = s.inr := by
  unfold conv_n at h
  rcases hap : s.ap with _ | ⟨a, ap⟩
  · simp only [hap] at h
    split_ifs at h
    simp only [Option.some.injEq] at h
    subst h
    refine ⟨?_, rfl, rfl, rfl, rfl⟩
    simp only [step_bound, hap, List.length_nil]
    omega
  · cases a <;> simp only [hap] at h <;> split_ifs at h <;>
      simp only [Option.some.injEq] at h <;> subst h <;>
      refine ⟨?_, rfl, rfl, rfl, rfl⟩ <;>
      simp only [step_bound, hap, List.length_cons] <;> omega

/-- The bound on the counters across the code of a directive and what
follows it. -/
theorem after_conv (s : Scan) (r : Conv) (k : Scan → Option Final)
    (f : Final) (n : Nat)
    (h : (match r with
          | Conv.fault => none
          | Conv.input_failure t => some (finish Exit.input_failure t)
          | Conv.match_failure t => some (finish Exit.match_failure t)
          | Conv.next t => k t) = some f)
    (hb : conv_bound s r)
    (hk : ∀ t, k t = some f → final_bound t n f) : final_bound s (n + 1) f := by
  cases r with
  | fault => exact absurd h (by simp)
  | input_failure t =>
    simp only [Option.some.injEq] at h
    subst h
    simp only [conv_bound, step_bound] at hb
    simp only [final_bound, finish]
    omega
  | match_failure t =>
    simp only [Option.some.injEq] at h
    subst h
    simp only [conv_bound, step_bound] at hb
    simp only [final_bound, finish]
    omega
  | next t =>
    simp only [conv_bound, step_bound] at hb
    have := hk t h
    simp only [final_bound] at this ⊢
    omega

theorem final_bound_succ (s : Scan) (n : Nat) (f : Final) (h : final_bound s n f) :
    final_bound s (n + 1) f := by
  simp only [final_bound] at h ⊢
  omega

/-- The counters at the `return` of the loop of `vsscanf`. -/
theorem sloop_bound (W : Nat) (mem : List Nat) (fmt : List Nat) :
    ∀ (m : SMode) (s : Scan) (f : Final),
      sloop W mem fmt m s = some f → final_bound s fmt.length f := by
  induction fmt with
  | nil => intro m s f h; exact absurd h (by simp [sloop])
  | cons c fmt ih =>
    intro m s f h
    rw [List.length_cons]
    cases m with
    | text k =>
      cases k with
      | succ k =>
        rw [sloop] at h
        exact final_bound_succ _ _ _ (ih _ _ _ h)
      | zero =>
        rw [sloop] at h
        split_ifs at h
        · simp only [Option.some.injEq] at h
          subst h
          simp only [final_bound, finish]
          omega
        · rcases hw : ws_run (mem.drop s.pos) s with _ | t
          · simp only [hw] at h
            exact absurd h (by simp)
          · simp only [hw] at h
            obtain ⟨e1, e2, e3⟩ := ws_run_same _ _ _ hw
            have := ih _ _ _ h
            simp only [final_bound, e1, e2, e3] at this ⊢
            omega
        · exact after_conv s _ _ f _ h (literal_bound mem c s) (fun t ht => ih _ _ _ ht)
        · exact final_bound_succ _ _ _ (ih _ _ _ h)
    | spec width flags =>
      rw [sloop] at h
      split_ifs at h
      · exact after_conv s _ _ f _ h (literal_bound mem c s) (fun t ht => ih _ _ _ ht)
      · exact final_bound_succ _ _ _ (ih _ _ _ h)
      · exact final_bound_succ _ _ _ (ih _ _ _ h)
      · exact final_bound_succ _ _ _ (ih _ _ _ h)
      · exact final_bound_succ _ _ _ (ih _ _ _ h)
      · exact final_bound_succ _ _ _ (ih _ _ _ h)
      · exact final_bound_succ _ _ _ (ih _ _ _ h)
      · exact final_bound_succ _ _ _ (ih _ _ _ h)
      · rcases hn : conv_n W flags s with _ | t
        · simp only [hn] at h
          exact absurd h (by simp)
        · simp only [hn] at h
          obtain ⟨hb, -⟩ := conv_n_bound W flags s t hn
          have := ih _ _ _ h
          simp only [final_bound, step_bound] at this hb ⊢
          omega
      · rcases hs : __sccl fmt with _ | ⟨tab, n⟩
        · simp only [hs] at h
          exact absurd h (by simp)
        · simp only [hs] at h
          have hb := conversion_bound W mem 1 width { flags with NOSKIP := true }
            { s with ccltab := some tab }
          exact after_conv s _ _ f _ h (conv_bound_of_same s _ _ ⟨rfl, rfl, rfl⟩ hb)
            (fun t ht => ih _ _ _ ht)
      · obtain ⟨-, e2, e3, e4, -⟩ := conv_letter_state c flags s
        have hb := conversion_bound W mem (conv_letter c flags s).1 width
          (conv_letter c flags s).2.1 (conv_letter c flags s).2.2
        exact after_conv s _ _ f _ h (conv_bound_of_same s _ _ ⟨e2, e3, e4⟩ hb)
          (fun t ht => ih _ _ _ ht)

theorem wrap_int_count (n : Nat) (h : n < 2 ^ 31) : wrap_int (n : Int) = (n : Int) :=
  wrap_int_id _ (by omega) (by omega)

theorem wrap_int_count_zero (n : Nat) (h : n < 2 ^ 32) : wrap_int (n : Int) = 0 ↔ n = 0 := by
  unfold wrap_int toSigned
  have e : ((n : Int) % 2 ^ 32) = n := Int.emod_eq_of_lt (by omega) (by omega)
  rw [e]
  norm_num
  split_ifs <;> omega

/-- The classification of the returned value from the counters at the
`return`. -/
theorem scan_ret_class (f : Final) (h1 : f.nassigned < 2 ^ 31) (h2 : f.nconversions < 2 ^ 32) :
    -1 ≤ scan_ret f ∧
    (scan_ret f = -1 ↔ f.exit = Exit.input_failure ∧ f.nconversions = 0) ∧
    (¬ (f.exit = Exit.input_failure ∧ f.nconversions = 0) → scan_ret f = (f.nassigned : Int)) := by
  have ha := wrap_int_count f.nassigned h1
  have hc := wrap_int_count_zero f.nconversions h2
  have hn : (0 : Int) ≤ (f.nassigned : Int) := Int.natCast_nonneg _
  unfold scan_ret
  cases f.exit with
  | eof => simp only [ha, reduceCtorEq, false_and, iff_false, not_false_eq_true, forall_const,
      and_true]; omega
  | match_failure => simp only [ha, reduceCtorEq, false_and, iff_false, not_false_eq_true,
      forall_const, and_true]; omega
  | input_failure =>
    by_cases h0 : f.nconversions = 0
    · have hw0 : wrap_int 0 = 0 := by decide
      simp [h0, hw0]
    · have : wrap_int (f.nconversions : Int) ≠ 0 := fun h => h0 (hc.mp h)
      simp only [ne_eq, this, not_false_eq_true, if_true, ha, true_and, h0, and_false,
        iff_false, forall_const, and_true]
      omega

/-- C16: the conversion `n` of the scanner.  At the conversion letter `n` of
a directive, whatever its flags (the flag `*` among them), the code consumes
no input (`inp` and `inr` stay as they are) and leaves `nassigned` as it is,
and it counts one conversion in `nconversions`.  When `vsscanf` returns after
it, for a format shorter than `2 ^ 32` and fewer than `2 ^ 31` arguments, the
result is the number of assignments, which is not negative, and never -1. -/
theorem vsscanf_n_conversion (W : Nat) (mem fmt : List Nat) (width : Nat) (flags : Flags)
    (s : Scan) (f : Final)
    (h : sloop W mem (110 :: fmt) (SMode.spec width flags) s = some f)
    (hfmt : s.nconversions + fmt.length + 1 < 2 ^ 32)
    (hap : s.nassigned + s.ap.length < 2 ^ 31) :
    ∃ t, conv_n W flags s = some t ∧ t.pos = s.pos ∧ t.inr = s.inr ∧
      t.nassigned = s.nassigned ∧ t.nconversions = s.nconversions + 1 ∧
      sloop W mem fmt (SMode.text 0) t = some f ∧
      scan_ret f = (f.nassigned : Int) ∧ scan_ret f ≠ -1 := by
  rw [sloop] at h
  simp only [show ¬ (110 = 37) by decide, show ¬ (110 = 42) by decide,
    show ¬ (110 = 108) by decide, show ¬ (110 = 113) by decide, show ¬ (110 = 104) by decide,
    show ¬ (48 ≤ 110 ∧ 110 ≤ 57) by decide, if_false, if_true] at h
  rcases hn : conv_n W flags s with _ | t
  · simp only [hn] at h
    exact absurd h (by simp)
  · simp only [hn] at h
    obtain ⟨hb, e1, e2, e3, e4⟩ := conv_n_bound W flags s t hn
    have hf := sloop_bound W mem fmt _ t f h
    simp only [final_bound, step_bound] at hf hb
    obtain ⟨-, c2, c3⟩ := scan_ret_class f (by omega) (by omega)
    have hne : ¬ (f.exit = Exit.input_failure ∧ f.nconversions = 0) := by
      rintro ⟨-, h0⟩; omega
    exact ⟨t, rfl, e3, e4, e2, e1, h, c3 hne, fun h1 => hne (c2.mp h1)⟩

/-- The empty input with the format `%n%d` stores 0 through the pointer of
`%n` and returns 0; with `%*n%d` nothing is stored and the result is 0 too. -/
theorem vsscanf_n_conversion_witness :
    (∃ t, conv_n 64 {}
        { pos := 0, inr := 0, nassigned := 0, nconversions := 0, nread := 0, base := 0,
          ccfn := none, ccltab := none, ap := [Arg.ptr 1000, Arg.ptr 2000], stores := [] }
          = some t ∧
      t.pos = 0 ∧ t.inr = 0 ∧ t.nassigned = 0 ∧ t.nconversions = 0 + 1 ∧
      sloop 64 [0] [37, 100, 0] (SMode.text 0) t
        = some { exit := Exit.input_failure, nassigned := 0, nconversions := 1,
                 stores := [Stored.val 1000 32 0] } ∧
      scan_ret { exit := Exit.input_failure, nassigned := 0, nconversions := 1,
                 stores := [Stored.val 1000 32 0] } = ((0 : Nat) : Int) ∧
      scan_ret { exit := Exit.input_failure, nassigned := 0, nconversions := 1,
                 stores := [Stored.val 1000 32 0] } ≠ -1) ∧
    vsscanf 64 [0] [37, 110, 37, 100, 0] [Arg.ptr 1000, Arg.ptr 2000]
      = some (0, [Stored.val 1000 32 0]) ∧
    vsscanf 64 [0] [37, 42, 110, 37, 100, 0] [Arg.ptr 1000, Arg.ptr 2000] = some (0, []) :=
  ⟨vsscanf_n_conversion 64 [0] [37, 100, 0] 0 {}
    { pos := 0, inr := 0, nassigned := 0, nconversions := 0, nread := 0, base := 0,
      ccfn := none, ccltab := none, ap := [Arg.ptr 1000, Arg.ptr 2000], stores := [] }
    { exit := Exit.input_failure, nassigned := 0, nconversions := 1,
      stores := [Stored.val 1000 32 0] } (by decide) (by decide) (by decide),
   by decide, by decide⟩

/-! ## The length of the digits of `ksprintn` -/

/-- C28: the digit encoder on a 64 bit magnitude.  For every `num` below
`2 ^ 64`, every base from 2 to 36 and both values of `upper`, `ksprintn`
returns: it stores between 1 and 64 digits, so that they fit the buffer of
`MAXNBUF` bytes after the NUL of `nbuf[0]`; for `num = 0` it stores the one
digit `0`; and every digit stored is the character of the alphabet (in upper
case when `upper` is set) for a value below the base. -/
theorem ksprintn_length (num b : Nat) (upper : Bool) (hnum : num < 2 ^ 64) (hb : 2 ≤ b)
    (hb36 : b ≤ 36) :
    ∃ ds, ksprintn num b upper = some ds ∧ 1 ≤ ds.length ∧ ds.length ≤ 64 ∧
      ds.length + 1 ≤ MAXNBUF ∧ (num = 0 → ds = [48]) ∧
      ∀ c ∈ ds, ∃ dg, dg < b ∧
        c = (if upper then toupper (hex2ascii_data.getD dg 0) else hex2ascii_data.getD dg 0) := by
  have hlen := digitChars_length_le b hb hb36 num hnum
  have hne := digitChars_ne_nil b num
  have hpos : 1 ≤ (digitChars b num).length := by
    cases h : digitChars b num with
    | nil => exact absurd h hne
    | cons x xs => simp
  refine ⟨(digitText b num upper).reverse, ksprintn_digitText b hb num hnum upper, ?_, ?_, ?_,
    ?_, ?_⟩
  · rw [List.length_reverse, digitText_length]; exact hpos
  · rw [List.length_reverse, digitText_length]; exact hlen
  · rw [List.length_reverse, digitText_length]; unfold MAXNBUF; omega
  · intro h0
    subst h0
    cases upper <;> simp [digitText, digitChars, toupper, islower]
  · intro c hc
    rw [List.mem_reverse] at hc
    cases upper with
    | false =>
      simp only [digitText, Bool.false_eq_true, if_false] at hc ⊢
      obtain ⟨dg, h1, h2, -⟩ := digitChars_valid b hb hb36 num c hc
      exact ⟨dg, h1, h2⟩
    | true =>
      simp only [digitText, if_true, List.mem_map] at hc ⊢
      obtain ⟨x, hx, rfl⟩ := hc
      obtain ⟨dg, h1, h2, -⟩ := digitChars_valid b hb hb36 num x hx
      exact ⟨dg, h1, by rw [h2]⟩

/-- The magnitude 255 in base 16 and upper case: the digits `F`, `F`. -/
theorem ksprintn_length_witness :
    ∃ ds, ksprintn 255 16 true = some ds ∧ 1 ≤ ds.length ∧ ds.length ≤ 64 ∧
      ds.length + 1 ≤ MAXNBUF ∧ (255 = 0 → ds = [48]) ∧
      ∀ c ∈ ds, ∃ dg, dg < 16 ∧
        c = (if true then toupper (hex2ascii_data.getD dg 0) else hex2ascii_data.getD dg 0) :=
  ksprintn_length 255 16 true (by decide) (by decide) (by decide)

/-! ## The sign `-` in the unsigned decoders -/

/-- C25: the unsigned decoders negate.  For every base `b` from 2 to 36 and
every non-empty run `ds` of digits valid in base `b` whose value `m` fits the
type, `strtoul` (for an `unsigned long` of `W` bits) on the text `-` and `ds`
returns `(2 ^ W - m) mod 2 ^ W` and the end of the text, and `strtouq` returns
`(2 ^ 64 - m) mod 2 ^ 64`. -/
theorem strto_unsigned_negate (W b : Nat) (hW : 6 ≤ W) (hb : 2 ≤ b) (hb36 : b ≤ 36)
    (ds : List Nat) (hne : ds ≠ []) (hds : ∀ c ∈ ds, (digitval b c).isSome = true) :
    (runValue b ds < 2 ^ W →
      strtoul W (45 :: ds) b = ((2 ^ W - runValue b ds) % 2 ^ W, 1 + ds.length)) ∧
    (runValue b ds < 2 ^ 64 →
      strtouq (45 :: ds) b = ((2 ^ 64 - runValue b ds) % 2 ^ 64, 1 + ds.length)) := by
  have hch : Chosen b [] ds b :=
    Or.inl ⟨rfl, not_hexStart_digits b hb ds hds, by
      have : (b : Int) ≠ 0 := by omega
      simp [this]⟩
  have hst := strto_start_parts b b [] [45] [] ds (by simp) (Or.inr (Or.inr rfl))
    (head_isSome b ds hne hds) hch
  simp only [List.nil_append, List.append_nil, List.length_nil, List.length_singleton,
    zero_add, add_zero, List.singleton_append, decide_True] at hst
  have hrun : digitRun b ds = ds := digitRun_all b ds hds
  constructor
  · intro hfit
    rw [strtoul_of_start W (45 :: ds) b true b 1 ds hst (by omega) (pow_six_le W hW b hb36)]
    unfold unsignedResult
    rw [hrun, if_neg (by omega), if_neg hne]
    simp
  · intro hfit
    rw [strtouq_of_start (45 :: ds) b true b 1 ds hst (by omega)
      (by have := pow_six_le 32 (by norm_num) b hb36; exact this)]
    unfold unsignedResult
    rw [hrun, if_neg (by omega), if_neg hne]
    simp

/-- The text `-1` in base 10 decodes to the maximum of the type. -/
theorem strto_unsigned_negate_witness :
    strtoul 64 (45 :: [49]) (10 : Nat)
      = ((2 ^ 64 - runValue 10 [49]) % 2 ^ 64, 1 + [49].length) ∧
    strtouq (45 :: [49]) (10 : Nat)
      = ((2 ^ 64 - runValue 10 [49]) % 2 ^ 64, 1 + [49].length) ∧
    strtoul 64 [45, 49] 10 = (2 ^ 64 - 1, 2) ∧ strtouq [45, 49] 10 = (2 ^ 64 - 1, 2) :=
  ⟨(strto_unsigned_negate 64 10 (by decide) (by decide) (by decide) [49] (by decide)
      (by decide)).1 (by decide),
   (strto_unsigned_negate 64 10 (by decide) (by decide) (by decide) [49] (by decide)
      (by decide)).2 (by decide), by decide, by decide⟩

/-! ## The accumulator of the decoders does not wrap -/

/-- The conversion loop over digits `pre` and what follows them: the loop over
`pre` gives the state in which the rest is read. -/
theorem strto_loop_append (base : Int) (mul cutoff cutlim M : Nat) (pre tail : List Nat)
    (hpre : ∀ x ∈ pre, (digitval base x).isSome = true) :
    ∀ (p acc : Nat) (any : Int),
      strto_loop base mul cutoff cutlim M (pre ++ tail) p acc any
        = strto_loop base mul cutoff cutlim M tail (p + pre.length)
            (strto_loop base mul cutoff cutlim M pre p acc any).1
            (strto_loop base mul cutoff cutlim M pre p acc any).2.1 := by
  induction pre with
  | nil => intro p acc any; simp [strto_loop]
  | cons c cs ih =>
    intro p acc any
    obtain ⟨d, hd⟩ := Option.isSome_iff_exists.mp (hpre c (by simp))
    have ih2 := ih (fun x hx => hpre x (by simp [hx]))
    rw [List.cons_append, strto_loop, strto_loop, hd]
    simp only []
    have e : p + (c :: cs).length = p + 1 + cs.length := by simp; omega
    split_ifs
    · rw [ih2, e]
    · rw [ih2, e]

/-- C26: overflow is detected before it occurs.  Let the prefix scan of a
decoder choose the base `b` (from 2 to 36) and leave the text `l`; `MAX` is
the limit of the decoder (`ULONG_MAX` for `strtoul`, `ULLONG_MAX` for
`strtouq`, and for `strtoq` `LLONG_MAX` or `2 ^ 63` for a negative text) and
`M` the modulus of its accumulator.  The scan of each decoder is the
conversion loop with the cutoff `MAX / b` and `MAX % b`.  At every digit `c`
of `l` that follows digits `pre`, the loop is in the state it reaches on
`pre`; when it executes `acc = acc * b + c` there, `acc` is the value of
`pre` and the mathematical result does not exceed `MAX`, so nothing wraps.
And `any` is negative at the end exactly when the value of the digit run
exceeds `MAX`. -/
theorem strto_overflow_detected (W : Nat) (hW : 6 ≤ W) (nptr : List Nat) (base : Int)
    (neg : Bool) (b p : Nat) (l : List Nat)
    (h : strto_start nptr base = (neg, (b : Int), p, l)) (hb : 2 ≤ b) (hb36 : b ≤ 36)
    (MAX M : Nat)
    (hsel : (MAX = ULONG_MAX W ∧ M = 2 ^ W) ∨ (MAX = ULLONG_MAX ∧ M = 2 ^ 64) ∨
      (MAX = strtoq_limit neg ∧ M = 2 ^ 64)) :
    strtoul_scan W nptr base
      = (neg, strto_loop b b (ULONG_MAX W / b) (ULONG_MAX W % b) (2 ^ W) l p 0 0) ∧
    strtouq_scan nptr base
      = (neg, strto_loop b b (ULLONG_MAX / b) (ULLONG_MAX % b) (2 ^ 64) l p 0 0) ∧
    strtoq_scan nptr base
      = (neg, strto_loop b b (strtoq_limit neg / b) (strtoq_limit neg % b) (2 ^ 64) l p 0 0) ∧
    (∀ (pre tail : List Nat) (c dg : Nat), l = pre ++ c :: tail →
      (∀ x ∈ pre, (digitval b x).isSome = true) → digitval b c = some dg →
      strto_loop b b (MAX / b) (MAX % b) M l p 0 0
        = strto_loop b b (MAX / b) (MAX % b) M (c :: tail) (p + pre.length)
            (strto_loop b b (MAX / b) (MAX % b) M pre p 0 0).1
            (strto_loop b b (MAX / b) (MAX % b) M pre p 0 0).2.1 ∧
      (¬ ((strto_loop b b (MAX / b) (MAX % b) M pre p 0 0).2.1 < 0 ∨
          (strto_loop b b (MAX / b) (MAX % b) M pre p 0 0).1 > MAX / b ∨
          ((strto_loop b b (MAX / b) (MAX % b) M pre p 0 0).1 = MAX / b ∧ dg > MAX % b)) →
        (strto_loop b b (MAX / b) (MAX % b) M pre p 0 0).1 = runValue b pre ∧
        (strto_loop b b (MAX / b) (MAX % b) M pre p 0 0).1 * b + dg ≤ MAX ∧
        (strto_loop b b (MAX / b) (MAX % b) M pre p 0 0).1 * b + dg < M)) ∧
    ((strto_loop b b (MAX / b) (MAX % b) M l p 0 0).2.1 < 0 ↔
      MAX < runValue b (digitRun b l)) := by
  have hbW : b < 2 ^ W := pow_six_le W hW b hb36
  have hb32 : b < 2 ^ 32 := pow_six_le 32 (by norm_num) b hb36
  have hMAX : MAX < M := by
    rcases hsel with ⟨h1, h2⟩ | ⟨h1, h2⟩ | ⟨h1, h2⟩
    · subst h1 h2
      unfold ULONG_MAX
      have : 1 ≤ 2 ^ W := Nat.one_le_two_pow
      omega
    · subst h1 h2; unfold ULLONG_MAX; norm_num
    · subst h1 h2; unfold strtoq_limit; cases neg <;> norm_num
  refine ⟨?_, ?_, ?_, ?_, ?_⟩
  · simp only [strtoul_scan, h, toUnsigned_natCast W b hbW]
  · simp only [strtouq_scan, h, toUnsigned_natCast 32 b hb32]
  · have hc : (if neg = true then
        (toUnsigned 64 (-(LLONG_MIN + LLONG_MAX)) + LLONG_MAX.toNat) % 2 ^ 64
        else LLONG_MAX.toNat) = strtoq_limit neg := by
      cases neg <;> simp [strtoq_limit, toUnsigned, LLONG_MIN, LLONG_MAX]
    simp only [strtoq_scan, h, toUnsigned_natCast 32 b hb32, hc]
  · intro pre tail c dg hl hpre hc
    constructor
    · rw [hl]
      exact strto_loop_append b b (MAX / b) (MAX % b) M pre (c :: tail) hpre p 0 0
    · intro hexec
      obtain ⟨-, h2, h3⟩ := strto_loop_spec b MAX M (by omega) hMAX pre p 0 0 (le_refl _)
        (Nat.zero_le _)
      rw [digitRun_all b pre hpre] at h2 h3
      have hdg : dg < b := digitval_lt hc
      by_cases hv : valFrom b 0 pre ≤ MAX
      · obtain ⟨e1, -⟩ := h2 hv
        have hle : ¬ MAX < (strto_loop b b (MAX / b) (MAX % b) M pre p 0 0).1 * b + dg := by
          intro hlt
          exact hexec (Or.inr ((cutoff_iff MAX b _ dg hdg).mpr hlt))
        exact ⟨e1, by omega, by omega⟩
      · exfalso
        apply hexec
        left
        rw [h3 (by omega)]
        decide
  · obtain ⟨acc, e, -⟩ := strto_loop_run b MAX M (by omega) hMAX l p
    rw [e]
    simp only []
    split_ifs with h1 h2
    · rw [h1]
      simp only [runValue, valFrom, List.foldl_nil]
      constructor
      · intro hh; exact absurd hh (by decide)
      · intro hh; omega
    · simp [h2]
    · constructor
      · intro hh; exact absurd hh (by decide)
      · intro hh; exact absurd hh h2

/-- The text `99` in base 10 with `strtoul` for 64 bits: the scan is the loop
with the cutoff of `ULONG_MAX`, the step at the second digit gives 99 without
wrapping, and `any` is not negative. -/
theorem strto_overflow_detected_witness :
    strtoul_scan 64 [57, 57] 10
      = (false, strto_loop ((10 : Nat) : Int) 10 (ULONG_MAX 64 / 10) (ULONG_MAX 64 % 10)
          (2 ^ 64) [57, 57] 0 0 0) ∧
    ((strto_loop ((10 : Nat) : Int) 10 (ULONG_MAX 64 / 10) (ULONG_MAX 64 % 10) (2 ^ 64)
        [57, 57] 0 0 0).2.1 < 0 ↔
      ULONG_MAX 64 < runValue 10 (digitRun ((10 : Nat) : Int) [57, 57])) ∧
    (strto_loop ((10 : Nat) : Int) 10 (ULONG_MAX 64 / 10) (ULONG_MAX 64 % 10) (2 ^ 64)
        [57] 0 0 0).1 * 10 + 9 ≤ ULONG_MAX 64 :=
  ⟨(strto_overflow_detected 64 (by decide) [57, 57] 10 false 10 0 [57, 57] (by decide)
      (by decide) (by decide) (ULONG_MAX 64) (2 ^ 64) (Or.inl ⟨rfl, rfl⟩)).1,
   (strto_overflow_detected 64 (by decide) [57, 57] 10 false 10 0 [57, 57] (by decide)
      (by decide) (by decide) (ULONG_MAX 64) (2 ^ 64) (Or.inl ⟨rfl, rfl⟩)).2.2.2.2,
   (((strto_overflow_detected 64 (by decide) [57, 57] 10 false 10 0 [57, 57] (by decide)
      (by decide) (by decide) (ULONG_MAX 64) (2 ^ 64) (Or.inl ⟨rfl, rfl⟩)).2.2.2.1
        [57] [] 57 9 rfl (by decide) (by decide)).2 (by decide)).2.1⟩

/-! ## The prefix of the alternate form under `X` -/

/-- C21: the format `%#X` with the value 255 and a capacity of 16.  The
conversion `X` sets `upper`, which `ksprintn` applies to the digits, but the
label `number` passes the characters `0` and `x` to `PCHAR` for base 16
whatever `upper` is: the output is `0xFF`, with a lower case `x`, and not
`0XFF`. -/
theorem vsnprintf_sharp_upper :
    vsnprintf 64 16 (some [37, 35, 88, 0]) [Arg.int 255]
      = some { str := [48, 120, 70, 70, 0], retval := 4, stores := [] } ∧
    vsnprintf 64 16 (some [37, 35, 88, 0]) [Arg.int 255]
      ≠ some { str := [48, 88, 70, 70, 0], retval := 4, stores := [] } := by
  constructor <;> decide

/-! ## The order of the characters of a number -/

/-- The integer conversions at the label `number`: the directive with `sign`
and `upper` set as the `case` of the letter sets them, and the operand. -/
theorem directive_number_step (W : Nat) (ch : Nat) (peek : Option Nat) (d : Dir) (stop : Bool)
    (ap : List Arg) (r : Int) (hch : number_conversion ch = true) :
    directive W ch peek d stop ap r
      = number_step { d with percent := d.percent ++ [ch], sign := conv_signed ch d,
                             upper := d.upper || ch == 88 }
          (conv_base ch) (conv_operand W ch d) stop ap := by
  simp only [number_conversion, Bool.or_eq_true, beq_iff_eq] at hch
  rcases hch with ((((((h | h) | h) | h) | h) | h) | h) | h <;> subst h
  · simp [directive, conv_base, conv_signed, conv_operand]; rfl
  · simp [directive, conv_base, conv_signed, conv_operand]; rfl
  · simp [directive, conv_base, conv_signed, conv_operand]; rfl
  · simp [directive, conv_base, conv_signed, conv_operand]; rfl
  · simp [directive, conv_base, conv_signed, conv_operand]; rfl
  · simp [directive, conv_base, conv_signed, conv_operand]; rfl
  · simp [directive, conv_base, conv_signed, conv_operand]; rfl
  · by_cases hs : d.sign = true
    · have e : conv_operand W 114 d = fetch_sign W d := by
        funext v; simp [conv_operand, conv_signed, hs]
      rw [e]
      simp [directive, conv_base, conv_signed, hs]; rfl
    · have e : conv_operand W 114 d = fetch_nosign W d := by
        funext v; simp [conv_operand, conv_signed, hs]
      rw [e]
      simp [directive, conv_base, conv_signed, hs]; rfl

theorem replicate_if_not (b : Bool) (k x : Nat) :
    (if (!b) = true then List.replicate k x else []) = List.replicate (if b then 0 else k) x := by
  cases b <;> simp

theorem replicate_if (b : Bool) (k x : Nat) :
    (if b = true then List.replicate k x else []) = List.replicate (if b then k else 0) x := by
  cases b <;> simp

/-- The label `number` for a width from 0 to `INT_MAX`: spaces, the sign, the
prefix of the alternate form, zeros, the digits and spaces, with the number of
each padding. -/
theorem number_order (d : Dir) (base num : Nat) (hb : 2 ≤ base) (hb36 : base ≤ 36)
    (hnum : num < 2 ^ 64) (hw0 : 0 ≤ d.width) (hw1 : d.width < 2 ^ 31)
    (neg : Bool) (mag : Nat) (hneg : neg = (d.sign && decide (2 ^ 63 ≤ num)))
    (hmag : mag = if neg = true then (2 ^ 64 - num) % 2 ^ 64 else num) :
    ∃ nl nz nt : Nat,
      number d base num
        = some (List.replicate nl 32 ++ (if neg then [45] else []) ++
            (if d.sharpflag && decide (mag ≠ 0) then
              (if base = 8 then [48] else if base = 16 then [48, 120] else [])
             else []) ++
            List.replicate nz 48 ++ digitText base mag d.upper ++ List.replicate nt 32) ∧
      (nl ≠ 0 → d.ladjust = false ∧ d.padc ≠ 48) ∧
      (nt ≠ 0 → d.ladjust = true) ∧
      (d.ladjust = true →
        nz = (wrap_int (d.dwidth - ((digitText base mag d.upper).length : Int))).toNat) := by
  have hm : mag < 2 ^ 64 := by
    rw [hmag]
    split_ifs
    · exact Nat.mod_lt _ (by norm_num)
    · exact hnum
  have hlen := digitChars_length_le base hb hb36 mag hm
  rw [← digitText_length base mag d.upper] at hlen
  unfold number
  simp only [← hneg, ← hmag, ksprintn_digitText base hb mag hm d.upper]
  unfold number_emit
  simp only [List.reverse_reverse, List.length_reverse, digitText_takeWhile base hb hb36]
  obtain ⟨tmp, htmp, ht0, ht3⟩ : ∃ tmp : Int,
      (if neg = true then
        (if (d.sharpflag && decide (mag ≠ 0)) = true then
          (if base = 8 then (1 : Int) else if base = 16 then 2 else 0) else 0) + 1
       else
        (if (d.sharpflag && decide (mag ≠ 0)) = true then
          (if base = 8 then (1 : Int) else if base = 16 then 2 else 0) else 0)) = tmp ∧
      0 ≤ tmp ∧ tmp ≤ 3 := ⟨_, rfl, by split_ifs <;> omega, by split_ifs <;> omega⟩
  rw [htmp]
  generalize hn : (digitText base mag d.upper).length = n at hlen ⊢
  rw [replicate_if_not, replicate_if]
  refine ⟨_, _, _, rfl, ?_, ?_, ?_⟩
  · intro h
    cases hl : d.ladjust with
    | true => rw [hl] at h; simp at h
    | false =>
      refine ⟨rfl, ?_⟩
      intro hp
      apply h
      simp only [hl, hp, Bool.not_false, decide_True, Bool.and_self, if_true, Bool.false_eq_true,
        if_false]
      rw [wrap_int_id (d.width - tmp) (by omega) (by omega)]
      by_cases hgt : d.width - tmp > (n : Int)
      · rw [if_pos hgt, show tmp + (d.width - tmp) = d.width by ring,
          wrap_int_id d.width (by omega) (by omega), sub_self]
        decide
      · rw [if_neg hgt, wrap_int_id (tmp + (n : Int)) (by omega) (by omega),
          wrap_int_id (d.width - (tmp + (n : Int))) (by omega) (by omega)]
        omega
  · intro h
    cases hl : d.ladjust with
    | true => rfl
    | false => rw [hl] at h; simp at h
  · intro hl
    simp [hl]

theorem conv_operand_lt (W ch : Nat) (d : Dir) (v : Int) : conv_operand W ch d v < 2 ^ 64 := by
  unfold conv_operand
  split_ifs
  · exact fetch_sign_lt W d v
  · exact fetch_nosign_lt W d v

theorem conv_base_bounds (ch : Nat) : 2 ≤ conv_base ch ∧ conv_base ch ≤ 36 := by
  unfold conv_base; split_ifs <;> omega

/-- C27: the order of the characters of a numeric conversion.  For every
directive state `d` (any flags, any precision, any length modifiers) whose
width is an `int` from 0 to `INT_MAX`, every integer conversion `ch` (`d`,
`i`, `o`, `u`, `x`, `X`, `y`, `r`) with any argument `v`, and the conversion
`p` with any pointer `a`, pass to `PCHAR`, in this order: `nl` spaces, a `-`
when the conversion is signed and the operand negative, the prefix of the
alternate form (when `#` is in effect and the magnitude is not zero), `nz`
zeros, the digits of the magnitude most significant first, and `nt` spaces.
Leading spaces are present only when the directive is right justified and
not zero padded (`nl ≠ 0` needs no flag `-` and a pad character other than
`0`), trailing spaces only when it is left justified, and with the flag `-`
the number of zeros is the one of the precision alone, whatever the width and
the flag `0`. -/
theorem vsnprintf_number_order (W ch : Nat) (peek : Option Nat) (d : Dir) (stop : Bool)
    (ap : List Arg) (r : Int) (v : Int) (a : Nat)
    (hw0 : 0 ≤ d.width) (hw1 : d.width < 2 ^ 31) :
    (number_conversion ch = true →
      ∃ nl nz nt : Nat,
        directive W ch peek d stop (Arg.int v :: ap) r
          = Step.next Mode.text
              (List.replicate nl 32 ++ (if conv_neg W ch d v then [45] else []) ++
                (if d.sharpflag && decide (conv_mag W ch d v ≠ 0) then alt_form (conv_base ch)
                 else []) ++
                List.replicate nz 48 ++
                digitText (conv_base ch) (conv_mag W ch d v) (d.upper || ch == 88) ++
                List.replicate nt 32) stop ap [] ∧
        (nl ≠ 0 → d.ladjust = false ∧ d.padc ≠ 48) ∧
        (nt ≠ 0 → d.ladjust = true) ∧
        (d.ladjust = true →
          nz = (wrap_int (d.dwidth -
            ((digitText (conv_base ch) (conv_mag W ch d v) (d.upper || ch == 88)).length : Int))).toNat)) ∧
    (∃ nl nz nt : Nat,
      directive W 112 peek d stop (Arg.ptr a :: ap) r
        = Step.next Mode.text
            (List.replicate nl 32 ++
              (if decide (d.width = 0) && decide (toUnsigned 64 (toUnsigned W a) ≠ 0) then
                alt_form 16 else []) ++
              List.replicate nz 48 ++
              digitText 16 (toUnsigned 64 (toUnsigned W a)) d.upper ++
              List.replicate nt 32) stop ap [] ∧
      (nl ≠ 0 → d.ladjust = false ∧ d.padc ≠ 48) ∧
      (nt ≠ 0 → d.ladjust = true) ∧
      (d.ladjust = true →
        nz = (wrap_int (d.dwidth -
          ((digitText 16 (toUnsigned 64 (toUnsigned W a)) d.upper).length : Int))).toNat)) := by
  constructor
  · intro hch
    obtain ⟨hb, hb36⟩ := conv_base_bounds ch
    obtain ⟨nl, nz, nt, hn, h1, h2, h3⟩ := number_order
      { d with percent := d.percent ++ [ch], sign := conv_signed ch d,
               upper := d.upper || ch == 88 }
      (conv_base ch) (conv_operand W ch d v) hb hb36 (conv_operand_lt W ch d v) hw0 hw1
      (conv_neg W ch d v) (conv_mag W ch d v) rfl rfl
    refine ⟨nl, nz, nt, ?_, h1, h2, h3⟩
    rw [directive_number_step W ch peek d stop _ r hch, number_step, hn]
    simp only [alt_form, List.append_assoc]
  · obtain ⟨nl, nz, nt, hn, h1, h2, h3⟩ := number_order
      { d with percent := d.percent ++ [112], sharpflag := decide (d.width = 0), sign := false }
      16 (toUnsigned 64 (toUnsigned W a)) (by norm_num) (by norm_num) (toUnsigned_lt 64 _)
      hw0 hw1 false (toUnsigned 64 (toUnsigned W a)) rfl rfl
    refine ⟨nl, nz, nt, ?_, h1, h2, h3⟩
    have hd : directive W 112 peek d stop (Arg.ptr a :: ap) r
        = match number { d with percent := d.percent ++ [112],
                                sharpflag := decide (d.width = 0), sign := false } 16
            (toUnsigned 64 (toUnsigned W a)) with
          | none => Step.fault
          | some e => Step.next Mode.text e stop ap [] := by
      simp [directive]
    rw [hd, hn]
    simp [alt_form]

/-- C27 at `W = 64` for the conversion `d` with the flags `-` and `0`, the
width 6 and the value -42: the characters are `-42` and three spaces, as the
format `%-06d` gives them (no zeros from the width), and `%06d` gives `-00042`
(no spaces). -/
theorem vsnprintf_number_order_witness :
    (∃ nl nz nt : Nat,
      directive 64 100 (some 0) { ladjust := true, padc := 48, width := 6 } false
          (Arg.int (-42) :: []) 0
        = Step.next Mode.text
            (List.replicate nl 32 ++
              (if conv_neg 64 100 { ladjust := true, padc := 48, width := 6 } (-42) then [45]
               else []) ++
              (if ({ ladjust := true, padc := 48, width := 6 } : Dir).sharpflag &&
                  decide (conv_mag 64 100 { ladjust := true, padc := 48, width := 6 } (-42) ≠ 0)
               then alt_form (conv_base 100) else []) ++
              List.replicate nz 48 ++
              digitText (conv_base 100)
                (conv_mag 64 100 { ladjust := true, padc := 48, width := 6 } (-42))
                (({ ladjust := true, padc := 48, width := 6 } : Dir).upper || 100 == 88) ++
              List.replicate nt 32) false [] [] ∧
      (nl ≠ 0 → ({ ladjust := true, padc := 48, width := 6 } : Dir).ladjust = false ∧
        ({ ladjust := true, padc := 48, width := 6 } : Dir).padc ≠ 48) ∧
      (nt ≠ 0 → ({ ladjust := true, padc := 48, width := 6 } : Dir).ladjust = true) ∧
      (({ ladjust := true, padc := 48, width := 6 } : Dir).ladjust = true →
        nz = (wrap_int (({ ladjust := true, padc := 48, width := 6 } : Dir).dwidth -
          ((digitText (conv_base 100)
              (conv_mag 64 100 { ladjust := true, padc := 48, width := 6 } (-42))
              (({ ladjust := true, padc := 48, width := 6 } : Dir).upper || 100 == 88)).length
            : Int))).toNat)) ∧
    vsnprintf 64 16 (some [37, 45, 48, 54, 100, 0]) [Arg.int (-42)]
      = some { str := [45, 52, 50, 32, 32, 32, 0], retval := 6, stores := [] } ∧
    vsnprintf 64 16 (some [37, 48, 54, 100, 0]) [Arg.int (-42)]
      = some { str := [45, 48, 48, 48, 52, 50, 0], retval := 6, stores := [] } :=
  ⟨(vsnprintf_number_order 64 100 (some 0) { ladjust := true, padc := 48, width := 6 } false
      [] 0 (-42) 0 (by decide) (by decide)).1 (by decide),
   by decide, by decide⟩

/-! ## The length modifiers -/

set_option maxRecDepth 100000 in
/-- C22: ranges of a scan set.  The expression `a-c]` makes exactly `a`, `b`
and `c` members, `c-a]` makes `c`, `-` and `a` members and `a-]` makes `a` and
`-` members: the `-` is a literal when the next character is smaller or is
`]`.  But the expression `a-a]` makes `a` and `b` members, and not `a` alone:
the test `n < c` takes `a-a` as a range and the body of the loop
`do tab[++c] = v; while (c < n)` runs once before its test, so the entry
after the end of the range is set as well. -/
theorem sccl_range_equal_ends :
    __sccl [97, 45, 97, 93, 0]
      = some ((List.range 256).map (fun i => if i = 97 ∨ i = 98 then 1 else 0), 4) ∧
    __sccl [97, 45, 99, 93, 0]
      = some ((List.range 256).map (fun i => if 97 ≤ i ∧ i ≤ 99 then 1 else 0), 4) ∧
    __sccl [99, 45, 97, 93, 0]
      = some ((List.range 256).map (fun i => if i = 99 ∨ i = 45 ∨ i = 97 then 1 else 0), 4) ∧
    __sccl [97, 45, 93, 0]
      = some ((List.range 256).map (fun i => if i = 97 ∨ i = 45 then 1 else 0), 3) := by
  refine ⟨?_, ?_, ?_, ?_⟩ <;> decide

/-! ## The stores of `__sccl` into the table -/

set_option maxRecDepth 100000 in
/-- C30: the expression `\xff-\xff]`.  The character 255 is taken, the test
`n < c` takes `\xff-\xff` as a range, and the loop
`do tab[++c] = v; while (c < n)` stores at `tab[256]`, outside the table of
256 entries: the run of `__sccl` has no defined result.  A range from 254 to
255 stays inside the table. -/
theorem sccl_store_outside :
    sccl_fill 1 1 255 ((List.replicate 256 0).set 255 1) = none ∧
    __sccl [255, 45, 255, 93, 0] = none ∧
    __sccl [254, 45, 255, 93, 0]
      = some ((List.range 256).map (fun i => if 254 ≤ i then 1 else 0), 4) := by
  refine ⟨?_, ?_, ?_⟩ <;> decide

/-! ## A scan set that the format does not close -/

/-- The bytes that `__sccl` has read are passed over. -/
theorem sloop_skip (W : Nat) (mem : List Nat) (pre rest : List Nat) (s : Scan) :
    sloop W mem (pre ++ rest) (SMode.text pre.length) s = sloop W mem rest (SMode.text 0) s := by
  induction pre with
  | nil => rfl
  | cons c cs ih => rw [List.cons_append, List.length_cons, sloop, ih]

/-- The label `doswitch` on a text without `]` that a NUL ends: the function
returns at the NUL. -/
theorem sccl_switch_open (v : Nat) (junk : List Nat) :
    ∀ (body : List Nat), (∀ x ∈ body, x ≠ 0) → 93 ∉ body →
      ∀ (range : Bool) (c : Nat) (tab : List Nat) (k : Nat) (r : List Nat × Nat),
        c ≠ 0 → (range = true → body ≠ []) →
        sccl_switch v (body ++ 0 :: junk) range c tab k = some r → r.2 = k + body.length := by
  intro body
  induction body with
  | nil =>
    intro _ _ range c tab k r hc hr h
    cases range with
    | true => exact absurd rfl (hr rfl)
    | false =>
      simp only [List.nil_append, sccl_switch, if_true, Option.some.injEq] at h
      rw [← h]; rfl
  | cons n rest ih =>
    intro h0 h93 range c tab k r hc hr h
    have hn0 : n ≠ 0 := h0 n (by simp)
    have hn93 : n ≠ 93 := fun e => h93 (by simp [e])
    have h0r : ∀ x ∈ rest, x ≠ 0 := fun x hx => h0 x (by simp [hx])
    have h93r : 93 ∉ rest := fun e => h93 (by simp [e])
    rw [List.cons_append] at h
    cases range with
    | true =>
      rw [sccl_switch] at h
      cases hf : sccl_fill v (if c < n then n - c else 1) c tab with
      | none => rw [hf] at h; simp at h
      | some tab2 =>
        rw [hf] at h
        have := ih h0r h93r false n tab2 (k + 1) r hn0 (by simp) h
        simp only [List.length_cons] at this ⊢; omega
    | false =>
      rw [sccl_switch, if_neg hn0] at h
      by_cases hn : n = 45
      · rw [if_pos hn] at h
        cases rest with
        | nil =>
          simp only [List.nil_append, List.head?_cons] at h
          have hm : (0 = 93 ∨ 0 < c) := Or.inr (by omega)
          rw [if_pos hm] at h
          have := ih h0r h93r false 45 _ (k + 1) r (by decide) (by simp) h
          simp only [List.length_cons] at this ⊢; omega
        | cons m t =>
          simp only [List.cons_append, List.head?_cons] at h
          by_cases hm : m = 93 ∨ m < c
          · rw [if_pos hm] at h
            have := ih h0r h93r false 45 _ (k + 1) r (by decide) (by simp) h
            simp only [List.length_cons] at this ⊢; omega
          · rw [if_neg hm] at h
            have := ih h0r h93r true c _ (k + 1) r hc (by simp) h
            simp only [List.length_cons] at this ⊢; omega
      · rw [if_neg hn, if_neg hn93] at h
        have := ih h0r h93r false n _ (k + 1) r hn0 (by simp) h
        simp only [List.length_cons] at this ⊢; omega

/-- The function `__sccl` on an expression that is not closed: it returns at
the NUL that ends the format. -/
theorem sccl_open (body junk : List Nat) (h0 : ∀ x ∈ body, x ≠ 0) (h93 : 93 ∉ sccl_rest body)
    (tab : List Nat) (k : Nat) (h : __sccl (body ++ 0 :: junk) = some (tab, k)) :
    k = body.length := by
  cases body with
  | nil =>
    simp only [List.nil_append, __sccl, show ¬ ((0 : Nat) = 94) by decide, if_false, if_true,
      Option.some.injEq, Prod.mk.injEq] at h
    exact h.2.symm
  | cons c t =>
    have hc0 : c ≠ 0 := h0 c (by simp)
    have h0t : ∀ x ∈ t, x ≠ 0 := fun x hx => h0 x (by simp [hx])
    by_cases hc : c = 94
    · subst hc
      cases t with
      | nil =>
        simp only [List.nil_append, List.cons_append, __sccl, if_true, Option.some.injEq,
          Prod.mk.injEq] at h
        rw [← h.2]; rfl
      | cons c2 t2 =>
        have hc2 : c2 ≠ 0 := h0t c2 (by simp)
        have h93t : 93 ∉ t2 := by simpa [sccl_rest] using h93
        simp only [List.cons_append, __sccl, if_true, if_neg hc2] at h
        have := sccl_switch_open 0 junk t2 (fun x hx => h0t x (by simp [hx])) h93t false c2 _ 2
          (tab, k) hc2 (by simp) h
        simp only [List.length_cons]
        simp only at this
        omega
    · have h93t : 93 ∉ t := by
        have e : sccl_rest (c :: t) = t := by simp [sccl_rest, hc]
        rwa [e] at h93
      simp only [List.cons_append, __sccl, if_neg hc, if_neg hc0] at h
      have := sccl_switch_open 1 junk t h0t h93t false c _ 1 (tab, k) hc0 (by simp) h
      simp only [List.length_cons]
      simp only at this
      omega

theorem toSigned_count (W : Nat) (hW : 32 ≤ W) (n : Nat) (h : n < 2 ^ 31) :
    toSigned W (n : Int) = (n : Int) := by
  have h1 : (2 : Int) ^ 31 ≤ 2 ^ (W - 1) :=
    pow_le_pow_right₀ (by norm_num) (by omega)
  have h2 : (2 : Int) ^ (W - 1) ≤ 2 ^ W := pow_le_pow_right₀ (by norm_num) (by omega)
  have h3 : ((n : Int)) < 2 ^ 31 := by exact_mod_cast h
  unfold toSigned
  rw [Int.emod_eq_of_lt (by omega) (by omega), if_pos (by omega)]

/-- C23 (as amended): a `%[` directive whose bracket expression the format
does not close.  The expression `body` holds no NUL and no `]` after its
first character (after the `^` if there is one), and the NUL that ends the
format follows it.  Whenever `__sccl` returns a table `tab`, it returns at
that NUL, and `vsscanf` does not take the directive as failed: it runs the
scan set conversion with `tab` as for a closed expression, so the directive
fails only as that conversion fails, and after a conversion that succeeds the
format is at its end and the count is returned.  So on an input that is a run
`c :: cs` of members of `tab`, the run and a NUL are stored through the pointer
argument and `vsscanf` returns 1. -/
theorem vsscanf_unterminated_set (W : Nat) (mem body junk : List Nat) (width : Nat)
    (flags : Flags) (s : Scan) (tab : List Nat) (k : Nat)
    (h0 : ∀ x ∈ body, x ≠ 0) (h93 : 93 ∉ sccl_rest body)
    (h : __sccl (body ++ 0 :: junk) = some (tab, k)) :
    k = body.length ∧
    sloop W mem (91 :: (body ++ 0 :: junk)) (SMode.spec width flags) s
      = (match conversion W mem 1 width { flags with NOSKIP := true }
            { s with ccltab := some tab } with
        | Conv.fault => none
        | Conv.input_failure t => some (finish Exit.input_failure t)
        | Conv.match_failure t => some (finish Exit.match_failure t)
        | Conv.next t => some (finish Exit.eof t)) ∧
    ∀ (c : Nat) (cs ijunk : List Nat) (a : Nat) (ap : List Arg), 32 ≤ W →
      cs.length + 1 < 2 ^ 31 → (∀ x ∈ c :: cs, x ≠ 0 ∧ tab.getD (x % 256) 0 ≠ 0) →
      vsscanf W (c :: cs ++ 0 :: ijunk) (37 :: 91 :: (body ++ 0 :: junk)) (Arg.ptr a :: ap)
        = some (1, [Stored.bytes a (c :: cs ++ [0])]) := by
  have hk := sccl_open body junk h0 h93 tab k h
  have hs : ∀ (mem : List Nat) (width : Nat) (flags : Flags) (s : Scan),
      sloop W mem (91 :: (body ++ 0 :: junk)) (SMode.spec width flags) s
      = (match conversion W mem 1 width { flags with NOSKIP := true }
            { s with ccltab := some tab } with
        | Conv.fault => none
        | Conv.input_failure t => some (finish Exit.input_failure t)
        | Conv.match_failure t => some (finish Exit.match_failure t)
        | Conv.next t => some (finish Exit.eof t)) := by
    intro mem width flags s
    rw [sloop]
    simp only [show ¬ (91 = 37) by decide, show ¬ (91 = 42) by decide,
      show ¬ (91 = 108) by decide, show ¬ (91 = 113) by decide, show ¬ (91 = 104) by decide,
      show ¬ (48 ≤ 91 ∧ 91 ≤ 57) by decide, show ¬ (91 = 110) by decide, if_false, if_true, h]
    cases hc : conversion W mem 1 width { flags with NOSKIP := true }
        { s with ccltab := some tab } with
    | fault => rfl
    | input_failure t => rfl
    | match_failure t => rfl
    | next t =>
      simp only []
      rw [hk, sloop_skip, sloop, if_pos rfl]
  refine ⟨hk, hs mem width flags s, ?_⟩
  intro c cs ijunk a ap hW h31 hmem
  have h32 : 2 ^ 32 ≤ 2 ^ W := Nat.pow_le_pow_right (by norm_num) hW
  have hin : (0 : Nat) ∈ c :: cs ++ 0 :: ijunk := by simp
  have hlen : strlen (c :: cs ++ 0 :: ijunk) = cs.length + 1 := by
    rw [strlen_text (c :: cs) ijunk (fun x hx => (hmem x hx).1)]; rfl
  have hwl : wrap_int ((cs.length + 1 : Nat) : Int) = ((cs.length + 1 : Nat) : Int) :=
    wrap_int_id _ (by push_cast; omega) (by push_cast; omega)
  have htake := take_run_all W (fun c => tab.getD (c % 256) 0 != 0) cs c (2 ^ W - 1) (0 :: ijunk)
    (fun x hx => by simpa using (hmem x hx).2) (by omega) (by omega) h31
  have hts : wrap_int (toSigned W ((cs.length + 1 : Nat) : Int))
      = ((cs.length + 1 : Nat) : Int) := by
    rw [toSigned_count W hW _ h31, hwl]
  have hne : ¬ (((cs.length + 1 : Nat) : Int) = 0) := by push_cast; omega
  have hpos : ¬ (((cs.length + 1 : Nat) : Int) ≤ 0) := by push_cast; omega
  unfold vsscanf vsscanf_run
  rw [if_pos hin, hlen, hwl, sloop]
  simp only [show ¬ (37 = 0) by decide, if_false, show isspace 37 = false by decide,
    Bool.false_eq_true, ne_eq, not_true_eq_false]
  rw [hs]
  simp only [conversion, hpos, if_false, if_true, ct_ccl, List.drop_zero]
  rw [htake]
  simp only [List.length_cons, hts, hne, if_false]
  simp [finish, scan_ret]
  decide

set_option maxRecDepth 100000 in
/-- C23 (as amended) at `W = 64` for the format `%[a` and the input `aaa`:
`__sccl` returns at the NUL, one byte on, with the table that has `a` alone,
and `vsscanf` stores `aaa` and a NUL and returns 1. -/
theorem vsscanf_unterminated_set_witness :
    1 = [97].length ∧
    vsscanf 64 (97 :: [97, 97] ++ 0 :: []) (37 :: 91 :: ([97] ++ 0 :: [])) (Arg.ptr 1000 :: [])
      = some (1, [Stored.bytes 1000 (97 :: [97, 97] ++ [0])]) := by
  have h := vsscanf_unterminated_set 64 [97, 97, 97, 0] [97] [] 0 {}
    { pos := 0, inr := 3, nassigned := 0, nconversions := 0, nread := 0, base := 0,
      ccfn := none, ccltab := none, ap := [Arg.ptr 1000], stores := [] }
    ((List.replicate 256 0).set 97 1) 1 (by decide) (by decide) (by decide)
  exact ⟨h.1, h.2.2 97 [97, 97] [] 1000 [] (by decide) (by decide) (by decide)⟩

/-- C23 as stated fails: the format `%[a` ends before a `]`, and on the input
`aaa` the directive is not taken as failed.  It consumes the three characters,
stores them and a NUL through the pointer argument, and `vsscanf` returns 1,
a count that includes the directive. -/
theorem vsscanf_unterminated_set_assigns :
    vsscanf 64 [97, 97, 97, 0] [37, 91, 97, 0] [Arg.ptr 1000]
      = some (1, [Stored.bytes 1000 [97, 97, 97, 0]]) := by
  decide

/-! ## The push back of an integer conversion at the end of the input -/

/-- C24: the push back of `x` when it is the last character of the input.
On the input `0x` the format `%x%c` stores 0 for `%x` and then the character
`0`, not `x`, for `%c`: at the label `ok` the pointer `inp` is not advanced
past the last character of the input (`if (--inr > 0) inp++; else break;`),
and the push back `inp--` then moves it from `x` back to `0`.  On the input
`0xz`, where a character follows the `x`, `%c` stores `x`.  In the same way a
sign that is the last character of the input `" -"` leaves `inp` at the space
before it (position 0), not at the sign (position 1), at the match failure. -/
theorem vsscanf_pushback_at_end :
    vsscanf 64 [48, 120, 0] [37, 120, 37, 99, 0] [Arg.ptr 1000, Arg.ptr 2000]
      = some (2, [Stored.val 1000 32 0, Stored.bytes 2000 [48]]) ∧
    vsscanf 64 [48, 120, 122, 0] [37, 120, 37, 99, 0] [Arg.ptr 1000, Arg.ptr 2000]
      = some (2, [Stored.val 1000 32 0, Stored.bytes 2000 [120]]) ∧
    ct_int 64 [32, 45, 0] 0 {}
        { pos := 1, inr := 1, nassigned := 0, nconversions := 0, nread := 1, base := 10,
          ccfn := some true, ccltab := none, ap := [Arg.ptr 1000], stores := [] }
      = Conv.match_failure
        { pos := 0, inr := 1, nassigned := 0, nconversions := 0, nread := 1, base := 10,
          ccfn := some true, ccltab := none, ap := [Arg.ptr 1000], stores := [] } := by
  refine ⟨?_, ?_, ?_⟩ <;> decide

/-! ## Reads of `vsscanf` after the end of the input -/

/-- C31: the conversion `c` with a width above the number of characters that
remain.  The input is `ab`, its NUL, and the bytes `X` and `Y` that lie after
it in memory.  The format `%5c` copies five bytes through the pointer
argument, the two characters, the NUL and the two bytes after it, since
`memcpy(va_arg(ap, char *), inp, width)` of line 982 does not look at `inr`;
and `inr -= width` leaves `inr = -3`.  After the format `%*5c`, whose branch
tests `inr < width` and advances `inp` by `inr` without decrementing `inr`,
the two directives `%c` that follow copy the NUL and then the byte `X` after
it. -/
theorem vsscanf_char_past_end :
    vsscanf 64 [97, 98, 0, 88, 89] [37, 53, 99, 0] [Arg.ptr 1000]
      = some (1, [Stored.bytes 1000 [97, 98, 0, 88, 89]]) ∧
    conversion 64 [97, 98, 0, 88, 89] 0 5 { NOSKIP := true }
        { pos := 0, inr := 2, nassigned := 0, nconversions := 0, nread := 0, base := 0,
          ccfn := none, ccltab := none, ap := [Arg.ptr 1000], stores := [] }
      = Conv.next
        { pos := 5, inr := -3, nassigned := 1, nconversions := 1, nread := 5, base := 0,
          ccfn := none, ccltab := none, ap := [],
          stores := [Stored.bytes 1000 [97, 98, 0, 88, 89]] } ∧
    vsscanf 64 [97, 98, 0, 88, 89] [37, 42, 53, 99, 37, 99, 37, 99, 0]
        [Arg.ptr 1000, Arg.ptr 2000]
      = some (2, [Stored.bytes 1000 [0], Stored.bytes 2000 [88]]) := by
  refine ⟨?_, ?_, ?_⟩ <;> decide

/-! ## The buffer of an integer conversion -/

/-- The loop of lines 1077-1166 stores at most `w` characters and advances
`inp` by at most one for every character it stores. -/
theorem int_run_length (mem : List Nat) :
    ∀ (w : Nat) (flags : Flags) (buf : List Nat) (s : Scan) (fl : Flags) (buf2 : List Nat)
      (t : Scan), int_run mem w flags buf s = some (fl, buf2, t) →
      buf.length ≤ buf2.length ∧ buf2.length ≤ buf.length + w ∧ s.pos ≤ t.pos ∧
      t.pos + buf.length ≤ s.pos + buf2.length := by
  intro w
  induction w with
  | zero =>
    intro flags buf s fl buf2 t h
    simp only [int_run, Option.some.injEq, Prod.mk.injEq] at h
    obtain ⟨-, rfl, rfl⟩ := h
    omega
  | succ w ih =>
    intro flags buf s fl buf2 t h
    rw [int_run] at h
    cases hg : mem.get? s.pos with
    | none => rw [hg] at h; simp at h
    | some c =>
      rw [hg] at h
      simp only [] at h
      cases hi : int_char c flags s.base buf.length with
      | none => rw [hi] at h; simp at h
      | some r =>
        obtain ⟨ok, flags1, base1⟩ := r
        rw [hi] at h
        simp only [] at h
        by_cases hok : ok = true
        · rw [if_pos hok] at h
          by_cases hinr : wrap_int (s.inr - 1) > 0
          · rw [if_pos hinr] at h
            have := ih _ _ _ _ _ _ h
            simp only [List.length_append, List.length_singleton] at this
            omega
          · rw [if_neg hinr] at h
            simp only [Option.some.injEq, Prod.mk.injEq] at h
            obtain ⟨-, rfl, rfl⟩ := h
            simp only [List.length_append, List.length_singleton]
            omega
        · rw [if_neg hok] at h
          simp only [Option.some.injEq, Prod.mk.injEq] at h
          obtain ⟨-, rfl, rfl⟩ := h
          simp only []
          omega

/-- The width of an integer conversion after lines 1071-1074: 31 for the
width 0 and for a width above 31, else the width. -/
theorem ct_int_width (W : Nat) (hW : 5 ≤ W) (width : Nat) (hwidth : width < 2 ^ W) :
    (if (width + 2 ^ W - 1) % 2 ^ W > 30 then 30 else (width + 2 ^ W - 1) % 2 ^ W) + 1
      = if width = 0 ∨ 31 < width then 31 else width := by
  have h32 : 2 ^ 5 ≤ 2 ^ W := Nat.pow_le_pow_right (by norm_num) hW
  by_cases h0 : width = 0
  · subst h0
    rw [Nat.zero_add, Nat.mod_eq_of_lt (by omega), if_pos (by omega), if_pos (Or.inl rfl)]
  · have e : (width + 2 ^ W - 1) % 2 ^ W = width - 1 := by
      have : width + 2 ^ W - 1 = (width - 1) + 2 ^ W := by omega
      rw [this, Nat.add_mod_right, Nat.mod_eq_of_lt (by omega)]
    rw [e]
    split_ifs <;> omega

theorem ct_int_pos (W : Nat) (mem : List Nat) (width : Nat) (flags : Flags) (s : Scan)
    (n : Nat)
    (hn : (if (width + 2 ^ W - 1) % 2 ^ W > 30 then 30 else (width + 2 ^ W - 1) % 2 ^ W) + 1 = n) :
    pos_bound s n (ct_int W mem width flags s) := by
  generalize hr : ct_int W mem width flags s = r
  unfold ct_int at hr
  simp only [] at hr
  rw [hn] at hr
  rcases hrun : int_run mem n
      { flags with SIGNOK := true, NDIGITS := true, NZDIGITS := true } [] s
    with _ | ⟨fl, buf, t⟩
  · simp only [hrun] at hr
    subst hr
    simp only [pos_bound]
  · have hlen := int_run_length mem _ _ _ _ _ _ _ hrun
    simp only [List.length_nil] at hlen
    simp only [hrun] at hr
    by_cases hnd : fl.NDIGITS = true
    · simp only [hnd, if_true] at hr
      subst hr
      simp only [pos_bound]
      split_ifs <;> (try simp only []) <;> omega
    · simp only [hnd, Bool.false_eq_true, if_false] at hr
      rcases hl : buf.getLast? with _ | c
      · simp only [hl] at hr
        subst hr
        simp only [pos_bound]
      · simp only [hl] at hr
        by_cases hx : c = 120 ∨ c = 88
        · simp only [hx, if_true] at hr
          rcases hap : t.ap with _ | ⟨a, ap⟩
          · rcases hf : t.ccfn with _ | q <;> simp only [hap, hf] at hr <;>
              split_ifs at hr <;> subst hr <;> simp only [pos_bound] <;> (try omega)
          · rcases hf : t.ccfn with _ | q <;> cases a <;> simp only [hap, hf] at hr <;>
              split_ifs at hr <;> subst hr <;> simp only [pos_bound] <;> (try omega)
        · simp only [hx, if_false] at hr
          rcases hap : t.ap with _ | ⟨a, ap⟩
          · rcases hf : t.ccfn with _ | q <;> simp only [hap, hf] at hr <;>
              split_ifs at hr <;> subst hr <;> simp only [pos_bound] <;> (try omega)
          · rcases hf : t.ccfn with _ | q <;> cases a <;> simp only [hap, hf] at hr <;>
              split_ifs at hr <;> subst hr <;> simp only [pos_bound] <;> (try omega)

/-- C32: the buffer of an integer conversion.  For every input, every flags
and every width of the directive (a `size_t` of at least 5 bits), the width
with which the loop of lines 1077-1166 runs is `int_width width`: the width
itself from 1 to 31, and 31 for the width 0 and for the widths above 31.  The
loop stores at most that many characters in `buf`, so that with the NUL that
line 1179 stores after them they fit the `BUF = 32` bytes, and it advances
`inp` by at most one for each of them; and at the end of the case `CT_INT`,
which does not end in an input failure, `inp` is at most `int_width width`
bytes after `inp` at its start. -/
theorem ct_int_buffer (W : Nat) (hW : 5 ≤ W) (mem : List Nat) (width : Nat)
    (hwidth : width < 2 ^ W) (flags : Flags) (s : Scan) :
    (if (width + 2 ^ W - 1) % 2 ^ W > 30 then 30 else (width + 2 ^ W - 1) % 2 ^ W) + 1
      = int_width width ∧
    int_width width ≤ 31 ∧
    (∀ (fl : Flags) (buf : List Nat) (t : Scan),
      int_run mem (int_width width)
          { flags with SIGNOK := true, NDIGITS := true, NZDIGITS := true } [] s
        = some (fl, buf, t) →
      buf.length ≤ int_width width ∧ buf.length + 1 ≤ BUF ∧ t.pos ≤ s.pos + buf.length) ∧
    pos_bound s (int_width width) (ct_int W mem width flags s) := by
  have hw : (if (width + 2 ^ W - 1) % 2 ^ W > 30 then 30 else (width + 2 ^ W - 1) % 2 ^ W) + 1
      = int_width width := ct_int_width W hW width hwidth
  have hw31 : int_width width ≤ 31 := by unfold int_width; split_ifs <;> omega
  refine ⟨hw, hw31, ?_, ct_int_pos W mem width flags s _ hw⟩
  intro fl buf t h
  have := int_run_length mem _ _ _ _ _ _ _ h
  simp only [List.length_nil] at this
  unfold BUF
  omega

/-- C32 at `W = 64` for the directive `%d` without a width on an input of 40
digits `1`: the conversion stops after 31 of them, as the `%n` that follows
shows, and the value of the 31 digits, which is above `LLONG_MAX`, is stored as
`LLONG_MAX` truncated to an `int`. -/
theorem ct_int_buffer_witness :
    int_width 0 = 31 ∧ int_width 5 = 5 ∧ int_width 40 = 31 ∧
    pos_bound
      { pos := 0, inr := 40, nassigned := 0, nconversions := 0, nread := 0, base := 10,
        ccfn := some true, ccltab := none, ap := [Arg.ptr 1000], stores := [] }
      (int_width 0)
      (ct_int 64 (List.replicate 40 49 ++ [0]) 0 {}
        { pos := 0, inr := 40, nassigned := 0, nconversions := 0, nread := 0, base := 10,
          ccfn := some true, ccltab := none, ap := [Arg.ptr 1000], stores := [] }) ∧
    vsscanf 64 (List.replicate 40 49 ++ [0]) [37, 100, 37, 110, 0] [Arg.ptr 1000, Arg.ptr 2000]
      = some (1, [Stored.val 1000 32 (-1), Stored.val 2000 32 31]) :=
  ⟨by decide, by decide, by decide,
   (ct_int_buffer 64 (by decide) (List.replicate 40 49 ++ [0]) 0 (by decide) {}
      { pos := 0, inr := 40, nassigned := 0, nconversions := 0, nread := 0, base := 10,
        ccfn := some true, ccltab := none, ap := [Arg.ptr 1000], stores := [] }).2.2.2,
   by decide⟩

/-! ## `strtoul` and `strtouq` on a 64 bit `unsigned long` -/

/-- The base after lines 116-123, for a base that is 0 or from 2 to 36: a
number from 2 to 36. -/
theorem strto_start_base (nptr : List Nat) (base : Int)
    (hbase : base = 0 ∨ (2 ≤ base ∧ base ≤ 36)) :
    2 ≤ (strto_start nptr base).2.1 ∧ (strto_start nptr base).2.1 ≤ 36 := by
  unfold strto_start strto_base
  simp only []
  split_ifs <;> omega

/-- C33: `strtoul` and `strtouq` on a 64 bit `unsigned long`.  For every text
`nptr` and every base that is 0 or from 2 to 36, `strtoul` with `W = 64` and
`strtouq` return the same value and the same end position, and their loops end
in the same state. -/
theorem strtoul_eq_strtouq (nptr : List Nat) (base : Int)
    (hbase : base = 0 ∨ (2 ≤ base ∧ base ≤ 36)) :
    strtoul 64 nptr base = strtouq nptr base ∧
    strtoul_scan 64 nptr base = strtouq_scan nptr base := by
  obtain ⟨h1, h2⟩ := strto_start_base nptr base hbase
  have hu : toUnsigned 64 (strto_start nptr base).2.1 = toUnsigned 32 (strto_start nptr base).2.1 := by
    unfold toUnsigned
    rw [Int.emod_eq_of_lt (by omega) (by omega), Int.emod_eq_of_lt (by omega) (by omega)]
  have hs : strtoul_scan 64 nptr base = strtouq_scan nptr base := by
    unfold strtoul_scan strtouq_scan
    simp only [hu]
    rfl
  refine ⟨?_, hs⟩
  unfold strtoul strtouq
  rw [hs]
  rfl

/-- C33 for the text `" -0x1F"` in base 0 and `"zz"` in base 36: both
functions give the same results, `2 ^ 64 - 31` and 1295. -/
theorem strtoul_eq_strtouq_witness :
    strtoul 64 [32, 45, 48, 120, 49, 70] 0 = strtouq [32, 45, 48, 120, 49, 70] 0 ∧
    strtoul 64 [122, 122] 36 = strtouq [122, 122] 36 ∧
    strtoul 64 [32, 45, 48, 120, 49, 70] 0 = (2 ^ 64 - 31, 6) ∧
    strtouq [122, 122] 36 = (1295, 2) :=
  ⟨(strtoul_eq_strtouq [32, 45, 48, 120, 49, 70] 0 (by decide)).1,
   (strtoul_eq_strtouq [122, 122] 36 (by decide)).1, by decide, by decide⟩

/-! ## The negated scan set -/

theorem sccl_fill_complement (v : Nat) :
    ∀ (n c : Nat) (tab : List Nat),
      sccl_fill (1 - v) n c (tab.map (fun e => 1 - e))
        = (sccl_fill v n c tab).map (fun t => t.map (fun e => 1 - e)) := by
  intro n
  induction n with
  | zero => intro c tab; rfl
  | succ k ih =>
    intro c tab
    rw [sccl_fill, sccl_fill]
    split_ifs
    · rw [← ih]; simp [List.map_set]
    · rfl

theorem sccl_switch_complement (v : Nat) :
    ∀ (fmt : List Nat) (range : Bool) (c : Nat) (tab : List Nat) (k : Nat),
      sccl_switch (1 - v) fmt range c (tab.map (fun e => 1 - e)) (k + 1)
        = (sccl_switch v fmt range c tab k).map (fun r => (r.1.map (fun e => 1 - e), r.2 + 1)) := by
  intro fmt
  induction fmt with
  | nil => intro range c tab k; cases range <;> rfl
  | cons n fmt ih =>
    intro range c tab k
    cases range with
    | true =>
      rw [sccl_switch, sccl_switch, sccl_fill_complement]
      cases sccl_fill v (if c < n then n - c else 1) c tab with
      | none => rfl
      | some t => exact ih false n t (k + 1)
    | false =>
      rw [sccl_switch, sccl_switch]
      by_cases h0 : n = 0
      · rw [if_pos h0, if_pos h0]; rfl
      · rw [if_neg h0, if_neg h0]
        by_cases h45 : n = 45
        · rw [if_pos h45, if_pos h45]
          cases fmt.head? with
          | none => rfl
          | some m =>
            simp only []
            by_cases hm : m = 93 ∨ m < c
            · rw [if_pos hm, if_pos hm, ← ih]
              simp [List.map_set]
            · rw [if_neg hm, if_neg hm]
              exact ih true c tab (k + 1)
        · rw [if_neg h45, if_neg h45]
          by_cases h93 : n = 93
          · rw [if_pos h93, if_pos h93]; rfl
          · rw [if_neg h93, if_neg h93, ← ih]
            simp [List.map_set]

set_option maxRecDepth 100000 in
/-- C34: the table of a negated scan set.  For every bracket expression `X`
that does not start with `^`, read from any memory, `__sccl` on `^` followed by
`X` has a result exactly when it has one on `X`; the table then is the one for
`X` with every one of its entries `e` replaced by `1 - e`, and the returned
pointer is one byte further from the `^` than it is from the start of `X`, the
same place in `X`. -/
theorem sccl_negation (X : List Nat) (hX : X.head? ≠ some 94) :
    __sccl (94 :: X)
      = (__sccl X).map (fun r => (r.1.map (fun e => 1 - e), r.2 + 1)) := by
  cases X with
  | nil => rfl
  | cons c fmt =>
    have hc : c ≠ 94 := by simpa using hX
    have hrep : List.replicate 256 1 = (List.replicate 256 0).map (fun e => 1 - e) := by
      simp
    simp only [__sccl, if_true, if_neg hc]
    by_cases h0 : c = 0
    · rw [if_pos h0, if_pos h0, hrep]; rfl
    · rw [if_neg h0, if_neg h0]
      have := sccl_switch_complement 1 fmt false c ((List.replicate 256 0).set c 1) 1
      rw [← this]
      simp [List.map_set]

set_option maxRecDepth 100000 in
/-- C34 for the expression `a-c]`: the table of `^a-c]` has 0 at `a`, `b`, `c`
and 1 elsewhere, the table of `a-c]` has 1 there and 0 elsewhere, and the
returned pointers are 5 and 4 bytes on. -/
theorem sccl_negation_witness :
    __sccl (94 :: [97, 45, 99, 93, 0])
      = (__sccl [97, 45, 99, 93, 0]).map (fun r => (r.1.map (fun e => 1 - e), r.2 + 1)) ∧
    __sccl [97, 45, 99, 93, 0]
      = some ((List.range 256).map (fun i => if 97 ≤ i ∧ i ≤ 99 then 1 else 0), 4) ∧
    __sccl [94, 97, 45, 99, 93, 0]
      = some ((List.range 256).map (fun i => if 97 ≤ i ∧ i ≤ 99 then 0 else 1), 5) :=
  ⟨sccl_negation [97, 45, 99, 93, 0] (by decide), by decide, by decide⟩

/-! ## The precision of a numeric conversion -/

/-- The label `number` with a precision `p`, when the flag `0` is not in
effect: the digits of the magnitude are padded with zeros up to `p` digits,
after the sign and the prefix of the alternate form. -/
theorem number_precision_exact (d : Dir) (base num : Nat) (hb : 2 ≤ base) (hb36 : base ≤ 36)
    (hnum : num < 2 ^ 64) (p : Nat) (hp : p < 2 ^ 31) (hd : d.dwidth = p)
    (hz : d.ladjust = true ∨ d.padc ≠ 48)
    (neg : Bool) (mag : Nat) (hneg : neg = (d.sign && decide (2 ^ 63 ≤ num)))
    (hmag : mag = if neg = true then (2 ^ 64 - num) % 2 ^ 64 else num) :
    ∃ (lead trail : List Nat),
      number d base num
        = some (lead ++ (if neg then [45] else []) ++
            (if d.sharpflag && decide (mag ≠ 0) then alt_form base else []) ++
            List.replicate (p - (digitText base mag d.upper).length) 48 ++
            digitText base mag d.upper ++ trail) ∧
      (∀ x ∈ lead, x = 32) ∧ (∀ x ∈ trail, x = 32) ∧
      p ≤ (List.replicate (p - (digitText base mag d.upper).length) 48 ++
            digitText base mag d.upper).length := by
  have hm : mag < 2 ^ 64 := by
    rw [hmag]
    split_ifs
    · exact Nat.mod_lt _ (by norm_num)
    · exact hnum
  have hlen := digitChars_length_le base hb hb36 mag hm
  rw [← digitText_length base mag d.upper] at hlen
  have hz2 : (!d.ladjust && decide (d.padc = 48)) = false := by
    rcases hz with h | h
    · simp [h]
    · simp [h]
  unfold number
  simp only [← hneg, ← hmag, ksprintn_digitText base hb mag hm d.upper]
  unfold number_emit
  simp only [hz2, Bool.false_eq_true, if_false, List.reverse_reverse, List.length_reverse,
    digitText_takeWhile base hb hb36, hd]
  have e : (wrap_int ((p : Int) - ((digitText base mag d.upper).length : Int))).toNat
      = p - (digitText base mag d.upper).length := by
    rw [wrap_int_id _ (by omega) (by omega)]
    omega
  rw [e]
  unfold alt_form
  refine ⟨_, _, rfl, ?_, ?_, ?_⟩
  · exact fun x hx => mem_if_replicate _ _ x hx
  · exact fun x hx => mem_if_replicate _ _ x hx
  · rw [List.length_append, List.length_replicate]; omega

/-- C19 (as amended): the precision of a numeric conversion.  A precision
`p` up to `INT_MAX` written `.p` in decimal, or passed as the `int` argument
of `.*`, is stored in `dwidth`.  Every numeric conversion, the integer
conversions `d`, `i`, `o`, `u`, `x`, `X`, `y`, `r` with any argument `v` and
the conversion `p` with any pointer `a`, that is reached with that precision
in a directive state `d` in which zero padding is not in effect, that is
unless `d` is right justified (`ladjust` clear, which `-` sets and a negative
width of `*` toggles) with the pad character `0` (which the flag `0` sets),
passes to `PCHAR`, whatever the width and the other flags: spaces, a `-` when
the conversion is signed and its operand negative, the prefix of the alternate
form, `p - n` zeros where `n` is the number of digits of the magnitude of the
operand, these digits, and spaces.  So at least `p` digits are emitted. -/
theorem vsnprintf_precision (W : Nat) (d0 d : Dir) (p ch : Nat) (v : Int) (a : Nat) (c : Nat)
    (rest : List Nat) (peek : Option Nat) (stop : Bool) (o : Out) (ap : List Arg)
    (ns : List (Nat × Int)) (r : Int)
    (hp : p < 2 ^ 31) (hc : c < 48 ∨ c > 57)
    (hd : d.dwidth = p) (hz : d.ladjust = true ∨ d.padc ≠ 48) :
    vloop W (46 :: (digitChars 10 p ++ c :: rest)) (Mode.spec d0) stop o ap ns
      = vloop W (c :: rest)
          (Mode.spec { d0 with dot := true, dwidth := p,
                               percent := d0.percent ++ 46 :: digitChars 10 p }) stop o ap ns ∧
    directive W 42 peek { d0 with dot := true } stop (Arg.int p :: ap) r
      = Step.next (Mode.spec { d0 with dot := true, dwidth := p,
                                       percent := d0.percent ++ [42] }) [] stop ap [] ∧
    (number_conversion ch = true →
      ∃ (lead trail : List Nat),
        directive W ch peek d stop (Arg.int v :: ap) r
          = Step.next Mode.text
              (lead ++ (if conv_neg W ch d v then [45] else []) ++
                (if d.sharpflag && decide (conv_mag W ch d v ≠ 0) then alt_form (conv_base ch)
                 else []) ++
                List.replicate
                  (p - (digitText (conv_base ch) (conv_mag W ch d v)
                    (d.upper || ch == 88)).length) 48 ++
                digitText (conv_base ch) (conv_mag W ch d v) (d.upper || ch == 88) ++ trail)
              stop ap [] ∧
        (∀ x ∈ lead, x = 32) ∧ (∀ x ∈ trail, x = 32) ∧
        p ≤ (List.replicate
              (p - (digitText (conv_base ch) (conv_mag W ch d v)
                (d.upper || ch == 88)).length) 48 ++
            digitText (conv_base ch) (conv_mag W ch d v) (d.upper || ch == 88)).length) ∧
    (∃ (lead trail : List Nat),
      directive W 112 peek d stop (Arg.ptr a :: ap) r
        = Step.next Mode.text
            (lead ++
              (if decide (d.width = 0) && decide (toUnsigned 64 (toUnsigned W a) ≠ 0) then
                alt_form 16 else []) ++
              List.replicate
                (p - (digitText 16 (toUnsigned 64 (toUnsigned W a)) d.upper).length) 48 ++
              digitText 16 (toUnsigned 64 (toUnsigned W a)) d.upper ++ trail) stop ap [] ∧
      (∀ x ∈ lead, x = 32) ∧ (∀ x ∈ trail, x = 32) ∧
      p ≤ (List.replicate
            (p - (digitText 16 (toUnsigned 64 (toUnsigned W a)) d.upper).length) 48 ++
          digitText 16 (toUnsigned 64 (toUnsigned W a)) d.upper).length) := by
  refine ⟨?_, ?_, ?_, ?_⟩
  · obtain ⟨x, xs, hx⟩ := List.exists_cons_of_ne_nil (digitChars_ne_nil 10 p)
    conv_lhs => rw [vloop, directive_dot]
    simp only [PCHARS_nil, List.append_nil]
    have hdig := digitChars_digits p
    have hpn := parseNum_digitChars p hp
    rw [hx] at hdig hpn ⊢
    rw [List.cons_append, vloop_spec_num W c rest hc stop o ap ns x xs _ hdig (Or.inr rfl), hpn]
    simp [setNum]
  · rw [directive_star]
    simp [wrap_int_id (p : Int) (by omega) (by omega)]
  · intro hch
    obtain ⟨hb, hb36⟩ := conv_base_bounds ch
    obtain ⟨lead, trail, hn, hl, ht, hlen⟩ := number_precision_exact
      { d with percent := d.percent ++ [ch], sign := conv_signed ch d,
               upper := d.upper || ch == 88 }
      (conv_base ch) (conv_operand W ch d v) hb hb36 (conv_operand_lt W ch d v) p hp hd hz
      (conv_neg W ch d v) (conv_mag W ch d v) rfl rfl
    refine ⟨lead, trail, ?_, hl, ht, hlen⟩
    rw [directive_number_step W ch peek d stop _ r hch, number_step, hn]
  · obtain ⟨lead, trail, hn, hl, ht, hlen⟩ := number_precision_exact
      { d with percent := d.percent ++ [112], sharpflag := decide (d.width = 0), sign := false }
      16 (toUnsigned 64 (toUnsigned W a)) (by norm_num) (by norm_num) (toUnsigned_lt 64 _)
      p hp hd hz false (toUnsigned 64 (toUnsigned W a)) rfl rfl
    refine ⟨lead, trail, ?_, hl, ht, hlen⟩
    have hdir : directive W 112 peek d stop (Arg.ptr a :: ap) r
        = match number { d with percent := d.percent ++ [112],
                                sharpflag := decide (d.width = 0), sign := false } 16
            (toUnsigned 64 (toUnsigned W a)) with
          | none => Step.fault
          | some e => Step.next Mode.text e stop ap [] := by
      simp [directive]
    rw [hdir, hn]
    simp

/-- C19 (as amended) for the precision 5: the conversion `d` of the value -42
pads the digits of 42 with zeros after the `-`, and the conversion `p` of the
pointer 255 pads the digits `ff` after the prefix `0x`; the formats `%.5d`,
`%.5p` and `%-08.*x` (with the arguments 5 and 255) give `-00042`, `0x000ff`
and `000ff` with three spaces.  In the format `%-0*.5d` with the arguments -2
and 7 the negative width clears the `ladjust` that `-` has set, so that zero
padding is in effect and the output is `07`. -/
theorem vsnprintf_precision_witness :
    (∃ (lead trail : List Nat),
      directive 64 100 (some 0) ({ dot := true, dwidth := 5 } : Dir) false (Arg.int (-42) :: []) 0
        = Step.next Mode.text
            (lead ++ (if conv_neg 64 100 ({ dot := true, dwidth := 5 } : Dir) (-42) then [45] else []) ++
              (if ({ dot := true, dwidth := 5 } : Dir).sharpflag && decide (conv_mag 64 100 ({ dot := true, dwidth := 5 } : Dir) (-42) ≠ 0) then
                alt_form (conv_base 100) else []) ++
              List.replicate
                (5 - (digitText (conv_base 100) (conv_mag 64 100 ({ dot := true, dwidth := 5 } : Dir) (-42))
                  (({ dot := true, dwidth := 5 } : Dir).upper || 100 == 88)).length) 48 ++
              digitText (conv_base 100) (conv_mag 64 100 ({ dot := true, dwidth := 5 } : Dir) (-42)) (({ dot := true, dwidth := 5 } : Dir).upper || 100 == 88) ++
              trail)
            false [] [] ∧
      (∀ x ∈ lead, x = 32) ∧ (∀ x ∈ trail, x = 32) ∧
      5 ≤ (List.replicate
            (5 - (digitText (conv_base 100) (conv_mag 64 100 ({ dot := true, dwidth := 5 } : Dir) (-42))
              (({ dot := true, dwidth := 5 } : Dir).upper || 100 == 88)).length) 48 ++
          digitText (conv_base 100) (conv_mag 64 100 ({ dot := true, dwidth := 5 } : Dir) (-42)) (({ dot := true, dwidth := 5 } : Dir).upper || 100 == 88)).length) ∧
    (∃ (lead trail : List Nat),
      directive 64 112 (some 0) ({ dot := true, dwidth := 5 } : Dir) false (Arg.ptr 255 :: []) 0
        = Step.next Mode.text
            (lead ++
              (if decide (({ dot := true, dwidth := 5 } : Dir).width = 0) && decide (toUnsigned 64 (toUnsigned 64 255) ≠ 0) then
                alt_form 16 else []) ++
              List.replicate
                (5 - (digitText 16 (toUnsigned 64 (toUnsigned 64 255)) ({ dot := true, dwidth := 5 } : Dir).upper).length) 48 ++
              digitText 16 (toUnsigned 64 (toUnsigned 64 255)) ({ dot := true, dwidth := 5 } : Dir).upper ++ trail) false [] [] ∧
      (∀ x ∈ lead, x = 32) ∧ (∀ x ∈ trail, x = 32) ∧
      5 ≤ (List.replicate
            (5 - (digitText 16 (toUnsigned 64 (toUnsigned 64 255)) ({ dot := true, dwidth := 5 } : Dir).upper).length) 48 ++
          digitText 16 (toUnsigned 64 (toUnsigned 64 255)) ({ dot := true, dwidth := 5 } : Dir).upper).length) ∧
    vsnprintf 64 16 (some [37, 46, 53, 100, 0]) [Arg.int (-42)]
      = some { str := [45, 48, 48, 48, 52, 50, 0], retval := 6, stores := [] } ∧
    vsnprintf 64 16 (some [37, 46, 53, 112, 0]) [Arg.ptr 255]
      = some { str := [48, 120, 48, 48, 48, 102, 102, 0], retval := 7, stores := [] } ∧
    vsnprintf 64 16 (some [37, 45, 48, 56, 46, 42, 120, 0]) [Arg.int 5, Arg.int 255]
      = some { str := [48, 48, 48, 102, 102, 32, 32, 32, 0], retval := 8, stores := [] } ∧
    vsnprintf 64 16 (some [37, 45, 48, 42, 46, 53, 100, 0]) [Arg.int (-2), Arg.int 7]
      = some { str := [48, 55, 0], retval := 2, stores := [] } := by
  have h := vsnprintf_precision 64 {} ({ dot := true, dwidth := 5 } : Dir) 5 100 (-42) 255 0 [] (some 0) false
    { str := [], size := 16, retval := 0 } [] [] 0 (by decide) (by decide) (by decide)
    (by decide)
  exact ⟨h.2.2.1 (by decide), h.2.2.2, by decide, by decide, by decide, by decide⟩

/-! ## The ghost run of `vsscanf` -/

theorem wrap_int_range (x : Int) : IntRange (wrap_int x) := by
  unfold IntRange wrap_int toSigned
  have h1 := Int.emod_nonneg x (show (2 ^ 32 : Int) ≠ 0 by norm_num)
  have h2 := Int.emod_lt_of_pos x (show (0 : Int) < 2 ^ 32 by norm_num)
  split_ifs <;> constructor <;> omega

/-- The ghost run is the run of `sloop`. -/
theorem sloop_ghost_erase (W : Nat) (mem : List Nat) (fmt : List Nat) :
    ∀ (m : SMode) (s : Scan) (n a : Nat),
      (sloop_ghost W mem fmt m s n a).map (fun g => finish g.exit g.state)
        = sloop W mem fmt m s := by
  induction fmt with
  | nil => intro m s n a; rfl
  | cons c fmt ih =>
    intro m s n a
    cases m with
    | text k =>
      cases k with
      | succ k => rw [sloop, sloop_ghost]; exact ih _ _ _ _
      | zero =>
        rw [sloop, sloop_ghost]
        split_ifs
        · rfl
        · cases ws_run (mem.drop s.pos) s with
          | none => rfl
          | some t => exact ih _ _ _ _
        · cases literal mem c s with
          | fault => rfl
          | input_failure t => rfl
          | match_failure t => rfl
          | next t => exact ih _ _ _ _
        · exact ih _ _ _ _
    | spec width flags =>
      rw [sloop, sloop_ghost]
      by_cases h1 : c = 37
      · simp only [if_pos h1]
        cases literal mem c s with
        | fault => rfl
        | input_failure t => rfl
        | match_failure t => rfl
        | next t => exact ih _ _ _ _
      simp only [if_neg h1]
      by_cases h2 : c = 42
      · simp only [if_pos h2]; exact ih _ _ _ _
      simp only [if_neg h2]
      by_cases h3 : c = 108
      · simp only [if_pos h3]; exact ih _ _ _ _
      simp only [if_neg h3]
      by_cases h4 : c = 113
      · simp only [if_pos h4]; exact ih _ _ _ _
      simp only [if_neg h4]
      by_cases h5 : c = 104
      · simp only [if_pos h5]; exact ih _ _ _ _
      simp only [if_neg h5]
      by_cases h6 : 48 ≤ c ∧ c ≤ 57
      · simp only [if_pos h6]; exact ih _ _ _ _
      simp only [if_neg h6]
      by_cases h7 : c = 110
      · simp only [if_pos h7]
        cases conv_n W flags s with
        | none => rfl
        | some t => exact ih _ _ _ _
      simp only [if_neg h7]
      by_cases h8 : c = 91
      · simp only [if_pos h8]
        cases __sccl fmt with
        | none => rfl
        | some r =>
          obtain ⟨tab, k⟩ := r
          simp only []
          cases conversion W mem 1 width { flags with NOSKIP := true }
              { s with ccltab := some tab } with
          | fault => rfl
          | input_failure t => rfl
          | match_failure t => rfl
          | next t => exact ih _ _ _ _
      simp only [if_neg h8]
      cases conversion W mem (conv_letter c flags s).1 width (conv_letter c flags s).2.1
          (conv_letter c flags s).2.2 with
      | fault => rfl
      | input_failure t => rfl
      | match_failure t => rfl
      | next t => exact ih _ _ _ _

/-! ## The counters and the input across a directive -/

theorem sync_range (mem : List Nat) (s : Scan) (h : Sync mem s) (hL : strlen mem < 2 ^ 31) :
    IntRange s.inr := by
  obtain ⟨h1, h2⟩ := h
  unfold IntRange
  have : (strlen mem : Int) < 2 ^ 31 := by exact_mod_cast hL
  constructor <;> omega

theorem literal_inv (mem : List Nat) (c : Nat) (s : Scan) :
    conv_inv s 0 0 (literal mem c s) := by
  generalize hr : literal mem c s = r
  unfold literal at hr
  by_cases h : s.inr ≤ 0
  · rw [if_pos h] at hr
    subst hr
    exact ⟨rfl, rfl, h⟩
  · rw [if_neg h] at hr
    rcases hg : mem.get? s.pos with _ | x
    · simp only [hg] at hr
      subst hr
      trivial
    · simp only [hg] at hr
      split_ifs at hr <;> subst hr
      · exact ⟨rfl, rfl⟩
      · exact ⟨rfl, rfl, wrap_int_range _⟩

theorem literal_sync (mem : List Nat) (c : Nat) (s : Scan) (hs : Sync mem s)
    (hL : strlen mem < 2 ^ 31) : conv_sync mem 0 (literal mem c s) := by
  have hrange := sync_range mem s hs hL
  obtain ⟨h1, h2⟩ := hs
  generalize hr : literal mem c s = r
  unfold literal at hr
  by_cases h : s.inr ≤ 0
  · rw [if_pos h] at hr
    subst hr
    refine ⟨by omega, Or.inl ?_⟩
    omega
  · rw [if_neg h] at hr
    rcases hg : mem.get? s.pos with _ | x
    · simp only [hg] at hr
      subst hr
      trivial
    · simp only [hg] at hr
      split_ifs at hr <;> subst hr
      · trivial
      · right
        have hw : wrap_int (s.inr - 1) = s.inr - 1 :=
          wrap_int_id _ (by have := hrange.1; omega) (by have := hrange.2; omega)
        refine ⟨?_, ?_⟩
        · simp only [hw]; push_cast; omega
        · simp only [hw]; omega

theorem ws_run_inv (mem : List Nat) (l : List Nat) :
    ∀ s t : Scan, ws_run l s = some t →
      (IntRange s.inr → IntRange t.inr) ∧
      (Sync mem s → strlen mem < 2 ^ 31 → Sync mem t) := by
  induction l with
  | nil =>
    intro s t h
    rw [ws_run] at h
    split_ifs at h
    simp only [Option.some.injEq] at h
    subst h
    exact ⟨id, fun h _ => h⟩
  | cons c l ih =>
    intro s t h
    rw [ws_run] at h
    split_ifs at h with hc
    · obtain ⟨i1, i2⟩ := ih _ t h
      refine ⟨fun _ => i1 (wrap_int_range _), fun hs hL => i2 ?_ hL⟩
      have hrange := sync_range mem s hs hL
      obtain ⟨h1, h2⟩ := hs
      have hw : wrap_int (s.inr - 1) = s.inr - 1 :=
        wrap_int_id _ (by have := hrange.1; omega) (by have := hrange.2; omega)
      refine ⟨?_, ?_⟩
      · simp only [hw]; push_cast; omega
      · simp only [hw]; omega
    · simp only [Option.some.injEq] at h
      subst h
      exact ⟨id, fun h _ => h⟩

/-- The skip of white space before a conversion (lines 945-951). -/
theorem ws_conv_inv (mem : List Nat) (l : List Nat) :
    ∀ (s : Scan) (r : Conv), ws_conv l s = r → mem.drop s.pos = l → 0 < s.inr →
      IntRange s.inr →
      r = Conv.fault ∨
      (∃ t, r = Conv.input_failure t ∧ same_counts s t ∧ t.inr ≤ 0 ∧
        (Sync mem s → strlen mem < 2 ^ 31 → Exhausted mem t)) ∨
      (∃ t, r = Conv.next t ∧ same_counts s t ∧ 0 < t.inr ∧ IntRange t.inr ∧ t.ccltab = s.ccltab ∧
        (Sync mem s → strlen mem < 2 ^ 31 → Sync mem t)) := by
  induction l with
  | nil => intro s r h _ _ _; left; rw [← h]; rfl
  | cons c l ih =>
    intro s r h hd hpos hrange
    obtain ⟨hget, hdrop⟩ := get_of_drop mem s.pos c l hd
    have hw : wrap_int (s.inr - 1) = s.inr - 1 :=
      wrap_int_id _ (by have := hrange.1; omega) (by have := hrange.2; omega)
    rw [ws_conv] at h
    split_ifs at h with hc hgt
    · rcases ih _ r h hdrop hgt (wrap_int_range _) with h1 | ⟨t, h1, h2, h3, h4⟩ |
        ⟨t, h1, h2, h3, h4, h5, h6⟩
      · exact Or.inl h1
      · refine Or.inr (Or.inl ⟨t, h1, h2, h3, fun hs hL => h4 ?_ hL⟩)
        obtain ⟨s1, s2⟩ := hs
        refine ⟨?_, ?_⟩
        · simp only [hw]; push_cast; omega
        · simp only [hw]; omega
      · refine Or.inr (Or.inr ⟨t, h1, h2, h3, h4, h5, fun hs hL => h6 ?_ hL⟩)
        obtain ⟨s1, s2⟩ := hs
        refine ⟨?_, ?_⟩
        · simp only [hw]; push_cast; omega
        · simp only [hw]; omega
    · refine Or.inr (Or.inl ⟨_, h.symm, ⟨rfl, rfl, rfl⟩, by simpa using hgt, fun hs hL => ?_⟩)
      obtain ⟨s1, s2⟩ := hs
      rw [hw] at hgt
      refine ⟨?_, Or.inr ⟨?_, c, hget, hc⟩⟩
      · simp only [hw]; omega
      · simp only []; omega
    · exact Or.inr (Or.inr ⟨s, h.symm, ⟨rfl, rfl, rfl⟩, hpos, hrange, rfl, fun hs _ => hs⟩)

theorem take_run_range (W : Nat) (P : Nat → Bool) (l : List Nat) :
    ∀ (inr : Int) (width : Nat) (taken : List Nat) (inr2 : Int),
      take_run W P l inr width = some (taken, inr2) → IntRange inr → IntRange inr2 := by
  induction l with
  | nil => intro inr width taken inr2 h; exact absurd h (by simp [take_run])
  | cons c l ih =>
    intro inr width taken inr2 h hr
    rw [take_run] at h
    split_ifs at h
    · simp only [Option.some.injEq, Prod.mk.injEq] at h
      rw [← h.2]; exact wrap_int_range _
    · simp only [Option.some.injEq, Prod.mk.injEq] at h
      rw [← h.2]; exact wrap_int_range _
    · rcases hx : take_run W P l (wrap_int (inr - 1)) ((width + 2 ^ W - 1) % 2 ^ W) with _ | ⟨t2, i2⟩
      · simp only [hx, Option.map_none'] at h
        exact absurd h (by simp)
      · simp only [hx, Option.map_some', Option.some.injEq, Prod.mk.injEq] at h
        rw [← h.2]
        exact ih _ _ _ _ hx (wrap_int_range _)
    · simp only [Option.some.injEq, Prod.mk.injEq] at h
      rw [← h.2]; exact hr

theorem int_char_suppress (c : Nat) (flags : Flags) (base : Int) (plen : Nat) (ok : Bool)
    (fl : Flags) (b : Int) (h : int_char c flags base plen = some (ok, fl, b)) :
    fl.SUPPRESS = flags.SUPPRESS := by
  unfold int_char at h
  simp only [] at h
  repeat' (first | split_ifs at h | split at h)
  all_goals
    first
    | (simp only [reduceCtorEq] at h; done)
    | (simp only [Option.some.injEq, Prod.mk.injEq] at h; obtain ⟨-, rfl, -⟩ := h; rfl)

theorem int_run_range (mem : List Nat) (w : Nat) :
    ∀ (flags : Flags) (buf : List Nat) (s : Scan) (fl : Flags) (b : List Nat) (t : Scan),
      int_run mem w flags buf s = some (fl, b, t) →
      (IntRange s.inr → IntRange t.inr) ∧ fl.SUPPRESS = flags.SUPPRESS := by
  induction w with
  | zero =>
    intro flags buf s fl b t h
    simp only [int_run, Option.some.injEq, Prod.mk.injEq] at h
    obtain ⟨rfl, -, rfl⟩ := h
    exact ⟨id, rfl⟩
  | succ w ih =>
    intro flags buf s fl b t h
    rw [int_run] at h
    rcases hg : mem.get? s.pos with _ | c
    · simp only [hg] at h
      exact absurd h (by simp)
    · simp only [hg] at h
      rcases hi : int_char c flags s.base buf.length with _ | ⟨ok, flags1, base1⟩
      · simp only [hi] at h
        exact absurd h (by simp)
      · simp only [hi] at h
        have hsup := int_char_suppress c flags s.base buf.length ok flags1 base1 hi
        split_ifs at h
        · obtain ⟨i1, i2⟩ := ih _ _ _ _ _ _ h
          exact ⟨fun _ => i1 (wrap_int_range _), i2.trans hsup⟩
        · simp only [Option.some.injEq, Prod.mk.injEq] at h
          obtain ⟨rfl, -, rfl⟩ := h
          exact ⟨fun _ => wrap_int_range _, hsup⟩
        · simp only [Option.some.injEq, Prod.mk.injEq] at h
          obtain ⟨rfl, -, rfl⟩ := h
          exact ⟨id, hsup⟩

theorem ct_char_inv (W : Nat) (hW : 32 ≤ W) (mem : List Nat) (width : Nat) (flags : Flags)
    (s : Scan) (hpos : 0 < s.inr) (hrange : IntRange s.inr) :
    case_inv s flags.SUPPRESS (ct_char W mem width flags s) := by
  have h32 : (2 : Int) ^ 31 ≤ 2 ^ W := pow_le_pow_right₀ (by norm_num) (by omega)
  have hu : toUnsigned W s.inr ≠ 0 := by
    rw [toUnsigned_nonneg W s.inr (by omega) (by have := hrange.2; omega)]
    omega
  generalize hr : ct_char W mem width flags s = r
  unfold ct_char at hr
  simp only [] at hr
  cases hS : flags.SUPPRESS with
  | true =>
    simp only [hS, if_true] at hr
    split_ifs at hr <;> subst hr <;> simp only [case_inv, if_true, Nat.add_zero, true_and]
    all_goals first | exact wrap_int_range _ | exact hrange
  | false =>
    simp only [hS, Bool.false_eq_true, if_false] at hr
    rcases hap : s.ap with _ | ⟨a, ap⟩
    · simp only [hap] at hr
      subst hr
      simp only [case_inv]
    · cases a <;> simp only [hap] at hr <;> (try split_ifs at hr) <;> subst hr <;>
        simp only [case_inv, Bool.false_eq_true, if_false, true_and]
      all_goals exact wrap_int_range _

theorem ct_ccl_inv (W : Nat) (mem : List Nat) (width : Nat) (flags : Flags) (s : Scan)
    (hrange : IntRange s.inr) : case_inv s flags.SUPPRESS (ct_ccl W mem width flags s) := by
  generalize hr : ct_ccl W mem width flags s = r
  unfold ct_ccl at hr
  rcases htab : s.ccltab with _ | tab
  · simp only [htab] at hr
    subst hr
    simp only [case_inv]
  · simp only [htab] at hr
    rcases hrun : take_run W (fun c => tab.getD (c % 256) 0 != 0) (mem.drop s.pos) s.inr
        (if width = 0 then 2 ^ W - 1 else width) with _ | ⟨taken, inr⟩
    · simp only [hrun] at hr
      rcases hap : s.ap with _ | ⟨a, ap⟩
      · simp only [hap] at hr
        split_ifs at hr <;> subst hr <;> simp only [case_inv]
      · cases a <;> simp only [hap] at hr <;> split_ifs at hr <;> subst hr <;>
          simp only [case_inv]
    · have hi := take_run_range W _ _ _ _ _ _ hrun hrange
      simp only [hrun] at hr
      cases hS : flags.SUPPRESS with
      | true =>
        simp only [hS, if_true] at hr
        split_ifs at hr <;> subst hr <;>
          simp only [case_inv, if_true, Nat.add_zero, true_and, and_self]
        all_goals exact hi
      | false =>
        simp only [hS, Bool.false_eq_true, if_false] at hr
        rcases hap : s.ap with _ | ⟨a, ap⟩
        · simp only [hap] at hr
          subst hr
          simp only [case_inv]
        · cases a <;> simp only [hap] at hr <;> (try split_ifs at hr) <;> subst hr <;>
            simp only [case_inv, Bool.false_eq_true, if_false, true_and, and_self]
          all_goals exact hi

theorem ct_string_inv (W : Nat) (mem : List Nat) (width : Nat) (flags : Flags) (s : Scan)
    (hrange : IntRange s.inr) : case_inv s flags.SUPPRESS (ct_string W mem width flags s) := by
  generalize hr : ct_string W mem width flags s = r
  unfold ct_string at hr
  simp only [] at hr
  rcases hrun : take_run W (fun c => !isspace c) (mem.drop s.pos) s.inr
      (if width = 0 then 2 ^ W - 1 else width) with _ | ⟨taken, inr⟩
  · simp only [hrun] at hr
    rcases hap : s.ap with _ | ⟨a, ap⟩
    · simp only [hap] at hr
      split_ifs at hr <;> subst hr <;> simp only [case_inv]
    · cases a <;> simp only [hap] at hr <;> split_ifs at hr <;> subst hr <;>
        simp only [case_inv]
  · have hi := take_run_range W _ _ _ _ _ _ hrun hrange
    simp only [hrun] at hr
    cases hS : flags.SUPPRESS with
    | true =>
      simp only [hS, if_true] at hr
      subst hr
      simp only [case_inv, if_true, Nat.add_zero, true_and]
      all_goals exact hi
    | false =>
      simp only [hS, Bool.false_eq_true, if_false] at hr
      rcases hap : s.ap with _ | ⟨a, ap⟩
      · simp only [hap] at hr
        subst hr
        simp only [case_inv]
      · cases a <;> simp only [hap] at hr <;> subst hr <;>
          simp only [case_inv, Bool.false_eq_true, if_false, true_and]
        all_goals exact hi

theorem ct_int_inv (W : Nat) (mem : List Nat) (width : Nat) (flags : Flags) (s : Scan)
    (hrange : IntRange s.inr) : case_inv s flags.SUPPRESS (ct_int W mem width flags s) := by
  generalize hr : ct_int W mem width flags s = r
  unfold ct_int at hr
  simp only [] at hr
  rcases hrun : int_run mem
      ((if (width + 2 ^ W - 1) % 2 ^ W > 30 then 30 else (width + 2 ^ W - 1) % 2 ^ W) + 1)
      { flags with SIGNOK := true, NDIGITS := true, NZDIGITS := true } [] s
    with _ | ⟨fl, buf, t⟩
  · simp only [hrun] at hr
    subst hr
    simp only [case_inv]
  · obtain ⟨⟨e1, e2, e3⟩, -, -⟩ := int_run_same mem _ _ _ _ _ _ _ hrun
    obtain ⟨hi, hsup⟩ := int_run_range mem _ _ _ _ _ _ _ hrun
    have hi := hi hrange
    have hsup : fl.SUPPRESS = flags.SUPPRESS := hsup
    simp only [hrun] at hr
    by_cases hnd : fl.NDIGITS = true
    · simp only [hnd, if_true] at hr
      subst hr
      simp only [case_inv]
      split_ifs <;> simp only [e1, e2, and_self]
    · simp only [hnd, Bool.false_eq_true, if_false] at hr
      rcases hl : buf.getLast? with _ | c
      · simp only [hl] at hr
        subst hr
        simp only [case_inv]
      · simp only [hl] at hr
        cases hS : flags.SUPPRESS with
        | true =>
          rw [hS] at hsup
          simp only [hsup, if_true] at hr
          subst hr
          simp only [case_inv, if_true, Nat.add_zero]
          split_ifs <;> simp only [e1, e2, true_and]
          all_goals first | exact wrap_int_range _ | exact hi
        | false =>
          rw [hS] at hsup
          simp only [hsup, Bool.false_eq_true, if_false] at hr
          by_cases hx : c = 120 ∨ c = 88
          · simp only [hx, if_true] at hr
            rcases hap : t.ap with _ | ⟨a, ap⟩
            · rcases hf : t.ccfn with _ | q <;> simp only [hap, hf] at hr <;> subst hr <;>
                simp only [case_inv]
            · rcases hf : t.ccfn with _ | q <;> cases a <;> simp only [hap, hf] at hr <;>
                subst hr <;>
                simp only [case_inv, Bool.false_eq_true, if_false, e1, e2, true_and]
              all_goals exact wrap_int_range _
          · simp only [hx, if_false] at hr
            rcases hap : t.ap with _ | ⟨a, ap⟩
            · rcases hf : t.ccfn with _ | q <;> simp only [hap, hf] at hr <;> subst hr <;>
                simp only [case_inv]
            · rcases hf : t.ccfn with _ | q <;> cases a <;> simp only [hap, hf] at hr <;>
                subst hr <;>
                simp only [case_inv, Bool.false_eq_true, if_false, e1, e2, true_and]
              all_goals exact hi

theorem case_inv_conv (s t : Scan) (sup : Bool) (r : Conv) (h : same_counts s t)
    (hc : case_inv t sup r) : conv_inv s 1 (if sup then 0 else 1) r := by
  obtain ⟨e1, e2, e3⟩ := h
  cases r <;> simp only [case_inv, conv_inv, e1, e2] at hc ⊢ <;> exact hc

theorem case_inv_sync (mem : List Nat) (t : Scan) (sup : Bool) (r : Conv)
    (hc : case_inv t sup r) : conv_sync mem 1 r := by
  cases r <;> simp only [case_inv, conv_sync] at hc ⊢
  · exact Or.inl Nat.one_pos

/-- The second `switch` (lines 962-1208) on the conversion `code`. -/
theorem switch_inv (W : Nat) (hW : 32 ≤ W) (mem : List Nat) (code width : Nat)
    (flags : Flags) (t : Scan) (hpos : 0 < t.inr) (hrange : IntRange t.inr) :
    (code ≤ 3 ∧
      case_inv t flags.SUPPRESS
        (if code = 0 then ct_char W mem width flags t
         else if code = 1 then ct_ccl W mem width flags t
         else if code = 2 then ct_string W mem width flags t
         else if code = 3 then ct_int W mem width flags t
         else Conv.next t)) ∨
    (3 < code ∧
      (if code = 0 then ct_char W mem width flags t
       else if code = 1 then ct_ccl W mem width flags t
       else if code = 2 then ct_string W mem width flags t
       else if code = 3 then ct_int W mem width flags t
       else Conv.next t) = Conv.next t) := by
  by_cases h0 : code = 0
  · left; rw [if_pos h0]; exact ⟨by omega, ct_char_inv W hW mem width flags t hpos hrange⟩
  by_cases h1 : code = 1
  · left; rw [if_neg h0, if_pos h1]; exact ⟨by omega, ct_ccl_inv W mem width flags t hrange⟩
  by_cases h2 : code = 2
  · left; rw [if_neg h0, if_neg h1, if_pos h2]
    exact ⟨by omega, ct_string_inv W mem width flags t hrange⟩
  by_cases h3 : code = 3
  · left; rw [if_neg h0, if_neg h1, if_neg h2, if_pos h3]
    exact ⟨by omega, ct_int_inv W mem width flags t hrange⟩
  right
  rw [if_neg h0, if_neg h1, if_neg h2, if_neg h3]
  exact ⟨by omega, rfl⟩

theorem conv_assigned_le (code : Nat) (flags : Flags) (h : code ≤ 3) :
    conv_assigned code flags = (if flags.SUPPRESS then 0 else 1) := by
  unfold conv_assigned
  cases flags.SUPPRESS <;> simp [h]

theorem conv_assigned_gt (code : Nat) (flags : Flags) (h : 3 < code) :
    conv_assigned code flags = 0 := by
  unfold conv_assigned
  rw [if_neg (by omega)]

/-- The counters and the input across the code of a conversion (lines
934-1210). -/
theorem conversion_inv (W : Nat) (hW : 32 ≤ W) (mem : List Nat) (code width : Nat)
    (flags : Flags) (s : Scan) (hrange : IntRange s.inr) :
    conv_inv s (conv_done code) (conv_assigned code flags)
      (conversion W mem code width flags s) ∧
    (Sync mem s → strlen mem < 2 ^ 31 →
      conv_sync mem (conv_done code) (conversion W mem code width flags s)) := by
  have key : ∀ t, same_counts s t → 0 < t.inr → IntRange t.inr →
      conv_inv s (conv_done code) (conv_assigned code flags)
        (if code = 0 then ct_char W mem width flags t
         else if code = 1 then ct_ccl W mem width flags t
         else if code = 2 then ct_string W mem width flags t
         else if code = 3 then ct_int W mem width flags t
         else Conv.next t) ∧
      (Sync mem t →
        conv_sync mem (conv_done code)
          (if code = 0 then ct_char W mem width flags t
           else if code = 1 then ct_ccl W mem width flags t
           else if code = 2 then ct_string W mem width flags t
           else if code = 3 then ct_int W mem width flags t
           else Conv.next t)) := by
    intro t ht hpos hr
    rcases switch_inv W hW mem code width flags t hpos hr with ⟨hle, hc⟩ | ⟨hgt, he⟩
    · have hd : conv_done code = 1 := by unfold conv_done; rw [if_pos hle]
      rw [hd, conv_assigned_le code flags hle]
      exact ⟨case_inv_conv s t _ _ ht hc, fun _ => case_inv_sync mem t _ _ hc⟩
    · have hd : conv_done code = 0 := by unfold conv_done; rw [if_neg (by omega)]
      rw [hd, conv_assigned_gt code flags hgt, he]
      obtain ⟨e1, e2, e3⟩ := ht
      simp only [conv_inv, conv_sync, e1, e2, Nat.add_zero, true_and]
      exact ⟨hr, fun h => Or.inr h⟩
  generalize hr : conversion W mem code width flags s = r
  unfold conversion at hr
  by_cases h : s.inr ≤ 0
  · rw [if_pos h] at hr
    subst hr
    simp only [conv_inv, conv_sync, true_and]
    refine ⟨h, fun hs _ => ?_⟩
    obtain ⟨s1, s2⟩ := hs
    exact ⟨by omega, Or.inl (by omega)⟩
  · rw [if_neg h] at hr
    by_cases hn : flags.NOSKIP = true
    · simp only [hn, if_true] at hr
      subst hr
      obtain ⟨k1, k2⟩ := key s ⟨rfl, rfl, rfl⟩ (by omega) hrange
      exact ⟨k1, fun hs _ => k2 hs⟩
    · simp only [hn, Bool.false_eq_true, if_false] at hr
      rcases ws_conv_inv mem (mem.drop s.pos) s _ rfl rfl (by omega) hrange with
        h1 | ⟨t, h1, h2, h3, h4⟩ | ⟨t, h1, h2, h3, h4, -, h6⟩
      · rw [h1] at hr
        subst hr
        simp only [conv_inv, conv_sync, true_and, implies_true]
      · rw [h1] at hr
        subst hr
        obtain ⟨e1, e2, e3⟩ := h2
        simp only [conv_inv, conv_sync, e1, e2, true_and]
        exact ⟨h3, h4⟩
      · rw [h1] at hr
        simp only [] at hr
        subst hr
        obtain ⟨k1, k2⟩ := key t h2 h3 h4
        exact ⟨k1, fun hs hL => k2 (h6 hs hL)⟩

theorem ghost_bound_congr (mem : List Nat) (s s2 : Scan) (n a : Nat) (g : Ghost)
    (h1 : s2.nconversions = s.nconversions) (h2 : s2.nassigned = s.nassigned)
    (h3 : s2.pos = s.pos) (h4 : s2.inr = s.inr) (h : ghost_bound mem s2 n a g) :
    ghost_bound mem s n a g := by
  unfold ghost_bound Sync at h ⊢
  rw [h1, h2, h3, h4] at h
  exact h

theorem ghost_bound_of_same (mem : List Nat) (s t : Scan) (n a : Nat) (g : Ghost)
    (h : same_counts s t) (hs : Sync mem s → strlen mem < 2 ^ 31 → Sync mem t)
    (hb : ghost_bound mem t n a g) : ghost_bound mem s n a g := by
  obtain ⟨e1, e2, e3⟩ := h
  obtain ⟨b1, b2, b3, b4, b5⟩ := hb
  refine ⟨b1, ?_, ?_, b4, fun h1 h2 h3 h4 => b5 (hs h1 h2) h2 h3 h4⟩
  · rw [e2] at b2; exact b2
  · rw [e1] at b3; exact b3

/-- The ghost values across the code of a directive and what follows it. -/
theorem ghost_after (mem : List Nat) (s : Scan) (r : Conv) (k : Scan → Option Ghost)
    (g : Ghost) (n a kc ka : Nat)
    (h : (match r with
          | Conv.fault => none
          | Conv.input_failure t =>
            some { exit := Exit.input_failure, state := t, done := n, assigned := a }
          | Conv.match_failure t =>
            some { exit := Exit.match_failure, state := t, done := n, assigned := a }
          | Conv.next t => k t) = some g)
    (hinv : conv_inv s kc ka r)
    (hsync : Sync mem s → strlen mem < 2 ^ 31 → conv_sync mem kc r)
    (hk : ∀ t, k t = some g → IntRange t.inr → ghost_bound mem t (n + kc) (a + ka) g) :
    ghost_bound mem s n a g := by
  cases r with
  | fault => exact absurd h (by simp)
  | input_failure t =>
    simp only [Option.some.injEq] at h
    subst h
    simp only [conv_inv] at hinv
    simp only [conv_sync] at hsync
    obtain ⟨i1, i2, i3⟩ := hinv
    exact ⟨le_refl _, by simp only [i1], by simp only [i2], fun _ => i3,
      fun h1 h2 _ _ => hsync h1 h2⟩
  | match_failure t =>
    simp only [Option.some.injEq] at h
    subst h
    simp only [conv_inv] at hinv
    obtain ⟨i1, i2⟩ := hinv
    exact ⟨le_refl _, by simp only [i1], by simp only [i2], (fun h => by cases h),
      (fun _ _ _ h => by cases h)⟩
  | next t =>
    simp only [conv_inv] at hinv
    simp only [conv_sync] at hsync
    obtain ⟨i1, i2, i3⟩ := hinv
    obtain ⟨b1, b2, b3, b4, b5⟩ := hk t h i3
    refine ⟨by omega, by omega, by omega, b4, fun h1 h2 h3 h4 => ?_⟩
    have hkc : kc = 0 := by omega
    rcases hsync h1 h2 with h5 | h5
    · omega
    · exact b5 h5 h2 (by omega) h4

theorem conv_letter_keep (ch : Nat) (flags : Flags) (s : Scan) :
    (conv_letter ch flags s).2.1.SUPPRESS = flags.SUPPRESS ∧
    (conv_letter ch flags s).2.2.pos = s.pos ∧
    (conv_letter ch flags s).2.2.inr = s.inr ∧
    (conv_letter ch flags s).2.2.nassigned = s.nassigned ∧
    (conv_letter ch flags s).2.2.nconversions = s.nconversions := by
  unfold conv_letter
  split_ifs <;> exact ⟨rfl, rfl, rfl, rfl, rfl⟩

theorem conv_assigned_congr (code : Nat) (f1 f2 : Flags) (h : f1.SUPPRESS = f2.SUPPRESS) :
    conv_assigned code f1 = conv_assigned code f2 := by
  unfold conv_assigned
  rw [h]

/-- The ghost values at the end of the loop of `vsscanf`. -/
theorem sloop_ghost_bound (W : Nat) (hW : 32 ≤ W) (mem : List Nat) (fmt : List Nat) :
    ∀ (m : SMode) (s : Scan) (n a : Nat) (g : Ghost),
      sloop_ghost W mem fmt m s n a = some g → IntRange s.inr → ghost_bound mem s n a g := by
  induction fmt with
  | nil => intro m s n a g h; exact absurd h (by simp [sloop_ghost])
  | cons c fmt ih =>
    intro m s n a g h hr
    have hlit : ∀ k : Scan → Option Ghost,
        (match literal mem c s with
          | Conv.fault => none
          | Conv.input_failure t =>
            some { exit := Exit.input_failure, state := t, done := n, assigned := a }
          | Conv.match_failure t =>
            some { exit := Exit.match_failure, state := t, done := n, assigned := a }
          | Conv.next t => k t) = some g →
        (∀ t, k t = some g → IntRange t.inr → ghost_bound mem t n a g) →
        ghost_bound mem s n a g :=
      fun k h1 h2 => ghost_after mem s _ k g n a 0 0 h1 (literal_inv mem c s)
        (fun hs hL => literal_sync mem c s hs hL) h2
    cases m with
    | text k =>
      cases k with
      | succ k =>
        rw [sloop_ghost] at h
        exact ih _ _ _ _ _ h hr
      | zero =>
        rw [sloop_ghost] at h
        by_cases h0 : c = 0
        · rw [if_pos h0] at h
          simp only [Option.some.injEq] at h
          subst h
          exact ⟨le_refl _, rfl, rfl, (fun h => by cases h), (fun _ _ _ h => by cases h)⟩
        rw [if_neg h0] at h
        by_cases hsp : isspace c = true
        · rw [if_pos hsp] at h
          rcases hw : ws_run (mem.drop s.pos) s with _ | t
          · simp only [hw] at h
            exact absurd h (by simp)
          · simp only [hw] at h
            obtain ⟨w1, w2⟩ := ws_run_inv mem _ _ _ hw
            exact ghost_bound_of_same mem s t n a g (ws_run_same _ _ _ hw) w2
              (ih _ _ _ _ _ h (w1 hr))
        rw [if_neg hsp] at h
        by_cases h37 : c ≠ 37
        · rw [if_pos h37] at h
          exact hlit _ h (fun t ht hrt => ih _ _ _ _ _ ht hrt)
        · rw [if_neg h37] at h
          exact ih _ _ _ _ _ h hr
    | spec width flags =>
      rw [sloop_ghost] at h
      by_cases h1 : c = 37
      · rw [if_pos h1] at h
        exact hlit _ h (fun t ht hrt => ih _ _ _ _ _ ht hrt)
      rw [if_neg h1] at h
      by_cases h2 : c = 42
      · rw [if_pos h2] at h; exact ih _ _ _ _ _ h hr
      rw [if_neg h2] at h
      by_cases h3 : c = 108
      · rw [if_pos h3] at h; exact ih _ _ _ _ _ h hr
      rw [if_neg h3] at h
      by_cases h4 : c = 113
      · rw [if_pos h4] at h; exact ih _ _ _ _ _ h hr
      rw [if_neg h4] at h
      by_cases h5 : c = 104
      · rw [if_pos h5] at h; exact ih _ _ _ _ _ h hr
      rw [if_neg h5] at h
      by_cases h6 : 48 ≤ c ∧ c ≤ 57
      · rw [if_pos h6] at h; exact ih _ _ _ _ _ h hr
      rw [if_neg h6] at h
      by_cases h7 : c = 110
      · rw [if_pos h7] at h
        rcases hn : conv_n W flags s with _ | t
        · simp only [hn] at h
          exact absurd h (by simp)
        · simp only [hn] at h
          obtain ⟨-, e1, e2, e3, e4⟩ := conv_n_bound W flags s t hn
          obtain ⟨b1, b2, b3, b4, b5⟩ := ih _ _ _ _ _ h (by rw [e4]; exact hr)
          exact ⟨by omega, by omega, by omega, b4, (fun _ _ h3 _ => by omega)⟩
      rw [if_neg h7] at h
      by_cases h8 : c = 91
      · rw [if_pos h8] at h
        rcases hs : __sccl fmt with _ | ⟨tab, k⟩
        · simp only [hs] at h
          exact absurd h (by simp)
        · simp only [hs] at h
          obtain ⟨c1, c2⟩ := conversion_inv W hW mem 1 width { flags with NOSKIP := true }
            { s with ccltab := some tab } hr
          exact ghost_bound_congr mem s { s with ccltab := some tab } n a g rfl rfl rfl rfl
            (ghost_after mem _ _ _ g n a _ _ h c1 c2 (fun t ht hrt => ih _ _ _ _ _ ht hrt))
      rw [if_neg h8] at h
      obtain ⟨k1, k2, k3, k4, k5⟩ := conv_letter_keep c flags s
      obtain ⟨c1, c2⟩ := conversion_inv W hW mem (conv_letter c flags s).1 width
        (conv_letter c flags s).2.1 (conv_letter c flags s).2.2 (by rw [k3]; exact hr)
      rw [conv_assigned_congr _ _ flags k1] at c1
      exact ghost_bound_congr mem s (conv_letter c flags s).2.2 n a g k5 k4 k2 k3
        (ghost_after mem _ _ _ g n a _ _ h c1 c2 (fun t ht hrt => ih _ _ _ _ _ ht hrt))

/-- C15: the classification of the result of `vsscanf`.  The run is followed
with ghost values: the number `done` of conversion directives that have
completed (a directive whose conversion is one of the four cases of the second
`switch`, or `n`) and the number `assigned` of assignments that the
conversions other than `n` have performed.  For a `size_t` of at least 32
bits, a format shorter than `2 ^ 32` and fewer than `2 ^ 31` arguments,
whenever `vsscanf` returns: the counters `nconversions` and `nassigned` of the
code are `done` and `assigned`; the exit `input_failure` is taken only with
`inr` not positive; the result is at least -1; it is -1 exactly when the exit
is `input_failure` and no conversion directive has completed; when it is -1
and the input is shorter than `2 ^ 31`, the input is exhausted (`inr` is 0 and
`inp` is at the NUL of the input, or at a last white space character that the
skip before a conversion has counted); and in every other case the result is
the number of assignments performed, which is not negative. -/
theorem vsscanf_classification (W : Nat) (hW : 32 ≤ W) (mem fmt : List Nat) (ap : List Arg)
    (f : Final) (hrun : vsscanf_run W mem fmt ap = some f) (hfmt : fmt.length < 2 ^ 32)
    (hap : ap.length < 2 ^ 31) :
    vsscanf W mem fmt ap = some (scan_ret f, f.stores) ∧
    ∃ g : Ghost, vsscanf_ghost W mem fmt ap = some g ∧ f = finish g.exit g.state ∧
      g.state.nconversions = g.done ∧ g.state.nassigned = g.assigned ∧
      (g.exit = Exit.input_failure → g.state.inr ≤ 0) ∧
      -1 ≤ scan_ret f ∧
      (scan_ret f = -1 ↔ g.exit = Exit.input_failure ∧ g.done = 0) ∧
      (scan_ret f = -1 → strlen mem < 2 ^ 31 → Exhausted mem g.state) ∧
      (scan_ret f ≠ -1 → scan_ret f = (g.assigned : Int)) := by
  refine ⟨by simp [vsscanf, hrun], ?_⟩
  unfold vsscanf_run at hrun
  unfold vsscanf_ghost
  split_ifs at hrun with hmem
  rw [if_pos hmem]
  have hb := sloop_bound W mem fmt _ _ f hrun
  simp only [final_bound, List.length_nil, zero_add] at hb
  obtain ⟨c1, c2, c3⟩ := scan_ret_class f (by omega) (by omega)
  have he := sloop_ghost_erase W mem fmt (SMode.text 0)
    { pos := 0, inr := wrap_int (strlen mem), nassigned := 0, nconversions := 0, nread := 0,
      base := 0, ccfn := none, ccltab := none, ap := ap, stores := [] } 0 0
  rw [hrun] at he
  rcases hg : sloop_ghost W mem fmt (SMode.text 0)
    { pos := 0, inr := wrap_int (strlen mem), nassigned := 0, nconversions := 0, nread := 0,
      base := 0, ccfn := none, ccltab := none, ap := ap, stores := [] } 0 0 with _ | g
  · rw [hg] at he
    exact absurd he (by simp)
  · rw [hg] at he
    simp only [Option.map_some', Option.some.injEq] at he
    have hir : IntRange (Scan.inr
      { pos := 0, inr := wrap_int (strlen mem), nassigned := 0, nconversions := 0, nread := 0,
        base := 0, ccfn := none, ccltab := none, ap := ap, stores := [] }) := by
      simp only []
      exact wrap_int_range _
    have hgb := sloop_ghost_bound W hW mem fmt (SMode.text 0) _ 0 0 g hg hir
    unfold ghost_bound at hgb
    simp only [] at hgb
    obtain ⟨b1, b2, b3, b4, b5⟩ := hgb
    simp only [Nat.add_zero, Nat.zero_add] at b2 b3
    have hfe : f.exit = g.exit := by rw [← he]; rfl
    have hfc : f.nconversions = g.done := by rw [← he, ← b2]; rfl
    have hfa : f.nassigned = g.assigned := by rw [← he, ← b3]; rfl
    rw [hfe, hfc] at c2 c3
    rw [hfa] at c3
    refine ⟨g, rfl, he.symm, b2, b3, b4, c1, c2, ?_, ?_⟩
    · intro hm hL
      obtain ⟨m1, m2⟩ := c2.mp hm
      refine b5 ?_ hL m2 m1
      have hw : wrap_int ((strlen mem : Nat) : Int) = (strlen mem : Int) :=
        wrap_int_id _ (by omega) (by exact_mod_cast hL)
      unfold Sync
      simp only []
      rw [hw]
      exact ⟨by simp, Int.natCast_nonneg _⟩
    · intro hne
      exact c3 (fun hc => hne (c2.mpr hc))

/-- C15 on the empty input with the format `%d`: the exit is `input_failure`
before any conversion has completed and the result is -1.  Other runs: on the
input of one space the skip of white space exhausts the input and `%d` gives
-1; on the input `a` the format `%na%d` gives 0, since the conversion `n`
has completed when the input is found exhausted; on the input `abc` the format
`x` ends with a match failure and gives 0; on the input `12` the format `%d%d`
gives 1, the input being exhausted after one conversion and one assignment. -/
theorem vsscanf_classification_witness :
    (vsscanf 64 [0] [37, 100, 0] [Arg.ptr 1000] = some (scan_ret ({ exit := Exit.input_failure, nassigned := 0, nconversions := 0, stores := [] } : Final), ({ exit := Exit.input_failure, nassigned := 0, nconversions := 0, stores := [] } : Final).stores) ∧
      ∃ g : Ghost, vsscanf_ghost 64 [0] [37, 100, 0] [Arg.ptr 1000] = some g ∧
        ({ exit := Exit.input_failure, nassigned := 0, nconversions := 0, stores := [] } : Final) = finish g.exit g.state ∧
        g.state.nconversions = g.done ∧ g.state.nassigned = g.assigned ∧
        (g.exit = Exit.input_failure → g.state.inr ≤ 0) ∧
        -1 ≤ scan_ret ({ exit := Exit.input_failure, nassigned := 0, nconversions := 0, stores := [] } : Final) ∧
        (scan_ret ({ exit := Exit.input_failure, nassigned := 0, nconversions := 0, stores := [] } : Final) = -1 ↔ g.exit = Exit.input_failure ∧ g.done = 0) ∧
        (scan_ret ({ exit := Exit.input_failure, nassigned := 0, nconversions := 0, stores := [] } : Final) = -1 → strlen [0] < 2 ^ 31 → Exhausted [0] g.state) ∧
        (scan_ret ({ exit := Exit.input_failure, nassigned := 0, nconversions := 0, stores := [] } : Final) ≠ -1 → scan_ret ({ exit := Exit.input_failure, nassigned := 0, nconversions := 0, stores := [] } : Final) = (g.assigned : Int))) ∧
    vsscanf 64 [0] [37, 100, 0] [Arg.ptr 1000] = some (-1, []) ∧
    vsscanf 64 [32, 0] [37, 100, 0] [Arg.ptr 1000] = some (-1, []) ∧
    (vsscanf_ghost 64 [32, 0] [37, 100, 0] [Arg.ptr 1000]).map
        (fun g => (g.exit, g.state.pos, g.state.inr, g.done, g.assigned))
      = some (Exit.input_failure, 0, 0, 0, 0) ∧
    vsscanf 64 [97, 0] [37, 110, 97, 37, 100, 0] [Arg.ptr 1000, Arg.ptr 2000]
      = some (0, [Stored.val 1000 32 0]) ∧
    (vsscanf_ghost 64 [97, 0] [37, 110, 97, 37, 100, 0] [Arg.ptr 1000, Arg.ptr 2000]).map
        (fun g => (g.exit, g.state.pos, g.state.inr, g.done, g.assigned))
      = some (Exit.input_failure, 1, 0, 1, 0) ∧
    vsscanf 64 [97, 98, 99, 0] [120, 0] [] = some (0, []) ∧
    (vsscanf_ghost 64 [97, 98, 99, 0] [120, 0] []).map
        (fun g => (g.exit, g.state.pos, g.state.inr, g.done, g.assigned))
      = some (Exit.match_failure, 0, 3, 0, 0) ∧
    vsscanf 64 [49, 50, 0] [37, 100, 37, 100, 0] [Arg.ptr 1000, Arg.ptr 2000]
      = some (1, [Stored.val 1000 32 12]) ∧
    (vsscanf_ghost 64 [49, 50, 0] [37, 100, 37, 100, 0] [Arg.ptr 1000, Arg.ptr 2000]).map
        (fun g => (g.exit, g.state.pos, g.state.inr, g.done, g.assigned))
      = some (Exit.input_failure, 1, 0, 1, 1) :=
  ⟨vsscanf_classification 64 (by decide) [0] [37, 100, 0] [Arg.ptr 1000] ({ exit := Exit.input_failure, nassigned := 0, nconversions := 0, stores := [] } : Final)
      (by decide) (by decide) (by decide),
   by decide, by decide, by decide, by decide, by decide, by decide, by decide, by decide,
   by decide⟩

end MiniOS
